import Mathlib

/-! A shallow embedding of `alloc.c`.

The allocator keeps three globals (`start_of_heap`, `head_free`, `tail_free`) and
lays block headers (`metadata_t`) out in the region between the first program
break it saw and the current break.  Pointers are natural numbers below `2^64`,
`NULL` is `0`, and every pointer or `size_t` computation is reduced modulo `2^64`.

Memory is a total map from addresses to header records; a location that was never
written holds whatever the map held initially.  Payload bytes are kept in a second
map (`bytes`), so a header and user data never alias in the model.  The program
break belongs to the operating system: `sbrk` moves it between `brk_min` and
`brk_max`.

Every loop of the source is a function that is structurally recursive on a fuel
argument; `none` means that the fuel ran out before the loop finished.
-/

namespace Alloc

/-- Number of values of `size_t` and of a pointer (LP64). -/
def WORD : Nat := 2 ^ 64

/-- The value of `sizeof(metadata_t)` on LP64: 8 + 1 (+7 padding) + 8 + 8. -/
def HDR : Nat := 32

/-- Unsigned 64-bit addition, as in `size_t` and pointer arithmetic. -/
def add64 (a b : Nat) : Nat := (a + b) % WORD

/-- Unsigned 64-bit subtraction. -/
def sub64 (a b : Nat) : Nat := (a + (WORD - b % WORD)) % WORD

/-- The record `metadata_t` of the source. -/
structure metadata_t where
  size : Nat
  is_used : Nat
  next : Nat
  prev : Nat
deriving DecidableEq, Repr

/-- Header memory: the record stored at each address. -/
abbrev Mem := Nat → metadata_t

/-- The allocator globals together with the memory and the program break. -/
structure Heap where
  mem : Mem
  bytes : Nat → Nat
  start_of_heap : Nat
  head_free : Nat
  tail_free : Nat
  brk : Nat
  brk_min : Nat
  brk_max : Nat

/-- Store `p->size = v`. -/
def set_size (m : Mem) (p v : Nat) : Mem :=
  fun a => if a = p then { m a with size := v } else m a

/-- Store `p->is_used = v`. -/
def set_is_used (m : Mem) (p v : Nat) : Mem :=
  fun a => if a = p then { m a with is_used := v } else m a

/-- Store `p->next = v`. -/
def set_next (m : Mem) (p v : Nat) : Mem :=
  fun a => if a = p then { m a with next := v } else m a

/-- Store `p->prev = v`. -/
def set_prev (m : Mem) (p v : Nat) : Mem :=
  fun a => if a = p then { m a with prev := v } else m a

/-- The value `(void*) -1` returned by a failing `sbrk`. -/
def SBRK_FAILED : Nat := WORD - 1

/-- The library function `sbrk(intptr_t increment)` (glibc on Linux): the argument is read
as a signed 64-bit number.  A positive increment moves the break and returns the previous
break, or leaves the break and returns `(void*) -1` when the limit does not allow it.  A
negative increment whose magnitude exceeds the break fails with `(void*) -1`; otherwise the
previous break is returned, and the break is lowered unless that would take it below
`brk_min`, in which case the kernel leaves the break where it is. -/
def sbrk (increment : Nat) (s : Heap) : Nat × Heap :=
  if increment = 0 then (s.brk, s)
  else if increment < 2 ^ 63 then
    if s.brk + increment ≤ s.brk_max then (s.brk, { s with brk := s.brk + increment })
    else (SBRK_FAILED, s)
  else
    if s.brk < WORD - increment then (SBRK_FAILED, s)
    else if s.brk_min + (WORD - increment) ≤ s.brk then
      (s.brk, { s with brk := s.brk - (WORD - increment) })
    else (s.brk, s)

/-- Source `add_node`: append the header `ptr` to the free list. -/
def add_node (ptr : Nat) (s : Heap) : Heap :=
  let s1 : Heap := { s with mem := set_prev s.mem ptr s.tail_free }
  if s1.head_free ≠ 0 ∧ s1.tail_free ≠ 0 then
    { s1 with mem := set_next s1.mem s1.tail_free ptr, tail_free := ptr }
  else
    { s1 with head_free := ptr, tail_free := ptr }

/-- The `while (curr)` loop of `delete_node`, started at `curr` with trailing
pointer `prev`. Returns the value returned by `delete_node`. -/
def delete_node_loop (ptr : Nat) : Nat → Nat → Nat → Heap → Option (Nat × Heap)
  | 0, _, _, _ => none
  | fuel + 1, curr, prev, s =>
    if curr = 0 then some (1, s)
    else if curr = ptr then
      if s.head_free = s.tail_free then
        some (0, { s with mem := set_prev (set_next s.mem curr 0) curr 0,
                          head_free := 0, tail_free := 0 })
      else
        let s1 : Heap := if prev ≠ 0 ∧ s.tail_free = ptr then { s with tail_free := prev } else s
        let s2 : Heap :=
          if s1.head_free = ptr then { s1 with head_free := (s1.mem curr).next }
          else { s1 with mem := set_next s1.mem prev (s1.mem curr).next }
        let s3 : Heap :=
          if (s2.mem curr).next ≠ 0 then
            { s2 with mem := set_prev s2.mem (s2.mem curr).next prev }
          else s2
        some (0, s3)
    else delete_node_loop ptr fuel (s.mem curr).next curr s

/-- Source `delete_node`: unlink `ptr` from the free list; 0 on success, 1 when the
list is empty or does not hold `ptr`. -/
def delete_node (fuel : Nat) (ptr : Nat) (s : Heap) : Option (Nat × Heap) :=
  if s.head_free = 0 then some (1, s)
  else delete_node_loop ptr fuel s.head_free (s.mem s.head_free).prev s

/-- The `while (curr_free)` loop of `edit_node`. -/
def edit_node_loop (block new_block : Nat) : Nat → Nat → Heap → Option Heap
  | 0, _, _ => none
  | fuel + 1, curr_free, s =>
    if curr_free = 0 then some s
    else if curr_free = block then
      let s1 : Heap := if curr_free = s.head_free then { s with head_free := new_block } else s
      let s2 : Heap := if curr_free = s1.tail_free then { s1 with tail_free := new_block } else s1
      let s3 : Heap :=
        if (s2.mem curr_free).prev ≠ 0 then
          let prev := (s2.mem curr_free).prev
          { s2 with mem := set_prev (set_next s2.mem prev new_block) new_block prev }
        else s2
      let s4 : Heap :=
        if (s3.mem curr_free).next ≠ 0 then
          let next := (s3.mem curr_free).next
          { s3 with mem := set_next (set_prev s3.mem next new_block) new_block next }
        else s3
      some s4
    else edit_node_loop block new_block fuel (s.mem curr_free).next s

/-- Source `edit_node`: put `new_block` in the place `old_block` has in the free list. -/
def edit_node (fuel : Nat) (old_block new_block : Nat) (s : Heap) : Option Heap :=
  edit_node_loop old_block new_block fuel s.head_free s

/-- Source `split_block`: cut the block at `ptr` into a used front part of `size`
bytes and a free remainder. -/
def split_block (fuel : Nat) (ptr size : Nat) (s : Heap) : Option (Nat × Heap) :=
  let block_size := (s.mem ptr).size
  let m1 := set_is_used (set_size s.mem ptr size) ptr 1
  let new_block := add64 (add64 ptr (m1 ptr).size) HDR
  let m2 := set_size m1 new_block (sub64 (sub64 block_size size) HDR)
  let m3 := set_prev (set_next (set_is_used m2 new_block 0) new_block 0) new_block 0
  match edit_node fuel ptr new_block { s with mem := m3 } with
  | none => none
  | some s1 => some (add64 ptr HDR, s1)

/-- The inner `while (curr_free)` loop of `coalesce_blocks` that looks for the
third block in the free list. -/
def third_block_loop (tempMeta third_block : Nat) : Nat → Nat → Heap → Option Heap
  | 0, _, _ => none
  | fuel + 1, curr_free, s =>
    if curr_free = 0 then some s
    else if curr_free = third_block then
      let merged := add64 (s.mem tempMeta).size (add64 (s.mem third_block).size HDR)
      let s1 : Heap := { s with mem := set_size s.mem tempMeta merged }
      match delete_node fuel third_block s1 with
      | none => none
      | some (_, s2) => third_block_loop tempMeta third_block fuel (s2.mem curr_free).next s2
    else third_block_loop tempMeta third_block fuel (s.mem curr_free).next s

/-- The address-order scan `while ((void*) curMeta < endOfHeap)` of
`coalesce_blocks`. -/
def coalesce_loop (block endOfHeap : Nat) : Nat → Nat → Heap → Option (Nat × Heap)
  | 0, _, _ => none
  | fuel + 1, curMeta, s =>
    if ¬ (curMeta < endOfHeap) then some (0, s)
    else
      let tempMeta := curMeta
      let curMeta1 := add64 (add64 tempMeta (s.mem tempMeta).size) HDR
      if curMeta1 > endOfHeap then some (0, s)
      else if (s.mem tempMeta).is_used = 0 ∧ (s.mem curMeta1).is_used = 0 then
        let merged := add64 (s.mem tempMeta).size (add64 (s.mem curMeta1).size HDR)
        let s1 : Heap := { s with mem := set_size s.mem tempMeta merged }
        if tempMeta = block then delete_node fuel curMeta1 s1
        else if curMeta1 = block then
          let third_block := add64 (add64 curMeta1 (s1.mem curMeta1).size) HDR
          match third_block_loop tempMeta third_block fuel s1.head_free s1 with
          | none => none
          | some s2 => delete_node fuel curMeta1 s2
        else coalesce_loop block endOfHeap fuel curMeta1 s1
      else coalesce_loop block endOfHeap fuel curMeta1 s

/-- Source `coalesce_blocks`. -/
def coalesce_blocks (fuel : Nat) (block : Nat) (s : Heap) : Option (Nat × Heap) :=
  if s.head_free = 0 then some (0, s)
  else coalesce_loop block (sbrk 0 s).1 fuel s.start_of_heap s

/-- The tail of `malloc` after the free-list loop: grow the heap by a header and
`size` bytes. -/
def malloc_grow (size : Nat) (s : Heap) : Nat × Heap :=
  let r := sbrk HDR s
  let meta := r.1
  let s1 := r.2
  let m := set_prev (set_next (set_is_used (set_size s1.mem meta size) meta 1) meta 0) meta 0
  sbrk size { s1 with mem := m }

/-- The `while (curr)` loop of `malloc` followed by the growth path. -/
def malloc_loop (size : Nat) : Nat → Nat → Heap → Option (Nat × Heap)
  | 0, _, _ => none
  | fuel + 1, curr, s =>
    if curr = 0 then some (malloc_grow size s)
    else if (s.mem curr).size = size then
      match delete_node fuel curr s with
      | none => none
      | some (_, s1) => some (add64 curr HDR, { s1 with mem := set_is_used s1.mem curr 1 })
    else if (s.mem curr).size > add64 size HDR then split_block fuel curr size s
    else malloc_loop size fuel (s.mem curr).next s

/-- Source `malloc`. -/
def malloc (fuel : Nat) (size : Nat) (s : Heap) : Option (Nat × Heap) :=
  let s0 : Heap := if s.start_of_heap = 0 then { s with start_of_heap := (sbrk 0 s).1 } else s
  malloc_loop size fuel s0.head_free s0

/-- Source `free`. -/
def free (fuel : Nat) (ptr : Nat) (s : Heap) : Option Heap :=
  let meta := sub64 ptr HDR
  let s1 : Heap := { s with mem := set_is_used s.mem meta 0 }
  if s1.head_free = 0 then some (add_node meta s1)
  else
    match coalesce_blocks fuel meta s1 with
    | none => none
    | some (r, s2) => if r = 0 then some (add_node meta s2) else some s2

/-- Library `memset(ptr, 0, n)` on the payload bytes.  The function is total: on a range that
leaves the heap, where the real call may fault, it describes the bytes only if the call
returns. -/
def memset_zero (b : Nat → Nat) (ptr n : Nat) : Nat → Nat :=
  fun a => if sub64 a ptr < n then 0 else b a

/-- Library `memcpy(dst, src, n)` on the payload bytes.  Total in the same way as
`memset_zero`. -/
def memcpy (b : Nat → Nat) (dst src n : Nat) : Nat → Nat :=
  fun a => if sub64 a dst < n then b (add64 src (sub64 a dst)) else b a

/-- Source `calloc`. -/
def calloc (fuel : Nat) (num size : Nat) (s : Heap) : Option (Nat × Heap) :=
  let mem_block_size := (num * size) % WORD
  match malloc fuel mem_block_size s with
  | none => none
  | some (ptr, s1) => some (ptr, { s1 with bytes := memset_zero s1.bytes ptr mem_block_size })

/-- Source `realloc`. -/
def realloc (fuel : Nat) (ptr size : Nat) (s : Heap) : Option (Nat × Heap) :=
  if ptr = 0 then malloc fuel size s
  else if size = 0 then
    match free fuel ptr s with
    | none => none
    | some s1 => some (0, s1)
  else
    let block := sub64 ptr HDR
    if (s.mem block).size ≥ size then some (ptr, s)
    else
      match malloc fuel size s with
      | none => none
      | some (new_ptr, s1) =>
        let s2 : Heap := { s1 with bytes := memcpy s1.bytes new_ptr ptr (s1.mem block).size }
        match free fuel ptr s2 with
        | none => none
        | some s3 => some (new_ptr, s3)

/-- A header of zero bytes. -/
def zero_header : metadata_t := ⟨0, 0, 0, 0⟩

/-- The state before the first call: the three globals are `NULL`, the break is
where the operating system put it, memory holds `m0`. -/
def init_heap (m0 : Mem) (brk0 brk_max : Nat) : Heap :=
  { mem := m0, bytes := fun _ => 0, start_of_heap := 0, head_free := 0, tail_free := 0,
    brk := brk0, brk_min := brk0, brk_max := brk_max }

/-- The initial state on freshly mapped (zero-filled) memory. -/
def fresh_heap (brk0 brk_max : Nat) : Heap := init_heap (fun _ => zero_header) brk0 brk_max

/-- One call of the public interface. -/
inductive Call where
  | malloc (size : Nat)
  | calloc (num size : Nat)
  | realloc (ptr size : Nat)
  | free (ptr : Nat)
deriving DecidableEq, Repr

/-- A run of the program: the allocator state, the pointers handed out and not yet
released (most recent first), and the values returned so far (most recent first). -/
structure Run where
  heap : Heap
  live : List Nat
  rets : List Nat

/-- Correct use: `free` and `realloc` get a pointer that is live. -/
def correct_use (live : List Nat) : Call → Bool
  | Call.malloc _ => true
  | Call.calloc _ _ => true
  | Call.realloc ptr _ => decide (ptr ∈ live)
  | Call.free ptr => decide (ptr ∈ live)

/-- Perform one call and keep the books of live pointers. -/
def step (fuel : Nat) (r : Run) : Call → Option Run
  | Call.malloc size =>
    match malloc fuel size r.heap with
    | none => none
    | some (p, h) => some ⟨h, p :: r.live, p :: r.rets⟩
  | Call.calloc num size =>
    match calloc fuel num size r.heap with
    | none => none
    | some (p, h) => some ⟨h, p :: r.live, p :: r.rets⟩
  | Call.realloc ptr size =>
    match realloc fuel ptr size r.heap with
    | none => none
    | some (p, h) =>
      if p = ptr then some ⟨h, r.live, p :: r.rets⟩
      else if p = 0 then some ⟨h, r.live.erase ptr, p :: r.rets⟩
      else some ⟨h, p :: r.live.erase ptr, p :: r.rets⟩
  | Call.free ptr =>
    match free fuel ptr r.heap with
    | none => none
    | some h => some ⟨h, r.live.erase ptr, r.rets⟩

/-- Perform a sequence of calls; `none` when a call runs out of fuel. -/
def run (fuel : Nat) : List Call → Run → Option Run
  | [], r => some r
  | c :: cs, r =>
    match step fuel r c with
    | none => none
    | some r1 => run fuel cs r1

/-- Whether every call of a sequence is a correct use at the moment it is made. -/
def correct_run (fuel : Nat) : List Call → Run → Bool
  | [], _ => true
  | c :: cs, r =>
    correct_use r.live c &&
      (match step fuel r c with
       | none => true
       | some r1 => correct_run fuel cs r1)

/-- The run that starts in the initial state on zero-filled memory. -/
def start_run (brk0 brk_max : Nat) : Run := ⟨fresh_heap brk0 brk_max, [], []⟩

/-- Follow `next` links from `p` for at most `fuel` steps; `none` when `NULL` was
not reached. -/
def free_list_from (m : Mem) : Nat → Nat → Option (List Nat)
  | 0, _ => none
  | fuel + 1, p =>
    if p = 0 then some []
    else
      match free_list_from m fuel (m p).next with
      | none => none
      | some l => some (p :: l)

/-- The free list read from `head_free`. -/
def free_list (fuel : Nat) (s : Heap) : Option (List Nat) := free_list_from s.mem fuel s.head_free

/-- Walk the heap in address order from `a`, adding `sizeof(metadata_t) + size` each
time, up to `e`; `none` when the walk steps over `e` or runs out of fuel. -/
def heap_walk (m : Mem) (e : Nat) : Nat → Nat → Option (List Nat)
  | 0, _ => none
  | fuel + 1, a =>
    if a = e then some []
    else if e < a then none
    else
      match heap_walk m e fuel (a + HDR + (m a).size) with
      | none => none
      | some l => some (a :: l)

/-! ## The abstract view: blocks in address order and the free list -/

/-- A block as the specification sees it: header address, payload size, used flag. -/
structure Block where
  addr : Nat
  size : Nat
  used : Nat
deriving DecidableEq, Repr

/-- The blocks tile the region from `a` to `e`: each header starts where the previous
payload ends, the first at `a`, and the last payload ends at `e`. -/
def Layout : List Block → Nat → Nat → Prop
  | [], a, e => a = e
  | b :: bs, a, e => b.addr = a ∧ Layout bs (a + HDR + b.size) e

/-- Following `next` from `p` visits exactly the non-null entries of the list and then
reaches `r`. -/
def Seg (m : Mem) : Nat → List Nat → Nat → Prop
  | p, [], r => p = r
  | p, x :: xs, r => p = x ∧ x ≠ 0 ∧ Seg m (m x).next xs r

/-- Every entry's `prev` is the entry before it (`q` for the first). -/
def PrevOK (m : Mem) : Nat → List Nat → Prop
  | _, [] => True
  | q, x :: xs => (m x).prev = q ∧ PrevOK m x xs

/-- A `NULL`-terminated doubly linked list starting at `head`. -/
def IsDList (m : Mem) (head : Nat) (l : List Nat) : Prop := Seg m head l 0 ∧ PrevOK m 0 l

/-- Where the heap starts: `start_of_heap`, or the break while `start_of_heap` is still
`NULL`. -/
def heap_start (s : Heap) : Nat := if s.start_of_heap = 0 then s.brk else s.start_of_heap

/-- The header addresses of the free blocks, in address order. -/
def free_addrs (bs : List Block) : List Nat :=
  (bs.filter (fun b => decide (b.used = 0))).map Block.addr

/-- Well-formed state: the blocks `bs` tile the heap up to the break, memory holds their
sizes and flags, and the free list `fl` is a `NULL`-terminated doubly linked list that
holds exactly the free blocks, each once. -/
structure WF (s : Heap) (bs : List Block) (fl : List Nat) : Prop where
  start_pos : 0 < heap_start s
  brk_le : s.brk ≤ s.brk_max
  max_lt : s.brk_max < WORD
  layout : Layout bs (heap_start s) s.brk
  hdrs : ∀ b ∈ bs, (s.mem b.addr).size = b.size ∧ (s.mem b.addr).is_used = b.used
  dlist : IsDList s.mem s.head_free fl
  tail : s.tail_free = fl.getLastD 0
  free_perm : fl.Perm (free_addrs bs)

/-- What an operation that only relinks the free list leaves alone. -/
structure Frame (s t : Heap) : Prop where
  start_eq : t.start_of_heap = s.start_of_heap
  brk_eq : t.brk = s.brk
  min_eq : t.brk_min = s.brk_min
  max_eq : t.brk_max = s.brk_max
  bytes_eq : t.bytes = s.bytes
  size_eq : ∀ a, (t.mem a).size = (s.mem a).size
  used_eq : ∀ a, (t.mem a).is_used = (s.mem a).is_used

/-- What `delete_node` achieves on a well-formed list that holds `x`. -/
structure Deleted (s t : Heap) (pre : List Nat) (x : Nat) (post : List Nat) : Prop where
  frame : Frame s t
  dlist : IsDList t.mem t.head_free (pre ++ post)
  tail : t.tail_free = (pre ++ post).getLastD 0
  outside : ∀ a, a ∉ pre ++ x :: post → t.mem a = s.mem a
  next_x : post = [] → (t.mem x).next = 0
  next_x_stale : (pre ≠ [] ∨ post ≠ []) → (t.mem x).next = (s.mem x).next

/-- The two relinking stores of `edit_node` for the entry `x` and its replacement `y`. -/
def edit_links (m : Mem) (x y : Nat) : Mem :=
  let m3 := if (m x).prev ≠ 0 then set_prev (set_next m (m x).prev y) y (m x).prev else m
  if (m3 x).next ≠ 0 then set_next (set_prev m3 (m3 x).next y) y (m3 x).next else m3

/-- What `edit_node` achieves on a well-formed list that holds `x`. -/
structure Edited (s t : Heap) (pre : List Nat) (y : Nat) (post : List Nat) : Prop where
  frame : Frame s t
  dlist : IsDList t.mem t.head_free (pre ++ y :: post)
  tail : t.tail_free = (pre ++ y :: post).getLastD 0
  outside : ∀ a, a ∉ pre → a ∉ post → a ≠ y → t.mem a = s.mem a

/-- The test `malloc` applies to a free-list entry: exact size, or big enough to split. -/
def Fits (m : Mem) (n : Nat) (y : Nat) : Prop := (m y).size = n ∨ (m y).size > add64 n HDR

instance Fits.decidable (m : Mem) (n y : Nat) : Decidable (Fits m n y) := by unfold Fits; infer_instance

/-- The header stores of `split_block` before it calls `edit_node`. -/
def split_mem (m : Mem) (x n y r : Nat) : Mem :=
  set_prev (set_next (set_is_used (set_size (set_is_used (set_size m x n) x 1) y r) y 0) y 0) y 0

/-- The address scan finds nothing to merge in `l` (followed by `rest`): a free block
of `l` is followed by a used block. -/
def Quiet : List Block → List Block → Prop
  | [], _ => True
  | b :: l, rest => (b.used = 0 → ∃ c, (l ++ rest).head? = some c ∧ c.used ≠ 0) ∧ Quiet l rest

/-- The memory holds the sizes and flags of the listed blocks. -/
def Agree (m : Mem) (bs : List Block) : Prop :=
  ∀ b ∈ bs, (m b.addr).size = b.size ∧ (m b.addr).is_used = b.used

/-- The store `tempMeta->size += curMeta->size + sizeof(metadata_t)` of the scan. -/
def merge_into (s : Heap) (P N : Nat) : Heap :=
  { s with mem := set_size s.mem P (add64 (s.mem P).size (add64 (s.mem N).size HDR)) }

/-- The store `meta->is_used = 0` of `free`. -/
def mark_free (s : Heap) (B : Nat) : Heap := { s with mem := set_is_used s.mem B 0 }

/-- The end of `free`: insert the block unless `coalesce_blocks` returned nonzero. -/
def free_finish (B : Nat) : Option (Nat × Heap) → Option Heap
  | none => none
  | some (r, s2) => if r = 0 then some (add_node B s2) else some s2

/-- What every successful `free` leaves alone. -/
structure FreeOut (s t : Heap) (fl : List Nat) (B : Nat) : Prop where
  brk_eq : t.brk = s.brk
  start_eq : t.start_of_heap = s.start_of_heap
  max_eq : t.brk_max = s.brk_max
  min_eq : t.brk_min = s.brk_min
  outside : ∀ a, a ∉ fl → a ≠ B → t.mem a = s.mem a

/-- The state after `add_node B`: like `WF` with the free list `fl1 ++ [B]`, except that
the list ends in `r`, the value the `next` field of `B` had (nobody clears it). -/
structure Appended (t : Heap) (bs : List Block) (fl1 : List Nat) (B r : Nat) : Prop where
  start_pos : 0 < heap_start t
  brk_le : t.brk ≤ t.brk_max
  max_lt : t.brk_max < WORD
  layout : Layout bs (heap_start t) t.brk
  hdrs : Agree t.mem bs
  seg : Seg t.mem t.head_free (fl1 ++ [B]) r
  prevs : PrevOK t.mem 0 (fl1 ++ [B])
  tail : t.tail_free = B
  free_perm : (fl1 ++ [B]).Perm (free_addrs bs)

/-! ## Call sequences used below -/

/-- Calls that leave a stale `next` link in a block that is in use: `a` is taken
from the head of the two-element free list (its `next` is not cleared), `c` is
taken next, then `a` is released again. -/
def stale_calls : List Call :=
  [Call.malloc 100, Call.malloc 8, Call.malloc 200, Call.malloc 8,
   Call.free 4128, Call.free 4300, Call.malloc 100, Call.malloc 200, Call.free 4128]

/-- Calls after which the free list is circular: `a` is taken from the head of the
free list `[a, c]` and released again while `c` is still free. -/
def cycle_calls : List Call :=
  [Call.malloc 100, Call.malloc 8, Call.malloc 200, Call.malloc 8,
   Call.free 4128, Call.free 4300, Call.malloc 100, Call.free 4128]

/-- Calls that release the last block of the heap while the free list is not empty
and the block before it is in use. -/
def last_block_calls : List Call :=
  [Call.malloc 64, Call.malloc 64, Call.malloc 64, Call.free 4128, Call.free 4320]

/-! ## Scenarios and auxiliary predicates -/

/-- What the caller of a successful `malloc(n)` gets: the payload `[p, p + n)` of a used
block `b` of the resulting well-formed state. -/
structure Allocated (t : Heap) (bs : List Block) (b : Block) (p n : Nat) : Prop where
  mem_b : b ∈ bs
  ptr : p = b.addr + HDR
  used_mem : (t.mem b.addr).is_used = 1
  size_mem : n ≤ (t.mem b.addr).size
  in_payload : p + n ≤ b.addr + HDR + (t.mem b.addr).size
  in_heap : t.start_of_heap ≤ p ∧ p + n ≤ t.brk
  no_header : ∀ c ∈ bs, c.addr + HDR ≤ p ∨ p + n ≤ c.addr

/-- Perform a sequence of calls; the result lists the returned pointers in call order. -/
def exec (fuel : Nat) : List Call → Heap → Option (List Nat × Heap)
  | [], s => some ([], s)
  | Call.malloc size :: cs, s =>
    match malloc fuel size s with
    | none => none
    | some (p, t) => (exec fuel cs t).map (fun r => (p :: r.1, r.2))
  | Call.calloc num size :: cs, s =>
    match calloc fuel num size s with
    | none => none
    | some (p, t) => (exec fuel cs t).map (fun r => (p :: r.1, r.2))
  | Call.realloc ptr size :: cs, s =>
    match realloc fuel ptr size s with
    | none => none
    | some (p, t) => (exec fuel cs t).map (fun r => (p :: r.1, r.2))
  | Call.free ptr :: cs, s =>
    match free fuel ptr s with
    | none => none
    | some t => exec fuel cs t

/-- Every used block has a `NULL` `next` field. -/
def Clean (t : Heap) (bs : List Block) : Prop :=
  ∀ b ∈ bs, b.used ≠ 0 → (t.mem b.addr).next = 0

/-- The five equal requests of the coalescing scenarios. -/
def five_calls (S : Nat) : List Call :=
  [Call.malloc S, Call.malloc S, Call.malloc S, Call.malloc S, Call.malloc S]

/-- The blocks after five equal requests on an empty heap that starts at `b0`. -/
def five_blocks (b0 S : Nat) : List Block :=
  [⟨b0, S, 1⟩, ⟨b0 + (S + HDR), S, 1⟩, ⟨b0 + 2 * (S + HDR), S, 1⟩,
   ⟨b0 + 3 * (S + HDR), S, 1⟩, ⟨b0 + 4 * (S + HDR), S, 1⟩]

/-- The blocks once the three middle blocks have been released and merged. -/
def merged_blocks (b0 S : Nat) : List Block :=
  [⟨b0, S, 1⟩, ⟨b0 + (S + HDR), 3 * S + 2 * HDR, 0⟩, ⟨b0 + 4 * (S + HDR), S, 1⟩]

/-- The six orders of releasing three pointers. -/
def release_orders (b c d : Nat) : List (List Call) :=
  [[Call.free b, Call.free c, Call.free d], [Call.free b, Call.free d, Call.free c],
   [Call.free c, Call.free b, Call.free d], [Call.free c, Call.free d, Call.free b],
   [Call.free d, Call.free b, Call.free c], [Call.free d, Call.free c, Call.free b]]

/-- A well-formed state whose start, break and break limit are known. -/
def Known (s : Heap) (bs : List Block) (fl : List Nat) (b0 B M : Nat) : Prop :=
  WF s bs fl ∧ s.start_of_heap = b0 ∧ 0 < b0 ∧ s.brk = B ∧ s.brk_max = M

/-- The first eight calls of samples 02 and 03 on a heap that starts at `b0`: five requests
of 0x10000 bytes, then the release of the fourth, third and second block. -/
def sample_setup (b0 : Nat) : List Call :=
  five_calls 0x10000 ++
    [Call.free (b0 + 3 * (0x10000 + HDR) + HDR), Call.free (b0 + 2 * (0x10000 + HDR) + HDR),
     Call.free (b0 + (0x10000 + HDR) + HDR)]

/-- No two blocks that are neighbours in address order are both free. -/
def NoAdjFree (bs : List Block) : Prop :=
  List.Chain' (fun x y => ¬ (x.used = 0 ∧ y.used = 0)) bs

/-- What the caller of `malloc(n)` gets when a free block of the state `t` is reused: the
pointer `q` is the payload pointer of a header `Q` inside the heap that was free in `t`, is
used in the resulting state `u` with recorded size `n`, and whose `n` payload bytes end at or
below the break of `t`. -/
def Reused (t u : Heap) (q n : Nat) : Prop :=
  ∃ Q, q = Q + HDR ∧ (t.mem Q).is_used = 0 ∧ (u.mem Q).is_used = 1 ∧ (u.mem Q).size = n ∧
    heap_start t ≤ Q ∧ Q + HDR + n ≤ t.brk

/-- A small well-formed state: a free block of 64 bytes at 4096, which is the whole free
list, followed by a used block of 16 bytes at 4192; the break is at 4240. -/
def sample_heap : Heap :=
  { mem := fun a => if a = 4096 then ⟨64, 0, 0, 0⟩ else if a = 4192 then ⟨16, 1, 0, 0⟩
      else zero_header,
    bytes := fun _ => 0, start_of_heap := 4096, head_free := 4096, tail_free := 4096,
    brk := 4240, brk_min := 4096, brk_max := 1048576 }

/-- Calls after which the block at 4096 (64 bytes, in use) is followed by a free block of
size 0 and a used block: releasing it gives a merged block of 64 + 32 bytes. -/
def band_calls : List Call :=
  [Call.malloc 64, Call.malloc 0, Call.malloc 8, Call.free 4224]

/-! ## Resizing and zero-filling: auxiliary definitions -/

/-- Calls after which the last block of the heap (header 4288, payload 4320, 64 bytes) is in
use while the free list holds the first block. -/
def leak_calls : List Call :=
  [Call.malloc 64, Call.malloc 64, Call.malloc 64, Call.free 4128]

/-- Zero-filling as the specification words it, to be compared with what `calloc` does
after its `malloc`: the state `t` with the `n` bytes from `p` on set to zero; every other
byte, every header, the free list and the break are those of `t`. -/
def zero_fill (t : Heap) (p n : Nat) : Heap :=
  { t with bytes := fun a => if sub64 a p < n then 0 else t.bytes a }

/-- What the address scan of `free` leaves alone: everything but links and the sizes of
free blocks. -/
structure Scanned (s t : Heap) : Prop where
  start_eq : t.start_of_heap = s.start_of_heap
  brk_eq : t.brk = s.brk
  min_eq : t.brk_min = s.brk_min
  max_eq : t.brk_max = s.brk_max
  bytes_eq : t.bytes = s.bytes
  used_eq : ∀ a, (t.mem a).is_used = (s.mem a).is_used
  size_used : ∀ a, (s.mem a).is_used ≠ 0 → (t.mem a).size = (s.mem a).size

/-- The request `n` can be served: `n` plus a header does not wrap, and either a free-list
entry passes the test of `malloc` or `sbrk` can supply a header and `n` bytes. -/
def Servable (s : Heap) (fl : List Nat) (n : Nat) : Prop :=
  n + HDR < WORD ∧
    ((∃ y ∈ fl, Fits s.mem n y) ∨ (n < 2 ^ 63 ∧ s.brk + HDR + n ≤ s.brk_max))

/-- The `memcpy(new_ptr, ptr, block->size)` step of `realloc`, made on the state that
`malloc` returned. -/
def copy_payload (s1 : Heap) (q p : Nat) : Heap :=
  { s1 with bytes := memcpy s1.bytes q p (s1.mem (sub64 p HDR)).size }

/-! ## Splitting and merging: auxiliary definitions -/

/-- A well-formed state with two free blocks: 200 bytes at 4096 (head of the free list) and
64 bytes at 4368 (its tail), each followed by a used block of 8 bytes; the break is at
4504. -/
def two_free_heap : Heap :=
  { mem := fun a => if a = 4096 then ⟨200, 0, 4368, 0⟩ else if a = 4328 then ⟨8, 1, 0, 0⟩
      else if a = 4368 then ⟨64, 0, 0, 4096⟩ else if a = 4464 then ⟨8, 1, 0, 0⟩
      else zero_header,
    bytes := fun _ => 0, start_of_heap := 4096, head_free := 4096, tail_free := 4368,
    brk := 4504, brk_min := 4096, brk_max := 1048576 }

/-- Calls after which the free list holds one block of 100 bytes (header 4096) and the
block behind it is in use. -/
def wrap_calls : List Call := [Call.malloc 100, Call.malloc 8, Call.free 4128]

/-- Calls after which the used block at 4096 (payload 4128) keeps the `next` link it had as
a free-list entry: it was split off the head of the free list `[4096, 4468]`, and its
successor in address order, the remainder at 4228, is free. -/
def stale_split_calls : List Call :=
  [Call.malloc 300, Call.malloc 8, Call.malloc 50, Call.malloc 8, Call.free 4128,
   Call.free 4500, Call.malloc 100]

/-- Three blocks of 64 bytes, released in the order first, last, middle. -/
def adjacent_calls : List Call :=
  [Call.malloc 64, Call.malloc 64, Call.malloc 64, Call.free 4128, Call.free 4320,
   Call.free 4224]

/-! ## The scan with a log, and states that differ in one header -/

/-- The loop `third_block_loop` of `coalesce_blocks` with a log: the same loop, which also
returns the addresses of the headers whose `size` it reads (`third_block->size` and
`tempMeta->size` in `tempMeta->size += third_block->size + sizeof(metadata_t)`). -/
def third_block_loop_log (tempMeta third_block : Nat) :
    Nat → Nat → Heap → Option (Heap × List Nat)
  | 0, _, _ => none
  | fuel + 1, curr_free, s =>
    if curr_free = 0 then some (s, [])
    else if curr_free = third_block then
      let merged := add64 (s.mem tempMeta).size (add64 (s.mem third_block).size HDR)
      let s1 : Heap := { s with mem := set_size s.mem tempMeta merged }
      match delete_node fuel third_block s1 with
      | none => none
      | some (_, s2) =>
        (third_block_loop_log tempMeta third_block fuel (s2.mem curr_free).next s2).map
          (fun r => (r.1, third_block :: tempMeta :: r.2))
    else third_block_loop_log tempMeta third_block fuel (s.mem curr_free).next s

/-- The scan `coalesce_loop` of `coalesce_blocks` with a log: the same loop, which also
returns, in order, the addresses of the headers whose `size` or `is_used` it reads:
`tempMeta->size` for the step to the next header, `tempMeta->is_used`, then
`curMeta->is_used` when the first test of the `&&` holds, `curMeta->size` and
`tempMeta->size` for the merge, and `curMeta->size` for the address of the third block. -/
def coalesce_loop_log (block endOfHeap : Nat) :
    Nat → Nat → Heap → Option ((Nat × Heap) × List Nat)
  | 0, _, _ => none
  | fuel + 1, curMeta, s =>
    if ¬ (curMeta < endOfHeap) then some ((0, s), [])
    else
      let tempMeta := curMeta
      let curMeta1 := add64 (add64 tempMeta (s.mem tempMeta).size) HDR
      if curMeta1 > endOfHeap then some ((0, s), [tempMeta])
      else if (s.mem tempMeta).is_used = 0 then
        if (s.mem curMeta1).is_used = 0 then
          let merged := add64 (s.mem tempMeta).size (add64 (s.mem curMeta1).size HDR)
          let s1 : Heap := { s with mem := set_size s.mem tempMeta merged }
          if tempMeta = block then
            (delete_node fuel curMeta1 s1).map
              (fun r => (r, [tempMeta, tempMeta, curMeta1, curMeta1, tempMeta]))
          else if curMeta1 = block then
            let third_block := add64 (add64 curMeta1 (s1.mem curMeta1).size) HDR
            match third_block_loop_log tempMeta third_block fuel s1.head_free s1 with
            | none => none
            | some (s2, l) =>
              (delete_node fuel curMeta1 s2).map
                (fun r => (r, [tempMeta, tempMeta, curMeta1, curMeta1, tempMeta, curMeta1] ++ l))
          else
            (coalesce_loop_log block endOfHeap fuel curMeta1 s1).map
              (fun r => (r.1, [tempMeta, tempMeta, curMeta1, curMeta1, tempMeta] ++ r.2))
        else
          (coalesce_loop_log block endOfHeap fuel curMeta1 s).map
            (fun r => (r.1, [tempMeta, tempMeta, curMeta1] ++ r.2))
      else
        (coalesce_loop_log block endOfHeap fuel curMeta1 s).map
          (fun r => (r.1, [tempMeta, tempMeta] ++ r.2))

/-- Source `coalesce_blocks` with the log of header reads of its scan. -/
def coalesce_blocks_log (fuel : Nat) (block : Nat) (s : Heap) :
    Option ((Nat × Heap) × List Nat) :=
  if s.head_free = 0 then some ((0, s), [])
  else coalesce_loop_log block (sbrk 0 s).1 fuel s.start_of_heap s

/-- The state `s` with the `next` field of the header at `a` set to `NULL`. -/
def clear_next (s : Heap) (a : Nat) : Heap := { s with mem := set_next s.mem a 0 }

/-- The state `s` with the `is_used` field of the header at `a` set to 1. -/
def mark_used (s : Heap) (a : Nat) : Heap := { s with mem := set_is_used s.mem a 1 }

/-- One request of 1000 bytes on the empty heap. -/
def one_block_calls : List Call := [Call.malloc 1000]

/-- Calls after which the last block of the heap (header 7176, payload 7208, 984 bytes) is in
use, the break 8192 is a multiple of the page size 4096, and the free list holds the first
block, of 3000 bytes. -/
def tail_grow_calls : List Call :=
  [Call.malloc 3000, Call.malloc 16, Call.malloc 984, Call.free 4128]

/-- A well-formed state in which two address-adjacent blocks are free: the free blocks of 8
bytes at 4096 and 4136, a used block at 4176 (payload 4208), a free block at 4216 and a
used block at 4256; the free list is `[4096, 4136, 4216]` and the break is 4296. -/
def adj_heap : Heap :=
  { mem := fun a => if a = 4096 then ⟨8, 0, 4136, 0⟩ else if a = 4136 then ⟨8, 0, 4216, 4096⟩
      else if a = 4176 then ⟨8, 1, 0, 0⟩ else if a = 4216 then ⟨8, 0, 0, 4136⟩
      else if a = 4256 then ⟨8, 1, 0, 0⟩ else zero_header,
    bytes := fun _ => 0, start_of_heap := 4096, head_free := 4096, tail_free := 4216,
    brk := 4296, brk_min := 4096, brk_max := 1048576 }

/-! ## Theorems -/

set_option linter.unusedVariables false

theorem free_addrs_append (l1 l2 : List Block) :
    free_addrs (l1 ++ l2) = free_addrs l1 ++ free_addrs l2 := by
  simp [free_addrs]

theorem free_addrs_cons_free (a S : Nat) (l : List Block) :
    free_addrs (⟨a, S, 0⟩ :: l) = a :: free_addrs l := by
  simp [free_addrs]

theorem free_addrs_cons_used (b : Block) (l : List Block) (h : b.used ≠ 0) :
    free_addrs (b :: l) = free_addrs l := by
  simp [free_addrs, h]

theorem mem_free_addrs {bs : List Block} {a : Nat} :
    a ∈ free_addrs bs ↔ ∃ b ∈ bs, b.addr = a ∧ b.used = 0 := by
  simp only [free_addrs, List.mem_map, List.mem_filter, decide_eq_true_eq]
  constructor
  · rintro ⟨b, ⟨h1, h2⟩, h3⟩; exact ⟨b, h1, h3, h2⟩
  · rintro ⟨b, h1, h3, h2⟩; exact ⟨b, ⟨h1, h2⟩, h3⟩

theorem WF.free_iff {s : Heap} {bs : List Block} {fl : List Nat} (h : WF s bs fl) (a : Nat) :
    a ∈ fl ↔ ∃ b ∈ bs, b.addr = a ∧ b.used = 0 :=
  (h.free_perm.mem_iff).trans mem_free_addrs

/-! ### arithmetic -/

theorem add64_of_lt {a b : Nat} (h : a + b < WORD) : add64 a b = a + b := by
  unfold add64; exact Nat.mod_eq_of_lt h

theorem sub64_of_le {a b : Nat} (h : b ≤ a) (ha : a < WORD) : sub64 a b = a - b := by
  unfold sub64
  have hb : b % WORD = b := Nat.mod_eq_of_lt (by omega)
  rw [hb]
  have hw : 0 < WORD := by unfold WORD; norm_num
  have : a + (WORD - b) = (a - b) + WORD := by omega
  rw [this, Nat.add_mod_right]
  exact Nat.mod_eq_of_lt (by omega)

/-! ### memory stores -/

@[simp] theorem set_size_size (m : Mem) (p v a : Nat) :
    (set_size m p v a).size = if a = p then v else (m a).size := by
  unfold set_size; split <;> rfl

@[simp] theorem set_size_is_used (m : Mem) (p v a : Nat) :
    (set_size m p v a).is_used = (m a).is_used := by
  unfold set_size; split <;> rfl

@[simp] theorem set_size_next (m : Mem) (p v a : Nat) :
    (set_size m p v a).next = (m a).next := by
  unfold set_size; split <;> rfl

@[simp] theorem set_size_prev (m : Mem) (p v a : Nat) :
    (set_size m p v a).prev = (m a).prev := by
  unfold set_size; split <;> rfl

@[simp] theorem set_is_used_size (m : Mem) (p v a : Nat) :
    (set_is_used m p v a).size = (m a).size := by
  unfold set_is_used; split <;> rfl

@[simp] theorem set_is_used_is_used (m : Mem) (p v a : Nat) :
    (set_is_used m p v a).is_used = if a = p then v else (m a).is_used := by
  unfold set_is_used; split <;> rfl

@[simp] theorem set_is_used_next (m : Mem) (p v a : Nat) :
    (set_is_used m p v a).next = (m a).next := by
  unfold set_is_used; split <;> rfl

@[simp] theorem set_is_used_prev (m : Mem) (p v a : Nat) :
    (set_is_used m p v a).prev = (m a).prev := by
  unfold set_is_used; split <;> rfl

@[simp] theorem set_next_size (m : Mem) (p v a : Nat) :
    (set_next m p v a).size = (m a).size := by
  unfold set_next; split <;> rfl

@[simp] theorem set_next_is_used (m : Mem) (p v a : Nat) :
    (set_next m p v a).is_used = (m a).is_used := by
  unfold set_next; split <;> rfl

@[simp] theorem set_next_next (m : Mem) (p v a : Nat) :
    (set_next m p v a).next = if a = p then v else (m a).next := by
  unfold set_next; split <;> rfl

@[simp] theorem set_next_prev (m : Mem) (p v a : Nat) :
    (set_next m p v a).prev = (m a).prev := by
  unfold set_next; split <;> rfl

@[simp] theorem set_prev_size (m : Mem) (p v a : Nat) :
    (set_prev m p v a).size = (m a).size := by
  unfold set_prev; split <;> rfl

@[simp] theorem set_prev_is_used (m : Mem) (p v a : Nat) :
    (set_prev m p v a).is_used = (m a).is_used := by
  unfold set_prev; split <;> rfl

@[simp] theorem set_prev_next (m : Mem) (p v a : Nat) :
    (set_prev m p v a).next = (m a).next := by
  unfold set_prev; split <;> rfl

@[simp] theorem set_prev_prev (m : Mem) (p v a : Nat) :
    (set_prev m p v a).prev = if a = p then v else (m a).prev := by
  unfold set_prev; split <;> rfl

/-! ### layout -/

theorem Layout.le {bs : List Block} {a e : Nat} (h : Layout bs a e) : a ≤ e := by
  induction bs generalizing a with
  | nil => exact Nat.le_of_eq h
  | cons b bs ih => have := ih h.2; omega

theorem layout_append {l1 l2 : List Block} {a e : Nat} :
    Layout (l1 ++ l2) a e ↔ ∃ mid, Layout l1 a mid ∧ Layout l2 mid e := by
  induction l1 generalizing a with
  | nil => simp [Layout]
  | cons b bs ih =>
    constructor
    · intro h
      have h' : b.addr = a ∧ Layout (bs ++ l2) (a + HDR + b.size) e := h
      obtain ⟨mid, h2, h3⟩ := ih.1 h'.2
      exact ⟨mid, ⟨h'.1, h2⟩, h3⟩
    · rintro ⟨mid, h12, h3⟩
      have h' : b.addr = a ∧ Layout bs (a + HDR + b.size) mid := h12
      exact ⟨h'.1, ih.2 ⟨mid, h'.2, h3⟩⟩

theorem Layout.mem_bounds {bs : List Block} {a e : Nat} (h : Layout bs a e) :
    ∀ b ∈ bs, a ≤ b.addr ∧ b.addr + HDR + b.size ≤ e := by
  induction bs generalizing a with
  | nil => intro b hb; cases hb
  | cons x xs ih =>
    intro b hb
    have hle := Layout.le h.2
    rcases List.mem_cons.1 hb with rfl | hb
    · rw [h.1]; exact ⟨Nat.le_refl _, hle⟩
    · have := ih h.2 b hb; omega

theorem Layout.unique {bs : List Block} {a e e' : Nat} (h : Layout bs a e) (h' : Layout bs a e') :
    e = e' := by
  induction bs generalizing a with
  | nil => exact h.symm.trans h'
  | cons x xs ih => exact ih h.2 h'.2

/-! ### list segments -/

theorem Seg.congr {m m' : Mem} {l : List Nat} {p r : Nat}
    (hm : ∀ x ∈ l, (m' x).next = (m x).next) (h : Seg m p l r) : Seg m' p l r := by
  induction l generalizing p with
  | nil => exact h
  | cons x xs ih =>
    obtain ⟨h1, h2, h3⟩ := h
    refine ⟨h1, h2, ?_⟩
    rw [hm x (List.mem_cons_self _ _)]
    exact ih (fun y hy => hm y (List.mem_cons_of_mem _ hy)) h3

theorem seg_append {m : Mem} {l1 l2 : List Nat} {p r : Nat} :
    Seg m p (l1 ++ l2) r ↔ ∃ mid, Seg m p l1 mid ∧ Seg m mid l2 r := by
  induction l1 generalizing p with
  | nil => simp [Seg]
  | cons x xs ih =>
    constructor
    · intro h
      have h' : p = x ∧ x ≠ 0 ∧ Seg m (m x).next (xs ++ l2) r := h
      obtain ⟨mid, h2, h3⟩ := ih.1 h'.2.2
      exact ⟨mid, ⟨h'.1, h'.2.1, h2⟩, h3⟩
    · rintro ⟨mid, h12, h3⟩
      have h' : p = x ∧ x ≠ 0 ∧ Seg m (m x).next xs mid := h12
      exact ⟨h'.1, h'.2.1, ih.2 ⟨mid, h'.2.2, h3⟩⟩

theorem Seg.ne_zero {m : Mem} {l : List Nat} {p r : Nat} (h : Seg m p l r) :
    ∀ x ∈ l, x ≠ 0 := by
  induction l generalizing p with
  | nil => intro x hx; cases hx
  | cons y ys ih =>
    intro x hx
    rcases List.mem_cons.1 hx with rfl | hx
    · exact h.2.1
    · exact ih h.2.2 x hx

theorem Seg.null_unique {m : Mem} {l1 l2 : List Nat} {p : Nat}
    (h1 : Seg m p l1 0) (h2 : Seg m p l2 0) : l1 = l2 := by
  induction l1 generalizing p l2 with
  | nil =>
    cases l2 with
    | nil => rfl
    | cons y ys =>
      have e1 : p = 0 := h1
      exact absurd (h2.1.symm.trans e1) h2.2.1
  | cons x xs ih =>
    cases l2 with
    | nil =>
      have e2 : p = 0 := h2
      exact absurd (h1.1.symm.trans e2) h1.2.1
    | cons y ys =>
      have e : x = y := h1.1.symm.trans h2.1
      subst e
      rw [ih h1.2.2 h2.2.2]

theorem Seg.null_nodup {m : Mem} {l : List Nat} {p : Nat} (h : Seg m p l 0) : l.Nodup := by
  induction l generalizing p with
  | nil => exact List.nodup_nil
  | cons x xs ih =>
    refine List.nodup_cons.2 ⟨?_, ih h.2.2⟩
    intro hx
    obtain ⟨u, v, huv⟩ := List.append_of_mem hx
    have h3 := h.2.2
    rw [huv] at h3
    obtain ⟨mid, _, hv⟩ := seg_append.1 h3
    have hmid : mid = x := hv.1
    subst hmid
    have hv2 : Seg m (m mid).next v 0 := hv.2.2
    have := Seg.null_unique hv2 h.2.2
    have hl := congrArg List.length this
    rw [huv] at hl
    simp at hl
    omega

theorem PrevOK.congr_prev {m m' : Mem} {l : List Nat} {q : Nat}
    (hm : ∀ x ∈ l, (m' x).prev = (m x).prev) (h : PrevOK m q l) : PrevOK m' q l := by
  induction l generalizing q with
  | nil => trivial
  | cons x xs ih =>
    refine ⟨?_, ih (fun y hy => hm y (List.mem_cons_of_mem _ hy)) h.2⟩
    rw [hm x (List.mem_cons_self _ _)]; exact h.1

theorem prevOK_append {m : Mem} {l1 l2 : List Nat} {q : Nat} :
    PrevOK m q (l1 ++ l2) ↔ PrevOK m q l1 ∧ PrevOK m (l1.getLastD q) l2 := by
  induction l1 generalizing q with
  | nil => simp [PrevOK]
  | cons x xs ih =>
    have e : (x :: xs).getLastD q = xs.getLastD x := by
      cases xs <;> simp [List.getLastD]
    rw [e]
    constructor
    · intro h
      have h' : (m x).prev = q ∧ PrevOK m x (xs ++ l2) := h
      obtain ⟨h2, h3⟩ := ih.1 h'.2
      exact ⟨⟨h'.1, h2⟩, h3⟩
    · rintro ⟨h12, h3⟩
      have h' : (m x).prev = q ∧ PrevOK m x xs := h12
      exact ⟨h'.1, ih.2 ⟨h'.2, h3⟩⟩

theorem Frame.refl (s : Heap) : Frame s s :=
  ⟨rfl, rfl, rfl, rfl, rfl, fun _ => rfl, fun _ => rfl⟩

theorem Frame.trans {s t u : Heap} (h1 : Frame s t) (h2 : Frame t u) : Frame s u :=
  ⟨h2.start_eq.trans h1.start_eq, h2.brk_eq.trans h1.brk_eq, h2.min_eq.trans h1.min_eq,
   h2.max_eq.trans h1.max_eq, h2.bytes_eq.trans h1.bytes_eq,
   fun a => (h2.size_eq a).trans (h1.size_eq a), fun a => (h2.used_eq a).trans (h1.used_eq a)⟩

/-! ### `delete_node` -/

theorem delete_node_loop_walk (s : Heap) (x : Nat) :
    ∀ (pre : List Nat) (p q fuel : Nat), Seg s.mem p pre x → x ∉ pre →
      delete_node_loop x (fuel + pre.length) p q s
        = delete_node_loop x fuel x (pre.getLastD q) s := by
  intro pre
  induction pre with
  | nil => intro p q fuel h _; have e : p = x := h; subst e; rfl
  | cons y ys ih =>
    intro p q fuel h hx
    obtain ⟨h1, h2, h3⟩ := h
    subst h1
    have hne : p ≠ x := fun e => hx (e ▸ List.mem_cons_self _ _)
    have hx' : x ∉ ys := fun e => hx (List.mem_cons_of_mem _ e)
    have e : (p :: ys).getLastD q = ys.getLastD p := by cases ys <;> simp [List.getLastD]
    rw [e, ← ih _ p fuel h3 hx']
    show delete_node_loop x (fuel + ys.length + 1) p q s = _
    rw [delete_node_loop, if_neg h2, if_neg hne]

theorem delete_node_loop_absent (s : Heap) (x : Nat) :
    ∀ (l : List Nat) (p q fuel : Nat), Seg s.mem p l 0 → x ∉ l →
      delete_node_loop x (fuel + l.length + 1) p q s = some (1, s) := by
  intro l
  induction l with
  | nil => intro p q fuel h _; have e : p = 0 := h; subst e; simp [delete_node_loop]
  | cons y ys ih =>
    intro p q fuel h hx
    obtain ⟨h1, h2, h3⟩ := h
    subst h1
    have hne : p ≠ x := fun e => hx (e ▸ List.mem_cons_self _ _)
    have hx' : x ∉ ys := fun e => hx (List.mem_cons_of_mem _ e)
    have := ih _ p fuel h3 hx'
    show delete_node_loop x (fuel + ys.length + 1 + 1) p q s = _
    rw [delete_node_loop, if_neg h2, if_neg hne]
    exact this

theorem delete_node_absent (s : Heap) (x : Nat) (l : List Nat) (fuel : Nat)
    (h : Seg s.mem s.head_free l 0) (hx : x ∉ l) (hf : l.length + 1 ≤ fuel) :
    delete_node fuel x s = some (1, s) := by
  unfold delete_node
  split
  · rfl
  · obtain ⟨k, rfl⟩ := Nat.exists_eq_add_of_le hf
    have := delete_node_loop_absent s x l s.head_free (s.mem s.head_free).prev k h hx
    rw [show l.length + 1 + k = k + l.length + 1 by omega]
    exact this

theorem getLastD_cons_eq (x : Nat) (xs : List Nat) (d : Nat) :
    (x :: xs).getLastD d = xs.getLastD x := by
  cases xs <;> simp [List.getLastD]

theorem getLastD_append_cons (l1 : List Nat) (x : Nat) (l2 : List Nat) (d : Nat) :
    (l1 ++ x :: l2).getLastD d = l2.getLastD x := by
  induction l1 generalizing d with
  | nil => exact getLastD_cons_eq x l2 d
  | cons y ys ih => rw [List.cons_append, getLastD_cons_eq, ih]

theorem getLastD_mem_cons (x : Nat) (l : List Nat) : l.getLastD x ∈ x :: l := by
  induction l generalizing x with
  | nil => simp [List.getLastD]
  | cons y ys ih =>
    rw [getLastD_cons_eq]
    exact List.mem_cons_of_mem _ (ih y)

theorem getLastD_mem_of_ne_nil (l : List Nat) (d : Nat) (h : l ≠ []) : l.getLastD d ∈ l := by
  cases l with
  | nil => exact absurd rfl h
  | cons y ys => rw [getLastD_cons_eq]; exact getLastD_mem_cons y ys

theorem seg_set_last {m : Mem} {r : Nat} (r' : Nat) :
    ∀ (pre : List Nat) (p : Nat), Seg m p pre r → pre.Nodup → pre ≠ [] →
      Seg (set_next m (pre.getLastD 0) r') p pre r' := by
  intro pre
  induction pre with
  | nil => intro p _ _ h; exact absurd rfl h
  | cons y ys ih =>
    intro p h hn _
    obtain ⟨h1, h2, h3⟩ := h
    have hy : y ∉ ys := (List.nodup_cons.1 hn).1
    rw [getLastD_cons_eq]
    cases ys with
    | nil =>
      refine ⟨h1, h2, ?_⟩
      show (set_next m y r' y).next = r'
      simp
    | cons z zs =>
      refine ⟨h1, h2, ?_⟩
      have hne : y ≠ (z :: zs).getLastD y := by
        intro e
        have := getLastD_mem_of_ne_nil (z :: zs) y (by simp)
        rw [← e] at this
        exact hy this
      have e1 : (set_next m ((z :: zs).getLastD y) r' y).next = (m y).next := by
        simp only [set_next_next, if_neg hne]
      rw [e1]
      have e0 : (z :: zs).getLastD y = (z :: zs).getLastD 0 := by
        rw [getLastD_cons_eq, getLastD_cons_eq]
      rw [e0]
      exact ih (m y).next h3 (List.nodup_cons.1 hn).2 (by simp)

theorem delete_node_loop_at (s : Heap) (x pw k : Nat) (hx0 : x ≠ 0) :
    delete_node_loop x (k + 1) x pw s =
      if s.head_free = s.tail_free then
        some (0, { s with mem := set_prev (set_next s.mem x 0) x 0,
                          head_free := 0, tail_free := 0 })
      else
        some (0, { s with
          mem :=
            if ((if s.head_free = x then s.mem else set_next s.mem pw (s.mem x).next) x).next ≠ 0
            then set_prev (if s.head_free = x then s.mem else set_next s.mem pw (s.mem x).next)
              ((if s.head_free = x then s.mem else set_next s.mem pw (s.mem x).next) x).next pw
            else (if s.head_free = x then s.mem else set_next s.mem pw (s.mem x).next),
          head_free := if s.head_free = x then (s.mem x).next else s.head_free,
          tail_free := if pw ≠ 0 ∧ s.tail_free = x then pw else s.tail_free }) := by
  rw [delete_node_loop, if_neg hx0, if_pos rfl]
  obtain ⟨m, b, st, hd, tl, br, bmin, bmax⟩ := s
  dsimp only
  by_cases h1 : hd = tl
  · rw [if_pos h1, if_pos h1]
  · rw [if_neg h1, if_neg h1]
    by_cases h2 : pw ≠ 0 ∧ tl = x <;> by_cases h3 : hd = x <;>
      by_cases h4 : (m x).next = 0 <;> simp [h2, h3, h4]

theorem delete_node_found (s : Heap) (pre : List Nat) (x : Nat) (post : List Nat) (fuel : Nat)
    (hd : IsDList s.mem s.head_free (pre ++ x :: post))
    (ht : s.tail_free = (pre ++ x :: post).getLastD 0)
    (hf : pre.length + 1 ≤ fuel) :
    ∃ t, delete_node fuel x s = some (0, t) ∧ Deleted s t pre x post := by
  obtain ⟨hseg, hprev⟩ := hd
  have hnd := Seg.null_nodup hseg
  obtain ⟨mid, hpre, hxp⟩ := seg_append.1 hseg
  have hmid : mid = x := hxp.1
  subst hmid
  have hx0 : mid ≠ 0 := hxp.2.1
  have hpost : Seg s.mem (s.mem mid).next post 0 := hxp.2.2
  have hxpre : mid ∉ pre := fun h => by
    have := List.nodup_append.1 hnd
    exact this.2.2 h (List.mem_cons_self _ _)
  have hxpost : mid ∉ post := by
    have := (List.nodup_append.1 hnd).2.1
    exact (List.nodup_cons.1 this).1
  rw [getLastD_append_cons] at ht
  obtain ⟨k, rfl⟩ := Nat.exists_eq_add_of_le hf
  have hprev2 := prevOK_append.1 hprev
  have hxprev : (s.mem mid).prev = pre.getLastD 0 := hprev2.2.1
  have hpostprev : PrevOK s.mem mid post := hprev2.2.2
  have hhead0 : s.head_free ≠ 0 := by
    cases pre with
    | nil => have e : s.head_free = mid := hpre; rw [e]; exact hx0
    | cons z0 zs => have e : s.head_free = z0 := hpre.1; rw [e]; exact hpre.2.1
  have hq : pre.getLastD (s.mem s.head_free).prev = pre.getLastD 0 := by
    cases pre with
    | nil =>
      have e : s.head_free = mid := hpre
      show (s.mem s.head_free).prev = 0
      rw [e]; exact hxprev
    | cons z0 zs => rw [getLastD_cons_eq, getLastD_cons_eq]
  have hwalk : delete_node (pre.length + 1 + k) mid s
      = delete_node_loop mid (k + 1) mid (pre.getLastD 0) s := by
    unfold delete_node
    rw [if_neg hhead0, show pre.length + 1 + k = (k + 1) + pre.length by omega,
      delete_node_loop_walk s mid pre _ _ (k + 1) hpre hxpre, hq]
  rw [hwalk, delete_node_loop_at _ _ _ _ hx0]
  cases pre with
  | nil =>
    have hh : s.head_free = mid := hpre
    cases post with
    | nil =>
      have ht' : s.tail_free = mid := ht
      rw [if_pos (by rw [hh, ht'])]
      refine ⟨_, rfl, ⟨⟨rfl, rfl, rfl, rfl, rfl, ?_, ?_⟩, ⟨rfl, trivial⟩, rfl, ?_, ?_, ?_⟩⟩
      · intro a; simp
      · intro a; simp
      · intro a ha
        have : a ≠ mid := fun e => ha (by simp [e])
        show set_prev (set_next s.mem mid 0) mid 0 a = s.mem a
        simp [set_prev, set_next, this]
      · intro _; simp
      · intro h; simp at h
    | cons y ys =>
      have ht' : s.tail_free = ys.getLastD y := by rw [ht, getLastD_cons_eq]
      have htm : s.tail_free ∈ y :: ys := by rw [ht']; exact getLastD_mem_cons y ys
      have hne : s.head_free ≠ s.tail_free := by
        rw [hh]; intro e; rw [← e] at htm; exact hxpost htm
      have hy : (s.mem mid).next = y := hpost.1
      have hy0 : y ≠ 0 := hpost.2.1
      rw [if_neg hne]
      refine ⟨_, rfl, ?_⟩
      simp only [List.getLastD_nil, ne_eq, not_true_eq_false, false_and, if_false, hh, if_true,
        hy, hy0, not_false_eq_true]
      have hyys : y ∉ ys := (List.nodup_cons.1 (Seg.null_nodup hpost)).1
      refine ⟨⟨rfl, rfl, rfl, rfl, rfl, ?_, ?_⟩, ⟨?_, ?_⟩, ?_, ?_, ?_, ?_⟩
      · intro a; simp
      · intro a; simp
      · show Seg (set_prev s.mem y 0) y (y :: ys) 0
        have := @Seg.congr s.mem (set_prev s.mem y 0) _ _ _ (fun a _ => by simp) hpost
        rwa [hy] at this
      · show PrevOK (set_prev s.mem y 0) 0 (y :: ys)
        refine ⟨by simp, PrevOK.congr_prev (fun a ha => ?_) hpostprev.2⟩
        have : a ≠ y := fun e => hyys (e ▸ ha)
        simp [this]
      · show s.tail_free = ([] ++ y :: ys).getLastD 0
        rw [ht', List.nil_append, getLastD_cons_eq]
      · intro a ha
        have : a ≠ y := fun e => ha (by simp [e])
        show set_prev s.mem y 0 a = s.mem a
        simp [set_prev, this]
      · intro h; simp at h
      · intro _
        show (set_prev s.mem y 0 mid).next = (s.mem mid).next
        simp
  | cons z0 zs =>
    have hh : s.head_free = z0 := hpre.1
    have hpnd : (z0 :: zs).Nodup := (List.nodup_append.1 hnd).1
    have hdisj : ∀ a, a ∈ z0 :: zs → a ∈ mid :: post → False := (List.nodup_append.1 hnd).2.2
    have hzmem : (z0 :: zs).getLastD 0 ∈ z0 :: zs := getLastD_mem_of_ne_nil _ _ (by simp)
    generalize hz : (z0 :: zs).getLastD 0 = z at hzmem hxprev ⊢
    have hz0 : z ≠ 0 := Seg.ne_zero hpre z hzmem
    have hzx : z ≠ mid := fun e => hxpre (e ▸ hzmem)
    have hhx : s.head_free ≠ mid := by
      rw [hh]; intro e; exact hxpre (e ▸ List.mem_cons_self _ _)
    have htm : s.tail_free ∈ mid :: post := by rw [ht]; exact getLastD_mem_cons mid post
    have hne : s.head_free ≠ s.tail_free := by
      rw [hh]; intro e; rw [← e] at htm; exact hdisj z0 (List.mem_cons_self _ _) htm
    rw [if_neg hne]
    refine ⟨_, rfl, ?_⟩
    cases post with
    | nil =>
      have ht' : s.tail_free = mid := ht
      have hnx : (s.mem mid).next = 0 := hpost
      have hm2 : (set_next s.mem z 0 mid).next = 0 := by simp [hzx.symm, hnx]
      simp only [hhx, if_false, hnx, hm2, ne_eq, not_true_eq_false, hz0, not_false_eq_true,
        ht', and_self, if_true]
      refine ⟨⟨rfl, rfl, rfl, rfl, rfl, ?_, ?_⟩, ⟨?_, ?_⟩, ?_, ?_, ?_, ?_⟩
      · intro a; simp
      · intro a; simp
      · show Seg (set_next s.mem z 0) s.head_free (z0 :: zs ++ []) 0
        rw [List.append_nil, ← hz]
        exact seg_set_last 0 _ _ hpre hpnd (by simp)
      · show PrevOK (set_next s.mem z 0) 0 (z0 :: zs ++ [])
        rw [List.append_nil]
        exact PrevOK.congr_prev (fun a _ => by simp) hprev2.1
      · show z = (z0 :: zs ++ []).getLastD 0
        rw [List.append_nil, hz]
      · intro a ha
        have : a ≠ z := fun e => ha (List.mem_append_left _ (e ▸ hzmem))
        show set_next s.mem z 0 a = s.mem a
        simp [set_next, this]
      · intro _
        show (set_next s.mem z 0 mid).next = 0
        exact hm2
      · intro _
        show (set_next s.mem z 0 mid).next = (s.mem mid).next
        rw [hm2, hnx]
    | cons y ys =>
      have hy : (s.mem mid).next = y := hpost.1
      have hy0 : y ≠ 0 := hpost.2.1
      have htx : s.tail_free ≠ mid := by
        intro e
        have : s.tail_free ∈ y :: ys := by rw [ht, getLastD_cons_eq]; exact getLastD_mem_cons y ys
        rw [e] at this; exact hxpost this
      have hm2 : (set_next s.mem z y mid).next = y := by simp [hzx.symm, hy]
      have hyys : y ∉ ys := (List.nodup_cons.1 (Seg.null_nodup hpost)).1
      have hypre : y ∉ z0 :: zs := fun h => hdisj y h (by simp)
      simp only [hhx, if_false, hy, hm2, ne_eq, hy0, not_false_eq_true, htx, and_false, if_true]
      refine ⟨⟨rfl, rfl, rfl, rfl, rfl, ?_, ?_⟩, ⟨?_, ?_⟩, ?_, ?_, ?_, ?_⟩
      · intro a; simp
      · intro a; simp
      · show Seg (set_prev (set_next s.mem z y) y z) s.head_free (z0 :: zs ++ y :: ys) 0
        refine seg_append.2 ⟨y, ?_, ?_⟩
        · refine Seg.congr (m := set_next s.mem z y) (fun a _ => by simp) ?_
          rw [← hz]
          exact seg_set_last y _ _ hpre hpnd (by simp)
        · have := hpost
          rw [hy] at this
          refine Seg.congr (fun a ha => ?_) this
          have : a ≠ z := fun e => hdisj z hzmem (List.mem_cons_of_mem _ (e ▸ ha))
          simp [this]
      · show PrevOK (set_prev (set_next s.mem z y) y z) 0 (z0 :: zs ++ y :: ys)
        refine prevOK_append.2 ⟨PrevOK.congr_prev (fun a ha => ?_) hprev2.1, ?_, ?_⟩
        · have : a ≠ y := fun e => hypre (e ▸ ha)
          simp [this]
        · rw [hz]; simp
        · refine PrevOK.congr_prev (fun a ha => ?_) hpostprev.2
          have : a ≠ y := fun e => hyys (e ▸ ha)
          simp [this]
      · show s.tail_free = (z0 :: zs ++ y :: ys).getLastD 0
        rw [ht, getLastD_append_cons, getLastD_cons_eq]
      · intro a ha
        have h1 : a ≠ z := fun e => ha (List.mem_append_left _ (e ▸ hzmem))
        have h2 : a ≠ y := fun e => ha (by simp [e])
        show set_prev (set_next s.mem z y) y z a = s.mem a
        simp [set_prev, set_next, h1, h2]
      · intro h; simp at h
      · intro _
        show (set_prev (set_next s.mem z y) y z mid).next = (s.mem mid).next
        simp [hzx.symm]

theorem heap_ext {s t : Heap} (h1 : s.mem = t.mem) (h2 : s.bytes = t.bytes)
    (h3 : s.start_of_heap = t.start_of_heap) (h4 : s.head_free = t.head_free)
    (h5 : s.tail_free = t.tail_free) (h6 : s.brk = t.brk) (h7 : s.brk_min = t.brk_min)
    (h8 : s.brk_max = t.brk_max) : s = t := by
  cases s; cases t; simp_all

/-! ### `add_node` -/

theorem add_node_frame (s : Heap) (x : Nat) : Frame s (add_node x s) := by
  unfold add_node
  dsimp only
  split <;> exact ⟨rfl, rfl, rfl, rfl, rfl, fun a => by simp, fun a => by simp⟩

/-- The list after `add_node x`, whether or not the `next` field of `x` is clean:
the old entries are followed by `x`. -/
theorem add_node_seg (s : Heap) (x : Nat) (fl : List Nat)
    (hd : IsDList s.mem s.head_free fl) (ht : s.tail_free = fl.getLastD 0)
    (hx : x ∉ fl) (hx0 : x ≠ 0) :
    Seg (add_node x s).mem (add_node x s).head_free (fl ++ [x]) (s.mem x).next ∧
    PrevOK (add_node x s).mem 0 (fl ++ [x]) ∧
    (add_node x s).tail_free = x ∧
    (∀ a, a ∉ fl ++ [x] → (add_node x s).mem a = s.mem a) ∧
    (∀ a, a ∉ fl → ((add_node x s).mem a).next = (s.mem a).next) := by
  obtain ⟨hseg, hprev⟩ := hd
  cases hfl : fl with
  | nil =>
    subst hfl
    have hh : s.head_free = 0 := hseg
    have e : add_node x s = { s with mem := set_prev s.mem x s.tail_free, head_free := x,
                                     tail_free := x } := by
      unfold add_node; simp [hh]
    rw [e]
    have ht0 : s.tail_free = 0 := ht
    refine ⟨⟨rfl, hx0, ?_⟩, ⟨?_, trivial⟩, rfl, ?_, ?_⟩
    · show (set_prev s.mem x s.tail_free x).next = (s.mem x).next
      simp
    · show (set_prev s.mem x s.tail_free x).prev = 0
      simp [ht0]
    · intro a ha
      have : a ≠ x := fun e => ha (by simp [e])
      show set_prev s.mem x s.tail_free a = s.mem a
      simp [set_prev, this]
    · intro a _; show (set_prev s.mem x s.tail_free a).next = _; simp
  | cons y ys =>
    rw [← hfl]
    have hne : fl ≠ [] := by rw [hfl]; simp
    have hh0 : s.head_free ≠ 0 := by
      rw [hfl] at hseg; rw [hseg.1]; exact hseg.2.1
    have htm : s.tail_free ∈ fl := by rw [ht]; exact getLastD_mem_of_ne_nil _ _ hne
    have ht0 : s.tail_free ≠ 0 := Seg.ne_zero hseg _ htm
    have htx : s.tail_free ≠ x := fun e => hx (e ▸ htm)
    have e : add_node x s = { s with mem := set_next (set_prev s.mem x s.tail_free) s.tail_free x,
                                     tail_free := x } := by
      unfold add_node; simp [hh0, ht0]
    rw [e]
    refine ⟨seg_append.2 ⟨x, ?_, rfl, hx0, ?_⟩, prevOK_append.2 ⟨?_, ?_, trivial⟩, rfl, ?_, ?_⟩
    · show Seg (set_next (set_prev s.mem x s.tail_free) s.tail_free x) s.head_free fl x
      rw [ht]
      have h0 : Seg (set_prev s.mem x (fl.getLastD 0)) s.head_free fl 0 :=
        Seg.congr (fun a _ => by simp) hseg
      exact seg_set_last x fl _ h0 (Seg.null_nodup hseg) hne
    · show (set_next (set_prev s.mem x s.tail_free) s.tail_free x x).next = (s.mem x).next
      simp [htx.symm]
    · refine PrevOK.congr_prev (fun a ha => ?_) hprev
      have : a ≠ x := fun e => hx (e ▸ ha)
      show (set_next (set_prev s.mem x s.tail_free) s.tail_free x a).prev = _
      simp [this]
    · show (set_next (set_prev s.mem x s.tail_free) s.tail_free x x).prev = fl.getLastD 0
      simp [ht]
    · intro a ha
      have h1 : a ≠ x := fun e => ha (by simp [e])
      have h2 : a ≠ s.tail_free := fun e => ha (List.mem_append_left _ (e ▸ htm))
      show set_next (set_prev s.mem x s.tail_free) s.tail_free x a = s.mem a
      simp [set_prev, set_next, h1, h2]
    · intro a ha
      have h2 : a ≠ s.tail_free := fun e => ha (e ▸ htm)
      show (set_next (set_prev s.mem x s.tail_free) s.tail_free x a).next = _
      simp [h2]

theorem add_node_dlist (s : Heap) (x : Nat) (fl : List Nat)
    (hd : IsDList s.mem s.head_free fl) (ht : s.tail_free = fl.getLastD 0)
    (hx : x ∉ fl) (hx0 : x ≠ 0) (hnx : (s.mem x).next = 0) :
    IsDList (add_node x s).mem (add_node x s).head_free (fl ++ [x]) ∧
    (add_node x s).tail_free = (fl ++ [x]).getLastD 0 := by
  obtain ⟨h1, h2, h3, _⟩ := add_node_seg s x fl hd ht hx hx0
  rw [hnx] at h1
  refine ⟨⟨h1, h2⟩, ?_⟩
  rw [h3, getLastD_append_cons]; rfl

/-! ### `edit_node` -/

theorem edit_node_loop_walk (s : Heap) (x y : Nat) :
    ∀ (pre : List Nat) (p fuel : Nat), Seg s.mem p pre x → x ∉ pre →
      edit_node_loop x y (fuel + pre.length) p s = edit_node_loop x y fuel x s := by
  intro pre
  induction pre with
  | nil => intro p fuel h _; have e : p = x := h; subst e; rfl
  | cons z zs ih =>
    intro p fuel h hx
    obtain ⟨h1, h2, h3⟩ := h
    subst h1
    have hne : p ≠ x := fun e => hx (e ▸ List.mem_cons_self _ _)
    have hx' : x ∉ zs := fun e => hx (List.mem_cons_of_mem _ e)
    rw [← ih _ fuel h3 hx']
    show edit_node_loop x y (fuel + zs.length + 1) p s = _
    rw [edit_node_loop, if_neg h2, if_neg hne]

theorem edit_node_loop_at (s : Heap) (x y k : Nat) (hx0 : x ≠ 0) :
    edit_node_loop x y (k + 1) x s =
      some { s with mem := edit_links s.mem x y,
                    head_free := if x = s.head_free then y else s.head_free,
                    tail_free := if x = s.tail_free then y else s.tail_free } := by
  rw [edit_node_loop, if_neg hx0, if_pos rfl]
  refine congrArg some (heap_ext ?_ ?_ ?_ ?_ ?_ ?_ ?_ ?_) <;>
    simp only [apply_ite Heap.mem, apply_ite Heap.bytes, apply_ite Heap.start_of_heap,
      apply_ite Heap.head_free, apply_ite Heap.tail_free, apply_ite Heap.brk,
      apply_ite Heap.brk_min, apply_ite Heap.brk_max, ite_self, edit_links]

theorem edit_node_terminates (s : Heap) (pre : List Nat) (x y : Nat) (post : List Nat)
    (fuel : Nat) (hseg : Seg s.mem s.head_free (pre ++ x :: post) 0)
    (hf : pre.length + 1 ≤ fuel) :
    edit_node fuel x y s =
      some { s with mem := edit_links s.mem x y,
                    head_free := if x = s.head_free then y else s.head_free,
                    tail_free := if x = s.tail_free then y else s.tail_free } := by
  have hnd := Seg.null_nodup hseg
  obtain ⟨mid, hpre, hxp⟩ := seg_append.1 hseg
  have hmid : mid = x := hxp.1
  subst hmid
  have hxpre : mid ∉ pre := fun h => (List.nodup_append.1 hnd).2.2 h (List.mem_cons_self _ _)
  obtain ⟨k, rfl⟩ := Nat.exists_eq_add_of_le hf
  unfold edit_node
  rw [show pre.length + 1 + k = (k + 1) + pre.length by omega,
    edit_node_loop_walk s mid y pre _ (k + 1) hpre hxpre, edit_node_loop_at _ _ _ _ hxp.2.1]

theorem edit_links_size (m : Mem) (x y a : Nat) : (edit_links m x y a).size = (m a).size := by
  simp only [edit_links]; split_ifs <;> simp

theorem edit_links_is_used (m : Mem) (x y a : Nat) :
    (edit_links m x y a).is_used = (m a).is_used := by
  simp only [edit_links]; split_ifs <;> simp

theorem edit_node_found (s : Heap) (pre : List Nat) (x : Nat) (post : List Nat) (y fuel : Nat)
    (hd : IsDList s.mem s.head_free (pre ++ x :: post))
    (ht : s.tail_free = (pre ++ x :: post).getLastD 0)
    (hy : y ∉ pre ++ x :: post) (hy0 : y ≠ 0)
    (hyn : (s.mem y).next = 0) (hyp : (s.mem y).prev = 0)
    (hf : pre.length + 1 ≤ fuel) :
    ∃ t, edit_node fuel x y s = some t ∧ Edited s t pre y post := by
  refine ⟨_, edit_node_terminates s pre x y post fuel hd.1 hf, ?_⟩
  obtain ⟨hseg, hprev⟩ := hd
  have hnd := Seg.null_nodup hseg
  obtain ⟨mid, hpre, hxp⟩ := seg_append.1 hseg
  have hmid : mid = x := hxp.1
  subst hmid
  have hx0 : mid ≠ 0 := hxp.2.1
  have hpost : Seg s.mem (s.mem mid).next post 0 := hxp.2.2
  have hdisj : ∀ a, a ∈ pre → a ∈ mid :: post → False := (List.nodup_append.1 hnd).2.2
  have hxpre : mid ∉ pre := fun h => hdisj _ h (List.mem_cons_self _ _)
  have hxpost : mid ∉ post := (List.nodup_cons.1 (List.nodup_append.1 hnd).2.1).1
  have hpnd : pre.Nodup := (List.nodup_append.1 hnd).1
  rw [getLastD_append_cons] at ht
  have hprev2 := prevOK_append.1 hprev
  have hxprev : (s.mem mid).prev = pre.getLastD 0 := hprev2.2.1
  have hpostprev : PrevOK s.mem mid post := hprev2.2.2
  have hyx : y ≠ mid := fun e => hy (by simp [e])
  have hypre : y ∉ pre := fun h => hy (List.mem_append_left _ h)
  have hypost : y ∉ post := fun h => hy (by simp [h])
  have hfr : ∀ (m' : Mem) (h' t' : Nat), edit_links s.mem mid y = m' →
      Frame s { s with mem := m', head_free := h', tail_free := t' } := by
    intro m' h' t' e
    subst e
    exact ⟨rfl, rfl, rfl, rfl, rfl, fun a => edit_links_size _ _ _ a,
      fun a => edit_links_is_used _ _ _ a⟩
  cases pre with
  | nil =>
    have hh : s.head_free = mid := hpre
    have hp0 : (s.mem mid).prev = 0 := hxprev
    cases post with
    | nil =>
      have ht' : s.tail_free = mid := ht
      have hn0 : (s.mem mid).next = 0 := hpost
      have hm : edit_links s.mem mid y = s.mem := by simp [edit_links, hp0, hn0]
      have hf := hfr _ y y hm
      simp only [hm, hh, ht', if_true] at hf ⊢
      exact ⟨hf, ⟨⟨rfl, hy0, hyn⟩, ⟨hyp, trivial⟩⟩, rfl, fun _ _ _ _ => rfl⟩
    | cons n ns =>
      have hn : (s.mem mid).next = n := hpost.1
      have hn0 : n ≠ 0 := hpost.2.1
      have hyn' : y ≠ n := fun e => hypost (by simp [e])
      have hnns : n ∉ ns := (List.nodup_cons.1 (Seg.null_nodup hpost)).1
      have htx : mid ≠ s.tail_free := by
        intro e
        have : s.tail_free ∈ n :: ns := by
          rw [ht, getLastD_cons_eq]; exact getLastD_mem_cons n ns
        rw [← e] at this; exact hxpost this
      have hm : edit_links s.mem mid y = set_next (set_prev s.mem n y) y n := by
        simp [edit_links, hp0, hn, hn0]
      have hf := hfr _ y s.tail_free hm
      simp only [hm, hh, if_true, if_neg htx]
      refine ⟨hf, ⟨⟨rfl, hy0, ?_⟩, ⟨?_, ?_, ?_⟩⟩, ?_, ?_⟩
      · show Seg (set_next (set_prev s.mem n y) y n)
          (set_next (set_prev s.mem n y) y n y).next (n :: ns) 0
        have e : (set_next (set_prev s.mem n y) y n y).next = n := by simp
        rw [e]
        have := hpost
        rw [hn] at this
        refine Seg.congr (fun a ha => ?_) this
        have : a ≠ y := fun e => hypost (e ▸ ha)
        simp [this]
      · show (set_next (set_prev s.mem n y) y n y).prev = 0
        simp [hyn', hyp]
      · show (set_next (set_prev s.mem n y) y n n).prev = y
        simp
      · refine PrevOK.congr_prev (fun a ha => ?_) hpostprev.2
        have : a ≠ n := fun e => hnns (e ▸ ha)
        simp [this]
      · show s.tail_free = ([] ++ y :: n :: ns).getLastD 0
        rw [ht, List.nil_append, getLastD_cons_eq, getLastD_cons_eq, getLastD_cons_eq]
      · intro a _ h2 h3
        have h4 : a ≠ n := fun e => h2 (by simp [e])
        show set_next (set_prev s.mem n y) y n a = s.mem a
        simp [set_next, set_prev, h3, h4]
  | cons z0 zs =>
    have hzmem : (z0 :: zs).getLastD 0 ∈ z0 :: zs := getLastD_mem_of_ne_nil _ _ (by simp)
    have hlast : (z0 :: zs ++ y :: post).getLastD 0 = post.getLastD y :=
      getLastD_append_cons _ _ _ _
    have hseg0 := seg_set_last (m := s.mem) y (z0 :: zs) _ hpre hpnd (by simp)
    generalize hz : (z0 :: zs).getLastD 0 = z at hzmem hxprev hseg0
    have hz0 : z ≠ 0 := Seg.ne_zero hpre z hzmem
    have hzx : z ≠ mid := fun e => hxpre (e ▸ hzmem)
    have hzy : z ≠ y := fun e => hypre (e ▸ hzmem)
    have hxh : mid ≠ s.head_free := by
      rw [hpre.1]; intro e; exact hxpre (e ▸ List.mem_cons_self _ _)
    have hprepost : ∀ a, a ∈ z0 :: zs → a ∈ post → False :=
      fun a h1 h2 => hdisj a h1 (List.mem_cons_of_mem _ h2)
    cases post with
    | nil =>
      have ht' : s.tail_free = mid := ht
      have hn0 : (s.mem mid).next = 0 := hpost
      have hm : edit_links s.mem mid y = set_prev (set_next s.mem z y) y z := by
        simp [edit_links, hxprev, hz0, hn0, hzx.symm]
      have hf := hfr _ s.head_free y hm
      simp only [hm, ht', if_true, if_neg hxh]
      refine ⟨hf, ⟨seg_append.2 ⟨y, ?_, rfl, hy0, ?_⟩,
        prevOK_append.2 ⟨?_, ?_, trivial⟩⟩, ?_, ?_⟩
      · exact Seg.congr (m := set_next s.mem z y) (fun a _ => by simp) hseg0
      · show (set_prev (set_next s.mem z y) y z y).next = 0
        simp [hzy.symm, hyn]
      · refine PrevOK.congr_prev (fun a ha => ?_) hprev2.1
        have : a ≠ y := fun e => hypre (e ▸ ha)
        simp [this]
      · show (set_prev (set_next s.mem z y) y z y).prev = (z0 :: zs).getLastD 0
        rw [hz]; simp
      · rw [hlast]; rfl
      · intro a h1 _ h3
        have h4 : a ≠ z := fun e => h1 (e ▸ hzmem)
        show set_prev (set_next s.mem z y) y z a = s.mem a
        simp [set_next, set_prev, h3, h4]
    | cons n ns =>
      have hn : (s.mem mid).next = n := hpost.1
      have hn0 : n ≠ 0 := hpost.2.1
      have hyn' : y ≠ n := fun e => hypost (by simp [e])
      have hzn : z ≠ n := fun e => hprepost z hzmem (by simp [e])
      have hnns : n ∉ ns := (List.nodup_cons.1 (Seg.null_nodup hpost)).1
      have htx : mid ≠ s.tail_free := by
        intro e
        have : s.tail_free ∈ n :: ns := by
          rw [ht, getLastD_cons_eq]; exact getLastD_mem_cons n ns
        rw [← e] at this; exact hxpost this
      have hm : edit_links s.mem mid y
          = set_next (set_prev (set_prev (set_next s.mem z y) y z) n y) y n := by
        simp [edit_links, hxprev, hz0, hn, hn0, hzx.symm]
      have hf := hfr _ s.head_free s.tail_free hm
      simp only [hm, if_neg htx, if_neg hxh]
      refine ⟨hf, ⟨seg_append.2 ⟨y, ?_, rfl, hy0, ?_⟩,
        prevOK_append.2 ⟨?_, ?_, ?_, ?_⟩⟩, ?_, ?_⟩
      · refine Seg.congr (m := set_next s.mem z y) (fun a ha => ?_) hseg0
        have : a ≠ y := fun e => hypre (e ▸ ha)
        simp [this]
      · show Seg (set_next (set_prev (set_prev (set_next s.mem z y) y z) n y) y n)
          (set_next (set_prev (set_prev (set_next s.mem z y) y z) n y) y n y).next
          (n :: ns) 0
        have e : (set_next (set_prev (set_prev (set_next s.mem z y) y z) n y) y n y).next
            = n := by simp
        rw [e]
        have := hpost
        rw [hn] at this
        refine Seg.congr (fun a ha => ?_) this
        have h1 : a ≠ y := fun e => hypost (e ▸ ha)
        have h2 : a ≠ z := fun e => hprepost z hzmem (e ▸ ha)
        simp [h1, h2]
      · refine PrevOK.congr_prev (fun a ha => ?_) hprev2.1
        have h1 : a ≠ y := fun e => hypre (e ▸ ha)
        have h2 : a ≠ n := fun e => hprepost a ha (by simp [e])
        simp [h1, h2]
      · show (set_next (set_prev (set_prev (set_next s.mem z y) y z) n y) y n y).prev
          = (z0 :: zs).getLastD 0
        rw [hz]; simp [hyn']
      · show (set_next (set_prev (set_prev (set_next s.mem z y) y z) n y) y n n).prev = y
        simp
      · refine PrevOK.congr_prev (fun a ha => ?_) hpostprev.2
        have h1 : a ≠ n := fun e => hnns (e ▸ ha)
        have h2 : a ≠ y := fun e => hypost (by simp [← e, ha])
        simp [h1, h2]
      · rw [hlast, ht, getLastD_cons_eq, getLastD_cons_eq]
      · intro a h1 h2 h3
        have h4 : a ≠ z := fun e => h1 (e ▸ hzmem)
        have h5 : a ≠ n := fun e => h2 (by simp [e])
        show set_next (set_prev (set_prev (set_next s.mem z y) y z) n y) y n a = s.mem a
        simp [set_next, set_prev, h3, h4, h5]

theorem first_fit_split (P : Nat → Prop) [DecidablePred P] (l : List Nat) :
    (∀ y ∈ l, ¬ P y) ∨ ∃ pre x post, l = pre ++ x :: post ∧ (∀ y ∈ pre, ¬ P y) ∧ P x := by
  induction l with
  | nil => left; intro y hy; cases hy
  | cons a as ih =>
    by_cases ha : P a
    · right; exact ⟨[], a, as, rfl, fun y hy => absurd hy (List.not_mem_nil y), ha⟩
    · rcases ih with h | ⟨pre, x, post, h1, h2, h3⟩
      · left
        intro y hy
        rcases List.mem_cons.1 hy with rfl | hy
        · exact ha
        · exact h y hy
      · right
        refine ⟨a :: pre, x, post, by rw [h1]; rfl, ?_, h3⟩
        intro y hy
        rcases List.mem_cons.1 hy with rfl | hy
        · exact ha
        · exact h2 y hy

/-! ### `malloc` -/

theorem malloc_loop_skip (s : Heap) (n : Nat) :
    ∀ (pre : List Nat) (p r fuel : Nat), Seg s.mem p pre r → (∀ y ∈ pre, ¬ Fits s.mem n y) →
      malloc_loop n (fuel + pre.length) p s = malloc_loop n fuel r s := by
  intro pre
  induction pre with
  | nil => intro p r fuel h _; have e : p = r := h; subst e; rfl
  | cons z zs ih =>
    intro p r fuel h hn
    obtain ⟨h1, h2, h3⟩ := h
    subst h1
    have hz := hn p (List.mem_cons_self _ _)
    unfold Fits at hz
    rw [← ih _ r fuel h3 (fun y hy => hn y (List.mem_cons_of_mem _ hy))]
    show malloc_loop n (fuel + zs.length + 1) p s = _
    rw [malloc_loop, if_neg h2, if_neg (fun e => hz (Or.inl e)), if_neg (fun e => hz (Or.inr e))]

theorem sbrk_pos (s : Heap) (n : Nat) (h1 : s.brk + n ≤ s.brk_max) (h2 : n < 2 ^ 63) :
    sbrk n s = (s.brk, { s with brk := s.brk + n }) := by
  unfold sbrk
  by_cases h0 : n = 0
  · subst h0; simp
  · rw [if_neg h0, if_pos h2, if_pos h1]

theorem malloc_grow_eq (s : Heap) (n : Nat) (h1 : s.brk + HDR + n ≤ s.brk_max)
    (h2 : n < 2 ^ 63) :
    malloc_grow n s = (s.brk + HDR,
      { s with brk := s.brk + HDR + n,
               mem := set_prev (set_next (set_is_used (set_size s.mem s.brk n) s.brk 1)
                        s.brk 0) s.brk 0 }) := by
  unfold malloc_grow
  have e1 : sbrk HDR s = (s.brk, { s with brk := s.brk + HDR }) :=
    sbrk_pos s HDR (by omega) (by unfold HDR; norm_num)
  rw [e1]
  dsimp only
  rw [sbrk_pos _ n (by exact h1) h2]

theorem delete_node_reach (s : Heap) (pre : List Nat) (x r fuel : Nat)
    (hseg : Seg s.mem s.head_free (pre ++ [x]) r) (hx : x ∉ pre) (hf : pre.length + 1 ≤ fuel) :
    ∃ t, delete_node fuel x s = some (0, t) ∧ Frame s t := by
  obtain ⟨mid, hpre, hxr⟩ := seg_append.1 hseg
  have hmid : mid = x := hxr.1
  subst hmid
  have hx0 : mid ≠ 0 := hxr.2.1
  have hh0 : s.head_free ≠ 0 := by
    cases pre with
    | nil => have e : s.head_free = mid := hpre; rw [e]; exact hx0
    | cons z0 zs => rw [hpre.1]; exact hpre.2.1
  obtain ⟨k, rfl⟩ := Nat.exists_eq_add_of_le hf
  unfold delete_node
  rw [if_neg hh0, show pre.length + 1 + k = (k + 1) + pre.length by omega,
    delete_node_loop_walk s mid pre _ _ (k + 1) hpre hx, delete_node_loop_at _ _ _ _ hx0]
  split
  · exact ⟨_, rfl, ⟨rfl, rfl, rfl, rfl, rfl, fun a => by simp, fun a => by simp⟩⟩
  · refine ⟨_, rfl, ⟨rfl, rfl, rfl, rfl, rfl, fun a => ?_, fun a => ?_⟩⟩ <;>
      dsimp only <;> split_ifs <;> simp

theorem edit_node_reach (s : Heap) (pre : List Nat) (x y r fuel : Nat)
    (hseg : Seg s.mem s.head_free (pre ++ [x]) r) (hx : x ∉ pre) (hf : pre.length + 1 ≤ fuel) :
    ∃ t, edit_node fuel x y s = some t ∧ Frame s t := by
  obtain ⟨mid, hpre, hxr⟩ := seg_append.1 hseg
  have hmid : mid = x := hxr.1
  subst hmid
  obtain ⟨k, rfl⟩ := Nat.exists_eq_add_of_le hf
  unfold edit_node
  rw [show pre.length + 1 + k = (k + 1) + pre.length by omega,
    edit_node_loop_walk s mid y pre _ (k + 1) hpre hx, edit_node_loop_at _ _ _ _ hxr.2.1]
  exact ⟨_, rfl, ⟨rfl, rfl, rfl, rfl, rfl, fun a => edit_links_size _ _ _ a,
    fun a => edit_links_is_used _ _ _ a⟩⟩

theorem perm_remove_middle {pre post l1 l2 : List Nat} {x : Nat}
    (h : (pre ++ x :: post).Perm (l1 ++ x :: l2)) : (pre ++ post).Perm (l1 ++ l2) :=
  ((List.perm_middle.symm.trans h).trans List.perm_middle).cons_inv

theorem perm_replace_middle {pre post l1 l2 : List Nat} {x : Nat} (y : Nat)
    (h : (pre ++ x :: post).Perm (l1 ++ x :: l2)) : (pre ++ y :: post).Perm (l1 ++ y :: l2) :=
  (List.perm_middle.trans ((perm_remove_middle h).cons y)).trans List.perm_middle.symm

theorem malloc_unfold (fuel n : Nat) (s : Heap) :
    malloc fuel n s = malloc_loop n fuel s.head_free { s with start_of_heap := heap_start s } := by
  unfold malloc heap_start sbrk
  by_cases h : s.start_of_heap = 0
  · simp [h]
  · simp only [h, if_false]

theorem Layout.sorted {l1 : List Block} {b : Block} {l2 : List Block} {a e : Nat}
    (h : Layout (l1 ++ b :: l2) a e) :
    (∀ c ∈ l1, c.addr + HDR + c.size ≤ b.addr) ∧ (∀ c ∈ l2, b.addr + HDR + b.size ≤ c.addr) := by
  obtain ⟨mid, h1, h2⟩ := layout_append.1 h
  have hb : b.addr = mid := h2.1
  constructor
  · intro c hc
    have := Layout.mem_bounds h1 c hc
    omega
  · intro c hc
    have := Layout.mem_bounds h2.2 c hc
    omega

theorem WF.block_bounds {s : Heap} {bs : List Block} {fl : List Nat} (h : WF s bs fl) :
    ∀ b ∈ bs, 0 < b.addr ∧ b.addr + HDR + b.size ≤ s.brk := by
  intro b hb
  have := Layout.mem_bounds h.layout b hb
  have := h.start_pos
  omega

theorem WF.free_block {s : Heap} {bs : List Block} {fl : List Nat} (h : WF s bs fl)
    {a : Nat} (ha : a ∈ fl) :
    ∃ bpre S bpost, bs = bpre ++ ⟨a, S, 0⟩ :: bpost ∧ (s.mem a).size = S := by
  obtain ⟨b, hb, hba, hbu⟩ := (h.free_iff a).1 ha
  obtain ⟨bpre, bpost, e⟩ := List.append_of_mem hb
  refine ⟨bpre, b.size, bpost, ?_, ?_⟩
  · rw [e]; congr 2; cases b; simp_all
  · rw [← hba]; exact (h.hdrs b hb).1

theorem WF.brk_lt {s : Heap} {bs : List Block} {fl : List Nat} (h : WF s bs fl) :
    s.brk < WORD := Nat.lt_of_le_of_lt h.brk_le h.max_lt

theorem heap_start_set (s : Heap) (m : Mem) (b : Nat) (h : 0 < heap_start s) :
    heap_start { s with start_of_heap := heap_start s, brk := b, mem := m } = heap_start s := by
  show (if heap_start s = 0 then _ else heap_start s) = _
  rw [if_neg (by omega)]

/-- Growth: no entry of the free list fits and the break can move. -/
theorem malloc_grow_spec (s : Heap) (bs : List Block) (fl : List Nat) (n fuel : Nat)
    (hwf : WF s bs fl) (hno : ∀ y ∈ fl, ¬ Fits s.mem n y)
    (hext : s.brk + HDR + n ≤ s.brk_max) (hn : n < 2 ^ 63) (hf : fl.length + 1 ≤ fuel) :
    ∃ t, malloc fuel n s = some (s.brk + HDR, t) ∧ WF t (bs ++ [⟨s.brk, n, 1⟩]) fl ∧
      t.brk = s.brk + HDR + n ∧ t.start_of_heap = heap_start s ∧
      t.brk_max = s.brk_max ∧ t.brk_min = s.brk_min ∧
      t.head_free = s.head_free ∧ t.tail_free = s.tail_free ∧
      t.mem s.brk = ⟨n, 1, 0, 0⟩ ∧ (∀ a, a ≠ s.brk → t.mem a = s.mem a) := by
  obtain ⟨k, rfl⟩ := Nat.exists_eq_add_of_le hf
  have hskip := malloc_loop_skip { s with start_of_heap := heap_start s } n fl s.head_free 0 (k + 1)
    hwf.dlist.1 hno
  rw [malloc_unfold, show fl.length + 1 + k = (k + 1) + fl.length by omega, hskip,
    malloc_loop, if_pos rfl,
    malloc_grow_eq { s with start_of_heap := heap_start s } n hext hn]
  have hsp := hwf.start_pos
  have hst := fun m b => heap_start_set s m b hsp
  refine ⟨_, rfl, ⟨?_, hext, hwf.max_lt, ?_, ?_, ?_, hwf.tail, ?_⟩, rfl, rfl, rfl, rfl, rfl, rfl,
    ?_, ?_⟩
  · rw [hst]; exact hsp
  · rw [hst]
    exact layout_append.2 ⟨s.brk, hwf.layout, rfl, rfl⟩
  · intro b hb
    rcases List.mem_append.1 hb with hb | hb
    · have hne : b.addr ≠ s.brk := by
        have := hwf.block_bounds b hb
        unfold HDR at this; omega
      have := hwf.hdrs b hb
      simpa [hne] using this
    · have e : b = ⟨s.brk, n, 1⟩ := by simpa using hb
      subst e
      simp
  · refine ⟨Seg.congr (fun a ha => ?_) hwf.dlist.1, PrevOK.congr_prev (fun a ha => ?_) hwf.dlist.2⟩ <;>
    · obtain ⟨b, hb, hba, _⟩ := (hwf.free_iff a).1 ha
      have := hwf.block_bounds b hb
      have hne : a ≠ s.brk := by unfold HDR at this; omega
      simp [hne]
  · rw [free_addrs_append, free_addrs_cons_used _ _ (by simp)]
    simpa [free_addrs] using hwf.free_perm
  · show set_prev (set_next (set_is_used (set_size s.mem s.brk n) s.brk 1) s.brk 0) s.brk 0 s.brk
      = _
    simp [set_prev, set_next, set_is_used, set_size]
  · intro a ha
    show set_prev (set_next (set_is_used (set_size s.mem s.brk n) s.brk 1) s.brk 0) s.brk 0 a
      = _
    simp [set_prev, set_next, set_is_used, set_size, ha]

theorem WF.set_start {s : Heap} {bs : List Block} {fl : List Nat} (h : WF s bs fl) :
    WF { s with start_of_heap := heap_start s } bs fl := by
  have e := heap_start_set s s.mem s.brk h.start_pos
  exact ⟨by rw [e]; exact h.start_pos, h.brk_le, h.max_lt, by rw [e]; exact h.layout,
    h.hdrs, h.dlist, h.tail, h.free_perm⟩

theorem layout_used {l1 l2 : List Block} {x S u v a e : Nat}
    (h : Layout (l1 ++ ⟨x, S, u⟩ :: l2) a e) : Layout (l1 ++ ⟨x, S, v⟩ :: l2) a e := by
  obtain ⟨mid, h1, h2⟩ := layout_append.1 h
  exact layout_append.2 ⟨mid, h1, h2⟩

theorem WF.nodup {s : Heap} {bs : List Block} {fl : List Nat} (h : WF s bs fl) : fl.Nodup :=
  Seg.null_nodup h.dlist.1

/-- Exact fit: the first fitting entry `x` has exactly the requested size. -/
theorem malloc_exact_spec (s : Heap) (bs : List Block) (fl : List Nat) (n fuel : Nat)
    (pre : List Nat) (x : Nat) (post : List Nat) (bpre bpost : List Block)
    (hwf : WF s bs fl) (hfl : fl = pre ++ x :: post)
    (hbs : bs = bpre ++ ⟨x, n, 0⟩ :: bpost)
    (hpre : ∀ y ∈ pre, ¬ Fits s.mem n y)
    (hf : 2 * pre.length + 2 ≤ fuel) :
    ∃ t, malloc fuel n s = some (x + HDR, t) ∧
      WF t (bpre ++ ⟨x, n, 1⟩ :: bpost) (pre ++ post) ∧
      t.brk = s.brk ∧ t.start_of_heap = heap_start s ∧
      t.brk_max = s.brk_max ∧ t.brk_min = s.brk_min ∧
      (∀ a, a ∉ fl → t.mem a = s.mem a) ∧ (post = [] → (t.mem x).next = 0) ∧
      ((pre ≠ [] ∨ post ≠ []) → (t.mem x).next = (s.mem x).next) := by
  subst hfl
  have hwf0 := hwf.set_start
  have hxb : (⟨x, n, 0⟩ : Block) ∈ bs := by rw [hbs]; simp
  have hxsz : (s.mem x).size = n := (hwf.hdrs _ hxb).1
  have hxbd : 0 < x ∧ x + HDR + n ≤ s.brk := hwf.block_bounds _ hxb
  have hlt := hwf.brk_lt
  have hnd := hwf.nodup
  have hx0 : x ≠ 0 := by have := hxbd.1; exact Nat.pos_iff_ne_zero.1 this
  obtain ⟨mid, hsegpre, hsegx⟩ := seg_append.1 hwf.dlist.1
  have hmid : mid = x := hsegx.1
  subst hmid
  obtain ⟨k, rfl⟩ := Nat.exists_eq_add_of_le hf
  have hskip := malloc_loop_skip { s with start_of_heap := heap_start s } n pre s.head_free mid
    (pre.length + 1 + k + 1) hsegpre hpre
  obtain ⟨t1, ht1, hdel⟩ := delete_node_found { s with start_of_heap := heap_start s } pre mid post
    (pre.length + 1 + k) hwf0.dlist hwf0.tail (by omega)
  have hadd : add64 mid HDR = mid + HDR := add64_of_lt (by
    have := hxbd.2; unfold HDR at this ⊢; omega)
  rw [malloc_unfold, show 2 * pre.length + 2 + k = (pre.length + 1 + k + 1) + pre.length by omega,
    hskip, malloc_loop, if_neg hx0, if_pos hxsz, ht1, hadd]
  have hsort := Layout.sorted (hbs ▸ hwf.layout)
  have hst : heap_start { t1 with mem := set_is_used t1.mem mid 1 } = heap_start s := by
    show (if t1.start_of_heap = 0 then _ else t1.start_of_heap) = _
    rw [hdel.frame.start_eq]
    show (if heap_start s = 0 then _ else heap_start s) = _
    rw [if_neg (by have := hwf.start_pos; omega)]
  have hxpp : mid ∉ pre ++ post := by
    intro h
    have h1 := List.nodup_append.1 hnd
    rcases List.mem_append.1 h with h | h
    · exact h1.2.2 h (List.mem_cons_self _ _)
    · exact (List.nodup_cons.1 h1.2.1).1 h
  refine ⟨_, rfl, ⟨?_, ?_, ?_, ?_, ?_, ?_, hdel.tail, ?_⟩, hdel.frame.brk_eq, hdel.frame.start_eq,
    hdel.frame.max_eq, hdel.frame.min_eq, ?_, ?_, ?_⟩
  · rw [hst]; exact hwf.start_pos
  · show t1.brk ≤ t1.brk_max
    rw [hdel.frame.brk_eq, hdel.frame.max_eq]; exact hwf.brk_le
  · show t1.brk_max < WORD
    rw [hdel.frame.max_eq]; exact hwf.max_lt
  · rw [hst]
    show Layout _ _ t1.brk
    rw [hdel.frame.brk_eq]
    exact layout_used (hbs ▸ hwf.layout)
  · intro b hb
    show (set_is_used t1.mem mid 1 b.addr).size = b.size ∧
      (set_is_used t1.mem mid 1 b.addr).is_used = b.used
    rw [set_is_used_size, set_is_used_is_used, hdel.frame.size_eq, hdel.frame.used_eq]
    rcases List.mem_append.1 hb with hb | hb
    · have hne : b.addr ≠ mid := by
        have := hsort.1 b hb; simp only at this; unfold HDR at this; omega
      rw [if_neg hne]
      exact hwf.hdrs b (by rw [hbs]; exact List.mem_append_left _ hb)
    · rcases List.mem_cons.1 hb with rfl | hb
      · exact ⟨hxsz, by simp⟩
      · have hne : b.addr ≠ mid := by
          have := hsort.2 b hb; simp only at this; unfold HDR at this; omega
        rw [if_neg hne]
        exact hwf.hdrs b (by rw [hbs]; simp [hb])
  · exact ⟨Seg.congr (fun a _ => by simp) hdel.dlist.1,
      PrevOK.congr_prev (fun a _ => by simp) hdel.dlist.2⟩
  · have hp := hwf.free_perm
    rw [hbs, free_addrs_append, free_addrs_cons_free] at hp
    rw [free_addrs_append, free_addrs_cons_used _ _ (by simp)]
    exact perm_remove_middle hp
  · intro a ha
    have hne : a ≠ mid := fun e => ha (by simp [e])
    show set_is_used t1.mem mid 1 a = s.mem a
    rw [← hdel.outside a ha]
    simp [set_is_used, hne]
  · intro hp
    show (set_is_used t1.mem mid 1 mid).next = 0
    rw [set_is_used_next]; exact hdel.next_x hp
  · intro hp
    show (set_is_used t1.mem mid 1 mid).next = (s.mem mid).next
    rw [set_is_used_next]; exact hdel.next_x_stale hp

theorem split_block_eq (s : Heap) (k x n S : Nat) (hS : (s.mem x).size = S)
    (h1 : x + HDR + S < WORD) (h2 : n + HDR < S) :
    split_block k x n s =
      (edit_node k x (x + HDR + n)
          { s with mem := split_mem s.mem x n (x + HDR + n) (S - n - HDR) }).map
        (fun s1 => (x + HDR, s1)) := by
  unfold split_block split_mem
  have e1 : (set_is_used (set_size s.mem x n) x 1 x).size = n := by simp
  have e2 : add64 (add64 x n) HDR = x + HDR + n := by
    rw [add64_of_lt (a := x) (b := n) (by omega), add64_of_lt (by omega)]; omega
  have e3 : sub64 (sub64 S n) HDR = S - n - HDR := by
    rw [sub64_of_le (a := S) (b := n) (by omega) (by omega), sub64_of_le (by omega) (by omega)]
  have e4 : add64 x HDR = x + HDR := add64_of_lt (by omega)
  simp only [e1, e2, e3, e4, hS]
  split <;> simp_all

/-- Split: the first fitting entry `x` is larger than the request by more than a header. -/
theorem malloc_split_spec (s : Heap) (bs : List Block) (fl : List Nat) (n fuel : Nat)
    (pre : List Nat) (x : Nat) (post : List Nat) (bpre : List Block) (S : Nat)
    (bpost : List Block)
    (hwf : WF s bs fl) (hfl : fl = pre ++ x :: post)
    (hbs : bs = bpre ++ ⟨x, S, 0⟩ :: bpost)
    (hpre : ∀ y ∈ pre, ¬ Fits s.mem n y) (hS : n + HDR < S)
    (hf : 2 * pre.length + 2 ≤ fuel) :
    ∃ t, malloc fuel n s = some (x + HDR, t) ∧
      WF t (bpre ++ ⟨x, n, 1⟩ :: ⟨x + HDR + n, S - n - HDR, 0⟩ :: bpost)
        (pre ++ (x + HDR + n) :: post) ∧
      t.brk = s.brk ∧ t.start_of_heap = heap_start s ∧
      t.brk_max = s.brk_max ∧ t.brk_min = s.brk_min ∧
      (∀ a, a ∉ fl → a ≠ x + HDR + n → t.mem a = s.mem a) ∧
      (t.mem x).next = (s.mem x).next := by
  subst hfl
  have hwf0 := hwf.set_start
  have hxb : (⟨x, S, 0⟩ : Block) ∈ bs := by rw [hbs]; simp
  have hxsz : (s.mem x).size = S := (hwf.hdrs _ hxb).1
  have hxbd : 0 < x ∧ x + HDR + S ≤ s.brk := hwf.block_bounds _ hxb
  have hlt := hwf.brk_lt
  have hnd := hwf.nodup
  have hH : HDR = 32 := rfl
  have hx0 : x ≠ 0 := Nat.pos_iff_ne_zero.1 hxbd.1
  obtain ⟨mid, hsegpre, hsegx⟩ := seg_append.1 hwf.dlist.1
  have hmid : mid = x := hsegx.1
  subst hmid
  obtain ⟨k, rfl⟩ := Nat.exists_eq_add_of_le hf
  have hskip := malloc_loop_skip { s with start_of_heap := heap_start s } n pre s.head_free mid
    (pre.length + 1 + k + 1) hsegpre hpre
  have hsort : (∀ c ∈ bpre, c.addr + HDR + c.size ≤ mid) ∧
      (∀ c ∈ bpost, mid + HDR + S ≤ c.addr) := Layout.sorted (hbs ▸ hwf.layout)
  have hnewbs : ∀ b ∈ bs, b.addr ≠ mid + HDR + n := by
    intro b hb
    rw [hbs] at hb
    rcases List.mem_append.1 hb with hb | hb
    · have := hsort.1 b hb; omega
    · rcases List.mem_cons.1 hb with rfl | hb
      · show mid ≠ mid + HDR + n
        omega
      · have := hsort.2 b hb; omega
  have hnewfl : mid + HDR + n ∉ pre ++ mid :: post := by
    intro h
    obtain ⟨b, hb, h1, _⟩ := (hwf.free_iff _).1 h
    exact hnewbs b hb h1
  have hnew0 : mid + HDR + n ≠ 0 := by omega
  have hdl : IsDList (split_mem s.mem mid n (mid + HDR + n) (S - n - HDR)) s.head_free
      (pre ++ mid :: post) := by
    refine ⟨Seg.congr (fun a ha => ?_) hwf.dlist.1, PrevOK.congr_prev (fun a ha => ?_) hwf.dlist.2⟩ <;>
    · have hne : a ≠ mid + HDR + n := fun e => hnewfl (e ▸ ha)
      simp [split_mem, hne]
  obtain ⟨t1, ht1, hed⟩ := edit_node_found
    { s with start_of_heap := heap_start s,
             mem := split_mem s.mem mid n (mid + HDR + n) (S - n - HDR) }
    pre mid post (mid + HDR + n) (pre.length + 1 + k) hdl hwf.tail hnewfl hnew0
    (by simp [split_mem]) (by simp [split_mem]) (by omega)
  have hfit1 : ¬ (s.mem mid).size = n := by rw [hxsz]; omega
  have hadd : add64 n HDR = n + HDR := add64_of_lt (by omega)
  have hfit2 : (s.mem mid).size > add64 n HDR := by rw [hxsz, hadd]; exact hS
  rw [malloc_unfold, show 2 * pre.length + 2 + k = (pre.length + 1 + k + 1) + pre.length by omega,
    hskip, malloc_loop, if_neg hx0, if_neg hfit1, if_pos hfit2,
    split_block_eq { s with start_of_heap := heap_start s } _ _ _ S hxsz (by omega) hS, ht1]
  have hfs : t1.start_of_heap = heap_start s := hed.frame.start_eq
  have hst : heap_start t1 = heap_start s := by
    show (if t1.start_of_heap = 0 then _ else t1.start_of_heap) = _
    rw [hfs, if_neg (by have := hwf.start_pos; omega)]
  have hsz : ∀ a, (t1.mem a).size
      = (split_mem s.mem mid n (mid + HDR + n) (S - n - HDR) a).size := hed.frame.size_eq
  have hus : ∀ a, (t1.mem a).is_used
      = (split_mem s.mem mid n (mid + HDR + n) (S - n - HDR) a).is_used := hed.frame.used_eq
  have hxpp : mid ∉ pre ∧ mid ∉ post := by
    have h1 := List.nodup_append.1 hnd
    exact ⟨fun h => h1.2.2 h (List.mem_cons_self _ _), (List.nodup_cons.1 h1.2.1).1⟩
  refine ⟨t1, rfl, ⟨?_, ?_, ?_, ?_, ?_, hed.dlist, hed.tail, ?_⟩, hed.frame.brk_eq, hfs,
    hed.frame.max_eq, hed.frame.min_eq, ?_, ?_⟩
  · rw [hst]; exact hwf.start_pos
  · rw [hed.frame.brk_eq, hed.frame.max_eq]; exact hwf.brk_le
  · rw [hed.frame.max_eq]; exact hwf.max_lt
  · rw [hst, hed.frame.brk_eq]
    show Layout _ _ s.brk
    obtain ⟨m0, h1, h2⟩ := layout_append.1 (hbs ▸ hwf.layout)
    have h2' : mid = m0 ∧ Layout bpost (m0 + HDR + S) s.brk := h2
    refine layout_append.2 ⟨m0, h1, h2'.1, ?_, ?_⟩
    · show mid + HDR + n = m0 + HDR + n
      rw [h2'.1]
    · show Layout bpost (m0 + HDR + n + HDR + (S - n - HDR)) s.brk
      rw [show m0 + HDR + n + HDR + (S - n - HDR) = m0 + HDR + S by omega]
      exact h2'.2
  · intro b hb
    rw [hsz, hus]
    rcases List.mem_append.1 hb with hb | hb
    · have hb' : b ∈ bs := by rw [hbs]; exact List.mem_append_left _ hb
      have h1 : b.addr ≠ mid := by have := hsort.1 b hb; omega
      have h2 : b.addr ≠ mid + HDR + n := hnewbs b hb'
      have := hwf.hdrs b hb'
      simpa [split_mem, h1, h2] using this
    · rcases List.mem_cons.1 hb with rfl | hb
      · have h2 : mid ≠ mid + HDR + n := by omega
        simp [split_mem, h2]
      · rcases List.mem_cons.1 hb with rfl | hb
        · simp [split_mem]
        · have hb' : b ∈ bs := by rw [hbs]; simp [hb]
          have h1 : b.addr ≠ mid := by have := hsort.2 b hb; omega
          have h2 : b.addr ≠ mid + HDR + n := hnewbs b hb'
          have := hwf.hdrs b hb'
          simpa [split_mem, h1, h2] using this
  · have hp := hwf.free_perm
    rw [hbs, free_addrs_append, free_addrs_cons_free] at hp
    rw [free_addrs_append, free_addrs_cons_used _ _ (by simp), free_addrs_cons_free]
    exact perm_replace_middle _ hp
  · intro a ha hne
    have h1 : a ∉ pre := fun h => ha (List.mem_append_left _ h)
    have h2 : a ∉ post := fun h => ha (by simp [h])
    have h3 : a ≠ mid := fun h => ha (by simp [h])
    rw [hed.outside a h1 h2 hne]
    show split_mem s.mem mid n (mid + HDR + n) (S - n - HDR) a = s.mem a
    simp [split_mem, set_prev, set_next, set_is_used, set_size, hne, h3]
  · have h3 : mid ≠ mid + HDR + n := by omega
    rw [hed.outside mid hxpp.1 hxpp.2 h3]
    show (split_mem s.mem mid n (mid + HDR + n) (S - n - HDR) mid).next = _
    simp [split_mem, h3]

theorem layout_head {l : List Block} {c : Block} {a e : Nat} (h : Layout l a e)
    (hc : l.head? = some c) : c.addr = a ∧ c ∈ l := by
  cases l with
  | nil => simp at hc
  | cons x xs =>
    have : x = c := by simpa using hc
    subst this
    exact ⟨h.1, List.mem_cons_self _ _⟩

theorem coalesce_loop_skip (s : Heap) (block e : Nat) (he : e < WORD) :
    ∀ (l rest : List Block) (a fuel : Nat), Layout (l ++ rest) a e → Agree s.mem (l ++ rest) →
      Quiet l rest →
      ∃ a', Layout l a a' ∧ Layout rest a' e ∧
        coalesce_loop block e (fuel + l.length) a s = coalesce_loop block e fuel a' s := by
  intro l
  induction l with
  | nil => intro rest a fuel h _ _; exact ⟨a, rfl, h, rfl⟩
  | cons b l ih =>
    intro rest a fuel h hag hq
    have h' : b.addr = a ∧ Layout (l ++ rest) (a + HDR + b.size) e := h
    obtain ⟨hba, hl⟩ := h'
    have hH : HDR = 32 := rfl
    have hle := Layout.le hl
    have hb := hag b (List.mem_cons_self _ _)
    rw [hba] at hb
    obtain ⟨a', h1, h2, h3⟩ := ih rest (a + HDR + b.size) fuel hl
      (fun c hc => hag c (List.mem_cons_of_mem _ hc)) hq.2
    refine ⟨a', ⟨hba, h1⟩, h2, ?_⟩
    rw [← h3]
    show coalesce_loop block e (fuel + l.length + 1) a s = _
    have hnext : add64 (add64 a (s.mem a).size) HDR = a + HDR + b.size := by
      rw [hb.1, add64_of_lt (a := a) (by omega), add64_of_lt (by omega)]; omega
    rw [coalesce_loop, if_neg (by omega)]
    simp only [hnext]
    rw [if_neg (by omega), if_neg]
    rintro ⟨hu1, hu2⟩
    rw [hb.2] at hu1
    obtain ⟨c, hc, hcu⟩ := hq.1 hu1
    obtain ⟨hca, hcm⟩ := layout_head hl hc
    have := hag c (List.mem_cons_of_mem _ hcm)
    rw [hca] at this
    exact hcu (this.2.symm.trans hu2)

theorem coalesce_loop_end (s : Heap) (block e k : Nat) :
    coalesce_loop block e (k + 1) e s = some (0, s) := by
  rw [coalesce_loop, if_pos (by omega)]

/-! ### the search for the third block -/

theorem third_block_loop_skip (s : Heap) (P third : Nat) :
    ∀ (pre : List Nat) (p r fuel : Nat), Seg s.mem p pre r → third ∉ pre →
      third_block_loop P third (fuel + pre.length) p s = third_block_loop P third fuel r s := by
  intro pre
  induction pre with
  | nil => intro p r fuel h _; have e : p = r := h; subst e; rfl
  | cons z zs ih =>
    intro p r fuel h hx
    obtain ⟨h1, h2, h3⟩ := h
    subst h1
    have hne : p ≠ third := fun e => hx (e ▸ List.mem_cons_self _ _)
    rw [← ih _ r fuel h3 (fun e => hx (List.mem_cons_of_mem _ e))]
    show third_block_loop P third (fuel + zs.length + 1) p s = _
    rw [third_block_loop, if_neg h2, if_neg hne]

theorem third_block_loop_absent (s : Heap) (P third : Nat) (l : List Nat) (p fuel : Nat)
    (h : Seg s.mem p l 0) (hx : third ∉ l) (hf : l.length + 1 ≤ fuel) :
    third_block_loop P third fuel p s = some s := by
  obtain ⟨k, rfl⟩ := Nat.exists_eq_add_of_le hf
  rw [show l.length + 1 + k = (k + 1) + l.length by omega,
    third_block_loop_skip s P third l p 0 (k + 1) h hx, third_block_loop, if_pos rfl]

theorem third_block_loop_found (s : Heap) (P : Nat) (pre : List Nat) (N : Nat)
    (post : List Nat) (fuel : Nat)
    (hd : IsDList s.mem s.head_free (pre ++ N :: post))
    (ht : s.tail_free = (pre ++ N :: post).getLastD 0)
    (hf : 2 * (pre ++ N :: post).length + 2 ≤ fuel) :
    ∃ t, third_block_loop P N fuel s.head_free s = some t ∧
      Deleted (merge_into s P N) t pre N post := by
  have hnd := Seg.null_nodup hd.1
  obtain ⟨mid, hpre, hxp⟩ := seg_append.1 hd.1
  have hmid : mid = N := hxp.1
  subst hmid
  have hx0 : mid ≠ 0 := hxp.2.1
  have hpost : Seg s.mem (s.mem mid).next post 0 := hxp.2.2
  have hxpre : mid ∉ pre := fun h => (List.nodup_append.1 hnd).2.2 h (List.mem_cons_self _ _)
  have hxpost : mid ∉ post := (List.nodup_cons.1 (List.nodup_append.1 hnd).2.1).1
  have hlen : (pre ++ mid :: post).length = pre.length + post.length + 1 := by simp; omega
  rw [hlen] at hf
  obtain ⟨k, rfl⟩ := Nat.exists_eq_add_of_le hf
  have hd1 : IsDList (merge_into s P mid).mem (merge_into s P mid).head_free
      (pre ++ mid :: post) :=
    ⟨Seg.congr (fun a _ => by simp [merge_into]) hd.1,
     PrevOK.congr_prev (fun a _ => by simp [merge_into]) hd.2⟩
  obtain ⟨t, ht1, hdel⟩ := delete_node_found (merge_into s P mid)
    pre mid post (pre.length + 2 * post.length + 3 + k) hd1 ht (by omega)
  refine ⟨t, ?_, hdel⟩
  rw [show 2 * (pre.length + post.length + 1) + 2 + k
      = (pre.length + 2 * post.length + 3 + k + 1) + pre.length by omega,
    third_block_loop_skip s P mid pre _ mid _ hpre hxpre, third_block_loop, if_neg hx0,
    if_pos rfl]
  have ht1' : delete_node (pre.length + 2 * post.length + 3 + k) mid
      { s with mem := set_size s.mem P (add64 (s.mem P).size (add64 (s.mem mid).size HDR)) }
      = some (0, t) := ht1
  simp only [ht1']
  obtain ⟨m2, _, hpost2⟩ := seg_append.1 hdel.dlist.1
  have hnext : (t.mem mid).next = m2 := by
    cases post with
    | nil =>
      have e : m2 = 0 := hpost2
      rw [e]; exact hdel.next_x rfl
    | cons y ys =>
      rw [hdel.next_x_stale (Or.inr (by simp))]
      show (set_size s.mem P _ mid).next = m2
      rw [set_size_next]
      rw [hpost.1, hpost2.1]
  rw [hnext]
  exact third_block_loop_absent t P mid post m2 _ hpost2 hxpost (by omega)

/-! ### `free` -/

theorem free_unfold (s : Heap) (B fuel : Nat) (hB : B + HDR < WORD) :
    free fuel (B + HDR) s =
      if s.head_free = 0 then some (add_node B (mark_free s B))
      else free_finish B (coalesce_loop B s.brk fuel s.start_of_heap (mark_free s B)) := by
  have e : sub64 (B + HDR) HDR = B := by
    rw [sub64_of_le (by omega) hB]; omega
  have e0 : ∀ h : Heap, (sbrk 0 h).1 = h.brk := fun h => by simp [sbrk]
  unfold free coalesce_blocks mark_free
  simp only [e, e0]
  by_cases h : s.head_free = 0
  · simp [h]
  · simp only [h, if_false]
    generalize coalesce_loop B s.brk fuel s.start_of_heap _ = o
    cases o with
    | none => rfl
    | some p => cases p; rfl

theorem layout_nonempty_start {bs : List Block} {s : Heap} {fl : List Nat} (hwf : WF s bs fl)
    (hne : bs ≠ []) : s.start_of_heap = heap_start s ∧ s.start_of_heap ≠ 0 := by
  have hsp := hwf.start_pos
  by_cases h : s.start_of_heap = 0
  · exfalso
    have e : heap_start s = s.brk := by unfold heap_start; rw [if_pos h]
    have hl := hwf.layout
    rw [e] at hl
    cases bs with
    | nil => exact hne rfl
    | cons b bs =>
      have hl' : b.addr = s.brk ∧ Layout bs (s.brk + HDR + b.size) s.brk := hl
      have := Layout.le hl'.2
      unfold HDR at this; omega
  · have e : heap_start s = s.start_of_heap := by unfold heap_start; rw [if_neg h]
    exact ⟨e.symm, h⟩

theorem mark_free_facts {s : Heap} {bs : List Block} {fl : List Nat} {bpre bpost : List Block}
    {B S u : Nat} (hwf : WF s bs fl) (hbs : bs = bpre ++ ⟨B, S, u⟩ :: bpost) (hu : u ≠ 0) :
    Agree (mark_free s B).mem (bpre ++ ⟨B, S, 0⟩ :: bpost) ∧
    IsDList (mark_free s B).mem s.head_free fl ∧ B ∉ fl ∧
    0 < B ∧ B + HDR + S ≤ s.brk ∧ fl.Perm (free_addrs bpre ++ free_addrs bpost) ∧
    Layout (bpre ++ ⟨B, S, 0⟩ :: bpost) (heap_start s) s.brk := by
  have hH : HDR = 32 := rfl
  have hBb : (⟨B, S, u⟩ : Block) ∈ bs := by rw [hbs]; simp
  have hbd : 0 < B ∧ B + HDR + S ≤ s.brk := hwf.block_bounds _ hBb
  have hsort : (∀ c ∈ bpre, c.addr + HDR + c.size ≤ B) ∧
      (∀ c ∈ bpost, B + HDR + S ≤ c.addr) := Layout.sorted (hbs ▸ hwf.layout)
  have hperm : fl.Perm (free_addrs bpre ++ free_addrs bpost) := by
    have := hwf.free_perm
    rwa [hbs, free_addrs_append, free_addrs_cons_used _ _ (by simpa using hu)] at this
  refine ⟨?_, ⟨Seg.congr (fun a _ => by simp [mark_free]) hwf.dlist.1,
    PrevOK.congr_prev (fun a _ => by simp [mark_free]) hwf.dlist.2⟩, ?_, hbd.1, hbd.2, hperm,
    layout_used (hbs ▸ hwf.layout)⟩
  · intro b hb
    show (set_is_used s.mem B 0 b.addr).size = b.size ∧
      (set_is_used s.mem B 0 b.addr).is_used = b.used
    rw [set_is_used_size, set_is_used_is_used]
    rcases List.mem_append.1 hb with hb | hb
    · have hne : b.addr ≠ B := by have := hsort.1 b hb; omega
      rw [if_neg hne]
      exact hwf.hdrs b (by rw [hbs]; exact List.mem_append_left _ hb)
    · rcases List.mem_cons.1 hb with rfl | hb
      · exact ⟨(hwf.hdrs _ hBb).1, by simp⟩
      · have hne : b.addr ≠ B := by have := hsort.2 b hb; omega
        rw [if_neg hne]
        exact hwf.hdrs b (by rw [hbs]; simp [hb])
  · intro h
    have := hperm.mem_iff.1 h
    rcases List.mem_append.1 this with h | h
    · obtain ⟨b, hb, h1, _⟩ := mem_free_addrs.1 h
      have := hsort.1 b hb; omega
    · obtain ⟨b, hb, h1, _⟩ := mem_free_addrs.1 h
      have := hsort.2 b hb; omega

theorem coalesce_at_right (s1 : Heap) (B N e k : Nat) (hB : B < e)
    (hnext : add64 (add64 B (s1.mem B).size) HDR = N) (hN : N ≤ e)
    (hu1 : (s1.mem B).is_used = 0) (hu2 : (s1.mem N).is_used = 0) :
    coalesce_loop B e (k + 1) B s1 = delete_node k N (merge_into s1 B N) := by
  rw [coalesce_loop, if_neg (by omega)]
  simp only [hnext]
  rw [if_neg (by omega), if_pos ⟨hu1, hu2⟩, if_pos True.intro]
  rfl

theorem coalesce_at_left (s1 : Heap) (B P e k : Nat) (hP : P < e)
    (hnext : add64 (add64 P (s1.mem P).size) HDR = B) (hB : B ≤ e) (hPB : P ≠ B)
    (hu1 : (s1.mem P).is_used = 0) (hu2 : (s1.mem B).is_used = 0) :
    coalesce_loop B e (k + 1) P s1 =
      (third_block_loop P (add64 (add64 B (s1.mem B).size) HDR) k s1.head_free
        (merge_into s1 P B)).bind (fun s2 => delete_node k B s2) := by
  rw [coalesce_loop, if_neg (by omega)]
  simp only [hnext]
  rw [if_neg (by omega), if_pos ⟨hu1, hu2⟩, if_neg hPB, if_pos True.intro]
  have e1 : (set_size s1.mem P (add64 (s1.mem P).size (add64 (s1.mem B).size HDR)) B).size
      = (s1.mem B).size := by simp [hPB.symm]
  simp only [e1]
  show (match third_block_loop P (add64 (add64 B (s1.mem B).size) HDR) k s1.head_free
      (merge_into s1 P B) with
    | none => none
    | some s2 => delete_node k B s2) = _
  cases third_block_loop P (add64 (add64 B (s1.mem B).size) HDR) k s1.head_free
      (merge_into s1 P B) <;> rfl

theorem heap_start_frame {s t : Heap} (h : Frame s t) : heap_start t = heap_start s := by
  unfold heap_start; rw [h.start_eq, h.brk_eq]

theorem Agree.frame {s t : Heap} {bs : List Block} (h : Frame s t) (ha : Agree s.mem bs) :
    Agree t.mem bs := by
  intro b hb
  rw [h.size_eq, h.used_eq]; exact ha b hb

theorem add_node_appended (s1 : Heap) (bs : List Block) (fl1 : List Nat) (B : Nat)
    (hsp : 0 < heap_start s1) (hbrk : s1.brk ≤ s1.brk_max) (hmax : s1.brk_max < WORD)
    (hlay : Layout bs (heap_start s1) s1.brk) (hag : Agree s1.mem bs)
    (hd : IsDList s1.mem s1.head_free fl1) (ht : s1.tail_free = fl1.getLastD 0)
    (hB : B ∉ fl1) (hB0 : B ≠ 0)
    (hp : (fl1 ++ [B]).Perm (free_addrs bs)) :
    Appended (add_node B s1) bs fl1 B (s1.mem B).next := by
  have hf := add_node_frame s1 B
  have hs := heap_start_frame hf
  obtain ⟨h1, h2, h3, _, _⟩ := add_node_seg s1 B fl1 hd ht hB hB0
  exact ⟨by rw [hs]; exact hsp, by rw [hf.brk_eq, hf.max_eq]; exact hbrk,
    by rw [hf.max_eq]; exact hmax, by rw [hs, hf.brk_eq]; exact hlay, hag.frame hf, h1, h2, h3, hp⟩

theorem Appended.wf {t : Heap} {bs : List Block} {fl1 : List Nat} {B : Nat}
    (h : Appended t bs fl1 B 0) : WF t bs (fl1 ++ [B]) :=
  ⟨h.start_pos, h.brk_le, h.max_lt, h.layout, h.hdrs, ⟨h.seg, h.prevs⟩,
    by rw [h.tail, getLastD_append_cons]; rfl, h.free_perm⟩

theorem mark_free_frame (s : Heap) (B : Nat) :
    (mark_free s B).brk = s.brk ∧ (mark_free s B).start_of_heap = s.start_of_heap ∧
    (mark_free s B).brk_max = s.brk_max ∧ (mark_free s B).brk_min = s.brk_min ∧
    (mark_free s B).head_free = s.head_free ∧ (mark_free s B).tail_free = s.tail_free ∧
    heap_start (mark_free s B) = heap_start s ∧
    (∀ a, a ≠ B → (mark_free s B).mem a = s.mem a) ∧
    ((mark_free s B).mem B).next = (s.mem B).next :=
  ⟨rfl, rfl, rfl, rfl, rfl, rfl, rfl, fun a ha => by simp [mark_free, set_is_used, ha],
    by simp [mark_free]⟩

theorem perm_snoc_middle {fl l1 l2 : List Nat} (B : Nat) (h : fl.Perm (l1 ++ l2)) :
    (fl ++ [B]).Perm (l1 ++ B :: l2) :=
  ((List.perm_append_singleton B fl).trans (h.cons B)).trans List.perm_middle.symm

/-- Release into an empty free list: `free` does not scan. -/
theorem free_empty_core (s : Heap) (bs bpre bpost : List Block) (B S u fuel : Nat)
    (hwf : WF s bs []) (hbs : bs = bpre ++ ⟨B, S, u⟩ :: bpost) (hu : u ≠ 0) :
    ∃ t, free fuel (B + HDR) s = some t ∧
      Appended t (bpre ++ ⟨B, S, 0⟩ :: bpost) [] B (s.mem B).next ∧ FreeOut s t [] B := by
  obtain ⟨hag, hdl, hBfl, hB0, hBe, hperm, hlay⟩ := mark_free_facts hwf hbs hu
  have hH : HDR = 32 := rfl
  have hlt := hwf.brk_lt
  have hh : s.head_free = 0 := hwf.dlist.1
  rw [free_unfold s B fuel (by omega), if_pos hh]
  have hf := add_node_frame (mark_free s B) B
  obtain ⟨_, _, _, hout, _⟩ := add_node_seg (mark_free s B) B [] hdl hwf.tail hBfl (by omega)
  have hnx : ((mark_free s B).mem B).next = (s.mem B).next := by simp [mark_free]
  refine ⟨_, rfl, hnx ▸ add_node_appended (mark_free s B) _ [] B hwf.start_pos hwf.brk_le
    hwf.max_lt hlay hag hdl hwf.tail hBfl (by omega) ?_,
    ⟨hf.brk_eq, hf.start_eq, hf.max_eq, hf.min_eq, ?_⟩⟩
  · rw [free_addrs_append, free_addrs_cons_free]
    exact perm_snoc_middle B hperm
  · intro a _ ha
    rw [hout a (by simpa using ha)]
    simp [mark_free, set_is_used, ha]

/-- Release without a merge: the scan runs to the end of the heap and finds nothing. -/
theorem free_plain_core (s : Heap) (bs bpre bpost : List Block) (fl : List Nat)
    (B S u fuel : Nat)
    (hwf : WF s bs fl) (hbs : bs = bpre ++ ⟨B, S, u⟩ :: bpost) (hu : u ≠ 0)
    (hfl : fl ≠ [])
    (hq : Quiet (bpre ++ ⟨B, S, 0⟩ :: bpost) [])
    (hf : bs.length + 2 ≤ fuel) :
    ∃ t, free fuel (B + HDR) s = some t ∧
      Appended t (bpre ++ ⟨B, S, 0⟩ :: bpost) fl B (s.mem B).next ∧ FreeOut s t fl B := by
  obtain ⟨hag, hdl, hBfl, hB0, hBe, hperm, hlay⟩ := mark_free_facts hwf hbs hu
  have hH : HDR = 32 := rfl
  have hlt := hwf.brk_lt
  have hh : s.head_free ≠ 0 := by
    cases fl with
    | nil => exact absurd rfl hfl
    | cons y ys => rw [hwf.dlist.1.1]; exact hwf.dlist.1.2.1
  obtain ⟨hst, _⟩ := layout_nonempty_start hwf (by rw [hbs]; simp)
  have hlen : bs.length = (bpre ++ ⟨B, S, 0⟩ :: bpost).length := by rw [hbs]; simp
  rw [hlen] at hf
  obtain ⟨k, rfl⟩ := Nat.exists_eq_add_of_le hf
  obtain ⟨a', h1, h2, h3⟩ := coalesce_loop_skip (mark_free s B) B s.brk hlt
    (bpre ++ ⟨B, S, 0⟩ :: bpost) [] (heap_start s) (k + 2)
    (by rw [List.append_nil]; exact hlay) (by rw [List.append_nil]; exact hag) hq
  have ha' : a' = s.brk := h2
  rw [free_unfold s B _ (by omega), if_neg hh, hst,
    show (bpre ++ ⟨B, S, 0⟩ :: bpost).length + 2 + k
      = (k + 2) + (bpre ++ ⟨B, S, 0⟩ :: bpost).length by omega,
    h3, ha', coalesce_loop_end]
  show ∃ t, some (add_node B (mark_free s B)) = some t ∧ _
  have hf := add_node_frame (mark_free s B) B
  obtain ⟨_, _, _, hout, _⟩ := add_node_seg (mark_free s B) B fl hdl hwf.tail hBfl (by omega)
  have hnx : ((mark_free s B).mem B).next = (s.mem B).next := by simp [mark_free]
  refine ⟨_, rfl, hnx ▸ add_node_appended (mark_free s B) _ fl B hwf.start_pos hwf.brk_le
    hwf.max_lt hlay hag hdl hwf.tail hBfl (by omega) ?_,
    ⟨hf.brk_eq, hf.start_eq, hf.max_eq, hf.min_eq, ?_⟩⟩
  · rw [free_addrs_append, free_addrs_cons_free]
    exact perm_snoc_middle B hperm
  · intro a ha1 ha
    rw [hout a (by simp [ha1, ha])]
    simp [mark_free, set_is_used, ha]

theorem merge_into_frame (s : Heap) (P N : Nat) :
    (merge_into s P N).brk = s.brk ∧ (merge_into s P N).start_of_heap = s.start_of_heap ∧
    (merge_into s P N).brk_max = s.brk_max ∧ (merge_into s P N).brk_min = s.brk_min ∧
    (merge_into s P N).head_free = s.head_free ∧ (merge_into s P N).tail_free = s.tail_free ∧
    heap_start (merge_into s P N) = heap_start s ∧
    (∀ a, a ≠ P → (merge_into s P N).mem a = s.mem a) ∧
    (∀ a, ((merge_into s P N).mem a).next = (s.mem a).next) ∧
    (∀ a, ((merge_into s P N).mem a).prev = (s.mem a).prev) ∧
    (∀ a, ((merge_into s P N).mem a).is_used = (s.mem a).is_used) ∧
    (∀ a, ((merge_into s P N).mem a).size = if a = P then
      add64 (s.mem P).size (add64 (s.mem N).size HDR) else (s.mem a).size) :=
  ⟨rfl, rfl, rfl, rfl, rfl, rfl, rfl, fun a ha => by simp [merge_into, set_size, ha],
    fun a => by simp [merge_into], fun a => by simp [merge_into], fun a => by simp [merge_into],
    fun a => by simp [merge_into]⟩

/-- Release with a free successor: the block absorbs it and is appended to the list. -/
theorem free_merge_right_core (s : Heap) (bs bpre bpost : List Block)
    (fl fpre fpost : List Nat) (B S u N T fuel : Nat)
    (hwf : WF s bs fl) (hbs : bs = bpre ++ ⟨B, S, u⟩ :: ⟨N, T, 0⟩ :: bpost) (hu : u ≠ 0)
    (hfl : fl = fpre ++ N :: fpost)
    (hq : Quiet bpre (⟨B, S, 0⟩ :: ⟨N, T, 0⟩ :: bpost))
    (hf : bs.length + fl.length + 3 ≤ fuel) :
    ∃ t, free fuel (B + HDR) s = some t ∧
      Appended t (bpre ++ ⟨B, S + (T + HDR), 0⟩ :: bpost) (fpre ++ fpost) B (s.mem B).next ∧
      FreeOut s t fl B := by
  obtain ⟨hag, hdl, hBfl, hB0, hBe, hperm, hlay⟩ := mark_free_facts hwf hbs hu
  have hH : HDR = 32 := rfl
  have hlt := hwf.brk_lt
  subst hfl
  have hh : s.head_free ≠ 0 := by
    cases fpre with
    | nil => rw [hwf.dlist.1.1]; exact hwf.dlist.1.2.1
    | cons y ys => rw [hwf.dlist.1.1]; exact hwf.dlist.1.2.1
  obtain ⟨hst, _⟩ := layout_nonempty_start hwf (by rw [hbs]; simp)
  have hlen : bs.length = bpre.length + bpost.length + 2 := by rw [hbs]; simp; omega
  have hlen2 : (fpre ++ N :: fpost).length = fpre.length + fpost.length + 1 := by simp; omega
  rw [hlen, hlen2] at hf
  obtain ⟨k0, rfl⟩ := Nat.exists_eq_add_of_le hf
  generalize hK : bpost.length + (fpre.length + fpost.length + 1) + 4 + k0 = K
  obtain ⟨a', h1, h2, h3⟩ := coalesce_loop_skip (mark_free s B) B s.brk hlt
    bpre (⟨B, S, 0⟩ :: ⟨N, T, 0⟩ :: bpost) (heap_start s)
    (K + 1) hlay hag hq
  have h2' : B = a' ∧ N = a' + HDR + S ∧ Layout bpost (a' + HDR + S + HDR + T) s.brk := h2
  obtain ⟨hBa, hNa, hlpost⟩ := h2'
  subst hBa
  have hNe : N + HDR + T ≤ s.brk := by have := Layout.le hlpost; omega
  have hBag : ((mark_free s B).mem B).size = S ∧ ((mark_free s B).mem B).is_used = 0 :=
    hag ⟨B, S, 0⟩ (by simp)
  have hNag : ((mark_free s B).mem N).size = T ∧ ((mark_free s B).mem N).is_used = 0 :=
    hag ⟨N, T, 0⟩ (by simp)
  have hnext : add64 (add64 B ((mark_free s B).mem B).size) HDR = N := by
    rw [hBag.1, add64_of_lt (a := B) (by omega), add64_of_lt (by omega)]; omega
  have hd1 : IsDList (merge_into (mark_free s B) B N).mem (merge_into (mark_free s B) B N).head_free
      (fpre ++ N :: fpost) :=
    ⟨Seg.congr (fun a _ => by simp [merge_into]) hdl.1,
     PrevOK.congr_prev (fun a _ => by simp [merge_into]) hdl.2⟩
  obtain ⟨t1, ht1, hdel⟩ := delete_node_found (merge_into (mark_free s B) B N) fpre N fpost
    K hd1 hwf.tail (by omega)
  rw [free_unfold s B _ (by omega), if_neg hh, hst,
    show bpre.length + bpost.length + 2 + (fpre.length + fpost.length + 1) + 3 + k0
      = (K + 1) + bpre.length by omega, h3,
    coalesce_at_right _ B N s.brk _ (by omega) hnext (by omega) hBag.2 hNag.2, ht1]
  show ∃ t, some (add_node B t1) = some t ∧ _
  have hfr := hdel.frame
  have hmf := merge_into_frame (mark_free s B) B N
  have hst1 : heap_start t1 = heap_start s := (heap_start_frame hfr).trans hmf.2.2.2.2.2.2.1
  have hBpp : B ∉ fpre ++ fpost := fun h => hBfl (by
    rcases List.mem_append.1 h with h | h
    · exact List.mem_append_left _ h
    · exact List.mem_append_right _ (List.mem_cons_of_mem _ h))
  have hsort : (∀ c ∈ bpre, c.addr + HDR + c.size ≤ B) ∧
      (∀ c ∈ (⟨N, T, 0⟩ : Block) :: bpost, B + HDR + S ≤ c.addr) := Layout.sorted hlay
  have hmemB : t1.mem B = (merge_into (mark_free s B) B N).mem B := hdel.outside B hBfl
  have hf2 := add_node_frame t1 B
  obtain ⟨_, _, _, hout, _⟩ := add_node_seg t1 B (fpre ++ fpost) hdel.dlist hdel.tail hBpp
    (by omega)
  have hnx : (t1.mem B).next = (s.mem B).next := by
    rw [hmemB, hmf.2.2.2.2.2.2.2.2.1]; simp [mark_free]
  refine ⟨_, rfl, hnx ▸ add_node_appended t1 _ (fpre ++ fpost) B ?_ ?_ ?_ ?_ ?_ hdel.dlist
    hdel.tail hBpp (by omega) ?_, ⟨?_, ?_, ?_, ?_, ?_⟩⟩
  · rw [hst1]; exact hwf.start_pos
  · rw [hfr.brk_eq, hfr.max_eq]; exact hwf.brk_le
  · rw [hfr.max_eq]; exact hwf.max_lt
  · rw [hst1, hfr.brk_eq]
    refine layout_append.2 ⟨B, h1, rfl, ?_⟩
    show Layout bpost (B + HDR + (S + (T + HDR))) s.brk
    rw [show B + HDR + (S + (T + HDR)) = B + HDR + S + HDR + T by omega]
    exact hlpost
  · intro b hb
    rw [hfr.size_eq, hfr.used_eq, hmf.2.2.2.2.2.2.2.2.2.2.1, hmf.2.2.2.2.2.2.2.2.2.2.2]
    rcases List.mem_append.1 hb with hb | hb
    · have hne : b.addr ≠ B := by have := hsort.1 b hb; omega
      rw [if_neg hne]
      exact hag b (List.mem_append_left _ hb)
    · rcases List.mem_cons.1 hb with rfl | hb
      · refine ⟨?_, hBag.2⟩
        show (if B = B then _ else _) = S + (T + HDR)
        rw [if_pos rfl, hBag.1, hNag.1, add64_of_lt (a := T) (by omega), add64_of_lt (by omega)]
      · have hne : b.addr ≠ B := by
          have := hsort.2 b (List.mem_cons_of_mem _ hb); omega
        rw [if_neg hne]
        exact hag b (by simp [hb])
  · rw [free_addrs_append, free_addrs_cons_free]
    rw [free_addrs_cons_free] at hperm
    exact perm_snoc_middle B (perm_remove_middle hperm)
  · rw [hf2.brk_eq, hfr.brk_eq]; rfl
  · rw [hf2.start_eq, hfr.start_eq]; rfl
  · rw [hf2.max_eq, hfr.max_eq]; rfl
  · rw [hf2.min_eq, hfr.min_eq]; rfl
  · intro a ha1 ha
    have ha2 : a ∉ fpre ++ fpost ++ [B] := by
      intro h
      rcases List.mem_append.1 h with h | h
      · rcases List.mem_append.1 h with h | h
        · exact ha1 (List.mem_append_left _ h)
        · exact ha1 (List.mem_append_right _ (List.mem_cons_of_mem _ h))
      · exact ha (by simpa using h)
    rw [hout a ha2, hdel.outside a ha1, hmf.2.2.2.2.2.2.2.1 a ha]
    simp [mark_free, set_is_used, ha]

/-- Release into an empty free list when the `next` field of the block is clean. -/
theorem free_empty_spec (s : Heap) (bs bpre bpost : List Block) (B S u fuel : Nat)
    (hwf : WF s bs []) (hbs : bs = bpre ++ ⟨B, S, u⟩ :: bpost) (hu : u ≠ 0)
    (hn : (s.mem B).next = 0) :
    ∃ t, free fuel (B + HDR) s = some t ∧ WF t (bpre ++ ⟨B, S, 0⟩ :: bpost) [B] ∧
      FreeOut s t [] B := by
  obtain ⟨t, h1, h2, h3⟩ := free_empty_core s bs bpre bpost B S u fuel hwf hbs hu
  rw [hn] at h2
  exact ⟨t, h1, h2.wf, h3⟩

/-- Release without a merge when the `next` field of the block is clean: the block is
appended to the free list. -/
theorem free_plain_spec (s : Heap) (bs bpre bpost : List Block) (fl : List Nat)
    (B S u fuel : Nat)
    (hwf : WF s bs fl) (hbs : bs = bpre ++ ⟨B, S, u⟩ :: bpost) (hu : u ≠ 0)
    (hn : (s.mem B).next = 0) (hfl : fl ≠ [])
    (hq : Quiet (bpre ++ ⟨B, S, 0⟩ :: bpost) [])
    (hf : bs.length + 2 ≤ fuel) :
    ∃ t, free fuel (B + HDR) s = some t ∧ WF t (bpre ++ ⟨B, S, 0⟩ :: bpost) (fl ++ [B]) ∧
      FreeOut s t fl B := by
  obtain ⟨t, h1, h2, h3⟩ := free_plain_core s bs bpre bpost fl B S u fuel hwf hbs hu hfl hq hf
  rw [hn] at h2
  exact ⟨t, h1, h2.wf, h3⟩

/-- Release with a free successor when the `next` field of the block is clean. -/
theorem free_merge_right_spec (s : Heap) (bs bpre bpost : List Block) (fl fpre fpost : List Nat)
    (B S u N T fuel : Nat)
    (hwf : WF s bs fl) (hbs : bs = bpre ++ ⟨B, S, u⟩ :: ⟨N, T, 0⟩ :: bpost) (hu : u ≠ 0)
    (hn : (s.mem B).next = 0) (hfl : fl = fpre ++ N :: fpost)
    (hq : Quiet bpre (⟨B, S, 0⟩ :: ⟨N, T, 0⟩ :: bpost))
    (hf : bs.length + fl.length + 3 ≤ fuel) :
    ∃ t, free fuel (B + HDR) s = some t ∧
      WF t (bpre ++ ⟨B, S + (T + HDR), 0⟩ :: bpost) (fpre ++ fpost ++ [B]) ∧
      FreeOut s t fl B := by
  obtain ⟨t, h1, h2, h3⟩ :=
    free_merge_right_core s bs bpre bpost fl fpre fpost B S u N T fuel hwf hbs hu hfl hq hf
  rw [hn] at h2
  exact ⟨t, h1, h2.wf, h3⟩

theorem free_finish_nonzero (B : Nat) (s : Heap) :
    free_finish B (some (1, s)) = some s := rfl

/-- Release with a free predecessor and no free successor: the predecessor absorbs the
block; the free list keeps its entries. -/
theorem free_merge_left_spec (s : Heap) (bs bpre bpost : List Block) (fl : List Nat)
    (B S u P SP fuel : Nat)
    (hwf : WF s bs fl) (hbs : bs = bpre ++ ⟨P, SP, 0⟩ :: ⟨B, S, u⟩ :: bpost) (hu : u ≠ 0)
    (hq : Quiet bpre (⟨P, SP, 0⟩ :: ⟨B, S, 0⟩ :: bpost))
    (hN : ∀ c, bpost.head? = some c → c.used ≠ 0)
    (hf : bs.length + 2 * fl.length + 4 ≤ fuel) :
    ∃ t, free fuel (B + HDR) s = some t ∧
      WF t (bpre ++ ⟨P, SP + (S + HDR), 0⟩ :: bpost) fl ∧ FreeOut s t fl B := by
  have hbs' : bs = (bpre ++ [⟨P, SP, 0⟩]) ++ ⟨B, S, u⟩ :: bpost := by rw [hbs]; simp
  obtain ⟨hag, hdl, hBfl, hB0, hBe, hperm, hlay⟩ := mark_free_facts hwf hbs' hu
  rw [List.append_assoc, List.singleton_append] at hag hlay
  have hfa : free_addrs ([] : List Block) = [] := rfl
  rw [free_addrs_append, free_addrs_cons_free, hfa] at hperm
  have hH : HDR = 32 := rfl
  have hlt := hwf.brk_lt
  have hPfl : P ∈ fl := hperm.mem_iff.2 (by simp [free_addrs])
  have hh : s.head_free ≠ 0 := by
    cases fl with
    | nil => simp at hPfl
    | cons y ys => rw [hwf.dlist.1.1]; exact hwf.dlist.1.2.1
  obtain ⟨hst, _⟩ := layout_nonempty_start hwf (by rw [hbs]; simp)
  have hlen : bs.length = bpre.length + bpost.length + 2 := by rw [hbs]; simp; omega
  rw [hlen] at hf
  obtain ⟨k0, rfl⟩ := Nat.exists_eq_add_of_le hf
  generalize hK : bpost.length + 2 * fl.length + 5 + k0 = K
  obtain ⟨a', h1, h2, h3⟩ := coalesce_loop_skip (mark_free s B) B s.brk hlt
    bpre (⟨P, SP, 0⟩ :: ⟨B, S, 0⟩ :: bpost) (heap_start s) (K + 1) hlay hag hq
  have h2' : P = a' ∧ B = a' + HDR + SP ∧ Layout bpost (a' + HDR + SP + HDR + S) s.brk := h2
  obtain ⟨hPa, hBa, hlpost⟩ := h2'
  subst hPa
  have hPag : ((mark_free s B).mem P).size = SP ∧ ((mark_free s B).mem P).is_used = 0 :=
    hag ⟨P, SP, 0⟩ (by simp)
  have hBag : ((mark_free s B).mem B).size = S ∧ ((mark_free s B).mem B).is_used = 0 :=
    hag ⟨B, S, 0⟩ (by simp)
  have hPB : P ≠ B := by omega
  have hnext : add64 (add64 P ((mark_free s B).mem P).size) HDR = B := by
    rw [hPag.1, add64_of_lt (a := P) (by omega), add64_of_lt (by omega)]; omega
  have hthird : add64 (add64 B ((mark_free s B).mem B).size) HDR = B + HDR + S := by
    rw [hBag.1, add64_of_lt (a := B) (by omega), add64_of_lt (by omega)]; omega
  have hsort : (∀ c ∈ bpre, c.addr + HDR + c.size ≤ P) ∧
      (∀ c ∈ (⟨B, S, 0⟩ : Block) :: bpost, P + HDR + SP ≤ c.addr) := Layout.sorted hlay
  have hmf := merge_into_frame (mark_free s B) P B
  have hmk := mark_free_frame s B
  have hseg2 : Seg (merge_into (mark_free s B) P B).mem s.head_free fl 0 :=
    Seg.congr (fun a _ => hmf.2.2.2.2.2.2.2.2.1 a) hdl.1
  have hnot : B + HDR + S ∉ fl := by
    intro h
    rcases List.mem_append.1 (hperm.mem_iff.1 h) with h | h
    · rcases List.mem_append.1 h with h | h
      · obtain ⟨b, hb, hb1, _⟩ := mem_free_addrs.1 h
        have := hsort.1 b hb; omega
      · have : B + HDR + S = P := by simpa using h
        omega
    · obtain ⟨b, hb, hb1, hb2⟩ := mem_free_addrs.1 h
      cases bpost with
      | nil => cases hb
      | cons c rest =>
        have hl : c.addr = P + HDR + SP + HDR + S ∧ _ := hlpost
        rcases List.mem_cons.1 hb with rfl | hb
        · exact hN b rfl hb2
        · have := Layout.mem_bounds hl.2 b hb
          omega
  rw [free_unfold s B _ (by omega), if_neg hh, hst,
    show bpre.length + bpost.length + 2 + 2 * fl.length + 4 + k0 = (K + 1) + bpre.length by omega,
    h3, coalesce_at_left _ B P s.brk _ (by omega) hnext (by omega) hPB hPag.2 hBag.2, hthird,
    third_block_loop_absent (merge_into (mark_free s B) P B) P (B + HDR + S) fl
      (mark_free s B).head_free K hseg2 hnot (by omega)]
  show ∃ t, free_finish B (delete_node K B (merge_into (mark_free s B) P B)) = some t ∧ _
  rw [delete_node_absent _ B fl K hseg2 hBfl (by omega), free_finish_nonzero]
  refine ⟨_, rfl, ⟨?_, hwf.brk_le, hwf.max_lt, ?_, ?_, ?_, hwf.tail, ?_⟩,
    ⟨rfl, rfl, rfl, rfl, ?_⟩⟩
  · rw [hmf.2.2.2.2.2.2.1]; exact hwf.start_pos
  · rw [hmf.2.2.2.2.2.2.1]
    refine layout_append.2 ⟨P, h1, rfl, ?_⟩
    show Layout bpost (P + HDR + (SP + (S + HDR))) s.brk
    rw [show P + HDR + (SP + (S + HDR)) = P + HDR + SP + HDR + S by omega]
    exact hlpost
  · intro b hb
    rw [hmf.2.2.2.2.2.2.2.2.2.2.1, hmf.2.2.2.2.2.2.2.2.2.2.2]
    rcases List.mem_append.1 hb with hb | hb
    · have hne : b.addr ≠ P := by have := hsort.1 b hb; omega
      rw [if_neg hne]
      exact hag b (List.mem_append_left _ hb)
    · rcases List.mem_cons.1 hb with rfl | hb
      · refine ⟨?_, hPag.2⟩
        show (if P = P then _ else _) = SP + (S + HDR)
        rw [if_pos rfl, hPag.1, hBag.1, add64_of_lt (a := S) (by omega), add64_of_lt (by omega)]
      · have hne : b.addr ≠ P := by
          have := hsort.2 b (List.mem_cons_of_mem _ hb); omega
        rw [if_neg hne]
        exact hag b (by simp [hb])
  · exact ⟨hseg2, PrevOK.congr_prev (fun a _ => hmf.2.2.2.2.2.2.2.2.2.1 a) hdl.2⟩
  · rw [free_addrs_append, free_addrs_cons_free]
    simpa using hperm
  · intro a ha1 ha
    have hne : a ≠ P := fun e => ha1 (e ▸ hPfl)
    rw [hmf.2.2.2.2.2.2.2.1 a hne]
    exact hmk.2.2.2.2.2.2.2.1 a ha

/-- Release between two free blocks: the predecessor absorbs the block and the
successor, and the successor leaves the free list. -/
theorem free_merge_both_spec (s : Heap) (bs bpre bpost : List Block) (fl fpre fpost : List Nat)
    (B S u P SP N T fuel : Nat)
    (hwf : WF s bs fl)
    (hbs : bs = bpre ++ ⟨P, SP, 0⟩ :: ⟨B, S, u⟩ :: ⟨N, T, 0⟩ :: bpost) (hu : u ≠ 0)
    (hfl : fl = fpre ++ N :: fpost)
    (hq : Quiet bpre (⟨P, SP, 0⟩ :: ⟨B, S, 0⟩ :: ⟨N, T, 0⟩ :: bpost))
    (hf : bs.length + 2 * fl.length + 4 ≤ fuel) :
    ∃ t, free fuel (B + HDR) s = some t ∧
      WF t (bpre ++ ⟨P, SP + (S + HDR) + (T + HDR), 0⟩ :: bpost) (fpre ++ fpost) ∧
      FreeOut s t fl B := by
  have hbs' : bs = (bpre ++ [⟨P, SP, 0⟩]) ++ ⟨B, S, u⟩ :: ⟨N, T, 0⟩ :: bpost := by
    rw [hbs]; simp
  obtain ⟨hag, hdl, hBfl, hB0, hBe, hperm, hlay⟩ := mark_free_facts hwf hbs' hu
  rw [List.append_assoc, List.singleton_append] at hag hlay
  have hfa : free_addrs ([] : List Block) = [] := rfl
  rw [free_addrs_append, free_addrs_cons_free, hfa, free_addrs_cons_free] at hperm
  have hH : HDR = 32 := rfl
  have hlt := hwf.brk_lt
  have hPfl : P ∈ fl := hperm.mem_iff.2 (by simp [free_addrs])
  subst hfl
  have hh : s.head_free ≠ 0 := by
    cases fpre with
    | nil => rw [hwf.dlist.1.1]; exact hwf.dlist.1.2.1
    | cons y ys => rw [hwf.dlist.1.1]; exact hwf.dlist.1.2.1
  obtain ⟨hst, _⟩ := layout_nonempty_start hwf (by rw [hbs]; simp)
  have hlen : bs.length = bpre.length + bpost.length + 3 := by rw [hbs]; simp; omega
  rw [hlen] at hf
  obtain ⟨k0, rfl⟩ := Nat.exists_eq_add_of_le hf
  generalize hK : bpost.length + 2 * (fpre ++ N :: fpost).length + 6 + k0 = K
  obtain ⟨a', h1, h2, h3⟩ := coalesce_loop_skip (mark_free s B) B s.brk hlt
    bpre (⟨P, SP, 0⟩ :: ⟨B, S, 0⟩ :: ⟨N, T, 0⟩ :: bpost) (heap_start s) (K + 1) hlay hag hq
  have h2' : P = a' ∧ B = a' + HDR + SP ∧ N = a' + HDR + SP + HDR + S ∧
      Layout bpost (a' + HDR + SP + HDR + S + HDR + T) s.brk := h2
  obtain ⟨hPa, hBa, hNa, hlpost⟩ := h2'
  subst hPa
  have hNe : N + HDR + T ≤ s.brk := by have := Layout.le hlpost; omega
  have hPag : ((mark_free s B).mem P).size = SP ∧ ((mark_free s B).mem P).is_used = 0 :=
    hag ⟨P, SP, 0⟩ (by simp)
  have hBag : ((mark_free s B).mem B).size = S ∧ ((mark_free s B).mem B).is_used = 0 :=
    hag ⟨B, S, 0⟩ (by simp)
  have hNag : ((mark_free s B).mem N).size = T ∧ ((mark_free s B).mem N).is_used = 0 :=
    hag ⟨N, T, 0⟩ (by simp)
  have hPB : P ≠ B := by omega
  have hPN : P ≠ N := by omega
  have hnext : add64 (add64 P ((mark_free s B).mem P).size) HDR = B := by
    rw [hPag.1, add64_of_lt (a := P) (by omega), add64_of_lt (by omega)]; omega
  have hthird : add64 (add64 B ((mark_free s B).mem B).size) HDR = N := by
    rw [hBag.1, add64_of_lt (a := B) (by omega), add64_of_lt (by omega)]; omega
  have hsort : (∀ c ∈ bpre, c.addr + HDR + c.size ≤ P) ∧
      (∀ c ∈ (⟨B, S, 0⟩ : Block) :: ⟨N, T, 0⟩ :: bpost, P + HDR + SP ≤ c.addr) :=
    Layout.sorted hlay
  have hmf := merge_into_frame (mark_free s B) P B
  have hmf2 := merge_into_frame (merge_into (mark_free s B) P B) P N
  have hmk := mark_free_frame s B
  have hd2 : IsDList (merge_into (mark_free s B) P B).mem
      (merge_into (mark_free s B) P B).head_free (fpre ++ N :: fpost) :=
    ⟨Seg.congr (fun a _ => hmf.2.2.2.2.2.2.2.2.1 a) hdl.1,
     PrevOK.congr_prev (fun a _ => hmf.2.2.2.2.2.2.2.2.2.1 a) hdl.2⟩
  obtain ⟨t, ht, hdel⟩ := third_block_loop_found (merge_into (mark_free s B) P B) P fpre N fpost
    K hd2 hwf.tail (by omega)
  have hBpp : B ∉ fpre ++ fpost := fun h => hBfl (by
    rcases List.mem_append.1 h with h | h
    · exact List.mem_append_left _ h
    · exact List.mem_append_right _ (List.mem_cons_of_mem _ h))
  have hlen3 : (fpre ++ fpost).length + 1 ≤ K := by
    have : (fpre ++ N :: fpost).length = (fpre ++ fpost).length + 1 := by simp; omega
    omega
  rw [free_unfold s B _ (by omega), if_neg hh, hst,
    show bpre.length + bpost.length + 3 + 2 * (fpre ++ N :: fpost).length + 4 + k0
      = (K + 1) + bpre.length by omega,
    h3, coalesce_at_left _ B P s.brk _ (by omega) hnext (by omega) hPB hPag.2 hBag.2, hthird]
  have ht' : third_block_loop P N K (mark_free s B).head_free (merge_into (mark_free s B) P B)
      = some t := ht
  rw [ht']
  show ∃ t', free_finish B (delete_node K B t) = some t' ∧ _
  rw [delete_node_absent t B (fpre ++ fpost) K hdel.dlist.1 hBpp hlen3, free_finish_nonzero]
  have hfr := hdel.frame
  have hst1 : heap_start t = heap_start s :=
    ((heap_start_frame hfr).trans hmf2.2.2.2.2.2.2.1).trans hmf.2.2.2.2.2.2.1
  refine ⟨_, rfl, ⟨?_, ?_, ?_, ?_, ?_, hdel.dlist, hdel.tail, ?_⟩, ⟨?_, ?_, ?_, ?_, ?_⟩⟩
  · rw [hst1]; exact hwf.start_pos
  · rw [hfr.brk_eq, hfr.max_eq]; exact hwf.brk_le
  · rw [hfr.max_eq]; exact hwf.max_lt
  · rw [hst1, hfr.brk_eq]
    refine layout_append.2 ⟨P, h1, rfl, ?_⟩
    show Layout bpost (P + HDR + (SP + (S + HDR) + (T + HDR))) s.brk
    rw [show P + HDR + (SP + (S + HDR) + (T + HDR)) = P + HDR + SP + HDR + S + HDR + T by omega]
    exact hlpost
  · intro b hb
    rw [hfr.size_eq, hfr.used_eq, hmf2.2.2.2.2.2.2.2.2.2.2.1, hmf2.2.2.2.2.2.2.2.2.2.2.2,
      hmf.2.2.2.2.2.2.2.2.2.2.1]
    rcases List.mem_append.1 hb with hb | hb
    · have hne : b.addr ≠ P := by have := hsort.1 b hb; omega
      rw [if_neg hne, hmf.2.2.2.2.2.2.2.2.2.2.2, if_neg hne]
      exact hag b (List.mem_append_left _ hb)
    · rcases List.mem_cons.1 hb with rfl | hb
      · refine ⟨?_, hPag.2⟩
        show (if P = P then _ else _) = SP + (S + HDR) + (T + HDR)
        rw [if_pos rfl, hmf.2.2.2.2.2.2.2.2.2.2.2, hmf.2.2.2.2.2.2.2.2.2.2.2, if_pos rfl,
          if_neg hPN.symm, hPag.1, hBag.1, hNag.1, add64_of_lt (a := S) (by omega),
          add64_of_lt (a := T) (by omega), add64_of_lt (a := SP) (by omega),
          add64_of_lt (by omega)]
      · have hne : b.addr ≠ P := by
          have := hsort.2 b (by simp [hb]); omega
        rw [if_neg hne, hmf.2.2.2.2.2.2.2.2.2.2.2, if_neg hne]
        exact hag b (by simp [hb])
  · rw [free_addrs_append, free_addrs_cons_free]
    have := @perm_remove_middle _ _ (free_addrs bpre ++ [P]) _ _ hperm
    simpa using this
  · rw [hfr.brk_eq]; rfl
  · rw [hfr.start_eq]; rfl
  · rw [hfr.max_eq]; rfl
  · rw [hfr.min_eq]; rfl
  · intro a ha1 ha
    have hne : a ≠ P := fun e => ha1 (e ▸ hPfl)
    rw [hdel.outside a ha1, hmf2.2.2.2.2.2.2.2.1 a hne, hmf.2.2.2.2.2.2.2.1 a hne]
    exact hmk.2.2.2.2.2.2.2.1 a ha

/-! ## Scenario lemmas -/

theorem layout_disjoint {l1 : List Block} {b : Block} {l2 : List Block} {a e n : Nat}
    (h : Layout (l1 ++ b :: l2) a e) (hn : n ≤ b.size) :
    ∀ c ∈ l1 ++ b :: l2, c.addr + HDR ≤ b.addr + HDR ∨ b.addr + HDR + n ≤ c.addr := by
  have hs := Layout.sorted h
  intro c hc
  rcases List.mem_append.1 hc with hc | hc
  · left; have := hs.1 c hc; omega
  · rcases List.mem_cons.1 hc with rfl | hc
    · left; exact Nat.le_refl _
    · right; have := hs.2 c hc; omega

theorem allocated_of_wf {t : Heap} {l1 : List Block} {b : Block} {l2 : List Block}
    {fl : List Nat} {n : Nat} (hwf : WF t (l1 ++ b :: l2) fl) (hu : b.used = 1)
    (hn : n ≤ b.size) (hst : t.start_of_heap = heap_start t) :
    Allocated t (l1 ++ b :: l2) b (b.addr + HDR) n := by
  have hb : b ∈ l1 ++ b :: l2 := by simp
  have hm := hwf.hdrs b hb
  have hbd := Layout.mem_bounds hwf.layout b hb
  refine ⟨hb, rfl, by rw [hm.2, hu], by rw [hm.1]; exact hn, by rw [hm.1]; omega,
    ⟨by rw [hst]; omega, by omega⟩, layout_disjoint hwf.layout hn⟩

theorem init_wf (m0 : Mem) (b0 M : Nat) (h0 : 0 < b0) (h1 : b0 ≤ M) (h2 : M < WORD) :
    WF (init_heap m0 b0 M) [] [] where
  start_pos := by unfold heap_start init_heap; simpa using h0
  brk_le := h1
  max_lt := h2
  layout := by unfold heap_start init_heap; simp [Layout]
  hdrs := fun b hb => by cases hb
  dlist := ⟨rfl, trivial⟩
  tail := rfl
  free_perm := List.Perm.refl _

theorem layout_addr_inj {bs : List Block} {a e : Nat} (h : Layout bs a e) {b c : Block}
    (hb : b ∈ bs) (hc : c ∈ bs) (hbc : b.addr = c.addr) : b = c := by
  obtain ⟨l1, l2, rfl⟩ := List.append_of_mem hb
  have hs := Layout.sorted h
  have hH : HDR = 32 := rfl
  rcases List.mem_append.1 hc with hc | hc
  · have := hs.1 c hc; omega
  · rcases List.mem_cons.1 hc with hc | hc
    · exact hc.symm
    · have := hs.2 c hc; omega

theorem WF.used_not_free {s : Heap} {bs : List Block} {fl : List Nat} (h : WF s bs fl)
    {b : Block} (hb : b ∈ bs) (hu : b.used ≠ 0) : b.addr ∉ fl := by
  intro hf
  obtain ⟨c, hc, hca, hcu⟩ := (h.free_iff _).1 hf
  have := layout_addr_inj h.layout hc hb hca
  rw [this] at hcu
  exact hu hcu

theorem clean_after_free {s t : Heap} {bs bs' : List Block} {fl : List Nat} {B : Nat}
    (hwf : WF s bs fl) (hc : Clean s bs) (ho : FreeOut s t fl B)
    (hsub : ∀ b ∈ bs', b.used ≠ 0 → b ∈ bs ∧ b.addr ≠ B) : Clean t bs' := by
  intro b hb hu
  obtain ⟨h1, h2⟩ := hsub b hb hu
  rw [ho.outside b.addr (hwf.used_not_free h1 hu) h2]
  exact hc b h1 hu

/-- Growth with an empty free list, keeping track of clean links. -/
theorem grow_step (s : Heap) (bs : List Block) (n fuel : Nat)
    (hwf : WF s bs []) (hc : Clean s bs) (hext : s.brk + HDR + n ≤ s.brk_max)
    (hn : n < 2 ^ 63) (hf : 1 ≤ fuel) :
    ∃ t, malloc fuel n s = some (s.brk + HDR, t) ∧ WF t (bs ++ [⟨s.brk, n, 1⟩]) [] ∧
      Clean t (bs ++ [⟨s.brk, n, 1⟩]) ∧ t.brk = s.brk + HDR + n ∧ t.brk_max = s.brk_max ∧
      t.start_of_heap = heap_start s := by
  obtain ⟨t, h1, h2, h3, h4, h5, h6, h7, h8, h9, h10⟩ :=
    malloc_grow_spec s bs [] n fuel hwf (fun y hy => by cases hy) hext hn (by simpa using hf)
  refine ⟨t, h1, h2, ?_, h3, h5, h4⟩
  intro b hb hu
  rcases List.mem_append.1 hb with hb | hb
  · have hne : b.addr ≠ s.brk := by
      have := hwf.block_bounds b hb
      have hH : HDR = 32 := rfl
      omega
    rw [h10 _ hne]; exact hc b hb hu
  · have e : b = ⟨s.brk, n, 1⟩ := by simpa using hb
    subst e
    show (t.mem s.brk).next = 0
    rw [h9]

theorem clean_free {s t : Heap} {bpre bpost bs' : List Block} {fl : List Nat} {B S u : Nat}
    (hwf : WF s (bpre ++ ⟨B, S, u⟩ :: bpost) fl) (hc : Clean s (bpre ++ ⟨B, S, u⟩ :: bpost))
    (ho : FreeOut s t fl B)
    (hsub : ∀ b ∈ bs', b.used ≠ 0 → b ∈ bpre ∨ b ∈ bpost) : Clean t bs' := by
  apply clean_after_free hwf hc ho
  intro b hb hu
  have hs := Layout.sorted hwf.layout
  have hH : HDR = 32 := rfl
  rcases hsub b hb hu with h | h
  · refine ⟨List.mem_append_left _ h, ?_⟩
    have h1 : b.addr + HDR + b.size ≤ B := hs.1 b h
    omega
  · refine ⟨List.mem_append_right _ (List.mem_cons_of_mem _ h), ?_⟩
    have h1 : B + HDR + S ≤ b.addr := hs.2 b h
    omega

theorem five_mallocs (m0 : Mem) (b0 M S fuel : Nat) (h0 : 0 < b0)
    (hM : b0 + 5 * (S + HDR) ≤ M) (hW : M < WORD) (hf : 1 ≤ fuel) :
    ∃ t, exec fuel (five_calls S) (init_heap m0 b0 M) =
        some ([b0 + HDR, b0 + (S + HDR) + HDR, b0 + 2 * (S + HDR) + HDR,
          b0 + 3 * (S + HDR) + HDR, b0 + 4 * (S + HDR) + HDR], t) ∧
      WF t (five_blocks b0 S) [] ∧ Clean t (five_blocks b0 S) ∧
      t.brk = b0 + 5 * (S + HDR) ∧ t.brk_max = M ∧ t.start_of_heap = b0 := by
  have hH : HDR = 32 := rfl
  have hWd : WORD = 2 ^ 64 := rfl
  have hS : S < 2 ^ 63 := by omega
  have hwf0 := init_wf m0 b0 M h0 (by omega) hW
  have hc0 : Clean (init_heap m0 b0 M) [] := fun b hb => by cases hb
  have hb0 : (init_heap m0 b0 M).brk = b0 := rfl
  have hx0 : (init_heap m0 b0 M).brk_max = M := rfl
  obtain ⟨t1, e1, w1, c1, k1, x1, s1⟩ :=
    grow_step _ [] S fuel hwf0 hc0 (by rw [hb0, hx0]; omega) hS hf
  rw [hb0] at e1 w1 c1 k1
  rw [hx0] at x1
  have k1' : t1.brk = b0 + (S + HDR) := by omega
  obtain ⟨t2, e2, w2, c2, k2, x2, s2⟩ :=
    grow_step t1 _ S fuel w1 c1 (by rw [k1', x1]; omega) hS hf
  rw [k1'] at e2 w2 c2 k2
  have k2' : t2.brk = b0 + 2 * (S + HDR) := by omega
  obtain ⟨t3, e3, w3, c3, k3, x3, s3⟩ :=
    grow_step t2 _ S fuel w2 c2 (by rw [k2', x2, x1]; omega) hS hf
  rw [k2'] at e3 w3 c3 k3
  have k3' : t3.brk = b0 + 3 * (S + HDR) := by omega
  obtain ⟨t4, e4, w4, c4, k4, x4, s4⟩ :=
    grow_step t3 _ S fuel w3 c3 (by rw [k3', x3, x2, x1]; omega) hS hf
  rw [k3'] at e4 w4 c4 k4
  have k4' : t4.brk = b0 + 4 * (S + HDR) := by omega
  obtain ⟨t5, e5, w5, c5, k5, x5, s5⟩ :=
    grow_step t4 _ S fuel w4 c4 (by rw [k4', x4, x3, x2, x1]; omega) hS hf
  rw [k4'] at e5 w5 c5 k5
  have k5' : t5.brk = b0 + 5 * (S + HDR) := by omega
  have st1 : t1.start_of_heap = b0 := by
    rw [s1]; unfold heap_start init_heap; simp
  have hst : ∀ (a b : Heap), a.start_of_heap = b0 → b.start_of_heap = heap_start a →
      b.start_of_heap = b0 := by
    intro a b ha hb
    rw [hb]; unfold heap_start; rw [ha, if_neg (by omega)]
  refine ⟨t5, ?_, w5, c5, k5', by rw [x5, x4, x3, x2, x1],
    hst _ _ (hst _ _ (hst _ _ (hst _ _ st1 s2) s3) s4) s5⟩
  simp only [five_calls, exec, e1, e2, e3, e4, e5, Option.map]

theorem used_mem_split {l1 l2 : List Block} {X Y : Nat} {b : Block}
    (hb : b ∈ l1 ++ ⟨X, Y, 0⟩ :: l2) (hu : b.used ≠ 0) : b ∈ l1 ∨ b ∈ l2 := by
  rcases List.mem_append.1 hb with h | h
  · exact Or.inl h
  · rcases List.mem_cons.1 h with h | h
    · subst h; exact absurd rfl hu
    · exact Or.inr h

theorem free_empty_clean (s : Heap) (bpre bpost : List Block) (B S u fuel : Nat)
    (hwf : WF s (bpre ++ ⟨B, S, u⟩ :: bpost) []) (hc : Clean s (bpre ++ ⟨B, S, u⟩ :: bpost))
    (hu : u ≠ 0) :
    ∃ t, free fuel (B + HDR) s = some t ∧ WF t (bpre ++ ⟨B, S, 0⟩ :: bpost) [B] ∧
      Clean t (bpre ++ ⟨B, S, 0⟩ :: bpost) ∧ FreeOut s t [] B := by
  obtain ⟨t, h1, h2, h3⟩ := free_empty_spec s _ bpre bpost B S u fuel hwf rfl hu
    (hc ⟨B, S, u⟩ (by simp) hu)
  exact ⟨t, h1, h2, clean_free hwf hc h3 (fun b hb hu => used_mem_split hb hu), h3⟩

theorem free_plain_clean (s : Heap) (bpre bpost : List Block) (fl : List Nat)
    (B S u fuel : Nat)
    (hwf : WF s (bpre ++ ⟨B, S, u⟩ :: bpost) fl) (hc : Clean s (bpre ++ ⟨B, S, u⟩ :: bpost))
    (hu : u ≠ 0) (hfl : fl ≠ []) (hq : Quiet (bpre ++ ⟨B, S, 0⟩ :: bpost) [])
    (hf : (bpre ++ ⟨B, S, u⟩ :: bpost).length + 2 ≤ fuel) :
    ∃ t, free fuel (B + HDR) s = some t ∧ WF t (bpre ++ ⟨B, S, 0⟩ :: bpost) (fl ++ [B]) ∧
      Clean t (bpre ++ ⟨B, S, 0⟩ :: bpost) ∧ FreeOut s t fl B := by
  obtain ⟨t, h1, h2, h3⟩ := free_plain_spec s _ bpre bpost fl B S u fuel hwf rfl hu
    (hc ⟨B, S, u⟩ (by simp) hu) hfl hq hf
  exact ⟨t, h1, h2, clean_free hwf hc h3 (fun b hb hu => used_mem_split hb hu), h3⟩

theorem free_right_clean (s : Heap) (bpre bpost : List Block) (fl fpre fpost : List Nat)
    (B S u N T fuel : Nat)
    (hwf : WF s (bpre ++ ⟨B, S, u⟩ :: ⟨N, T, 0⟩ :: bpost) fl)
    (hc : Clean s (bpre ++ ⟨B, S, u⟩ :: ⟨N, T, 0⟩ :: bpost))
    (hu : u ≠ 0) (hfl : fl = fpre ++ N :: fpost)
    (hq : Quiet bpre (⟨B, S, 0⟩ :: ⟨N, T, 0⟩ :: bpost))
    (hf : (bpre ++ ⟨B, S, u⟩ :: ⟨N, T, 0⟩ :: bpost).length + fl.length + 3 ≤ fuel) :
    ∃ t, free fuel (B + HDR) s = some t ∧
      WF t (bpre ++ ⟨B, S + (T + HDR), 0⟩ :: bpost) (fpre ++ fpost ++ [B]) ∧
      Clean t (bpre ++ ⟨B, S + (T + HDR), 0⟩ :: bpost) ∧ FreeOut s t fl B := by
  obtain ⟨t, h1, h2, h3⟩ := free_merge_right_spec s _ bpre bpost fl fpre fpost B S u N T fuel
    hwf rfl hu (hc ⟨B, S, u⟩ (by simp) hu) hfl hq hf
  refine ⟨t, h1, h2, clean_free hwf hc h3 (fun b hb hu => ?_), h3⟩
  rcases used_mem_split hb hu with h | h
  · exact Or.inl h
  · exact Or.inr (List.mem_cons_of_mem _ h)

theorem free_left_clean (s : Heap) (bpre bpost : List Block) (fl : List Nat)
    (B S u P SP fuel : Nat)
    (hwf : WF s (bpre ++ ⟨P, SP, 0⟩ :: ⟨B, S, u⟩ :: bpost) fl)
    (hc : Clean s (bpre ++ ⟨P, SP, 0⟩ :: ⟨B, S, u⟩ :: bpost)) (hu : u ≠ 0)
    (hq : Quiet bpre (⟨P, SP, 0⟩ :: ⟨B, S, 0⟩ :: bpost))
    (hN : ∀ c, bpost.head? = some c → c.used ≠ 0)
    (hf : (bpre ++ ⟨P, SP, 0⟩ :: ⟨B, S, u⟩ :: bpost).length + 2 * fl.length + 4 ≤ fuel) :
    ∃ t, free fuel (B + HDR) s = some t ∧
      WF t (bpre ++ ⟨P, SP + (S + HDR), 0⟩ :: bpost) fl ∧
      Clean t (bpre ++ ⟨P, SP + (S + HDR), 0⟩ :: bpost) ∧ FreeOut s t fl B := by
  obtain ⟨t, h1, h2, h3⟩ := free_merge_left_spec s _ bpre bpost fl B S u P SP fuel
    hwf rfl hu hq hN hf
  have e : bpre ++ ⟨P, SP, 0⟩ :: ⟨B, S, u⟩ :: bpost =
      (bpre ++ [⟨P, SP, 0⟩]) ++ ⟨B, S, u⟩ :: bpost := by simp
  rw [e] at hwf hc
  refine ⟨t, h1, h2, clean_free hwf hc h3 (fun b hb hu => ?_), h3⟩
  rcases used_mem_split hb hu with h | h
  · exact Or.inl (List.mem_append_left _ h)
  · exact Or.inr h

theorem free_both_clean (s : Heap) (bpre bpost : List Block) (fl fpre fpost : List Nat)
    (B S u P SP N T fuel : Nat)
    (hwf : WF s (bpre ++ ⟨P, SP, 0⟩ :: ⟨B, S, u⟩ :: ⟨N, T, 0⟩ :: bpost) fl)
    (hc : Clean s (bpre ++ ⟨P, SP, 0⟩ :: ⟨B, S, u⟩ :: ⟨N, T, 0⟩ :: bpost)) (hu : u ≠ 0)
    (hfl : fl = fpre ++ N :: fpost)
    (hq : Quiet bpre (⟨P, SP, 0⟩ :: ⟨B, S, 0⟩ :: ⟨N, T, 0⟩ :: bpost))
    (hf : (bpre ++ ⟨P, SP, 0⟩ :: ⟨B, S, u⟩ :: ⟨N, T, 0⟩ :: bpost).length + 2 * fl.length + 4
      ≤ fuel) :
    ∃ t, free fuel (B + HDR) s = some t ∧
      WF t (bpre ++ ⟨P, SP + (S + HDR) + (T + HDR), 0⟩ :: bpost) (fpre ++ fpost) ∧
      Clean t (bpre ++ ⟨P, SP + (S + HDR) + (T + HDR), 0⟩ :: bpost) ∧ FreeOut s t fl B := by
  obtain ⟨t, h1, h2, h3⟩ := free_merge_both_spec s _ bpre bpost fl fpre fpost B S u P SP N T
    fuel hwf rfl hu hfl hq hf
  have e : bpre ++ ⟨P, SP, 0⟩ :: ⟨B, S, u⟩ :: ⟨N, T, 0⟩ :: bpost =
      (bpre ++ [⟨P, SP, 0⟩]) ++ ⟨B, S, u⟩ :: ⟨N, T, 0⟩ :: bpost := by simp
  rw [e] at hwf hc
  refine ⟨t, h1, h2, clean_free hwf hc h3 (fun b hb hu => ?_), h3⟩
  rcases used_mem_split hb hu with h | h
  · exact Or.inl (List.mem_append_left _ h)
  · exact Or.inr (List.mem_cons_of_mem _ h)

theorem release_bcd (t : Heap) (b0 S fuel : Nat) (hwf : WF t (five_blocks b0 S) [])
    (hc : Clean t (five_blocks b0 S)) (hf : 13 ≤ fuel) :
    ∃ t', exec fuel [Call.free (b0 + (S + HDR) + HDR), Call.free (b0 + 2 * (S + HDR) + HDR),
        Call.free (b0 + 3 * (S + HDR) + HDR)] t = some ([], t') ∧
      WF t' (merged_blocks b0 S) [b0 + (S + HDR)] ∧
      t'.brk = t.brk ∧ t'.brk_max = t.brk_max ∧ t'.start_of_heap = t.start_of_heap := by
  have hH : HDR = 32 := rfl
  obtain ⟨t1, e1, w1, c1, o1⟩ := free_empty_clean t [⟨b0, S, 1⟩]
    [⟨b0 + 2 * (S + HDR), S, 1⟩, ⟨b0 + 3 * (S + HDR), S, 1⟩, ⟨b0 + 4 * (S + HDR), S, 1⟩]
    (b0 + (S + HDR)) S 1 fuel hwf hc (by decide)
  obtain ⟨t2, e2, w2, c2, o2⟩ := free_left_clean t1 [⟨b0, S, 1⟩]
    [⟨b0 + 3 * (S + HDR), S, 1⟩, ⟨b0 + 4 * (S + HDR), S, 1⟩] [b0 + (S + HDR)]
    (b0 + 2 * (S + HDR)) S 1 (b0 + (S + HDR)) S fuel w1 c1 (by decide)
    (by simp [Quiet]) (by simp) (by simp; omega)
  obtain ⟨t3, e3, w3, c3, o3⟩ := free_left_clean t2 [⟨b0, S, 1⟩]
    [⟨b0 + 4 * (S + HDR), S, 1⟩] [b0 + (S + HDR)]
    (b0 + 3 * (S + HDR)) S 1 (b0 + (S + HDR)) (S + (S + HDR)) fuel w2 c2 (by decide)
    (by simp [Quiet]) (by simp) (by simp; omega)
  have hsz : S + (S + HDR) + (S + HDR) = 3 * S + 2 * HDR := by omega
  rw [hsz] at w3
  refine ⟨t3, ?_, w3, by rw [o3.brk_eq, o2.brk_eq, o1.brk_eq],
    by rw [o3.max_eq, o2.max_eq, o1.max_eq], by rw [o3.start_eq, o2.start_eq, o1.start_eq]⟩
  simp only [exec, e1, e2, e3]

theorem release_bdc (t : Heap) (b0 S fuel : Nat) (hwf : WF t (five_blocks b0 S) [])
    (hc : Clean t (five_blocks b0 S)) (hf : 13 ≤ fuel) :
    ∃ t', exec fuel [Call.free (b0 + (S + HDR) + HDR), Call.free (b0 + 3 * (S + HDR) + HDR), Call.free (b0 + 2 * (S + HDR) + HDR)] t = some ([], t') ∧
      WF t' (merged_blocks b0 S) [b0 + (S + HDR)] ∧
      t'.brk = t.brk ∧ t'.brk_max = t.brk_max ∧ t'.start_of_heap = t.start_of_heap := by
  have hH : HDR = 32 := rfl
  obtain ⟨t1, e1, w1, c1, o1⟩ := free_empty_clean t [⟨b0, S, 1⟩]
    [⟨b0 + 2 * (S + HDR), S, 1⟩, ⟨b0 + 3 * (S + HDR), S, 1⟩, ⟨b0 + 4 * (S + HDR), S, 1⟩]
    (b0 + (S + HDR)) S 1 fuel hwf hc (by decide)
  obtain ⟨t2, e2, w2, c2, o2⟩ := free_plain_clean t1
    [⟨b0, S, 1⟩, ⟨b0 + (S + HDR), S, 0⟩, ⟨b0 + 2 * (S + HDR), S, 1⟩] [⟨b0 + 4 * (S + HDR), S, 1⟩] [b0 + (S + HDR)]
    (b0 + 3 * (S + HDR)) S 1 fuel w1 c1 (by decide) (by simp) (by simp [Quiet]) (by simp; omega)
  obtain ⟨t3, e3, w3, c3, o3⟩ := free_both_clean t2 [⟨b0, S, 1⟩]
    [⟨b0 + 4 * (S + HDR), S, 1⟩] [b0 + (S + HDR), b0 + 3 * (S + HDR)] [b0 + (S + HDR)] []
    (b0 + 2 * (S + HDR)) S 1 (b0 + (S + HDR)) S (b0 + 3 * (S + HDR)) S fuel w2 c2 (by decide) rfl
    (by simp [Quiet]) (by simp; omega)
  have hsz : S + (S + HDR) + (S + HDR) = 3 * S + 2 * HDR := by omega
  rw [hsz] at w3
  refine ⟨t3, ?_, w3, by rw [o3.brk_eq, o2.brk_eq, o1.brk_eq],
    by rw [o3.max_eq, o2.max_eq, o1.max_eq], by rw [o3.start_eq, o2.start_eq, o1.start_eq]⟩
  simp only [exec, e1, e2, e3]

theorem release_cbd (t : Heap) (b0 S fuel : Nat) (hwf : WF t (five_blocks b0 S) [])
    (hc : Clean t (five_blocks b0 S)) (hf : 13 ≤ fuel) :
    ∃ t', exec fuel [Call.free (b0 + 2 * (S + HDR) + HDR), Call.free (b0 + (S + HDR) + HDR), Call.free (b0 + 3 * (S + HDR) + HDR)] t = some ([], t') ∧
      WF t' (merged_blocks b0 S) [b0 + (S + HDR)] ∧
      t'.brk = t.brk ∧ t'.brk_max = t.brk_max ∧ t'.start_of_heap = t.start_of_heap := by
  have hH : HDR = 32 := rfl
  obtain ⟨t1, e1, w1, c1, o1⟩ := free_empty_clean t [⟨b0, S, 1⟩, ⟨b0 + (S + HDR), S, 1⟩]
    [⟨b0 + 3 * (S + HDR), S, 1⟩, ⟨b0 + 4 * (S + HDR), S, 1⟩]
    (b0 + 2 * (S + HDR)) S 1 fuel hwf hc (by decide)
  obtain ⟨t2, e2, w2, c2, o2⟩ := free_right_clean t1 [⟨b0, S, 1⟩]
    [⟨b0 + 3 * (S + HDR), S, 1⟩, ⟨b0 + 4 * (S + HDR), S, 1⟩] [b0 + 2 * (S + HDR)] [] []
    (b0 + (S + HDR)) S 1 (b0 + 2 * (S + HDR)) S fuel w1 c1 (by decide) rfl (by simp [Quiet]) (by simp; omega)
  obtain ⟨t3, e3, w3, c3, o3⟩ := free_left_clean t2 [⟨b0, S, 1⟩]
    [⟨b0 + 4 * (S + HDR), S, 1⟩] [b0 + (S + HDR)]
    (b0 + 3 * (S + HDR)) S 1 (b0 + (S + HDR)) (S + (S + HDR)) fuel w2 c2 (by decide)
    (by simp [Quiet]) (by simp) (by simp; omega)
  have hsz : S + (S + HDR) + (S + HDR) = 3 * S + 2 * HDR := by omega
  rw [hsz] at w3
  refine ⟨t3, ?_, w3, by rw [o3.brk_eq, o2.brk_eq, o1.brk_eq],
    by rw [o3.max_eq, o2.max_eq, o1.max_eq], by rw [o3.start_eq, o2.start_eq, o1.start_eq]⟩
  simp only [exec, e1, e2, e3]

theorem release_cdb (t : Heap) (b0 S fuel : Nat) (hwf : WF t (five_blocks b0 S) [])
    (hc : Clean t (five_blocks b0 S)) (hf : 13 ≤ fuel) :
    ∃ t', exec fuel [Call.free (b0 + 2 * (S + HDR) + HDR), Call.free (b0 + 3 * (S + HDR) + HDR), Call.free (b0 + (S + HDR) + HDR)] t = some ([], t') ∧
      WF t' (merged_blocks b0 S) [b0 + (S + HDR)] ∧
      t'.brk = t.brk ∧ t'.brk_max = t.brk_max ∧ t'.start_of_heap = t.start_of_heap := by
  have hH : HDR = 32 := rfl
  obtain ⟨t1, e1, w1, c1, o1⟩ := free_empty_clean t [⟨b0, S, 1⟩, ⟨b0 + (S + HDR), S, 1⟩]
    [⟨b0 + 3 * (S + HDR), S, 1⟩, ⟨b0 + 4 * (S + HDR), S, 1⟩]
    (b0 + 2 * (S + HDR)) S 1 fuel hwf hc (by decide)
  obtain ⟨t2, e2, w2, c2, o2⟩ := free_left_clean t1 [⟨b0, S, 1⟩, ⟨b0 + (S + HDR), S, 1⟩]
    [⟨b0 + 4 * (S + HDR), S, 1⟩] [b0 + 2 * (S + HDR)]
    (b0 + 3 * (S + HDR)) S 1 (b0 + 2 * (S + HDR)) S fuel w1 c1 (by decide)
    (by simp [Quiet]) (by simp) (by simp; omega)
  obtain ⟨t3, e3, w3, c3, o3⟩ := free_right_clean t2 [⟨b0, S, 1⟩]
    [⟨b0 + 4 * (S + HDR), S, 1⟩] [b0 + 2 * (S + HDR)] [] []
    (b0 + (S + HDR)) S 1 (b0 + 2 * (S + HDR)) (S + (S + HDR)) fuel w2 c2 (by decide) rfl
    (by simp [Quiet]) (by simp; omega)
  have hsz : S + (S + (S + HDR) + HDR) = 3 * S + 2 * HDR := by omega
  rw [hsz] at w3
  refine ⟨t3, ?_, w3, by rw [o3.brk_eq, o2.brk_eq, o1.brk_eq],
    by rw [o3.max_eq, o2.max_eq, o1.max_eq], by rw [o3.start_eq, o2.start_eq, o1.start_eq]⟩
  simp only [exec, e1, e2, e3]

theorem release_dbc (t : Heap) (b0 S fuel : Nat) (hwf : WF t (five_blocks b0 S) [])
    (hc : Clean t (five_blocks b0 S)) (hf : 13 ≤ fuel) :
    ∃ t', exec fuel [Call.free (b0 + 3 * (S + HDR) + HDR), Call.free (b0 + (S + HDR) + HDR), Call.free (b0 + 2 * (S + HDR) + HDR)] t = some ([], t') ∧
      WF t' (merged_blocks b0 S) [b0 + (S + HDR)] ∧
      t'.brk = t.brk ∧ t'.brk_max = t.brk_max ∧ t'.start_of_heap = t.start_of_heap := by
  have hH : HDR = 32 := rfl
  obtain ⟨t1, e1, w1, c1, o1⟩ := free_empty_clean t [⟨b0, S, 1⟩, ⟨b0 + (S + HDR), S, 1⟩, ⟨b0 + 2 * (S + HDR), S, 1⟩]
    [⟨b0 + 4 * (S + HDR), S, 1⟩]
    (b0 + 3 * (S + HDR)) S 1 fuel hwf hc (by decide)
  obtain ⟨t2, e2, w2, c2, o2⟩ := free_plain_clean t1
    [⟨b0, S, 1⟩] [⟨b0 + 2 * (S + HDR), S, 1⟩, ⟨b0 + 3 * (S + HDR), S, 0⟩, ⟨b0 + 4 * (S + HDR), S, 1⟩] [b0 + 3 * (S + HDR)]
    (b0 + (S + HDR)) S 1 fuel w1 c1 (by decide) (by simp) (by simp [Quiet]) (by simp; omega)
  obtain ⟨t3, e3, w3, c3, o3⟩ := free_both_clean t2 [⟨b0, S, 1⟩]
    [⟨b0 + 4 * (S + HDR), S, 1⟩] [b0 + 3 * (S + HDR), b0 + (S + HDR)] [] [b0 + (S + HDR)]
    (b0 + 2 * (S + HDR)) S 1 (b0 + (S + HDR)) S (b0 + 3 * (S + HDR)) S fuel w2 c2 (by decide) rfl
    (by simp [Quiet]) (by simp; omega)
  have hsz : S + (S + HDR) + (S + HDR) = 3 * S + 2 * HDR := by omega
  rw [hsz] at w3
  refine ⟨t3, ?_, w3, by rw [o3.brk_eq, o2.brk_eq, o1.brk_eq],
    by rw [o3.max_eq, o2.max_eq, o1.max_eq], by rw [o3.start_eq, o2.start_eq, o1.start_eq]⟩
  simp only [exec, e1, e2, e3]

theorem release_dcb (t : Heap) (b0 S fuel : Nat) (hwf : WF t (five_blocks b0 S) [])
    (hc : Clean t (five_blocks b0 S)) (hf : 13 ≤ fuel) :
    ∃ t', exec fuel [Call.free (b0 + 3 * (S + HDR) + HDR), Call.free (b0 + 2 * (S + HDR) + HDR), Call.free (b0 + (S + HDR) + HDR)] t = some ([], t') ∧
      WF t' (merged_blocks b0 S) [b0 + (S + HDR)] ∧
      t'.brk = t.brk ∧ t'.brk_max = t.brk_max ∧ t'.start_of_heap = t.start_of_heap := by
  have hH : HDR = 32 := rfl
  obtain ⟨t1, e1, w1, c1, o1⟩ := free_empty_clean t [⟨b0, S, 1⟩, ⟨b0 + (S + HDR), S, 1⟩, ⟨b0 + 2 * (S + HDR), S, 1⟩]
    [⟨b0 + 4 * (S + HDR), S, 1⟩]
    (b0 + 3 * (S + HDR)) S 1 fuel hwf hc (by decide)
  obtain ⟨t2, e2, w2, c2, o2⟩ := free_right_clean t1 [⟨b0, S, 1⟩, ⟨b0 + (S + HDR), S, 1⟩]
    [⟨b0 + 4 * (S + HDR), S, 1⟩] [b0 + 3 * (S + HDR)] [] []
    (b0 + 2 * (S + HDR)) S 1 (b0 + 3 * (S + HDR)) S fuel w1 c1 (by decide) rfl (by simp [Quiet]) (by simp; omega)
  obtain ⟨t3, e3, w3, c3, o3⟩ := free_right_clean t2 [⟨b0, S, 1⟩]
    [⟨b0 + 4 * (S + HDR), S, 1⟩] [b0 + 2 * (S + HDR)] [] []
    (b0 + (S + HDR)) S 1 (b0 + 2 * (S + HDR)) (S + (S + HDR)) fuel w2 c2 (by decide) rfl
    (by simp [Quiet]) (by simp; omega)
  have hsz : S + (S + (S + HDR) + HDR) = 3 * S + 2 * HDR := by omega
  rw [hsz] at w3
  refine ⟨t3, ?_, w3, by rw [o3.brk_eq, o2.brk_eq, o1.brk_eq],
    by rw [o3.max_eq, o2.max_eq, o1.max_eq], by rw [o3.start_eq, o2.start_eq, o1.start_eq]⟩
  simp only [exec, e1, e2, e3]

theorem exec_append (fuel : Nat) (cs2 : List Call) :
    ∀ (cs1 : List Call) (s : Heap) (r1 : List Nat) (t : Heap) (r2 : List Nat) (t2 : Heap),
      exec fuel cs1 s = some (r1, t) → exec fuel cs2 t = some (r2, t2) →
      exec fuel (cs1 ++ cs2) s = some (r1 ++ r2, t2) := by
  intro cs1
  induction cs1 with
  | nil =>
    intro s r1 t r2 t2 h1 h2
    simp only [exec, Option.some.injEq, Prod.mk.injEq] at h1
    obtain ⟨rfl, rfl⟩ := h1
    simpa using h2
  | cons c cs ih =>
    intro s r1 t r2 t2 h1 h2
    cases c with
    | malloc n =>
      simp only [exec, List.cons_append] at h1 ⊢
      cases hm : malloc fuel n s with
      | none => rw [hm] at h1; cases h1
      | some pt =>
        obtain ⟨p, u⟩ := pt
        rw [hm] at h1
        simp only at h1 ⊢
        cases hx : exec fuel cs u with
        | none => rw [hx] at h1; cases h1
        | some q =>
          obtain ⟨q1, q2⟩ := q
          rw [hx] at h1
          simp only [Option.map, Option.some.injEq, Prod.mk.injEq] at h1
          obtain ⟨rfl, rfl⟩ := h1
          have e := ih u q1 q2 r2 t2 hx h2
          change Option.map _ (exec fuel (cs ++ cs2) u) = _
          rw [e]
          rfl
    | calloc k n =>
      simp only [exec, List.cons_append] at h1 ⊢
      cases hm : calloc fuel k n s with
      | none => rw [hm] at h1; cases h1
      | some pt =>
        obtain ⟨p, u⟩ := pt
        rw [hm] at h1
        simp only at h1 ⊢
        cases hx : exec fuel cs u with
        | none => rw [hx] at h1; cases h1
        | some q =>
          obtain ⟨q1, q2⟩ := q
          rw [hx] at h1
          simp only [Option.map, Option.some.injEq, Prod.mk.injEq] at h1
          obtain ⟨rfl, rfl⟩ := h1
          have e := ih u q1 q2 r2 t2 hx h2
          change Option.map _ (exec fuel (cs ++ cs2) u) = _
          rw [e]
          rfl
    | realloc k n =>
      simp only [exec, List.cons_append] at h1 ⊢
      cases hm : realloc fuel k n s with
      | none => rw [hm] at h1; cases h1
      | some pt =>
        obtain ⟨p, u⟩ := pt
        rw [hm] at h1
        simp only at h1 ⊢
        cases hx : exec fuel cs u with
        | none => rw [hx] at h1; cases h1
        | some q =>
          obtain ⟨q1, q2⟩ := q
          rw [hx] at h1
          simp only [Option.map, Option.some.injEq, Prod.mk.injEq] at h1
          obtain ⟨rfl, rfl⟩ := h1
          have e := ih u q1 q2 r2 t2 hx h2
          change Option.map _ (exec fuel (cs ++ cs2) u) = _
          rw [e]
          rfl
    | free p =>
      simp only [exec, List.cons_append] at h1 ⊢
      cases hm : free fuel p s with
      | none => rw [hm] at h1; cases h1
      | some u =>
        rw [hm] at h1
        simp only at h1 ⊢
        exact ih u r1 t r2 t2 h1 h2

theorem run_of_exec (fuel : Nat) :
    ∀ (cs : List Call) (s : Heap) (ps : List Nat) (t : Heap) (live rets : List Nat),
      exec fuel cs s = some (ps, t) →
      ∃ r, run fuel cs ⟨s, live, rets⟩ = some r ∧ r.heap = t ∧ r.rets = ps.reverse ++ rets := by
  intro cs
  induction cs with
  | nil =>
    intro s ps t live rets h
    simp only [exec, Option.some.injEq, Prod.mk.injEq] at h
    obtain ⟨rfl, rfl⟩ := h
    exact ⟨_, rfl, rfl, rfl⟩
  | cons c cs ih =>
    intro s ps t live rets h
    cases c with
    | malloc n =>
      simp only [exec] at h
      cases hm : malloc fuel n s with
      | none => rw [hm] at h; cases h
      | some pt =>
        obtain ⟨p, u⟩ := pt
        rw [hm] at h
        simp only at h
        cases hx : exec fuel cs u with
        | none => rw [hx] at h; cases h
        | some q =>
          obtain ⟨q1, q2⟩ := q
          rw [hx] at h
          simp only [Option.map, Option.some.injEq, Prod.mk.injEq] at h
          obtain ⟨rfl, rfl⟩ := h
          obtain ⟨r, h1, h2, h3⟩ := ih u q1 q2 (p :: live) (p :: rets) hx
          refine ⟨r, ?_, h2, by rw [h3]; simp⟩
          simp only [run, step, hm]
          exact h1
    | calloc k n =>
      simp only [exec] at h
      cases hm : calloc fuel k n s with
      | none => rw [hm] at h; cases h
      | some pt =>
        obtain ⟨p, u⟩ := pt
        rw [hm] at h
        simp only at h
        cases hx : exec fuel cs u with
        | none => rw [hx] at h; cases h
        | some q =>
          obtain ⟨q1, q2⟩ := q
          rw [hx] at h
          simp only [Option.map, Option.some.injEq, Prod.mk.injEq] at h
          obtain ⟨rfl, rfl⟩ := h
          obtain ⟨r, h1, h2, h3⟩ := ih u q1 q2 (p :: live) (p :: rets) hx
          refine ⟨r, ?_, h2, by rw [h3]; simp⟩
          simp only [run, step, hm]
          exact h1
    | realloc k n =>
      simp only [exec] at h
      cases hm : realloc fuel k n s with
      | none => rw [hm] at h; cases h
      | some pt =>
        obtain ⟨p, u⟩ := pt
        rw [hm] at h
        simp only at h
        cases hx : exec fuel cs u with
        | none => rw [hx] at h; cases h
        | some q =>
          obtain ⟨q1, q2⟩ := q
          rw [hx] at h
          simp only [Option.map, Option.some.injEq, Prod.mk.injEq] at h
          obtain ⟨rfl, rfl⟩ := h
          by_cases hp : p = k
          · obtain ⟨r, h1, h2, h3⟩ := ih u q1 q2 live (p :: rets) hx
            refine ⟨r, ?_, h2, by rw [h3]; simp⟩
            simp only [run, step, hm, if_pos hp]
            exact h1
          · by_cases hz : p = 0
            · obtain ⟨r, h1, h2, h3⟩ := ih u q1 q2 (live.erase k) (p :: rets) hx
              refine ⟨r, ?_, h2, by rw [h3]; simp⟩
              simp only [run, step, hm, if_neg hp, if_pos hz]
              exact h1
            · obtain ⟨r, h1, h2, h3⟩ := ih u q1 q2 (p :: live.erase k) (p :: rets) hx
              refine ⟨r, ?_, h2, by rw [h3]; simp⟩
              simp only [run, step, hm, if_neg hp, if_neg hz]
              exact h1
    | free p =>
      simp only [exec] at h
      cases hm : free fuel p s with
      | none => rw [hm] at h; cases h
      | some u =>
        rw [hm] at h
        simp only at h
        obtain ⟨r, h1, h2, h3⟩ := ih u ps t (live.erase p) rets h
        refine ⟨r, ?_, h2, h3⟩
        simp only [run, step, hm]
        exact h1

theorem free_list_of_seg (m : Mem) :
    ∀ (l : List Nat) (p fuel : Nat), Seg m p l 0 → l.length + 1 ≤ fuel →
      free_list_from m fuel p = some l := by
  intro l
  induction l with
  | nil =>
    intro p fuel h hf
    have e : p = 0 := h
    subst e
    obtain ⟨k, rfl⟩ := Nat.exists_eq_add_of_le hf
    rw [show ([] : List Nat).length + 1 + k = k + 1 by simp; omega]
    simp [free_list_from]
  | cons x xs ih =>
    intro p fuel h hf
    obtain ⟨e, hx, hs⟩ := h
    subst e
    obtain ⟨k, rfl⟩ := Nat.exists_eq_add_of_le hf
    rw [show (p :: xs).length + 1 + k = (xs.length + 1 + k) + 1 by simp; omega]
    rw [free_list_from, if_neg hx, ih _ _ hs (by omega)]

theorem WF.free_list_eq {s : Heap} {bs : List Block} {fl : List Nat} (h : WF s bs fl)
    {fuel : Nat} (hf : fl.length + 1 ≤ fuel) : free_list fuel s = some fl :=
  free_list_of_seg s.mem fl s.head_free fuel h.dlist.1 hf

theorem merged_state (m0 : Mem) (b0 M S fuel : Nat) (h0 : 0 < b0)
    (hM : b0 + 5 * (S + HDR) ≤ M) (hW : M < WORD) (hf : 13 ≤ fuel) (frees : List Call)
    (hfr : frees ∈ release_orders (b0 + (S + HDR) + HDR) (b0 + 2 * (S + HDR) + HDR)
      (b0 + 3 * (S + HDR) + HDR)) :
    ∃ t, exec fuel (five_calls S ++ frees) (init_heap m0 b0 M) =
        some ([b0 + HDR, b0 + (S + HDR) + HDR, b0 + 2 * (S + HDR) + HDR,
          b0 + 3 * (S + HDR) + HDR, b0 + 4 * (S + HDR) + HDR], t) ∧
      WF t (merged_blocks b0 S) [b0 + (S + HDR)] ∧
      t.brk = b0 + 5 * (S + HDR) ∧ t.brk_max = M ∧ t.start_of_heap = b0 := by
  obtain ⟨t, e, w, c, k, x, st⟩ := five_mallocs m0 b0 M S fuel h0 hM hW (by omega)
  have key : ∀ t', exec fuel frees t = some ([], t') ∧
      WF t' (merged_blocks b0 S) [b0 + (S + HDR)] ∧
      t'.brk = t.brk ∧ t'.brk_max = t.brk_max ∧ t'.start_of_heap = t.start_of_heap →
      ∃ t, exec fuel (five_calls S ++ frees) (init_heap m0 b0 M) =
        some ([b0 + HDR, b0 + (S + HDR) + HDR, b0 + 2 * (S + HDR) + HDR,
          b0 + 3 * (S + HDR) + HDR, b0 + 4 * (S + HDR) + HDR], t) ∧
      WF t (merged_blocks b0 S) [b0 + (S + HDR)] ∧
      t.brk = b0 + 5 * (S + HDR) ∧ t.brk_max = M ∧ t.start_of_heap = b0 := by
    rintro t' ⟨e', w', k', x', st'⟩
    refine ⟨t', ?_, w', by rw [k', k], by rw [x', x], by rw [st', st]⟩
    have := exec_append fuel frees _ _ _ _ _ _ e e'
    simpa using this
  simp only [release_orders, List.mem_cons, List.mem_singleton, List.not_mem_nil,
    or_false] at hfr
  rcases hfr with rfl | rfl | rfl | rfl | rfl | rfl
  · obtain ⟨t', h⟩ := release_bcd t b0 S fuel w c hf; exact key t' h
  · obtain ⟨t', h⟩ := release_bdc t b0 S fuel w c hf; exact key t' h
  · obtain ⟨t', h⟩ := release_cbd t b0 S fuel w c hf; exact key t' h
  · obtain ⟨t', h⟩ := release_cdb t b0 S fuel w c hf; exact key t' h
  · obtain ⟨t', h⟩ := release_dbc t b0 S fuel w c hf; exact key t' h
  · obtain ⟨t', h⟩ := release_dcb t b0 S fuel w c hf; exact key t' h

theorem Known.heap_start_eq {s : Heap} {bs : List Block} {fl : List Nat} {b0 B M : Nat}
    (h : Known s bs fl b0 B M) : heap_start s = b0 := by
  obtain ⟨-, h2, h3, -, -⟩ := h
  unfold heap_start; rw [h2, if_neg (by omega)]

/-- A request served by splitting the only free block. -/
theorem split_step (s : Heap) (bpre bpost : List Block) (x S n b0 B M fuel : Nat)
    (h : Known s (bpre ++ ⟨x, S, 0⟩ :: bpost) [x] b0 B M) (hS : n + HDR < S)
    (hf : 2 ≤ fuel) :
    ∃ t, malloc fuel n s = some (x + HDR, t) ∧
      Known t ((bpre ++ [⟨x, n, 1⟩]) ++ ⟨x + (n + HDR), S - (n + HDR), 0⟩ :: bpost)
        [x + (n + HDR)] b0 B M := by
  obtain ⟨t, m1, w1, k1, st1, x1, -, -, -⟩ :=
    malloc_split_spec s _ _ n fuel [] x [] bpre S bpost h.1 rfl rfl (by simp) hS
      (by simpa using hf)
  have a1 : x + HDR + n = x + (n + HDR) := by omega
  have a2 : S - n - HDR = S - (n + HDR) := by omega
  rw [a1, a2] at w1
  refine ⟨t, m1, ?_, by rw [st1, h.heap_start_eq], h.2.2.1, by rw [k1, h.2.2.2.1],
    by rw [x1, h.2.2.2.2]⟩
  simpa using w1

/-- A request that the only free block is too small for: the break is raised. -/
theorem grow_over_step (s : Heap) (bpre bpost : List Block) (x S n b0 B M fuel : Nat)
    (h : Known s (bpre ++ ⟨x, S, 0⟩ :: bpost) [x] b0 B M) (hS : S < n)
    (hext : B + (n + HDR) ≤ M) (hn : n < 2 ^ 63) (hf : 2 ≤ fuel) :
    ∃ t, malloc fuel n s = some (B + HDR, t) ∧
      Known t (bpre ++ ⟨x, S, 0⟩ :: (bpost ++ [⟨B, n, 1⟩])) [x] b0 (B + (n + HDR)) M := by
  have hH : HDR = 32 := rfl
  have hWd : WORD = 2 ^ 64 := rfl
  obtain ⟨hw, hst, hb0, hB, hMx⟩ := h
  have hsz : (s.mem x).size = S := (hw.hdrs ⟨x, S, 0⟩ (by simp)).1
  obtain ⟨t, m1, w1, k1, st1, x1, -, -, -, -, -⟩ :=
    malloc_grow_spec s _ _ n fuel hw
      (by
        intro y hy
        have e : y = x := by simpa using hy
        subst e
        unfold Fits
        rw [hsz, add64_of_lt (by omega)]
        omega)
      (by rw [hB, hMx]; omega) hn (by simpa using hf)
  rw [hB] at m1 w1 k1
  refine ⟨t, m1, ⟨?_, ?_, hb0, by omega, by rw [x1, hMx]⟩⟩
  · simpa using w1
  · rw [st1]; unfold heap_start; rw [hst, if_neg (by omega)]

theorem sample_setup_state (m0 : Mem) (b0 M fuel : Nat) (h0 : 0 < b0)
    (hM : b0 + 5 * (0x10000 + HDR) ≤ M) (hW : M < WORD) (hf : 13 ≤ fuel) :
    ∃ r, run fuel (sample_setup b0) ⟨init_heap m0 b0 M, [], []⟩ = some r ∧
      r.rets = [b0 + 4 * (0x10000 + HDR) + HDR, b0 + 3 * (0x10000 + HDR) + HDR,
          b0 + 2 * (0x10000 + HDR) + HDR, b0 + (0x10000 + HDR) + HDR, b0 + HDR] ∧
      Known r.heap ([⟨b0, 0x10000, 1⟩] ++ ⟨b0 + (0x10000 + HDR), 3 * 0x10000 + 2 * HDR, 0⟩ ::
          [⟨b0 + 4 * (0x10000 + HDR), 0x10000, 1⟩])
        [b0 + (0x10000 + HDR)] b0 (b0 + 5 * (0x10000 + HDR)) M := by
  obtain ⟨t, e, w, k, x, st⟩ := merged_state m0 b0 M 0x10000 fuel h0 hM hW hf _
    (by simp [release_orders] : [Call.free (b0 + 3 * (0x10000 + HDR) + HDR),
      Call.free (b0 + 2 * (0x10000 + HDR) + HDR), Call.free (b0 + (0x10000 + HDR) + HDR)] ∈ _)
  obtain ⟨r, h1, h2, h3⟩ := run_of_exec fuel _ _ _ _ [] [] e
  subst h2
  exact ⟨r, h1, by rw [h3]; simp, w, st, h0, k, x⟩

/-- First fit reached along the list: when the entries before `x` do not fit and `x` does,
`malloc` returns without moving the break.  Only the links up to `x` are used. -/
theorem malloc_reuse (s : Heap) (pre : List Nat) (x r n fuel : Nat)
    (hseg : Seg s.mem s.head_free (pre ++ [x]) r) (hx : x ∉ pre)
    (hnew : n + HDR < (s.mem x).size → x + HDR + n ∉ pre)
    (hpre : ∀ y ∈ pre, ¬ Fits s.mem n y)
    (hfit : (s.mem x).size = n ∨ n + HDR < (s.mem x).size)
    (hb : x + HDR + (s.mem x).size < WORD) (hf : 2 * pre.length + 2 ≤ fuel) :
    ∃ q t, malloc fuel n s = some (q, t) ∧ t.brk = s.brk ∧ q = x + HDR ∧
      (t.mem x).is_used = 1 ∧ (t.mem x).size = n := by
  have hH : HDR = 32 := rfl
  obtain ⟨mid, hsegpre, hsegx⟩ := seg_append.1 hseg
  have hmid : mid = x := hsegx.1
  subst hmid
  have hx0 : mid ≠ 0 := hsegx.2.1
  obtain ⟨k, rfl⟩ := Nat.exists_eq_add_of_le hf
  have hskip := malloc_loop_skip { s with start_of_heap := heap_start s } n pre s.head_free mid
    (pre.length + 1 + k + 1) hsegpre hpre
  rw [malloc_unfold, show 2 * pre.length + 2 + k = (pre.length + 1 + k + 1) + pre.length by omega,
    hskip, malloc_loop, if_neg hx0]
  by_cases hsz : (s.mem mid).size = n
  · rw [if_pos hsz]
    obtain ⟨t1, ht1, hfr⟩ := delete_node_reach { s with start_of_heap := heap_start s }
      pre mid r (pre.length + 1 + k) hseg hx (by omega)
    rw [ht1]
    refine ⟨_, _, rfl, hfr.brk_eq, add64_of_lt (by omega), ?_, ?_⟩
    · show (set_is_used t1.mem mid 1 mid).is_used = 1
      simp [set_is_used]
    · show (set_is_used t1.mem mid 1 mid).size = n
      rw [set_is_used_size, hfr.size_eq]
      exact hsz
  · have hS : n + HDR < (s.mem mid).size := by
      rcases hfit with h | h
      · exact absurd h hsz
      · exact h
    have hadd : add64 n HDR = n + HDR := add64_of_lt (by omega)
    have hfit2 : (s.mem mid).size > add64 n HDR := by rw [hadd]; exact hS
    rw [if_neg hsz, if_pos hfit2,
      split_block_eq { s with start_of_heap := heap_start s } _ _ _ _ rfl hb hS]
    have hseg' : Seg (split_mem s.mem mid n (mid + HDR + n) ((s.mem mid).size - n - HDR))
        s.head_free (pre ++ [mid])
        ((split_mem s.mem mid n (mid + HDR + n) ((s.mem mid).size - n - HDR)) mid).next := by
      refine seg_append.2 ⟨mid, Seg.congr (fun a ha => ?_) hsegpre, rfl, hx0, rfl⟩
      have hne : a ≠ mid + HDR + n := fun e => hnew hS (e ▸ ha)
      simp [split_mem, hne]
    obtain ⟨t1, ht1, hfr⟩ := edit_node_reach
      { s with start_of_heap := heap_start s,
               mem := split_mem s.mem mid n (mid + HDR + n) ((s.mem mid).size - n - HDR) }
      pre mid (mid + HDR + n) _ (pre.length + 1 + k) hseg' hx (by omega)
    rw [ht1]
    have h3 : mid ≠ mid + HDR + n := by omega
    refine ⟨_, _, rfl, hfr.brk_eq, rfl, ?_, ?_⟩
    · rw [hfr.used_eq]
      show (split_mem s.mem mid n (mid + HDR + n) ((s.mem mid).size - n - HDR) mid).is_used = 1
      simp [split_mem, h3]
    · rw [hfr.size_eq]
      show (split_mem s.mem mid n (mid + HDR + n) ((s.mem mid).size - n - HDR) mid).size = n
      simp [split_mem, h3]

theorem layout_free_addrs_nodup {bs : List Block} {a e : Nat} (h : Layout bs a e) :
    (free_addrs bs).Nodup := by
  induction bs generalizing a with
  | nil => exact List.nodup_nil
  | cons b bs ih =>
    have h2 : Layout bs (a + HDR + b.size) e := h.2
    have h1 : b.addr = a := h.1
    have hrest := ih h2
    by_cases hu : b.used = 0
    · have e1 : free_addrs (b :: bs) = b.addr :: free_addrs bs := by
        simp [free_addrs, hu]
      rw [e1]
      refine List.nodup_cons.2 ⟨fun hm => ?_, hrest⟩
      obtain ⟨c, hc, hca, -⟩ := mem_free_addrs.1 hm
      have := Layout.mem_bounds h2 c hc
      have hH : HDR = 32 := rfl
      omega
    · rw [free_addrs_cons_used b bs hu]; exact hrest

/-- In a state whose blocks tile the heap and whose free list (up to the link `r` of its
last entry) holds the free blocks, a request that some free block fits is served without
moving the break. -/
theorem reuse_of_fit (t : Heap) (bs : List Block) (fl : List Nat) (r n fuel : Nat)
    (hpos : 0 < heap_start t) (hlt : t.brk < WORD) (hn : n + HDR < WORD)
    (hlay : Layout bs (heap_start t) t.brk) (hag : Agree t.mem bs)
    (hseg : Seg t.mem t.head_free fl r) (hperm : fl.Perm (free_addrs bs))
    (hfit : ∃ y ∈ fl, (t.mem y).size = n ∨ n + HDR < (t.mem y).size)
    (hf : 2 * fl.length + 2 ≤ fuel) :
    ∃ q t', malloc fuel n t = some (q, t') ∧ t'.brk = t.brk ∧ Reused t t' q n := by
  have hH : HDR = 32 := rfl
  have hblock : ∀ y ∈ fl, ∃ b ∈ bs, b.addr = y ∧ (t.mem y).size = b.size := by
    intro y hy
    obtain ⟨b, hb, hba, -⟩ := mem_free_addrs.1 (hperm.mem_iff.1 hy)
    exact ⟨b, hb, hba, by rw [← hba]; exact (hag b hb).1⟩
  have hfree : ∀ y ∈ fl, (t.mem y).is_used = 0 := by
    intro y hy
    obtain ⟨b, hb, hba, hbu⟩ := mem_free_addrs.1 (hperm.mem_iff.1 hy)
    rw [← hba, (hag b hb).2]; exact hbu
  have hin : ∀ y ∈ fl, heap_start t ≤ y ∧ y + HDR + (t.mem y).size ≤ t.brk := by
    intro y hy
    obtain ⟨b, hb, hba, hsz⟩ := hblock y hy
    have := Layout.mem_bounds hlay b hb
    rw [hsz, ← hba]; exact this
  have hbound : ∀ y ∈ fl, y + HDR + (t.mem y).size < WORD := by
    intro y hy
    obtain ⟨b, hb, hba, hsz⟩ := hblock y hy
    have := Layout.mem_bounds hlay b hb
    omega
  have hFits : ∀ y, Fits t.mem n y ↔ ((t.mem y).size = n ∨ n + HDR < (t.mem y).size) := by
    intro y
    unfold Fits
    rw [add64_of_lt hn]
  have hnd : fl.Nodup := hperm.nodup_iff.2 (layout_free_addrs_nodup hlay)
  rcases first_fit_split (Fits t.mem n) fl with hno | ⟨pre, x, post, hfl, hpre, hx⟩
  · obtain ⟨y, hy, hfy⟩ := hfit
    exact absurd ((hFits y).2 hfy) (hno y hy)
  · subst hfl
    have hxfl : x ∈ pre ++ x :: post := by simp
    have hseg2 : Seg t.mem t.head_free ((pre ++ [x]) ++ post) r := by simpa using hseg
    obtain ⟨mid, hseg3, -⟩ := seg_append.1 hseg2
    have hxpre : x ∉ pre := by
      have h1 := List.nodup_append.1 hnd
      exact fun h => h1.2.2 h (List.mem_cons_self _ _)
    have hlen : (pre ++ x :: post).length = pre.length + post.length + 1 := by simp; omega
    have hnew : n + HDR < (t.mem x).size → x + HDR + n ∉ pre := by
      intro hS hmem
      obtain ⟨b, hb, hba, hsz⟩ := hblock x hxfl
      obtain ⟨c, hc, hca, -⟩ :=
        hblock _ (List.mem_append_left _ hmem : x + HDR + n ∈ pre ++ x :: post)
      obtain ⟨l1, l2, rfl⟩ := List.append_of_mem hb
      have := layout_disjoint hlay (Nat.le_refl b.size) c hc
      omega
    obtain ⟨q, t', hm, hbrk, hq, hu, hs⟩ := malloc_reuse t pre x mid n fuel hseg3 hxpre hnew
      hpre ((hFits x).1 hx) (hbound x hxfl) (by omega)
    have hxin := hin x hxfl
    have hxfit := (hFits x).1 hx
    exact ⟨q, t', hm, hbrk, x, hq, hfree x hxfl, hu, hs, hxin.1, by omega⟩

theorem quiet_of_noadj (R : List Block) :
    ∀ l : List Block, NoAdjFree l →
      (∀ b, l.getLast? = some b → b.used = 0 → ∃ c, R.head? = some c ∧ c.used ≠ 0) →
      Quiet l R := by
  intro l
  induction l with
  | nil => intro _ _; trivial
  | cons b l ih =>
    intro hc hl
    cases l with
    | nil =>
      exact ⟨fun hb => by simpa using hl b (by simp) hb, trivial⟩
    | cons b' l' =>
      have hc' := List.chain'_cons.1 hc
      refine ⟨fun hb => ⟨b', by simp, fun hb' => hc'.1 ⟨hb, hb'⟩⟩, ih hc'.2 ?_⟩
      intro c hcl hcu
      exact hl c (by rw [List.getLast?_cons_cons]; exact hcl) hcu

theorem quiet_append (R l2 : List Block) :
    ∀ l1 : List Block, Quiet l1 (l2 ++ R) → Quiet l2 R → Quiet (l1 ++ l2) R := by
  intro l1
  induction l1 with
  | nil => intro _ h; exact h
  | cons b l ih =>
    intro h1 h2
    refine ⟨?_, ih h1.2 h2⟩
    have h := h1.1
    rw [← List.append_assoc] at h
    exact h

theorem Appended.brk_below {t : Heap} {bs : List Block} {fl1 : List Nat} {B r : Nat}
    (h : Appended t bs fl1 B r) : t.brk < WORD := Nat.lt_of_le_of_lt h.brk_le h.max_lt

theorem reuse_after_wf {t : Heap} {bs : List Block} {fl : List Nat} (n fuel y : Nat)
    (hwf : WF t bs fl) (hn : n + HDR < WORD) (hy : y ∈ fl)
    (hfit : (t.mem y).size = n ∨ n + HDR < (t.mem y).size) (hf : 2 * fl.length + 2 ≤ fuel) :
    ∃ q t', malloc fuel n t = some (q, t') ∧ t'.brk = t.brk ∧ Reused t t' q n :=
  reuse_of_fit t bs fl 0 n fuel hwf.start_pos hwf.brk_lt hn hwf.layout hwf.hdrs hwf.dlist.1
    hwf.free_perm ⟨y, hy, hfit⟩ hf

theorem reuse_after_appended {t : Heap} {bs : List Block} {fl1 : List Nat} {B r : Nat}
    (n fuel : Nat) (h : Appended t bs fl1 B r) (hn : n + HDR < WORD)
    (hfit : (t.mem B).size = n ∨ n + HDR < (t.mem B).size)
    (hf : 2 * fl1.length + 4 ≤ fuel) :
    ∃ q t', malloc fuel n t = some (q, t') ∧ t'.brk = t.brk ∧ Reused t t' q n :=
  reuse_of_fit t bs (fl1 ++ [B]) r n fuel h.start_pos h.brk_below hn h.layout h.hdrs h.seg
    h.free_perm ⟨B, by simp, hfit⟩ (by simp; omega)

theorem block_size_lt {s : Heap} {bpre bpost : List Block} {fl : List Nat} {B S u : Nat}
    (hwf : WF s (bpre ++ ⟨B, S, u⟩ :: bpost) fl) : S + HDR < WORD := by
  have h1 := hwf.block_bounds ⟨B, S, u⟩ (by simp)
  have h2 := hwf.brk_lt
  have h3 : 0 < B ∧ B + HDR + S ≤ s.brk := h1
  omega

theorem reuse_case_empty (s : Heap) (bpre bpost : List Block) (B S u fuel : Nat)
    (hwf : WF s (bpre ++ ⟨B, S, u⟩ :: bpost) []) (hu : u ≠ 0) (hf : 4 ≤ fuel) :
    ∃ s1 q s2, free fuel (B + HDR) s = some s1 ∧ malloc fuel S s1 = some (q, s2) ∧
      s1.brk = s.brk ∧ s2.brk = s.brk ∧ Reused s1 s2 q S := by
  obtain ⟨t, h1, h2, h3⟩ := free_empty_core s _ bpre bpost B S u fuel hwf rfl hu
  have hsz : (t.mem B).size = S := (h2.hdrs ⟨B, S, 0⟩ (by simp)).1
  obtain ⟨q, t', m1, m2, m3⟩ := reuse_after_appended S fuel h2 (block_size_lt hwf) (Or.inl hsz)
    (by simpa using hf)
  exact ⟨t, q, t', h1, m1, h3.brk_eq, by rw [m2, h3.brk_eq], m3⟩

theorem reuse_case_plain (s : Heap) (bpre bpost : List Block) (fl : List Nat)
    (B S u fuel : Nat)
    (hwf : WF s (bpre ++ ⟨B, S, u⟩ :: bpost) fl) (hu : u ≠ 0) (hfl : fl ≠ [])
    (hq : Quiet (bpre ++ ⟨B, S, 0⟩ :: bpost) [])
    (hf : (bpre ++ ⟨B, S, u⟩ :: bpost).length + 2 * fl.length + 6 ≤ fuel) :
    ∃ s1 q s2, free fuel (B + HDR) s = some s1 ∧ malloc fuel S s1 = some (q, s2) ∧
      s1.brk = s.brk ∧ s2.brk = s.brk ∧ Reused s1 s2 q S := by
  obtain ⟨t, h1, h2, h3⟩ := free_plain_core s _ bpre bpost fl B S u fuel hwf rfl hu hfl hq
    (by omega)
  have hsz : (t.mem B).size = S := (h2.hdrs ⟨B, S, 0⟩ (by simp)).1
  obtain ⟨q, t', m1, m2, m3⟩ := reuse_after_appended S fuel h2 (block_size_lt hwf) (Or.inl hsz)
    (by omega)
  exact ⟨t, q, t', h1, m1, h3.brk_eq, by rw [m2, h3.brk_eq], m3⟩

theorem reuse_case_right (s : Heap) (bpre bpost : List Block) (fl : List Nat)
    (B S u N T fuel : Nat)
    (hwf : WF s (bpre ++ ⟨B, S, u⟩ :: ⟨N, T, 0⟩ :: bpost) fl) (hu : u ≠ 0) (hT : T ≠ 0)
    (hq : Quiet bpre (⟨B, S, 0⟩ :: ⟨N, T, 0⟩ :: bpost))
    (hf : (bpre ++ ⟨B, S, u⟩ :: ⟨N, T, 0⟩ :: bpost).length + 2 * fl.length + 6 ≤ fuel) :
    ∃ s1 q s2, free fuel (B + HDR) s = some s1 ∧ malloc fuel S s1 = some (q, s2) ∧
      s1.brk = s.brk ∧ s2.brk = s.brk ∧ Reused s1 s2 q S := by
  have hNfl : N ∈ fl := (hwf.free_iff N).2 ⟨⟨N, T, 0⟩, by simp, rfl, rfl⟩
  obtain ⟨fpre, fpost, hfl⟩ := List.append_of_mem hNfl
  have hlen : fl.length = fpre.length + fpost.length + 1 := by rw [hfl]; simp; omega
  obtain ⟨t, h1, h2, h3⟩ := free_merge_right_core s _ bpre bpost fl fpre fpost B S u N T fuel
    hwf rfl hu hfl hq (by omega)
  have hsz : (t.mem B).size = S + (T + HDR) := (h2.hdrs ⟨B, S + (T + HDR), 0⟩ (by simp)).1
  obtain ⟨q, t', m1, m2, m3⟩ := reuse_after_appended S fuel h2 (block_size_lt hwf)
    (Or.inr (by rw [hsz]; omega)) (by simp; omega)
  exact ⟨t, q, t', h1, m1, h3.brk_eq, by rw [m2, h3.brk_eq], m3⟩

theorem reuse_case_left (s : Heap) (bpre bpost : List Block) (fl : List Nat)
    (B S u P SP fuel : Nat)
    (hwf : WF s (bpre ++ ⟨P, SP, 0⟩ :: ⟨B, S, u⟩ :: bpost) fl) (hu : u ≠ 0) (hSP : SP ≠ 0)
    (hq : Quiet bpre (⟨P, SP, 0⟩ :: ⟨B, S, 0⟩ :: bpost))
    (hN : ∀ c, bpost.head? = some c → c.used ≠ 0)
    (hf : (bpre ++ ⟨P, SP, 0⟩ :: ⟨B, S, u⟩ :: bpost).length + 2 * fl.length + 6 ≤ fuel) :
    ∃ s1 q s2, free fuel (B + HDR) s = some s1 ∧ malloc fuel S s1 = some (q, s2) ∧
      s1.brk = s.brk ∧ s2.brk = s.brk ∧ Reused s1 s2 q S := by
  obtain ⟨t, h1, h2, h3⟩ := free_merge_left_spec s _ bpre bpost fl B S u P SP fuel
    hwf rfl hu hq hN (by omega)
  have hsz : (t.mem P).size = SP + (S + HDR) := (h2.hdrs ⟨P, SP + (S + HDR), 0⟩ (by simp)).1
  have hPfl : P ∈ fl := (h2.free_iff P).2 ⟨⟨P, SP + (S + HDR), 0⟩, by simp, rfl, rfl⟩
  have hb : S + HDR < WORD := by
    have e : bpre ++ ⟨P, SP, 0⟩ :: ⟨B, S, u⟩ :: bpost =
      (bpre ++ [⟨P, SP, 0⟩]) ++ ⟨B, S, u⟩ :: bpost := by simp
    rw [e] at hwf
    exact block_size_lt hwf
  obtain ⟨q, t', m1, m2, m3⟩ := reuse_after_wf S fuel P h2 hb hPfl
    (Or.inr (by rw [hsz]; omega)) (by omega)
  exact ⟨t, q, t', h1, m1, h3.brk_eq, by rw [m2, h3.brk_eq], m3⟩

theorem reuse_case_both (s : Heap) (bpre bpost : List Block) (fl : List Nat)
    (B S u P SP N T fuel : Nat)
    (hwf : WF s (bpre ++ ⟨P, SP, 0⟩ :: ⟨B, S, u⟩ :: ⟨N, T, 0⟩ :: bpost) fl) (hu : u ≠ 0)
    (hq : Quiet bpre (⟨P, SP, 0⟩ :: ⟨B, S, 0⟩ :: ⟨N, T, 0⟩ :: bpost))
    (hf : (bpre ++ ⟨P, SP, 0⟩ :: ⟨B, S, u⟩ :: ⟨N, T, 0⟩ :: bpost).length + 2 * fl.length + 6
      ≤ fuel) :
    ∃ s1 q s2, free fuel (B + HDR) s = some s1 ∧ malloc fuel S s1 = some (q, s2) ∧
      s1.brk = s.brk ∧ s2.brk = s.brk ∧ Reused s1 s2 q S := by
  have hH : HDR = 32 := rfl
  have hNfl : N ∈ fl := (hwf.free_iff N).2 ⟨⟨N, T, 0⟩, by simp, rfl, rfl⟩
  obtain ⟨fpre, fpost, hfl⟩ := List.append_of_mem hNfl
  have hlen : fl.length = fpre.length + fpost.length + 1 := by rw [hfl]; simp; omega
  obtain ⟨t, h1, h2, h3⟩ := free_merge_both_spec s _ bpre bpost fl fpre fpost B S u P SP N T
    fuel hwf rfl hu hfl hq (by omega)
  have hsz : (t.mem P).size = SP + (S + HDR) + (T + HDR) :=
    (h2.hdrs ⟨P, SP + (S + HDR) + (T + HDR), 0⟩ (by simp)).1
  have hPfl : P ∈ fpre ++ fpost :=
    (h2.free_iff P).2 ⟨⟨P, SP + (S + HDR) + (T + HDR), 0⟩, by simp, rfl, rfl⟩
  have hb : S + HDR < WORD := by
    have e : bpre ++ ⟨P, SP, 0⟩ :: ⟨B, S, u⟩ :: ⟨N, T, 0⟩ :: bpost =
      (bpre ++ [⟨P, SP, 0⟩]) ++ ⟨B, S, u⟩ :: ⟨N, T, 0⟩ :: bpost := by simp
    rw [e] at hwf
    exact block_size_lt hwf
  obtain ⟨q, t', m1, m2, m3⟩ := reuse_after_wf S fuel P h2 hb hPfl
    (Or.inr (by rw [hsz]; omega)) (by simp; omega)
  exact ⟨t, q, t', h1, m1, h3.brk_eq, by rw [m2, h3.brk_eq], m3⟩

theorem sample_wf : WF sample_heap ([⟨4096, 64, 0⟩] ++ ⟨4192, 16, 1⟩ :: []) [4096] where
  start_pos := by decide
  brk_le := by decide
  max_lt := by decide
  layout := ⟨rfl, rfl, rfl⟩
  hdrs := by
    intro b hb
    simp only [List.cons_append, List.nil_append, List.mem_cons, List.mem_singleton,
      List.not_mem_nil, or_false] at hb
    rcases hb with rfl | rfl
    · exact ⟨rfl, rfl⟩
    · exact ⟨rfl, rfl⟩
  dlist := ⟨⟨rfl, by decide, rfl⟩, ⟨rfl, trivial⟩⟩
  tail := rfl
  free_perm := List.Perm.refl _

/-! ## What `free` and `malloc` do in every state, and `realloc` -/

theorem Frame.scanned {s t : Heap} (h : Frame s t) : Scanned s t :=
  ⟨h.start_eq, h.brk_eq, h.min_eq, h.max_eq, h.bytes_eq, h.used_eq, fun a _ => h.size_eq a⟩

theorem Scanned.chain {s t u : Heap} (h1 : Scanned s t) (h2 : Scanned t u) : Scanned s u :=
  ⟨h2.start_eq.trans h1.start_eq, h2.brk_eq.trans h1.brk_eq, h2.min_eq.trans h1.min_eq,
    h2.max_eq.trans h1.max_eq, h2.bytes_eq.trans h1.bytes_eq,
    fun a => (h2.used_eq a).trans (h1.used_eq a),
    fun a ha => (h2.size_used a (by rw [h1.used_eq a]; exact ha)).trans (h1.size_used a ha)⟩

theorem delete_node_loop_frame (x : Nat) :
    ∀ (fuel curr prev : Nat) (s : Heap) (r : Nat) (t : Heap),
      delete_node_loop x fuel curr prev s = some (r, t) → Frame s t := by
  intro fuel
  induction fuel with
  | zero => intro curr prev s r t h; simp [delete_node_loop] at h
  | succ n ih =>
    intro curr prev s r t h
    rw [delete_node_loop] at h
    by_cases h0 : curr = 0
    · rw [if_pos h0] at h
      simp only [Option.some.injEq, Prod.mk.injEq] at h
      rw [← h.2]; exact Frame.refl s
    · rw [if_neg h0] at h
      by_cases hx : curr = x
      · rw [if_pos hx] at h
        by_cases ht : s.head_free = s.tail_free
        · rw [if_pos ht] at h
          simp only [Option.some.injEq, Prod.mk.injEq] at h
          rw [← h.2]
          constructor <;> intros <;> simp
        · rw [if_neg ht] at h
          simp only [Option.some.injEq, Prod.mk.injEq] at h
          rw [← h.2]
          constructor <;> intros <;> (repeat' split) <;> simp
      · rw [if_neg hx] at h
        exact ih _ _ _ _ _ h

theorem delete_node_frame (fuel x : Nat) (s : Heap) (r : Nat) (t : Heap)
    (h : delete_node fuel x s = some (r, t)) : Frame s t := by
  unfold delete_node at h
  by_cases h0 : s.head_free = 0
  · rw [if_pos h0] at h
    simp only [Option.some.injEq, Prod.mk.injEq] at h
    rw [← h.2]; exact Frame.refl s
  · rw [if_neg h0] at h
    exact delete_node_loop_frame x _ _ _ _ _ _ h

theorem merge_scanned (s : Heap) (P v : Nat) (hP : (s.mem P).is_used = 0) :
    Scanned s { s with mem := set_size s.mem P v } := by
  refine ⟨rfl, rfl, rfl, rfl, rfl, fun a => by simp, fun a ha => ?_⟩
  have hne : a ≠ P := fun e => ha (e ▸ hP)
  simp [hne]

theorem third_block_loop_scanned (P third : Nat) :
    ∀ (fuel p : Nat) (s t : Heap), (s.mem P).is_used = 0 →
      third_block_loop P third fuel p s = some t → Scanned s t := by
  intro fuel
  induction fuel with
  | zero => intro p s t _ h; simp [third_block_loop] at h
  | succ n ih =>
    intro p s t hP h
    rw [third_block_loop] at h
    by_cases h0 : p = 0
    · rw [if_pos h0] at h
      simp only [Option.some.injEq] at h
      rw [← h]; exact (Frame.refl s).scanned
    · rw [if_neg h0] at h
      by_cases hx : p = third
      · rw [if_pos hx] at h
        simp only [] at h
        generalize hd : delete_node n third _ = o at h
        cases o with
        | none => simp at h
        | some rt =>
          obtain ⟨r, s2⟩ := rt
          simp only [] at h
          have hfr := delete_node_frame _ _ _ _ _ hd
          have h1 := merge_scanned s P (add64 (s.mem P).size (add64 (s.mem third).size HDR)) hP
          have hP2 : (s2.mem P).is_used = 0 := by
            rw [hfr.used_eq, h1.used_eq]; exact hP
          exact (h1.chain hfr.scanned).chain (ih _ _ _ hP2 h)
      · rw [if_neg hx] at h
        exact ih _ _ _ hP h

theorem coalesce_loop_scanned (block e : Nat) :
    ∀ (fuel cur : Nat) (s : Heap) (r : Nat) (t : Heap),
      coalesce_loop block e fuel cur s = some (r, t) → Scanned s t := by
  intro fuel
  induction fuel with
  | zero => intro cur s r t h; simp [coalesce_loop] at h
  | succ n ih =>
    intro cur s r t h
    rw [coalesce_loop] at h
    by_cases h0 : cur < e
    · rw [if_neg (not_not.2 h0)] at h
      simp only [] at h
      by_cases h1 : add64 (add64 cur (s.mem cur).size) HDR > e
      · rw [if_pos h1] at h
        simp only [Option.some.injEq, Prod.mk.injEq] at h
        rw [← h.2]; exact (Frame.refl s).scanned
      · rw [if_neg h1] at h
        by_cases hm : (s.mem cur).is_used = 0 ∧
            (s.mem (add64 (add64 cur (s.mem cur).size) HDR)).is_used = 0
        · rw [if_pos hm] at h
          have hs1 := merge_scanned s cur (add64 (s.mem cur).size
            (add64 (s.mem (add64 (add64 cur (s.mem cur).size) HDR)).size HDR)) hm.1
          by_cases hb : cur = block
          · rw [if_pos hb] at h
            exact hs1.chain (delete_node_frame _ _ _ _ _ h).scanned
          · rw [if_neg hb] at h
            by_cases hc : add64 (add64 cur (s.mem cur).size) HDR = block
            · rw [if_pos hc] at h
              generalize hth : third_block_loop cur _ n _ _ = o at h
              cases o with
              | none => simp at h
              | some s2 =>
                simp only [] at h
                have hP : ((set_size s.mem cur (add64 (s.mem cur).size
                    (add64 (s.mem (add64 (add64 cur (s.mem cur).size) HDR)).size HDR))) cur).is_used
                    = 0 := by simp [hm.1]
                have h2 := third_block_loop_scanned cur _ n _ _ s2 hP hth
                exact (hs1.chain h2).chain (delete_node_frame _ _ _ _ _ h).scanned
            · rw [if_neg hc] at h
              exact hs1.chain (ih _ _ _ _ h)
        · rw [if_neg hm] at h
          exact ih _ _ _ _ h
    · rw [if_pos h0] at h
      simp only [Option.some.injEq, Prod.mk.injEq] at h
      rw [← h.2]; exact (Frame.refl s).scanned

/-- Whatever the state, a `free` that returns has left the payload bytes, the break and the
flags alone (but for the flag it clears), and has changed no size of a block in use. -/
theorem free_scanned (fuel p : Nat) (s t : Heap) (h : free fuel p s = some t) :
    Scanned { s with mem := set_is_used s.mem (sub64 p HDR) 0 } t := by
  unfold free at h
  simp only [] at h
  by_cases h0 : s.head_free = 0
  · rw [if_pos h0] at h
    simp only [Option.some.injEq] at h
    rw [← h]; exact (add_node_frame _ _).scanned
  · rw [if_neg h0] at h
    unfold coalesce_blocks at h
    rw [if_neg h0] at h
    generalize hc : coalesce_loop _ _ fuel _ _ = o at h
    cases o with
    | none => simp at h
    | some rt =>
      obtain ⟨r, s2⟩ := rt
      simp only [] at h
      have h1 := coalesce_loop_scanned _ _ _ _ _ _ _ hc
      by_cases hr : r = 0
      · rw [if_pos hr] at h
        simp only [Option.some.injEq] at h
        rw [← h]; exact h1.chain (add_node_frame _ _).scanned
      · rw [if_neg hr] at h
        simp only [Option.some.injEq] at h
        rw [← h]; exact h1

theorem sbrk_bytes (k : Nat) (s : Heap) : (sbrk k s).2.bytes = s.bytes := by
  unfold sbrk
  repeat' split
  all_goals rfl

theorem edit_node_loop_bytes (b nb : Nat) :
    ∀ (fuel curr : Nat) (s t : Heap), edit_node_loop b nb fuel curr s = some t →
      t.bytes = s.bytes := by
  intro fuel
  induction fuel with
  | zero => intro curr s t h; simp [edit_node_loop] at h
  | succ n ih =>
    intro curr s t h
    rw [edit_node_loop] at h
    by_cases h0 : curr = 0
    · rw [if_pos h0] at h
      simp only [Option.some.injEq] at h
      rw [← h]
    · rw [if_neg h0] at h
      by_cases hx : curr = b
      · rw [if_pos hx] at h
        simp only [Option.some.injEq] at h
        rw [← h]
        repeat' split
        all_goals rfl
      · rw [if_neg hx] at h
        exact ih _ _ _ h

theorem malloc_loop_bytes (size : Nat) :
    ∀ (fuel curr : Nat) (s : Heap) (q : Nat) (t : Heap),
      malloc_loop size fuel curr s = some (q, t) → t.bytes = s.bytes := by
  intro fuel
  induction fuel with
  | zero => intro curr s q t h; simp [malloc_loop] at h
  | succ n ih =>
    intro curr s q t h
    rw [malloc_loop] at h
    by_cases h0 : curr = 0
    · rw [if_pos h0] at h
      simp only [Option.some.injEq] at h
      have e : t = (malloc_grow size s).2 := by rw [h]
      rw [e]
      unfold malloc_grow
      simp only [sbrk_bytes]
    · rw [if_neg h0] at h
      by_cases h1 : (s.mem curr).size = size
      · rw [if_pos h1] at h
        generalize hd : delete_node n curr s = o at h
        cases o with
        | none => simp at h
        | some rt =>
          obtain ⟨r, s1⟩ := rt
          simp only [Option.some.injEq, Prod.mk.injEq] at h
          rw [← h.2]
          exact (delete_node_frame _ _ _ _ _ hd).bytes_eq
      · rw [if_neg h1] at h
        by_cases h2 : (s.mem curr).size > add64 size HDR
        · rw [if_pos h2] at h
          unfold split_block at h
          simp only [] at h
          generalize he : edit_node n curr _ _ = o at h
          cases o with
          | none => simp at h
          | some s1 =>
            simp only [Option.some.injEq, Prod.mk.injEq] at h
            rw [← h.2]
            unfold edit_node at he
            have hb := edit_node_loop_bytes _ _ _ _ _ _ he
            exact hb
        · rw [if_neg h2] at h
          exact ih _ _ _ _ h

/-- Whatever the state, `malloc` writes no payload byte. -/
theorem malloc_bytes (fuel n : Nat) (s : Heap) (q : Nat) (t : Heap)
    (h : malloc fuel n s = some (q, t)) : t.bytes = s.bytes := by
  unfold malloc at h
  simp only [] at h
  have := malloc_loop_bytes _ _ _ _ _ _ h
  rw [this]
  split <;> rfl

/-- On a `NULL`-terminated free list `delete_node` returns, whatever it is asked to
delete, and leaves a `NULL`-terminated list that is not longer. -/
theorem delete_node_returns (s : Heap) (fl : List Nat) (x fuel : Nat)
    (hd : IsDList s.mem s.head_free fl) (ht : s.tail_free = fl.getLastD 0)
    (hf : fl.length + 1 ≤ fuel) :
    ∃ r t, delete_node fuel x s = some (r, t) ∧ ∃ fl', IsDList t.mem t.head_free fl' ∧
      t.tail_free = fl'.getLastD 0 ∧ fl'.length ≤ fl.length := by
  by_cases hx : x ∈ fl
  · obtain ⟨pre, post, rfl⟩ := List.append_of_mem hx
    obtain ⟨t, h1, h2⟩ := delete_node_found s pre x post fuel hd ht (by simp at hf; omega)
    exact ⟨0, t, h1, pre ++ post, h2.dlist, h2.tail, by simp⟩
  · exact ⟨1, s, delete_node_absent s x fl fuel hd.1 hx hf, fl, hd, ht, Nat.le_refl _⟩

theorem third_block_loop_returns (s : Heap) (P third : Nat) (fl : List Nat) (fuel : Nat)
    (hd : IsDList s.mem s.head_free fl) (ht : s.tail_free = fl.getLastD 0)
    (hf : 2 * fl.length + 2 ≤ fuel) :
    ∃ t, third_block_loop P third fuel s.head_free s = some t ∧
      ∃ fl', IsDList t.mem t.head_free fl' ∧ t.tail_free = fl'.getLastD 0 ∧
        fl'.length ≤ fl.length := by
  by_cases hx : third ∈ fl
  · obtain ⟨pre, post, rfl⟩ := List.append_of_mem hx
    obtain ⟨t, h1, h2⟩ := third_block_loop_found s P pre third post fuel hd ht hf
    exact ⟨t, h1, pre ++ post, h2.dlist, h2.tail, by simp⟩
  · exact ⟨s, third_block_loop_absent s P third fl s.head_free fuel hd.1 hx (by omega),
      fl, hd, ht, Nat.le_refl _⟩

/-- The address scan of `coalesce_blocks` returns when the headers from `cur` on tile the
heap up to the break and the free list is `NULL`-terminated. -/
theorem coalesce_loop_returns (block E : Nat) (fl : List Nat) (hE : E < WORD) :
    ∀ (rest : List Block) (cur fuel : Nat) (s : Heap), Layout rest cur E →
      (∀ b ∈ rest, (s.mem b.addr).size = b.size) →
      IsDList s.mem s.head_free fl → s.tail_free = fl.getLastD 0 →
      rest.length + 2 * fl.length + 4 ≤ fuel →
      ∃ r t, coalesce_loop block E fuel cur s = some (r, t) := by
  intro rest
  induction rest with
  | nil =>
    intro cur fuel s hl _ _ _ hf
    have e : cur = E := hl
    subst e
    obtain ⟨k, rfl⟩ := Nat.exists_eq_add_of_le hf
    rw [show ([] : List Block).length + 2 * fl.length + 4 + k = (2 * fl.length + 3 + k) + 1 by
      simp; omega]
    exact ⟨0, s, coalesce_loop_end s block cur _⟩
  | cons b rest ih =>
    intro cur fuel s hl hsz hd ht hf
    have hl' : b.addr = cur ∧ Layout rest (cur + HDR + b.size) E := hl
    obtain ⟨hba, hl2⟩ := hl'
    have hH : HDR = 32 := rfl
    have hle := Layout.le hl2
    have hb := hsz b (List.mem_cons_self _ _)
    rw [hba] at hb
    have hlen : (b :: rest).length = rest.length + 1 := rfl
    rw [hlen] at hf
    obtain ⟨k, rfl⟩ := Nat.exists_eq_add_of_le hf
    have hnext : add64 (add64 cur (s.mem cur).size) HDR = cur + HDR + b.size := by
      rw [hb, add64_of_lt (a := cur) (by omega), add64_of_lt (by omega)]; omega
    rw [show rest.length + 1 + 2 * fl.length + 4 + k = (rest.length + 2 * fl.length + 4 + k) + 1
      by omega, coalesce_loop, if_neg (by omega)]
    simp only [hnext]
    rw [if_neg (by omega)]
    have hrest : ∀ c ∈ rest, c.addr ≠ cur := by
      intro c hc
      have := (Layout.mem_bounds hl2 c hc).1
      omega
    by_cases hm : (s.mem cur).is_used = 0 ∧ (s.mem (cur + HDR + b.size)).is_used = 0
    · rw [if_pos hm]
      have hd1 : IsDList (merge_into s cur (cur + HDR + b.size)).mem s.head_free fl :=
        ⟨Seg.congr (fun a _ => by simp [merge_into]) hd.1,
          PrevOK.congr_prev (fun a _ => by simp [merge_into]) hd.2⟩
      by_cases hcb : cur = block
      · rw [if_pos hcb]
        obtain ⟨r, t, h1, -⟩ := delete_node_returns (merge_into s cur (cur + HDR + b.size))
          fl (cur + HDR + b.size) (rest.length + 2 * fl.length + 4 + k) hd1 ht (by omega)
        exact ⟨r, t, h1⟩
      · rw [if_neg hcb]
        by_cases hnb : cur + HDR + b.size = block
        · rw [if_pos hnb]
          obtain ⟨t, h1, fl', h2, h3, h4⟩ := third_block_loop_returns
            (merge_into s cur (cur + HDR + b.size)) cur
            (add64 (add64 (cur + HDR + b.size)
              ((merge_into s cur (cur + HDR + b.size)).mem (cur + HDR + b.size)).size) HDR)
            fl (rest.length + 2 * fl.length + 4 + k) hd1 ht (by omega)
          obtain ⟨r, t2, h5, -⟩ := delete_node_returns t fl' (cur + HDR + b.size)
            (rest.length + 2 * fl.length + 4 + k) h2 h3 (by omega)
          refine ⟨r, t2, ?_⟩
          generalize hth : third_block_loop cur _ _ s.head_free _ = o
          have e : o = some t := hth.symm.trans h1
          subst e
          exact h5
        · rw [if_neg hnb]
          exact ih _ _ (merge_into s cur (cur + HDR + b.size)) hl2
            (fun c hc => by
              show (set_size s.mem cur _ c.addr).size = c.size
              rw [set_size_size, if_neg (hrest c hc)]
              exact hsz c (List.mem_cons_of_mem _ hc))
            hd1 ht (by omega)
    · rw [if_neg hm]
      exact ih _ _ _ hl2 (fun c hc => hsz c (List.mem_cons_of_mem _ hc)) hd ht (by omega)

/-- In a well-formed state `free` of the payload pointer of any block returns. -/
theorem free_returns (s : Heap) (bs : List Block) (fl : List Nat) (B S u fuel : Nat)
    (hwf : WF s bs fl) (hB : (⟨B, S, u⟩ : Block) ∈ bs)
    (hf : bs.length + 2 * fl.length + 5 ≤ fuel) :
    ∃ t, free fuel (B + HDR) s = some t := by
  have hH : HDR = 32 := rfl
  have hbd : 0 < B ∧ B + HDR + S ≤ s.brk := hwf.block_bounds _ hB
  have hlt := hwf.brk_lt
  rw [free_unfold s B fuel (by omega)]
  by_cases h0 : s.head_free = 0
  · rw [if_pos h0]; exact ⟨_, rfl⟩
  · rw [if_neg h0]
    have hne : bs ≠ [] := by intro e; rw [e] at hB; cases hB
    have hst := (layout_nonempty_start hwf hne).1
    have hlay : Layout bs s.start_of_heap s.brk := by rw [hst]; exact hwf.layout
    obtain ⟨r, t, h1⟩ := coalesce_loop_returns B s.brk fl hlt bs s.start_of_heap fuel
      (mark_free s B) hlay
      (fun b hb => by
        show (set_is_used s.mem B 0 b.addr).size = b.size
        rw [set_is_used_size]; exact (hwf.hdrs b hb).1)
      ⟨Seg.congr (fun a _ => by simp [mark_free]) hwf.dlist.1,
        PrevOK.congr_prev (fun a _ => by simp [mark_free]) hwf.dlist.2⟩
      hwf.tail (by omega)
    rw [h1]
    show ∃ t', (if r = 0 then some (add_node B t) else some t) = some t'
    by_cases hr : r = 0
    · rw [if_pos hr]; exact ⟨_, rfl⟩
    · rw [if_neg hr]; exact ⟨_, rfl⟩

/-- A request that can be served is served: `malloc` returns the payload of a used block of
the resulting well-formed state, and the blocks that were in use are still there, with
their headers untouched. -/
theorem malloc_serves (s : Heap) (bs : List Block) (fl : List Nat) (n fuel : Nat)
    (hwf : WF s bs fl) (hok : Servable s fl n) (hf : 2 * fl.length + 2 ≤ fuel) :
    ∃ p t bs' fl' b, malloc fuel n s = some (p, t) ∧ WF t bs' fl' ∧ Allocated t bs' b p n ∧
      (∀ c ∈ bs, c.used ≠ 0 → c ∈ bs' ∧ c.addr ≠ b.addr ∧ t.mem c.addr = s.mem c.addr) ∧
      bs'.length ≤ bs.length + 1 ∧ fl'.length ≤ fl.length := by
  have hH : HDR = 32 := rfl
  have hW : WORD = 2 ^ 64 := rfl
  have hsp := hwf.start_pos
  obtain ⟨hn, hok⟩ := hok
  have hstart : ∀ t : Heap, t.start_of_heap = heap_start s → t.start_of_heap = heap_start t := by
    intro t ht
    unfold heap_start
    rw [if_neg (by rw [ht]; omega)]
  rcases first_fit_split (Fits s.mem n) fl with hno | ⟨pre, x, post, hfl, hpre, hx⟩
  · rcases hok with ⟨y, hy, hfy⟩ | ⟨hn63, hext⟩
    · exact absurd hfy (hno y hy)
    · obtain ⟨t, ht, hwt, hb, hs, h5, h6, h7, h8, h9, h10⟩ :=
        malloc_grow_spec s bs fl n fuel hwf hno hext hn63 (by omega)
      refine ⟨_, t, _, fl, ⟨s.brk, n, 1⟩, ht, hwt,
        allocated_of_wf hwt rfl (Nat.le_refl _) (hstart t hs), ?_, by simp, Nat.le_refl _⟩
      intro c hc hcu
      have hne : c.addr ≠ s.brk := by have := hwf.block_bounds c hc; omega
      exact ⟨List.mem_append_left _ hc, hne, h10 _ hne⟩
  · have hxfl : x ∈ fl := by rw [hfl]; simp
    obtain ⟨bpre, S, bpost, hbs, hS⟩ := hwf.free_block hxfl
    have hlen : fl.length = pre.length + post.length + 1 := by rw [hfl]; simp; omega
    have hadd : add64 n HDR = n + HDR := add64_of_lt hn
    have hsort : (∀ c ∈ bpre, c.addr + HDR + c.size ≤ x) ∧
        (∀ c ∈ bpost, x + HDR + S ≤ c.addr) := Layout.sorted (hbs ▸ hwf.layout)
    have hused : ∀ c ∈ bs, c.used ≠ 0 → (c ∈ bpre ∨ c ∈ bpost) ∧ c.addr ∉ fl := by
      intro c hc hcu
      refine ⟨?_, hwf.used_not_free hc hcu⟩
      rw [hbs] at hc
      exact used_mem_split hc hcu
    by_cases hex : S = n
    · subst hex
      obtain ⟨t, ht, hwt, hb, hs, h5, h6, h7, -, -⟩ :=
        malloc_exact_spec s bs fl S fuel pre x post bpre bpost hwf hfl hbs hpre (by omega)
      refine ⟨_, t, _, _, ⟨x, S, 1⟩, ht, hwt,
        allocated_of_wf hwt rfl (Nat.le_refl _) (hstart t hs), ?_,
        by rw [hbs]; simp only [List.length_append, List.length_cons]; omega,
        by rw [hlen]; simp only [List.length_append, List.length_cons]; omega⟩
      intro c hc hcu
      obtain ⟨hc2, hc3⟩ := hused c hc hcu
      refine ⟨?_, ?_, h7 _ hc3⟩
      · rcases hc2 with h | h
        · exact List.mem_append_left _ h
        · exact List.mem_append_right _ (List.mem_cons_of_mem _ h)
      · show c.addr ≠ x
        rcases hc2 with h | h
        · have := hsort.1 c h; omega
        · have := hsort.2 c h; omega
    · have hgt : n + HDR < S := by
        unfold Fits at hx
        rw [hS, hadd] at hx
        rcases hx with hx | hx
        · exact absurd hx hex
        · exact hx
      obtain ⟨t, ht, hwt, hb, hs, h5, h6, h7, -⟩ :=
        malloc_split_spec s bs fl n fuel pre x post bpre S bpost hwf hfl hbs hpre hgt (by omega)
      refine ⟨_, t, _, _, ⟨x, n, 1⟩, ht, hwt,
        allocated_of_wf hwt rfl (Nat.le_refl _) (hstart t hs), ?_,
        by rw [hbs]; simp only [List.length_append, List.length_cons]; omega,
        by rw [hlen]; simp only [List.length_append, List.length_cons]; omega⟩
      intro c hc hcu
      obtain ⟨hc2, hc3⟩ := hused c hc hcu
      have hne : c.addr ≠ x ∧ c.addr ≠ x + HDR + n := by
        rcases hc2 with h | h
        · have := hsort.1 c h; omega
        · have := hsort.2 c h; omega
      refine ⟨?_, hne.1, h7 _ hc3 hne.2⟩
      rcases hc2 with h | h
      · exact List.mem_append_left _ h
      · exact List.mem_append_right _ (List.mem_cons_of_mem _ (List.mem_cons_of_mem _ h))

theorem sample_servable (n : Nat) (hn : n < 1000) : Servable sample_heap [4096] n := by
  refine ⟨?_, Or.inr ⟨?_, ?_⟩⟩
  · unfold HDR WORD; omega
  · omega
  · show 4240 + HDR + n ≤ 1048576
    unfold HDR; omega

/-! ## First fit, splitting and the growth path -/

theorem Seg.head_eq {m : Mem} {l : List Nat} {p : Nat} (h : Seg m p l 0) : p = l.headD 0 := by
  cases l with
  | nil => exact h
  | cons a l => exact h.1

theorem getLastD_of_ne_nil (l : List Nat) (a b : Nat) (h : l ≠ []) :
    l.getLastD a = l.getLastD b := by
  cases l with
  | nil => exact absurd rfl h
  | cons x xs => rw [getLastD_cons_eq, getLastD_cons_eq]

/-- What `split_block` does to a free-list entry `x` of size `S > n + sizeof(metadata_t)`. -/
theorem split_block_spec (s : Heap) (bs : List Block) (fl : List Nat) (n fuel : Nat)
    (pre : List Nat) (x : Nat) (post : List Nat) (bpre : List Block) (S : Nat)
    (bpost : List Block)
    (hwf : WF s bs fl) (hfl : fl = pre ++ x :: post)
    (hbs : bs = bpre ++ ⟨x, S, 0⟩ :: bpost) (hS : n + HDR < S)
    (hf : pre.length + 1 ≤ fuel) :
    ∃ t, split_block fuel x n s = some (x + HDR, t) ∧
      WF t (bpre ++ ⟨x, n, 1⟩ :: ⟨x + HDR + n, S - n - HDR, 0⟩ :: bpost)
        (pre ++ (x + HDR + n) :: post) ∧
      t.brk = s.brk ∧ t.start_of_heap = s.start_of_heap ∧
      t.brk_max = s.brk_max ∧ t.brk_min = s.brk_min ∧ t.bytes = s.bytes ∧
      (∀ a, a ∉ fl → a ≠ x + HDR + n → t.mem a = s.mem a) := by
  subst hfl
  have hxb : (⟨x, S, 0⟩ : Block) ∈ bs := by rw [hbs]; simp
  have hxsz : (s.mem x).size = S := (hwf.hdrs _ hxb).1
  have hxbd : 0 < x ∧ x + HDR + S ≤ s.brk := hwf.block_bounds _ hxb
  have hlt := hwf.brk_lt
  have hnd := hwf.nodup
  have hH : HDR = 32 := rfl
  have hx0 : x ≠ 0 := Nat.pos_iff_ne_zero.1 hxbd.1
  have hsort : (∀ c ∈ bpre, c.addr + HDR + c.size ≤ x) ∧
      (∀ c ∈ bpost, x + HDR + S ≤ c.addr) := Layout.sorted (hbs ▸ hwf.layout)
  have hnewbs : ∀ b ∈ bs, b.addr ≠ x + HDR + n := by
    intro b hb
    rw [hbs] at hb
    rcases List.mem_append.1 hb with hb | hb
    · have := hsort.1 b hb; omega
    · rcases List.mem_cons.1 hb with rfl | hb
      · show x ≠ x + HDR + n
        omega
      · have := hsort.2 b hb; omega
  have hnewfl : x + HDR + n ∉ pre ++ x :: post := by
    intro h
    obtain ⟨b, hb, h1, _⟩ := (hwf.free_iff _).1 h
    exact hnewbs b hb h1
  have hnew0 : x + HDR + n ≠ 0 := by omega
  have hdl : IsDList (split_mem s.mem x n (x + HDR + n) (S - n - HDR)) s.head_free
      (pre ++ x :: post) := by
    refine ⟨Seg.congr (fun a ha => ?_) hwf.dlist.1, PrevOK.congr_prev (fun a ha => ?_) hwf.dlist.2⟩ <;>
    · have hne : a ≠ x + HDR + n := fun e => hnewfl (e ▸ ha)
      simp [split_mem, hne]
  obtain ⟨t1, ht1, hed⟩ := edit_node_found
    { s with mem := split_mem s.mem x n (x + HDR + n) (S - n - HDR) }
    pre x post (x + HDR + n) fuel hdl hwf.tail hnewfl hnew0
    (by simp [split_mem]) (by simp [split_mem]) hf
  rw [split_block_eq s _ _ _ S hxsz (by omega) hS, ht1]
  have hfs : t1.start_of_heap = s.start_of_heap := hed.frame.start_eq
  have hst : heap_start t1 = heap_start s := by
    show (if t1.start_of_heap = 0 then t1.brk else t1.start_of_heap) = _
    rw [hfs, hed.frame.brk_eq]
    rfl
  have hsz : ∀ a, (t1.mem a).size
      = (split_mem s.mem x n (x + HDR + n) (S - n - HDR) a).size := hed.frame.size_eq
  have hus : ∀ a, (t1.mem a).is_used
      = (split_mem s.mem x n (x + HDR + n) (S - n - HDR) a).is_used := hed.frame.used_eq
  refine ⟨t1, rfl, ⟨?_, ?_, ?_, ?_, ?_, hed.dlist, hed.tail, ?_⟩, hed.frame.brk_eq, hfs,
    hed.frame.max_eq, hed.frame.min_eq, hed.frame.bytes_eq, ?_⟩
  · rw [hst]; exact hwf.start_pos
  · rw [hed.frame.brk_eq, hed.frame.max_eq]; exact hwf.brk_le
  · rw [hed.frame.max_eq]; exact hwf.max_lt
  · rw [hst, hed.frame.brk_eq]
    show Layout _ _ s.brk
    obtain ⟨m0, h1, h2⟩ := layout_append.1 (hbs ▸ hwf.layout)
    have h2' : x = m0 ∧ Layout bpost (m0 + HDR + S) s.brk := h2
    refine layout_append.2 ⟨m0, h1, h2'.1, ?_, ?_⟩
    · show x + HDR + n = m0 + HDR + n
      rw [h2'.1]
    · show Layout bpost (m0 + HDR + n + HDR + (S - n - HDR)) s.brk
      rw [show m0 + HDR + n + HDR + (S - n - HDR) = m0 + HDR + S by omega]
      exact h2'.2
  · intro b hb
    rw [hsz, hus]
    rcases List.mem_append.1 hb with hb | hb
    · have hb' : b ∈ bs := by rw [hbs]; exact List.mem_append_left _ hb
      have h1 : b.addr ≠ x := by have := hsort.1 b hb; omega
      have h2 : b.addr ≠ x + HDR + n := hnewbs b hb'
      have := hwf.hdrs b hb'
      simpa [split_mem, h1, h2] using this
    · rcases List.mem_cons.1 hb with rfl | hb
      · have h2 : x ≠ x + HDR + n := by omega
        simp [split_mem, h2]
      · rcases List.mem_cons.1 hb with rfl | hb
        · simp [split_mem]
        · have hb' : b ∈ bs := by rw [hbs]; simp [hb]
          have h1 : b.addr ≠ x := by have := hsort.2 b hb; omega
          have h2 : b.addr ≠ x + HDR + n := hnewbs b hb'
          have := hwf.hdrs b hb'
          simpa [split_mem, h1, h2] using this
  · have hp := hwf.free_perm
    rw [hbs, free_addrs_append, free_addrs_cons_free] at hp
    rw [free_addrs_append, free_addrs_cons_used _ _ (by simp), free_addrs_cons_free]
    exact perm_replace_middle _ hp
  · intro a ha hne
    have h1 : a ∉ pre := fun h => ha (List.mem_append_left _ h)
    have h2 : a ∉ post := fun h => ha (by simp [h])
    have h3 : a ≠ x := fun h => ha (by simp [h])
    rw [hed.outside a h1 h2 hne]
    show split_mem s.mem x n (x + HDR + n) (S - n - HDR) a = s.mem a
    simp [split_mem, set_prev, set_next, set_is_used, set_size, hne, h3]

theorem two_free_wf :
    WF two_free_heap ([⟨4096, 200, 0⟩, ⟨4328, 8, 1⟩] ++ ⟨4368, 64, 0⟩ :: [⟨4464, 8, 1⟩])
      [4096, 4368] where
  start_pos := by decide
  brk_le := by decide
  max_lt := by decide
  layout := ⟨rfl, rfl, rfl, rfl, rfl⟩
  hdrs := by
    intro b hb
    simp only [List.cons_append, List.nil_append, List.mem_cons, List.mem_singleton,
      List.not_mem_nil, or_false] at hb
    rcases hb with rfl | rfl | rfl | rfl
    · exact ⟨rfl, rfl⟩
    · exact ⟨rfl, rfl⟩
    · exact ⟨rfl, rfl⟩
    · exact ⟨rfl, rfl⟩
  dlist := ⟨⟨rfl, by decide, rfl, by decide, rfl⟩, ⟨rfl, rfl, trivial⟩⟩
  tail := rfl
  free_perm := List.Perm.refl _

theorem mem_of_mem_middle {l1 l2 : List Block} {c b : Block} (hb : b ∈ l1 ++ c :: l2)
    (hne : b.addr ≠ c.addr) : b ∈ l1 ∨ b ∈ l2 := by
  rcases List.mem_append.1 hb with h | h
  · exact Or.inl h
  · rcases List.mem_cons.1 h with rfl | h
    · exact absurd rfl hne
    · exact Or.inr h

/-- A free-list entry other than `x` keeps its size and flag when the block list changes
only at `x`. -/
theorem WF.entry_kept {s t : Heap} {fl fl' : List Nat} {bpre bpost mid mid' : List Block}
    {y : Nat} (hwf : WF s (bpre ++ mid ++ bpost) fl) (hwt : WF t (bpre ++ mid' ++ bpost) fl')
    (hy : y ∈ fl) (hmid : ∀ b ∈ mid, b.addr ≠ y) :
    (t.mem y).size = (s.mem y).size ∧ (t.mem y).is_used = (s.mem y).is_used := by
  obtain ⟨b, hb, hba, _⟩ := (hwf.free_iff y).1 hy
  have hb' : b ∈ bpre ∨ b ∈ bpost := by
    rcases List.mem_append.1 hb with h | h
    · rcases List.mem_append.1 h with h | h
      · exact Or.inl h
      · exact absurd hba (hmid b h)
    · exact Or.inr h
  have hbt : b ∈ bpre ++ mid' ++ bpost := by
    rcases hb' with h | h
    · exact List.mem_append_left _ (List.mem_append_left _ h)
    · exact List.mem_append_right _ h
  have h1 := hwf.hdrs b hb
  have h2 := hwt.hdrs b hbt
  rw [hba] at h1 h2
  exact ⟨h2.1.trans h1.1.symm, h2.2.trans h1.2.symm⟩

/-- In a well-formed state a request that some free block can hold, exactly or with room for
a header, does not wrap when a header is added. -/
theorem WF.fit_no_wrap {s : Heap} {bs : List Block} {fl : List Nat} (hwf : WF s bs fl)
    {n y : Nat} (hy : y ∈ fl) (h : (s.mem y).size = n ∨ n + HDR < (s.mem y).size) :
    n + HDR < WORD := by
  obtain ⟨bpre, S, bpost, hbs, hS⟩ := hwf.free_block hy
  have := block_size_lt (hbs ▸ hwf)
  rw [hS] at h
  rcases h with h | h <;> omega

theorem fits_iff {m : Mem} {n y : Nat} (hn : n + HDR < WORD) :
    Fits m n y ↔ ((m y).size = n ∨ n + HDR < (m y).size) := by
  unfold Fits
  rw [add64_of_lt hn]

/-- When no free-list entry passes the test of `malloc`, the result is that of the growth
path. -/
theorem malloc_no_fit (s : Heap) (fl : List Nat) (n fuel : Nat)
    (hseg : Seg s.mem s.head_free fl 0) (hno : ∀ y ∈ fl, ¬ Fits s.mem n y)
    (hf : fl.length + 1 ≤ fuel) :
    malloc fuel n s = some (malloc_grow n { s with start_of_heap := heap_start s }) := by
  obtain ⟨k, rfl⟩ := Nat.exists_eq_add_of_le hf
  have hskip := malloc_loop_skip { s with start_of_heap := heap_start s } n fl s.head_free 0
    (k + 1) hseg hno
  rw [malloc_unfold, show fl.length + 1 + k = (k + 1) + fl.length by omega, hskip]
  rfl

/-- What the growth path leaves alone, whether `sbrk` succeeds or not: the list ends, and
every header except the one at the old break and the one at `(void*) -1`; the value returned
is the old break, the old break plus a header, or `(void*) -1`. -/
theorem malloc_grow_frame (n : Nat) (s : Heap) :
    (malloc_grow n s).2.head_free = s.head_free ∧
    (malloc_grow n s).2.tail_free = s.tail_free ∧
    (∀ a, a ≠ s.brk → a ≠ SBRK_FAILED → (malloc_grow n s).2.mem a = s.mem a) ∧
    ((malloc_grow n s).1 = s.brk ∨ (malloc_grow n s).1 = s.brk + HDR ∨
      (malloc_grow n s).1 = SBRK_FAILED) := by
  have hH0 : ¬ HDR = 0 := by decide
  have hH1 : HDR < 2 ^ 63 := by decide
  unfold malloc_grow
  by_cases h1 : s.brk + HDR ≤ s.brk_max
  · have e1 : sbrk HDR s = (s.brk, { s with brk := s.brk + HDR }) := by
      unfold sbrk; rw [if_neg hH0, if_pos hH1, if_pos h1]
    simp only [e1]
    unfold sbrk
    refine ⟨?_, ?_, ?_, ?_⟩
    · split_ifs <;> rfl
    · split_ifs <;> rfl
    · intro a ha _
      have : ∀ m : Mem, (set_prev (set_next (set_is_used (set_size m s.brk n) s.brk 1) s.brk 0)
          s.brk 0) a = m a := by
        intro m; simp [set_prev, set_next, set_is_used, set_size, ha]
      split_ifs <;> exact this _
    · split_ifs <;> simp
  · have e1 : sbrk HDR s = (SBRK_FAILED, s) := by
      unfold sbrk; rw [if_neg hH0, if_pos hH1, if_neg h1]
    simp only [e1]
    unfold sbrk
    refine ⟨?_, ?_, ?_, ?_⟩
    · split_ifs <;> rfl
    · split_ifs <;> rfl
    · intro a _ ha
      have : ∀ m : Mem, (set_prev (set_next (set_is_used (set_size m SBRK_FAILED n)
          SBRK_FAILED 1) SBRK_FAILED 0) SBRK_FAILED 0) a = m a := by
        intro m; simp [set_prev, set_next, set_is_used, set_size, ha]
      split_ifs <;> exact this _
    · split_ifs <;> simp

/-! ## The logging scan and header changes -/

theorem third_block_loop_log_fst (P T : Nat) :
    ∀ (fuel p : Nat) (s : Heap),
      (third_block_loop_log P T fuel p s).map Prod.fst = third_block_loop P T fuel p s := by
  intro fuel
  induction fuel with
  | zero => intro p s; rfl
  | succ k ih =>
    intro p s
    unfold third_block_loop_log third_block_loop
    by_cases h0 : p = 0
    · simp [h0]
    · rw [if_neg h0, if_neg h0]
      by_cases h1 : p = T
      · rw [if_pos h1, if_pos h1]
        simp only
        generalize delete_node k T _ = o
        cases o with
        | none => rfl
        | some r =>
          obtain ⟨r1, s2⟩ := r
          simp only [Option.map_map]
          rw [← ih]
          rfl
      · rw [if_neg h1, if_neg h1]
        exact ih _ _

theorem coalesce_loop_log_fst (block e : Nat) :
    ∀ (fuel cur : Nat) (s : Heap),
      (coalesce_loop_log block e fuel cur s).map Prod.fst = coalesce_loop block e fuel cur s := by
  intro fuel
  induction fuel with
  | zero => intro cur s; rfl
  | succ k ih =>
    intro cur s
    unfold coalesce_loop_log coalesce_loop
    by_cases h0 : cur < e
    · rw [if_neg (not_not.2 h0), if_neg (not_not.2 h0)]
      simp only
      by_cases h1 : add64 (add64 cur (s.mem cur).size) HDR > e
      · rw [if_pos h1, if_pos h1]; rfl
      · rw [if_neg h1, if_neg h1]
        by_cases h2 : (s.mem cur).is_used = 0
        · rw [if_pos h2]
          by_cases h3 : (s.mem (add64 (add64 cur (s.mem cur).size) HDR)).is_used = 0
          · rw [if_pos h3, if_pos (And.intro h2 h3)]
            by_cases h4 : cur = block
            · rw [if_pos h4, if_pos h4, Option.map_map]
              exact Option.map_id'
            · rw [if_neg h4, if_neg h4]
              by_cases h5 : add64 (add64 cur (s.mem cur).size) HDR = block
              · rw [if_pos h5, if_pos h5]
                rw [← third_block_loop_log_fst]
                cases hl : third_block_loop_log cur _ k _ _ with
                | none => rfl
                | some r =>
                  obtain ⟨s2, l⟩ := r
                  simp only [Option.map_some', Option.map_map]
                  exact Option.map_id'
              · rw [if_neg h5, if_neg h5, Option.map_map, ← ih]
                rfl
          · rw [if_neg h3, if_neg (fun h : _ ∧ _ => h3 h.2), Option.map_map, ← ih]
            rfl
        · rw [if_neg h2, if_neg (fun h : _ ∧ _ => h2 h.1), Option.map_map, ← ih]
          rfl
    · rw [if_pos h0, if_pos h0]; rfl

/-- The logging scan computes what `coalesce_blocks` computes. -/
theorem coalesce_blocks_log_fst (fuel block : Nat) (s : Heap) :
    (coalesce_blocks_log fuel block s).map Prod.fst = coalesce_blocks fuel block s := by
  unfold coalesce_blocks_log coalesce_blocks
  by_cases h : s.head_free = 0
  · rw [if_pos h, if_pos h]; rfl
  · rw [if_neg h, if_neg h]
    exact coalesce_loop_log_fst _ _ _ _ _

/-- Clearing the `next` field of a used block keeps the state well formed. -/
theorem WF.clear_next_used {s : Heap} {bs : List Block} {fl : List Nat} (h : WF s bs fl)
    {b : Block} (hb : b ∈ bs) (hu : b.used ≠ 0) : WF (clear_next s b.addr) bs fl := by
  have hnot : b.addr ∉ fl := h.used_not_free hb hu
  refine ⟨h.start_pos, h.brk_le, h.max_lt, h.layout, fun c hc => ?_, ⟨?_, ?_⟩, h.tail,
    h.free_perm⟩
  · show (set_next s.mem b.addr 0 c.addr).size = c.size ∧
      (set_next s.mem b.addr 0 c.addr).is_used = c.used
    rw [set_next_size, set_next_is_used]
    exact h.hdrs c hc
  · refine Seg.congr (fun x hx => ?_) h.dlist.1
    have hne : x ≠ b.addr := fun e => hnot (e ▸ hx)
    show (set_next s.mem b.addr 0 x).next = _
    simp [set_next, hne]
  · refine PrevOK.congr_prev (fun x hx => ?_) h.dlist.2
    show (set_next s.mem b.addr 0 x).prev = _
    rw [set_next_prev]

/-! ## The claims -/

theorem exists_of_map_eq_some {α β : Type} {o : Option α} {f : α → β} {b : β}
    (h : o.map f = some b) : ∃ a, o = some a ∧ f a = b := by
  cases o with
  | none => simp at h
  | some a => exact ⟨a, rfl, by simpa using h⟩

/-- C1 (code defect): after `stale_calls`, every call of which is a correct use, the
pointer 4300 is live (returned by the second `malloc(200)` and not released) and the
next `malloc(200)` returns 4300 again. -/
theorem malloc_returns_live_pointer :
    correct_run 20 stale_calls (start_run 4096 1048576) = true ∧
    ∃ r, run 20 stale_calls (start_run 4096 1048576) = some r ∧
      4300 ∈ r.live ∧ (malloc 20 200 r.heap).map Prod.fst = some 4300 := by
  refine ⟨by decide, ?_⟩
  have h : (run 20 stale_calls (start_run 4096 1048576)).map
      (fun r => (decide (4300 ∈ r.live), (malloc 20 200 r.heap).map Prod.fst))
      = some (true, some 4300) := by decide
  obtain ⟨r, hr, hf⟩ := exists_of_map_eq_some h
  simp only [Prod.mk.injEq, decide_eq_true_eq] at hf
  exact ⟨r, hr, hf.1, hf.2⟩

/-- C2 (code defect): after `stale_calls` the walk from `head_free` along `next`
reaches the block at 4268, whose `is_used` is 1 and whose payload pointer 4300 is
live. -/
theorem free_list_reaches_used_block :
    correct_run 20 stale_calls (start_run 4096 1048576) = true ∧
    ∃ r, run 20 stale_calls (start_run 4096 1048576) = some r ∧
      free_list 20 r.heap = some [4096, 4268] ∧ (r.heap.mem 4268).is_used = 1 ∧
      4268 + HDR ∈ r.live := by
  refine ⟨by decide, ?_⟩
  have h : (run 20 stale_calls (start_run 4096 1048576)).map
      (fun r => (free_list 20 r.heap, (r.heap.mem 4268).is_used, decide (4268 + HDR ∈ r.live)))
      = some (some [4096, 4268], 1, true) := by decide
  obtain ⟨r, hr, hf⟩ := exists_of_map_eq_some h
  simp only [Prod.mk.injEq, decide_eq_true_eq] at hf
  exact ⟨r, hr, hf.1, hf.2.1, hf.2.2⟩

/-- C3 (code defect): after `last_block_calls` on zero-filled memory the last block,
at 4288, has recorded size 96 although only 64 bytes lie between its payload start
and the break 4384, so the walk from `start_of_heap` steps over the break. -/
theorem last_block_overruns_break :
    correct_run 20 last_block_calls (start_run 4096 1048576) = true ∧
    ∃ r, run 20 last_block_calls (start_run 4096 1048576) = some r ∧
      r.heap.start_of_heap = 4096 ∧ r.heap.brk = 4384 ∧
      (r.heap.mem 4096).size = 64 ∧ (r.heap.mem 4192).size = 64 ∧
      (r.heap.mem 4288).size = 96 ∧ r.heap.brk < 4288 + HDR + (r.heap.mem 4288).size ∧
      heap_walk r.heap.mem r.heap.brk 20 r.heap.start_of_heap = none ∧
      free_list 20 r.heap = some [4096] ∧ (r.heap.mem 4288).is_used = 0 := by
  refine ⟨by decide, ?_⟩
  have h : (run 20 last_block_calls (start_run 4096 1048576)).map
      (fun r => (r.heap.start_of_heap, r.heap.brk, (r.heap.mem 4096).size,
        (r.heap.mem 4192).size, (r.heap.mem 4288).size,
        heap_walk r.heap.mem r.heap.brk 20 r.heap.start_of_heap, free_list 20 r.heap,
        (r.heap.mem 4288).is_used))
      = some (4096, 4384, 64, 64, 96, none, some [4096], 0) := rfl
  obtain ⟨r, hr, hf⟩ := exists_of_map_eq_some h
  simp only [Prod.mk.injEq] at hf
  obtain ⟨h1, h2, h3, h4, h5, h6, h7, h8⟩ := hf
  refine ⟨r, hr, h1, h2, h3, h4, h5, ?_, h6, h7, h8⟩
  rw [h2, h5]; decide

theorem malloc_loop_cycle (m : Mem) (s : Heap) (hm : s.mem = m)
    (h1 : m 4268 = ⟨200, 0, 4096, 0⟩) (h2 : m 4096 = ⟨100, 0, 4268, 4268⟩) :
    ∀ fuel curr, curr = 4268 ∨ curr = 4096 → malloc_loop 5000 fuel curr s = none := by
  intro fuel
  induction fuel with
  | zero => intro curr _; rfl
  | succ n ih =>
    intro curr hc
    rcases hc with hc | hc
    · subst hc
      have := ih 4096 (Or.inr rfl)
      simp [malloc_loop, hm, h1, add64, HDR, WORD, this]
    · subst hc
      have := ih 4268 (Or.inl rfl)
      simp [malloc_loop, hm, h2, add64, HDR, WORD, this]

/-- C4 (code defect): after `cycle_calls`, every call of which is a correct use, the
free list is circular and `malloc(5000)` does not return, whatever the fuel. -/
theorem malloc_diverges_on_cyclic_free_list :
    correct_run 20 cycle_calls (start_run 4096 1048576) = true ∧
    ∃ r, run 20 cycle_calls (start_run 4096 1048576) = some r ∧
      ∀ fuel, malloc fuel 5000 r.heap = none := by
  refine ⟨by decide, ?_⟩
  have h : (run 20 cycle_calls (start_run 4096 1048576)).map
      (fun r => (r.heap.start_of_heap, r.heap.head_free, r.heap.mem 4268, r.heap.mem 4096))
      = some (4096, 4268, ⟨200, 0, 4096, 0⟩, ⟨100, 0, 4268, 4268⟩) := by decide
  obtain ⟨r, hr, hf⟩ := exists_of_map_eq_some h
  simp only [Prod.mk.injEq] at hf
  obtain ⟨h1, h2, h3, h4⟩ := hf
  refine ⟨r, hr, fun fuel => ?_⟩
  unfold malloc
  simp only [h1]
  exact malloc_loop_cycle r.heap.mem r.heap rfl h3 h4 fuel _ (Or.inl (by simpa using h2))

/-- C5: in a well-formed state, for a request `n` for which the break can be moved by
a header and `n` bytes, `malloc(n)` returns (given enough fuel) the payload pointer of a
block of the resulting well-formed state that is marked used and has recorded size at
least `n`; the `n` bytes lie inside that payload, inside the heap, and hold no byte of
any block header. -/
theorem malloc_capacity (s : Heap) (bs : List Block) (fl : List Nat) (n : Nat)
    (hwf : WF s bs fl) (hn : n < 2 ^ 63) (hext : s.brk + HDR + n ≤ s.brk_max) :
    ∃ F, ∀ fuel, F ≤ fuel → ∃ p t bs' fl' b,
      malloc fuel n s = some (p, t) ∧ WF t bs' fl' ∧ Allocated t bs' b p n := by
  refine ⟨2 * fl.length + 2, fun fuel hf => ?_⟩
  have hH : HDR = 32 := rfl
  have hW : WORD = 2 ^ 64 := rfl
  have hsp := hwf.start_pos
  have hstart : ∀ t : Heap, t.start_of_heap = heap_start s → t.start_of_heap = heap_start t := by
    intro t ht
    unfold heap_start
    rw [if_neg (by rw [ht]; omega)]
  rcases first_fit_split (Fits s.mem n) fl with hno | ⟨pre, x, post, hfl, hpre, hx⟩
  · obtain ⟨t, ht, hwt, hb, hs, _⟩ := malloc_grow_spec s bs fl n fuel hwf hno hext hn (by omega)
    exact ⟨_, t, _, fl, ⟨s.brk, n, 1⟩, ht, hwt, allocated_of_wf hwt rfl (Nat.le_refl _) (hstart t hs)⟩
  · have hxfl : x ∈ fl := by rw [hfl]; simp
    obtain ⟨bpre, S, bpost, hbs, hS⟩ := hwf.free_block hxfl
    have hlen : pre.length < fl.length := by rw [hfl]; simp
    have hadd : add64 n HDR = n + HDR := add64_of_lt (by omega)
    by_cases hex : S = n
    · subst hex
      obtain ⟨t, ht, hwt, hb, hs, _⟩ := malloc_exact_spec s bs fl S fuel pre x post bpre bpost hwf
        hfl hbs hpre (by omega)
      exact ⟨_, t, _, _, ⟨x, S, 1⟩, ht, hwt, allocated_of_wf hwt rfl (Nat.le_refl _) (hstart t hs)⟩
    · have hgt : n + HDR < S := by
        unfold Fits at hx
        rw [hS, hadd] at hx
        rcases hx with hx | hx
        · exact absurd hx hex
        · exact hx
      obtain ⟨t, ht, hwt, hb, hs, _⟩ := malloc_split_spec s bs fl n fuel pre x post bpre S bpost
        hwf hfl hbs hpre hgt (by omega)
      exact ⟨_, t, _, _, ⟨x, n, 1⟩, ht, hwt, allocated_of_wf hwt rfl (Nat.le_refl _) (hstart t hs)⟩

/-- C5 (witness): the capacity theorem applied to `sample_heap` and a request of 8
bytes. -/
theorem malloc_capacity_witness :
    WF sample_heap ([⟨4096, 64, 0⟩] ++ ⟨4192, 16, 1⟩ :: []) [4096] ∧ 8 < 2 ^ 63 ∧
    sample_heap.brk + HDR + 8 ≤ sample_heap.brk_max ∧
    ∃ F, ∀ fuel, F ≤ fuel → ∃ p t bs' fl' b,
      malloc fuel 8 sample_heap = some (p, t) ∧ WF t bs' fl' ∧ Allocated t bs' b p 8 :=
  ⟨sample_wf, by decide, by decide,
    malloc_capacity sample_heap _ [4096] 8 sample_wf (by decide) (by decide)⟩

/-- C6 (counterexample): after `band_calls`, every call of which is a correct use, the
heap is tiled by the blocks at 4096 (64 bytes, in use, payload 4128 live), 4192 (0 bytes,
free, the whole free list) and 4224; `free(4128)` leaves the break at 4264 and the
following `malloc(64)` raises it to 4360. -/
theorem reuse_fails_in_skip_band :
    correct_run 20 band_calls (start_run 4096 1048576) = true ∧
    ∃ r, run 20 band_calls (start_run 4096 1048576) = some r ∧
      4128 ∈ r.live ∧ (r.heap.mem 4096).size = 64 ∧ (r.heap.mem 4096).is_used = 1 ∧
      heap_walk r.heap.mem r.heap.brk 20 r.heap.start_of_heap = some [4096, 4192, 4224] ∧
      free_list 20 r.heap = some [4192] ∧ r.heap.brk = 4264 ∧
      ∃ s1 q s2, free 20 4128 r.heap = some s1 ∧ malloc 20 64 s1 = some (q, s2) ∧
        s1.brk = 4264 ∧ (s1.mem 4096).size = 96 ∧ free_list 20 s1 = some [4096] ∧
        s2.brk = 4360 := by
  refine ⟨by decide, ?_⟩
  have h : (run 20 band_calls (start_run 4096 1048576)).map
      (fun r => (decide (4128 ∈ r.live), (r.heap.mem 4096).size, (r.heap.mem 4096).is_used,
        heap_walk r.heap.mem r.heap.brk 20 r.heap.start_of_heap, free_list 20 r.heap,
        r.heap.brk,
        (free 20 4128 r.heap).map (fun s1 => (s1.brk, (s1.mem 4096).size, free_list 20 s1,
          (malloc 20 64 s1).map (fun x => x.2.brk)))))
      = some (true, 64, 1, some [4096, 4192, 4224], some [4192], 4264,
          some (4264, 96, some [4096], some 4360)) := rfl
  obtain ⟨r, hr, hf⟩ := exists_of_map_eq_some h
  simp only [Prod.mk.injEq, decide_eq_true_eq] at hf
  obtain ⟨h1, h2, h3, h4, h5, h6, h7⟩ := hf
  obtain ⟨s1, hs1, h8⟩ := exists_of_map_eq_some h7
  simp only [Prod.mk.injEq] at h8
  obtain ⟨h9, h10, h11, h12⟩ := h8
  obtain ⟨x, hx, h13⟩ := exists_of_map_eq_some h12
  exact ⟨r, hr, h1, h2, h3, h4, h5, h6, s1, x.1, x.2, hs1, hx, h9, h10, h11, h13⟩

/-- C6 (amended): release-then-reuse in a well-formed state without two adjacent free
blocks.  Let `B` be a used block of size `S`.  Suppose that a single free neighbour of `B`
does not have size 0, and that, when the free list is not empty and `B` has no free
neighbour, the last block of the heap is a used block behind `B`.  Then, given enough fuel,
`free(B + sizeof(metadata_t))` returns and the next `malloc(S)` returns a block: its result
`q` is the payload pointer of a header inside the heap that was free after the release and
is now used with recorded size `S`, and the `S` bytes from `q` on end at or below the break.
The break is the same before the release, after it, and after the request. -/
theorem release_then_reuse (s : Heap) (bpre bpost : List Block) (fl : List Nat) (B S u : Nat)
    (hwf : WF s (bpre ++ ⟨B, S, u⟩ :: bpost) fl)
    (hadj : NoAdjFree (bpre ++ ⟨B, S, u⟩ :: bpost)) (hu : u ≠ 0)
    (hP : ∀ P, bpre.getLast? = some P → P.used = 0 →
      (∀ N, bpost.head? = some N → N.used ≠ 0) → P.size ≠ 0)
    (hN : ∀ N, bpost.head? = some N → N.used = 0 →
      (∀ P, bpre.getLast? = some P → P.used ≠ 0) → N.size ≠ 0)
    (hlast : fl ≠ [] → (∀ P, bpre.getLast? = some P → P.used ≠ 0) →
      (∀ N, bpost.head? = some N → N.used ≠ 0) →
      ∃ L, bpost.getLast? = some L ∧ L.used ≠ 0) :
    ∃ F, ∀ fuel, F ≤ fuel → ∃ s1 q s2,
      free fuel (B + HDR) s = some s1 ∧ malloc fuel S s1 = some (q, s2) ∧
      s1.brk = s.brk ∧ s2.brk = s.brk ∧ Reused s1 s2 q S := by
  refine ⟨(bpre ++ ⟨B, S, u⟩ :: bpost).length + 2 * fl.length + 6, fun fuel hf => ?_⟩
  obtain ⟨hc1, hc2, hc3⟩ := List.chain'_append.1 hadj
  have hc4 : NoAdjFree bpost := List.Chain'.tail hc2
  by_cases hflE : fl = []
  · subst hflE
    exact reuse_case_empty s bpre bpost B S u fuel hwf hu (by omega)
  by_cases hpf : ∀ P, bpre.getLast? = some P → P.used ≠ 0
  · -- the predecessor is not free
    have hqpre : ∀ R : List Block, Quiet bpre R :=
      fun R => quiet_of_noadj R bpre hc1 (fun b hb hbu => absurd hbu (hpf b hb))
    by_cases hnf : ∀ N, bpost.head? = some N → N.used ≠ 0
    · obtain ⟨L, hL, hLu⟩ := hlast hflE hpf hnf
      have hq2 : Quiet bpost [] :=
        quiet_of_noadj [] bpost hc4 (fun b hb hbu => by
          rw [hL] at hb
          cases hb
          exact absurd hbu hLu)
      have hq : Quiet (bpre ++ ⟨B, S, 0⟩ :: bpost) [] := by
        refine quiet_append [] _ bpre (hqpre _) ⟨fun _ => ?_, hq2⟩
        cases bpost with
        | nil => simp at hL
        | cons c l => exact ⟨c, by simp, hnf c (by simp)⟩
      exact reuse_case_plain s bpre bpost fl B S u fuel hwf hu hflE hq hf
    · push_neg at hnf
      obtain ⟨N, hNh, hNu⟩ := hnf
      cases bpost with
      | nil => simp at hNh
      | cons c l =>
        have e : c = N := by simpa using hNh
        subst e
        obtain ⟨Na, T, Nu⟩ := c
        have e2 : Nu = 0 := hNu
        subst e2
        have hT : T ≠ 0 := hN ⟨Na, T, 0⟩ (by simp) rfl hpf
        exact reuse_case_right s bpre l fl B S u Na T fuel hwf hu hT (hqpre _) hf
  · -- the predecessor is free
    push_neg at hpf
    obtain ⟨P, hPl, hPu⟩ := hpf
    rcases List.eq_nil_or_concat bpre with e | ⟨L, b, e⟩
    · subst e; simp at hPl
    · rw [List.concat_eq_append] at e
      subst e
      have e1 : b = P := by simpa using hPl
      subst e1
      obtain ⟨Pa, SP, Pu⟩ := b
      have e2 : Pu = 0 := hPu
      subst e2
      have hcL := List.chain'_append.1 hc1
      have hqL : ∀ R : List Block, Quiet L R :=
        fun R => quiet_of_noadj R L hcL.1 (fun b hb hbu =>
          absurd ⟨hbu, rfl⟩ (hcL.2.2 b (by simpa using hb) ⟨Pa, SP, 0⟩ (by simp)))
      have hl : (L ++ [⟨Pa, SP, 0⟩]) ++ (⟨B, S, u⟩ : Block) :: bpost =
          L ++ ⟨Pa, SP, 0⟩ :: ⟨B, S, u⟩ :: bpost := by simp
      rw [hl] at hwf hf
      by_cases hnf : ∀ N, bpost.head? = some N → N.used ≠ 0
      · have hSP : SP ≠ 0 := hP ⟨Pa, SP, 0⟩ (by simp) rfl hnf
        exact reuse_case_left s L bpost fl B S u Pa SP fuel hwf hu hSP (hqL _) hnf hf
      · push_neg at hnf
        obtain ⟨N, hNh, hNu⟩ := hnf
        cases bpost with
        | nil => simp at hNh
        | cons c l =>
          have e : c = N := by simpa using hNh
          subst e
          obtain ⟨Na, T, Nu⟩ := c
          have e2 : Nu = 0 := hNu
          subst e2
          exact reuse_case_both s L l fl B S u Pa SP Na T fuel hwf hu (hqL _) hf

/-- C6 (witness): the amended release-then-reuse theorem applied to the used block at
4192 of `sample_heap`, whose predecessor is free and has size 64. -/
theorem release_then_reuse_witness :
    WF sample_heap ([⟨4096, 64, 0⟩] ++ ⟨4192, 16, 1⟩ :: []) [4096] ∧
    NoAdjFree ([⟨4096, 64, 0⟩] ++ (⟨4192, 16, 1⟩ : Block) :: []) ∧ (1 : Nat) ≠ 0 ∧
    ∃ F, ∀ fuel, F ≤ fuel → ∃ s1 q s2,
      free fuel (4192 + HDR) sample_heap = some s1 ∧ malloc fuel 16 s1 = some (q, s2) ∧
      s1.brk = sample_heap.brk ∧ s2.brk = sample_heap.brk ∧ Reused s1 s2 q 16 :=
  ⟨sample_wf, by simp [NoAdjFree], by decide,
    release_then_reuse sample_heap [⟨4096, 64, 0⟩] [] [4096] 4192 16 1 sample_wf
      (by simp [NoAdjFree]) (by decide) (by simp) (by simp) (by simp)⟩

/-- C7 (counterexample): for `S = 2^63` every `malloc(S)` moves the break by one header
only and returns the failure value `2^64 - 1` of `sbrk`; after the five requests, and
still after the release of the second, third and fourth returned pointer, the break is
`start_of_heap + 160`, which is not `start_of_heap + 5 * (S + sizeof(metadata_t))`, also
not modulo `2^64`, and the header in front of the returned pointer has size 0. -/
theorem huge_size_defeats_scenario :
    ∃ r r', run 20 (five_calls (2 ^ 63)) (start_run 4096 1048576) = some r ∧
      r.rets = [WORD - 1, WORD - 1, WORD - 1, WORD - 1, WORD - 1] ∧
      r.heap.start_of_heap = 4096 ∧ r.heap.brk = 4256 ∧
      run 20 (five_calls (2 ^ 63) ++
        [Call.free (WORD - 1), Call.free (WORD - 1), Call.free (WORD - 1)])
        (start_run 4096 1048576) = some r' ∧
      r'.heap.start_of_heap = 4096 ∧ r'.heap.brk = 4256 ∧
      (r'.heap.mem (WORD - 1 - HDR)).size = 0 ∧
      4256 ≠ 4096 + 5 * (2 ^ 63 + HDR) ∧ 4256 ≠ (4096 + 5 * (2 ^ 63 + HDR)) % WORD := by
  have h : (run 20 (five_calls (2 ^ 63)) (start_run 4096 1048576)).map
      (fun r => (r.rets, r.heap.start_of_heap, r.heap.brk))
      = some ([WORD - 1, WORD - 1, WORD - 1, WORD - 1, WORD - 1], 4096, 4256) := by decide
  have h' : (run 20 (five_calls (2 ^ 63) ++
        [Call.free (WORD - 1), Call.free (WORD - 1), Call.free (WORD - 1)])
        (start_run 4096 1048576)).map
      (fun r => (r.heap.start_of_heap, r.heap.brk, (r.heap.mem (WORD - 1 - HDR)).size))
      = some (4096, 4256, 0) := by decide
  obtain ⟨r, hr, hf⟩ := exists_of_map_eq_some h
  obtain ⟨r', hr', hf'⟩ := exists_of_map_eq_some h'
  simp only [Prod.mk.injEq] at hf hf'
  exact ⟨r, r', hr, hf.1, hf.2.1, hf.2.2, hr', hf'.1, hf'.2.1, hf'.2.2, by decide, by decide⟩

/-- C7 (amended): on an empty heap whose break is at `b0` and can be raised by
`5 * (S + sizeof(metadata_t))` bytes, after five `malloc(S)` and the release of the second,
third and fourth block in any of the six orders, the free list is the single block at the
second block's header, its recorded size is `3 * S + 2 * sizeof(metadata_t)`, and
`malloc(3 * S + 2 * sizeof(metadata_t))` returns the second block's payload pointer with the
break still at `start_of_heap + 5 * (S + sizeof(metadata_t))`. -/
theorem coalescing_bounds_growth (m0 : Mem) (b0 M S fuel : Nat) (h0 : 0 < b0)
    (hM : b0 + 5 * (S + HDR) ≤ M) (hW : M < WORD) (hf : 13 ≤ fuel) :
    ∀ frees ∈ release_orders (b0 + (S + HDR) + HDR) (b0 + 2 * (S + HDR) + HDR)
        (b0 + 3 * (S + HDR) + HDR),
      ∃ r, run fuel (five_calls S ++ frees) ⟨init_heap m0 b0 M, [], []⟩ = some r ∧
        r.rets = [b0 + 4 * (S + HDR) + HDR, b0 + 3 * (S + HDR) + HDR,
          b0 + 2 * (S + HDR) + HDR, b0 + (S + HDR) + HDR, b0 + HDR] ∧
        r.heap.start_of_heap = b0 ∧ r.heap.brk = b0 + 5 * (S + HDR) ∧
        free_list fuel r.heap = some [b0 + (S + HDR)] ∧
        (r.heap.mem (b0 + (S + HDR))).size = 3 * S + 2 * HDR ∧
        (r.heap.mem (b0 + (S + HDR))).is_used = 0 ∧
        ∃ t, malloc fuel (3 * S + 2 * HDR) r.heap = some (b0 + (S + HDR) + HDR, t) ∧
          t.brk = t.start_of_heap + 5 * (S + HDR) ∧ t.start_of_heap = b0 ∧
          free_list fuel t = some [] := by
  intro frees hfr
  obtain ⟨t, e, w, k, x, st⟩ := merged_state m0 b0 M S fuel h0 hM hW hf frees hfr
  obtain ⟨r, h1, h2, h3⟩ := run_of_exec fuel _ _ _ _ [] [] e
  have hb : (⟨b0 + (S + HDR), 3 * S + 2 * HDR, 0⟩ : Block) ∈ merged_blocks b0 S := by
    simp [merged_blocks]
  obtain ⟨t', m1, m2, m3, m4, m5, m6, m7, m8, m9⟩ :=
    malloc_exact_spec t _ _ (3 * S + 2 * HDR) fuel [] (b0 + (S + HDR)) []
      [⟨b0, S, 1⟩] [⟨b0 + 4 * (S + HDR), S, 1⟩] w rfl rfl (by simp) (by simp; omega)
  have hs : heap_start t = b0 := by
    unfold heap_start; rw [st, if_neg (by omega)]
  subst h2
  refine ⟨r, h1, by rw [h3]; simp, st, k, w.free_list_eq (by simp; omega),
    (w.hdrs _ hb).1, (w.hdrs _ hb).2, t', m1, by rw [m3, m4, hs, k], by rw [m4, hs],
    m2.free_list_eq (by simp; omega)⟩

/-- C7 (witness): the amended theorem for `S = 64` on zero-filled memory with the break at
4096, for the release order third, fourth, second. -/
theorem coalescing_bounds_growth_witness :
    0 < 4096 ∧ 4096 + 5 * (64 + HDR) ≤ 1048576 ∧ 1048576 < WORD ∧ 13 ≤ 13 ∧
    ∃ r, run 13 (five_calls 64 ++ [Call.free (4096 + 2 * (64 + HDR) + HDR),
          Call.free (4096 + 3 * (64 + HDR) + HDR), Call.free (4096 + (64 + HDR) + HDR)])
        ⟨init_heap (fun _ => zero_header) 4096 1048576, [], []⟩ = some r ∧
      free_list 13 r.heap = some [4096 + (64 + HDR)] ∧
      (r.heap.mem (4096 + (64 + HDR))).size = 3 * 64 + 2 * HDR ∧
      ∃ t, malloc 13 (3 * 64 + 2 * HDR) r.heap = some (4096 + (64 + HDR) + HDR, t) ∧
        t.brk = t.start_of_heap + 5 * (64 + HDR) :=
  ⟨by decide, by decide, by decide, by decide,
    (coalescing_bounds_growth (fun _ => zero_header) 4096 1048576 64 13 (by decide)
      (by decide) (by decide) (by decide) _ (by simp [release_orders])).imp
      (fun r h => ⟨h.1, h.2.2.2.2.1, h.2.2.2.2.2.1,
        h.2.2.2.2.2.2.2.imp (fun t g => ⟨g.1, g.2.1⟩)⟩)⟩

/-- C8: sample 02.  On an empty heap whose break is at `b0` and can be raised by
`5 * (0x10000 + sizeof(metadata_t))` bytes, after five `malloc(0x10000)` and `free(d)`,
`free(c)`, `free(b)` the free list is the one merged block at the header of `b`; the requests
`malloc(0x5000)` three times and `malloc(1)` each return the payload of a block split off the
front of that region (the first at the header of `b`, each next one right behind the
previous one), the remainder of 0x20FBF bytes ends at the header of `e`, the break is
`start_of_heap + 5 * (0x10000 + sizeof(metadata_t))` after each request, and the heap is
smaller than 0x60000 bytes. -/
theorem sample02_reuse (m0 : Mem) (b0 M fuel : Nat) (h0 : 0 < b0)
    (hM : b0 + 5 * (0x10000 + HDR) ≤ M) (hW : M < WORD) (hf : 13 ≤ fuel) :
    ∃ r s1 s2 s3 s4, run fuel (sample_setup b0) ⟨init_heap m0 b0 M, [], []⟩ = some r ∧
      r.heap.start_of_heap = b0 ∧ r.heap.brk = b0 + 5 * (0x10000 + HDR) ∧
      free_list fuel r.heap = some [b0 + (0x10000 + HDR)] ∧
      (r.heap.mem (b0 + (0x10000 + HDR))).size = 3 * 0x10000 + 2 * HDR ∧
      malloc fuel 0x5000 r.heap = some (b0 + (0x10000 + HDR) + HDR, s1) ∧
      malloc fuel 0x5000 s1 = some (b0 + (0x10000 + HDR) + (0x5000 + HDR) + HDR, s2) ∧
      malloc fuel 0x5000 s2 =
        some (b0 + (0x10000 + HDR) + (0x5000 + HDR) + (0x5000 + HDR) + HDR, s3) ∧
      malloc fuel 1 s3 =
        some (b0 + (0x10000 + HDR) + (0x5000 + HDR) + (0x5000 + HDR) + (0x5000 + HDR) + HDR,
          s4) ∧
      s1.brk = b0 + 5 * (0x10000 + HDR) ∧ s2.brk = b0 + 5 * (0x10000 + HDR) ∧
      s3.brk = b0 + 5 * (0x10000 + HDR) ∧ s4.brk = b0 + 5 * (0x10000 + HDR) ∧
      s4.start_of_heap = b0 ∧
      free_list fuel s4 = some [b0 + (0x10000 + HDR) + (0x5000 + HDR) + (0x5000 + HDR) +
        (0x5000 + HDR) + (1 + HDR)] ∧
      (s4.mem (b0 + (0x10000 + HDR) + (0x5000 + HDR) + (0x5000 + HDR) + (0x5000 + HDR) +
        (1 + HDR))).size = 0x20FBF ∧
      b0 + (0x10000 + HDR) + (0x5000 + HDR) + (0x5000 + HDR) + (0x5000 + HDR) + (1 + HDR) +
        HDR + 0x20FBF = b0 + 4 * (0x10000 + HDR) ∧
      s4.brk - s4.start_of_heap < 0x60000 := by
  have hH : HDR = 32 := rfl
  obtain ⟨r, h1, h2, kr⟩ := sample_setup_state m0 b0 M fuel h0 hM hW hf
  obtain ⟨s1, m1, k1⟩ := split_step r.heap _ _ _ _ 0x5000 _ _ _ fuel kr (by omega) (by omega)
  obtain ⟨s2, m2, k2⟩ := split_step s1 _ _ _ _ 0x5000 _ _ _ fuel k1 (by omega) (by omega)
  obtain ⟨s3, m3, k3⟩ := split_step s2 _ _ _ _ 0x5000 _ _ _ fuel k2 (by omega) (by omega)
  obtain ⟨s4, m4, k4⟩ := split_step s3 _ _ _ _ 1 _ _ _ fuel k3 (by omega) (by omega)
  have hr := (kr.1.hdrs _ (List.mem_append_right _ (List.mem_cons_self _ _))).1
  have h4 := (k4.1.hdrs _ (List.mem_append_right _ (List.mem_cons_self _ _))).1
  refine ⟨r, s1, s2, s3, s4, h1, kr.2.1, kr.2.2.2.1, kr.1.free_list_eq (by simp; omega), hr,
    m1, m2, m3, m4, k1.2.2.2.1, k2.2.2.2.1, k3.2.2.2.1, k4.2.2.2.1, k4.2.1,
    k4.1.free_list_eq (by simp; omega), ?_, by omega, ?_⟩
  · rw [h4]; show 3 * 0x10000 + 2 * HDR - (0x5000 + HDR) - (0x5000 + HDR) - (0x5000 + HDR) -
      (1 + HDR) = 0x20FBF; omega
  · rw [k4.2.2.2.1, k4.2.1]; omega

/-- C8 (witness): sample 02 on zero-filled memory with the break at 4096 and a break
limit of one MiB. -/
theorem sample02_reuse_witness :
    0 < 4096 ∧ 4096 + 5 * (0x10000 + HDR) ≤ 1048576 ∧ 1048576 < WORD ∧ 13 ≤ 13 ∧
    ∃ r s1 s2 s3 s4,
      run 13 (sample_setup 4096) ⟨init_heap (fun _ => zero_header) 4096 1048576, [], []⟩ =
        some r ∧
      malloc 13 0x5000 r.heap = some (4096 + (0x10000 + HDR) + HDR, s1) ∧
      malloc 13 0x5000 s1 = some (4096 + (0x10000 + HDR) + (0x5000 + HDR) + HDR, s2) ∧
      malloc 13 0x5000 s2 =
        some (4096 + (0x10000 + HDR) + (0x5000 + HDR) + (0x5000 + HDR) + HDR, s3) ∧
      malloc 13 1 s3 =
        some (4096 + (0x10000 + HDR) + (0x5000 + HDR) + (0x5000 + HDR) + (0x5000 + HDR) + HDR,
          s4) ∧
      s4.brk = 4096 + 5 * (0x10000 + HDR) :=
  ⟨by decide, by decide, by decide, by decide,
    let ⟨r, s1, s2, s3, s4, h⟩ := sample02_reuse (fun _ => zero_header) 4096 1048576 13
      (by decide) (by decide) (by decide) (by decide)
    ⟨r, s1, s2, s3, s4, h.1, h.2.2.2.2.2.1, h.2.2.2.2.2.2.1, h.2.2.2.2.2.2.2.1,
      h.2.2.2.2.2.2.2.2.1, h.2.2.2.2.2.2.2.2.2.2.2.2.1⟩⟩

/-- C9: sample 03.  On an empty heap whose break is at `b0` and can be raised by
`5 * (0x10000 + sizeof(metadata_t)) + (0x20000 + sizeof(metadata_t))` bytes, after five
`malloc(0x10000)` and `free(d)`, `free(c)`, `free(b)`, the requests `malloc(0x5000)`,
`malloc(0x20000)`, `malloc(0x5000)` are split off the merged free block and leave the break
alone; the second `malloc(0x20000)` finds one free block of 0x5FE0 bytes, which does not fit,
and raises the break by `0x20000 + sizeof(metadata_t)`; the last `malloc(0x5000)` is split
off that free block.  The final heap size is
`5 * (0x10000 + sizeof(metadata_t)) + (0x20000 + sizeof(metadata_t))`, below 0x95000. -/
theorem sample03_reuse_when_fits (m0 : Mem) (b0 M fuel : Nat) (h0 : 0 < b0)
    (hM : b0 + 5 * (0x10000 + HDR) + (0x20000 + HDR) ≤ M) (hW : M < WORD) (hf : 13 ≤ fuel) :
    ∃ r s1 s2 s3 s4 s5, run fuel (sample_setup b0) ⟨init_heap m0 b0 M, [], []⟩ = some r ∧
      r.heap.start_of_heap = b0 ∧ r.heap.brk = b0 + 5 * (0x10000 + HDR) ∧
      free_list fuel r.heap = some [b0 + (0x10000 + HDR)] ∧
      malloc fuel 0x5000 r.heap = some (b0 + (0x10000 + HDR) + HDR, s1) ∧
      s1.brk = b0 + 5 * (0x10000 + HDR) ∧
      malloc fuel 0x20000 s1 = some (b0 + (0x10000 + HDR) + (0x5000 + HDR) + HDR, s2) ∧
      s2.brk = b0 + 5 * (0x10000 + HDR) ∧
      malloc fuel 0x5000 s2 =
        some (b0 + (0x10000 + HDR) + (0x5000 + HDR) + (0x20000 + HDR) + HDR, s3) ∧
      s3.brk = b0 + 5 * (0x10000 + HDR) ∧
      free_list fuel s3 =
        some [b0 + (0x10000 + HDR) + (0x5000 + HDR) + (0x20000 + HDR) + (0x5000 + HDR)] ∧
      (s3.mem (b0 + (0x10000 + HDR) + (0x5000 + HDR) + (0x20000 + HDR) + (0x5000 + HDR))).size
        = 0x5FE0 ∧
      malloc fuel 0x20000 s3 = some (b0 + 5 * (0x10000 + HDR) + HDR, s4) ∧
      s4.brk = b0 + 5 * (0x10000 + HDR) + (0x20000 + HDR) ∧
      malloc fuel 0x5000 s4 =
        some (b0 + (0x10000 + HDR) + (0x5000 + HDR) + (0x20000 + HDR) + (0x5000 + HDR) + HDR,
          s5) ∧
      s5.brk = b0 + 5 * (0x10000 + HDR) + (0x20000 + HDR) ∧ s5.start_of_heap = b0 ∧
      s5.brk - s5.start_of_heap = 5 * (0x10000 + HDR) + (0x20000 + HDR) ∧
      s5.brk - s5.start_of_heap < 0x95000 := by
  have hH : HDR = 32 := rfl
  obtain ⟨r, h1, h2, kr⟩ := sample_setup_state m0 b0 M fuel h0 (by omega) hW hf
  obtain ⟨s1, m1, k1⟩ := split_step r.heap _ _ _ _ 0x5000 _ _ _ fuel kr (by omega) (by omega)
  obtain ⟨s2, m2, k2⟩ := split_step s1 _ _ _ _ 0x20000 _ _ _ fuel k1 (by omega) (by omega)
  obtain ⟨s3, m3, k3⟩ := split_step s2 _ _ _ _ 0x5000 _ _ _ fuel k2 (by omega) (by omega)
  obtain ⟨s4, m4, k4⟩ := grow_over_step s3 _ _ _ _ 0x20000 _ _ _ fuel k3 (by omega) (by omega)
    (by omega) (by omega)
  obtain ⟨s5, m5, k5⟩ := split_step s4 _ _ _ _ 0x5000 _ _ _ fuel k4 (by omega) (by omega)
  have h3 := (k3.1.hdrs _ (List.mem_append_right _ (List.mem_cons_self _ _))).1
  refine ⟨r, s1, s2, s3, s4, s5, h1, kr.2.1, kr.2.2.2.1, kr.1.free_list_eq (by simp; omega),
    m1, k1.2.2.2.1, m2, k2.2.2.2.1, m3, k3.2.2.2.1, k3.1.free_list_eq (by simp; omega), ?_,
    m4, k4.2.2.2.1, m5, k5.2.2.2.1, k5.2.1, ?_, ?_⟩
  · rw [h3]; show 3 * 0x10000 + 2 * HDR - (0x5000 + HDR) - (0x20000 + HDR) - (0x5000 + HDR) =
      0x5FE0; omega
  · rw [k5.2.2.2.1, k5.2.1]; omega
  · rw [k5.2.2.2.1, k5.2.1]; omega

/-- C9 (witness): sample 03 on zero-filled memory with the break at 4096 and a break
limit of one MiB. -/
theorem sample03_reuse_when_fits_witness :
    0 < 4096 ∧ 4096 + 5 * (0x10000 + HDR) + (0x20000 + HDR) ≤ 1048576 ∧ 1048576 < WORD ∧
    13 ≤ 13 ∧
    ∃ r s1 s2 s3 s4 s5,
      run 13 (sample_setup 4096) ⟨init_heap (fun _ => zero_header) 4096 1048576, [], []⟩ =
        some r ∧
      malloc 13 0x5000 r.heap = some (4096 + (0x10000 + HDR) + HDR, s1) ∧
      malloc 13 0x20000 s1 = some (4096 + (0x10000 + HDR) + (0x5000 + HDR) + HDR, s2) ∧
      malloc 13 0x5000 s2 =
        some (4096 + (0x10000 + HDR) + (0x5000 + HDR) + (0x20000 + HDR) + HDR, s3) ∧
      malloc 13 0x20000 s3 = some (4096 + 5 * (0x10000 + HDR) + HDR, s4) ∧
      malloc 13 0x5000 s4 =
        some (4096 + (0x10000 + HDR) + (0x5000 + HDR) + (0x20000 + HDR) + (0x5000 + HDR) +
          HDR, s5) ∧
      s5.brk - s5.start_of_heap = 5 * (0x10000 + HDR) + (0x20000 + HDR) :=
  ⟨by decide, by decide, by decide, by decide,
    let ⟨r, s1, s2, s3, s4, s5, h⟩ := sample03_reuse_when_fits (fun _ => zero_header) 4096
      1048576 13 (by decide) (by decide) (by decide) (by decide)
    ⟨r, s1, s2, s3, s4, s5, h.1, h.2.2.2.2.1, h.2.2.2.2.2.2.1, h.2.2.2.2.2.2.2.2.1,
      h.2.2.2.2.2.2.2.2.2.2.2.2.1, h.2.2.2.2.2.2.2.2.2.2.2.2.2.2.1,
      h.2.2.2.2.2.2.2.2.2.2.2.2.2.2.2.2.2.1⟩⟩

/-- C10 (code defect): `free(NULL)` on the initial heap stores `is_used = 0` in the
header at address `2^64 - 32` and makes that address the head and the tail of the
free list. -/
theorem free_null_writes_header :
    ∃ s, free 1 0 (fresh_heap 4096 1048576) = some s ∧
      s.head_free = WORD - HDR ∧ s.tail_free = WORD - HDR ∧
      (fresh_heap 4096 1048576).head_free = 0 := by
  refine ⟨_, rfl, ?_, ?_, rfl⟩ <;> decide

/-- C11 (code defect): after `leak_calls`, every call of which is a correct use, the block
at 4288 is in use with payload pointer 4320 live.  `realloc(4320, 0)` returns `NULL` and
the state that `free(4320)` produces, but in that state the block, though marked free, is
not in the free list (which is still `[4096]`): of the next two `malloc(64)` the first
takes the block at 4096 and the second raises the break from 4384 to 4480. -/
theorem realloc_zero_leaks_last_block :
    correct_run 20 leak_calls (start_run 4096 1048576) = true ∧
    ∃ r, run 20 leak_calls (start_run 4096 1048576) = some r ∧
      4320 ∈ r.live ∧ (r.heap.mem 4288).is_used = 1 ∧ (r.heap.mem 4288).size = 64 ∧
      heap_walk r.heap.mem r.heap.brk 20 r.heap.start_of_heap = some [4096, 4192, 4288] ∧
      free_list 20 r.heap = some [4096] ∧
      ∃ t, realloc 20 4320 0 r.heap = some (0, t) ∧ free 20 4320 r.heap = some t ∧
        (t.mem 4288).is_used = 0 ∧ free_list 20 t = some [4096] ∧ t.brk = 4384 ∧
        ∃ t1 t2, malloc 20 64 t = some (4128, t1) ∧ malloc 20 64 t1 = some (4416, t2) ∧
          t2.brk = 4480 := by
  refine ⟨by decide, ?_⟩
  have h : (run 20 leak_calls (start_run 4096 1048576)).map
      (fun r => (decide (4320 ∈ r.live), (r.heap.mem 4288).is_used, (r.heap.mem 4288).size,
        heap_walk r.heap.mem r.heap.brk 20 r.heap.start_of_heap, free_list 20 r.heap,
        (free 20 4320 r.heap).map (fun t => ((t.mem 4288).is_used, free_list 20 t, t.brk,
          (malloc 20 64 t).map (fun x => (x.1, (malloc 20 64 x.2).map
            (fun y => (y.1, y.2.brk))))))))
      = some (true, 1, 64, some [4096, 4192, 4288], some [4096],
          some (0, some [4096], 4384, some (4128, some (4416, 4480)))) := rfl
  obtain ⟨r, hr, hf⟩ := exists_of_map_eq_some h
  simp only [Prod.mk.injEq, decide_eq_true_eq] at hf
  obtain ⟨h1, h2, h3, h4, h5, h6⟩ := hf
  obtain ⟨t, ht, h7⟩ := exists_of_map_eq_some h6
  simp only [Prod.mk.injEq] at h7
  obtain ⟨h8, h9, h10, h11⟩ := h7
  obtain ⟨x, hx, h12⟩ := exists_of_map_eq_some h11
  simp only [Prod.mk.injEq] at h12
  obtain ⟨h13, h14⟩ := h12
  obtain ⟨y, hy, h15⟩ := exists_of_map_eq_some h14
  simp only [Prod.mk.injEq] at h15
  refine ⟨r, hr, h1, h2, h3, h4, h5, t, ?_, ht, h8, h9, h10, x.2, y.2, ?_, ?_, h15.2⟩
  · simp [realloc, ht]
  · rw [hx, ← h13]
  · rw [hy, ← h15.1]

/-- C12: `realloc(NULL, n)` is `malloc(n)`: same returned pointer and same resulting state,
in every state and for every `n`. -/
theorem realloc_null_is_malloc (fuel n : Nat) (s : Heap) :
    realloc fuel 0 n s = malloc fuel n s := by
  simp [realloc]

/-- C13 (counterexample): after `malloc(64)` returned 4128, whose block has recorded size
64, `realloc(4128, 0)` returns `NULL`, not 4128, although `0 <= 64`. -/
theorem realloc_zero_moves_pointer :
    ∃ r, run 20 [Call.malloc 64] (start_run 4096 1048576) = some r ∧
      4128 ∈ r.live ∧ (r.heap.mem (sub64 4128 HDR)).size = 64 ∧
      (realloc 20 4128 0 r.heap).map Prod.fst = some 0 := by
  have h : (run 20 [Call.malloc 64] (start_run 4096 1048576)).map
      (fun r => (decide (4128 ∈ r.live), (r.heap.mem (sub64 4128 HDR)).size,
        (realloc 20 4128 0 r.heap).map Prod.fst))
      = some (true, 64, some 0) := by decide
  obtain ⟨r, hr, hf⟩ := exists_of_map_eq_some h
  simp only [Prod.mk.injEq, decide_eq_true_eq] at hf
  exact ⟨r, hr, hf.1, hf.2.1, hf.2.2⟩

/-- C13 (amended): for a non-null pointer `p` whose header records size `c` and every `k`
with `0 < k <= c`, `realloc(p, k)` returns `p`. -/
theorem realloc_within_capacity_returns_same (fuel p k : Nat) (s : Heap) (hp : p ≠ 0)
    (hk : 0 < k) (hc : k ≤ (s.mem (sub64 p HDR)).size) :
    (realloc fuel p k s).map Prod.fst = some p := by
  unfold realloc
  rw [if_neg hp, if_neg (by omega)]
  simp only []
  rw [if_pos hc]
  rfl

/-- C13 (witness): the used block of 16 bytes at 4192 of `sample_heap`, resized to 8
bytes. -/
theorem realloc_within_capacity_returns_same_witness :
    4224 ≠ 0 ∧ 0 < 8 ∧ 8 ≤ (sample_heap.mem (sub64 4224 HDR)).size ∧
    (realloc 5 4224 8 sample_heap).map Prod.fst = some 4224 :=
  ⟨by decide, by decide, by decide,
    realloc_within_capacity_returns_same 5 4224 8 sample_heap (by decide) (by decide)
      (by decide)⟩

/-- C14: for a non-null pointer `p` whose header records size `c` and every `k` with
`0 < k <= c`, `realloc(p, k)` returns `p` in a state in which the recorded size is still
`c` and all headers, `head_free`, `tail_free`, `start_of_heap`, the break and all payload
bytes are what they were. -/
theorem realloc_in_place_changes_nothing (fuel p k : Nat) (s : Heap) (hp : p ≠ 0)
    (hk : 0 < k) (hc : k ≤ (s.mem (sub64 p HDR)).size) :
    ∃ t, realloc fuel p k s = some (p, t) ∧
      (t.mem (sub64 p HDR)).size = (s.mem (sub64 p HDR)).size ∧ t.mem = s.mem ∧
      t.head_free = s.head_free ∧ t.tail_free = s.tail_free ∧
      t.start_of_heap = s.start_of_heap ∧ t.brk = s.brk ∧ t.bytes = s.bytes := by
  refine ⟨s, ?_, rfl, rfl, rfl, rfl, rfl, rfl, rfl⟩
  unfold realloc
  rw [if_neg hp, if_neg (by omega)]
  simp only []
  rw [if_pos hc]

/-- C14 (witness): the used block of 16 bytes at 4192 of `sample_heap`, resized to 16
bytes. -/
theorem realloc_in_place_changes_nothing_witness :
    4224 ≠ 0 ∧ 0 < 16 ∧ 16 ≤ (sample_heap.mem (sub64 4224 HDR)).size ∧
    ∃ t, realloc 5 4224 16 sample_heap = some (4224, t) ∧ t.mem = sample_heap.mem ∧
      t.brk = sample_heap.brk ∧ t.bytes = sample_heap.bytes :=
  ⟨by decide, by decide, by decide,
    (realloc_in_place_changes_nothing 5 4224 16 sample_heap (by decide) (by decide)
      (by decide)).imp (fun t g => ⟨g.1, g.2.2.1, g.2.2.2.2.2.2.1, g.2.2.2.2.2.2.2⟩)⟩

/-- The state after `tail_grow_calls`: well formed, the last block (7176, 984 bytes) in use
with its payload pointer 7208 live, the free list `[4096]`, the break at 8192. -/
theorem tail_grow_state :
    correct_run 20 tail_grow_calls (start_run 4096 1048576) = true ∧
    ∃ r, run 20 tail_grow_calls (start_run 4096 1048576) = some r ∧ 7208 ∈ r.live ∧
      WF r.heap [⟨4096, 3000, 0⟩, ⟨7128, 16, 1⟩, ⟨7176, 984, 1⟩] [4096] ∧
      r.heap.brk = 8192 ∧ r.heap.mem 4096 = ⟨3000, 0, 0, 0⟩ := by
  refine ⟨by decide, ?_⟩
  have h : (run 20 tail_grow_calls (start_run 4096 1048576)).map
      (fun r => (decide (7208 ∈ r.live), r.heap.start_of_heap, r.heap.brk, r.heap.brk_max,
        r.heap.head_free, r.heap.tail_free, r.heap.mem 4096, r.heap.mem 7128, r.heap.mem 7176))
      = some (true, 4096, 8192, 1048576, 4096, 4096, ⟨3000, 0, 0, 0⟩, ⟨16, 1, 0, 0⟩,
          ⟨984, 1, 0, 0⟩) := rfl
  obtain ⟨r, hr, hf⟩ := exists_of_map_eq_some h
  simp only [Prod.mk.injEq, decide_eq_true_eq] at hf
  obtain ⟨h1, h2, h3, h4, h5, h6, h7, h8, h9⟩ := hf
  have hst : heap_start r.heap = 4096 := by unfold heap_start; rw [h2]; rfl
  refine ⟨r, hr, h1, ⟨?_, ?_, ?_, ?_, ?_, ?_, ?_, ?_⟩, h3, h7⟩
  · rw [hst]; decide
  · rw [h3, h4]; decide
  · rw [h4]; decide
  · rw [hst, h3]; exact ⟨rfl, rfl, rfl, rfl⟩
  · intro b hb
    simp only [List.mem_cons, List.mem_singleton, List.not_mem_nil, or_false] at hb
    rcases hb with rfl | rfl | rfl
    · rw [h7]; exact ⟨rfl, rfl⟩
    · rw [h8]; exact ⟨rfl, rfl⟩
    · rw [h9]; exact ⟨rfl, rfl⟩
  · rw [h5]
    exact ⟨⟨rfl, by decide, by rw [h7]; rfl⟩, ⟨by rw [h7], trivial⟩⟩
  · rw [h6]; rfl
  · exact List.Perm.refl _

/-- C15 (code defect): in the well-formed state after `tail_grow_calls` the live pointer 7208
belongs to the last block of the heap (header 7176, recorded size 984) and the break 8192 is
a multiple of the page size.  The request `realloc(7208, 1000)` can be served: its `malloc`
returns 4128, split off the free block at 4096, and does not move the break.  The `free(7208)`
that `realloc` then makes, on the state with the payload copied, scans with
`coalesce_blocks(7176)` and reads the header at 8192, which is the break and not below it.
What `realloc` leaves depends on that header: with the memory as it is (`is_used` 0 at 8192)
the released block has recorded size 1016 instead of 984 and is missing from the free list
`[5128]`; in the state that differs only in `is_used` of the header at 8192 it keeps its size
and the free list is `[5128, 7176]`, although both states agree on every header below the
break. -/
theorem realloc_growth_reads_header_at_break :
    correct_run 20 tail_grow_calls (start_run 4096 1048576) = true ∧
    ∃ r, run 20 tail_grow_calls (start_run 4096 1048576) = some r ∧ 7208 ∈ r.live ∧
      WF r.heap [⟨4096, 3000, 0⟩, ⟨7128, 16, 1⟩, ⟨7176, 984, 1⟩] [4096] ∧
      Servable r.heap [4096] 1000 ∧ r.heap.brk = 8192 ∧ r.heap.brk % 4096 = 0 ∧
      (∃ s1, malloc 20 1000 r.heap = some (4128, s1) ∧ s1.brk = r.heap.brk ∧
        realloc 20 7208 1000 r.heap =
          (free 20 7208 (copy_payload s1 4128 7208)).map (fun t => (4128, t)) ∧
        ∃ t log,
          coalesce_blocks_log 20 7176 (mark_free (copy_payload s1 4128 7208) 7176) =
            some ((1, t), log) ∧
          coalesce_blocks 20 7176 (mark_free (copy_payload s1 4128 7208) 7176) = some (1, t) ∧
          8192 ∈ log ∧ ¬ (8192 < s1.brk)) ∧
      (∀ a, a < r.heap.brk → (mark_used r.heap 8192).mem a = r.heap.mem a) ∧
      (realloc 20 7208 1000 r.heap).map (fun x => (x.1, x.2.mem 7176, free_list 20 x.2)) =
        some (4128, ⟨1016, 0, 0, 0⟩, some [5128]) ∧
      (realloc 20 7208 1000 (mark_used r.heap 8192)).map
          (fun x => (x.1, x.2.mem 7176, free_list 20 x.2)) =
        some (4128, ⟨984, 0, 0, 5128⟩, some [5128, 7176]) := by
  obtain ⟨hc, r, hr, hl, hwf, hb, h0⟩ := tail_grow_state
  have h : (run 20 tail_grow_calls (start_run 4096 1048576)).map
      (fun r => ((malloc 20 1000 r.heap).map (fun y => (y.1, y.2.brk,
          (coalesce_blocks_log 20 7176 (mark_free (copy_payload y.2 4128 7208) 7176)).map
            (fun x => (x.1.1, decide (8192 ∈ x.2))))),
        (realloc 20 7208 1000 r.heap).map (fun x => (x.1, x.2.mem 7176, free_list 20 x.2)),
        (realloc 20 7208 1000 (mark_used r.heap 8192)).map
          (fun x => (x.1, x.2.mem 7176, free_list 20 x.2))))
      = some (some (4128, 8192, some (1, true)),
          some (4128, ⟨1016, 0, 0, 0⟩, some [5128]),
          some (4128, ⟨984, 0, 0, 5128⟩, some [5128, 7176])) := rfl
  rw [hr] at h
  simp only [Option.map_some', Option.some.injEq, Prod.mk.injEq] at h
  obtain ⟨ha, hf1, hf2⟩ := h
  obtain ⟨y, hy, hyf⟩ := exists_of_map_eq_some ha
  simp only [Prod.mk.injEq] at hyf
  obtain ⟨hy1, hy2, hy3⟩ := hyf
  obtain ⟨x, hx, hf⟩ := exists_of_map_eq_some hy3
  simp only [Prod.mk.injEq, decide_eq_true_eq] at hf
  have hm : malloc 20 1000 r.heap = some (4128, y.2) := by rw [← hy1]; exact hy
  have hx' : coalesce_blocks_log 20 7176 (mark_free (copy_payload y.2 4128 7208) 7176)
      = some ((1, x.1.2), x.2) := by
    rw [← hf.1]; exact hx
  have hsz : (r.heap.mem (sub64 7208 HDR)).size = 984 := (hwf.hdrs ⟨7176, 984, 1⟩ (by simp)).1
  have hok : Servable r.heap [4096] 1000 :=
    ⟨by decide, Or.inl ⟨4096, by simp, by rw [Fits, h0]; decide⟩⟩
  refine ⟨hc, r, hr, hl, hwf, hok, hb, by rw [hb], ⟨y.2, hm, by rw [hy2, hb], ?_,
    x.1.2, x.2, hx', ?_, hf.2, by rw [hy2]; decide⟩, ?_, hf1, hf2⟩
  · unfold realloc
    rw [if_neg (by decide), if_neg (by decide)]
    simp only []
    rw [if_neg (by rw [hsz]; decide), hm]
    simp only []
    unfold copy_payload
    cases free 20 7208 _ <;> rfl
  · rw [← coalesce_blocks_log_fst, hx']; rfl
  · intro a ha
    have hne : a ≠ 8192 := by rw [hb] at ha; omega
    show set_is_used r.heap.mem 8192 1 a = r.heap.mem a
    simp [set_is_used, hne]

/-- C16 (counterexample): on the empty heap `calloc(2^32, 2^32)` returns 4128, the payload
pointer of a block of recorded size 0 that ends at the break 4128: the `2^32 * 2^32` bytes
from 4128 on lie neither inside the payload of that block nor inside the heap. -/
theorem calloc_overflow_returns_empty_block :
    ∃ t, calloc 20 (2 ^ 32) (2 ^ 32) (fresh_heap 4096 1048576) = some (4128, t) ∧
      (t.mem 4096).size = 0 ∧ (t.mem 4096).is_used = 1 ∧ t.brk = 4128 ∧
      ¬ (4128 + 2 ^ 32 * 2 ^ 32 ≤ 4096 + HDR + (t.mem 4096).size) ∧
      ¬ (4128 + 2 ^ 32 * 2 ^ 32 ≤ t.brk) :=
  ⟨_, rfl, rfl, rfl, rfl, by decide, by decide⟩

/-- C16 (amended): in a well-formed state, for `c` and `sz` whose product can be served (it
does not wrap, and a free block fits or the heap can be extended), `calloc(c, sz)` returns
(given enough fuel) the payload pointer `p` of a used block of the resulting well-formed
state; the `c * sz` bytes from `p` on lie inside that payload and inside the heap, hold no
header byte, and all read zero. -/
theorem calloc_zero_fills (s : Heap) (bs : List Block) (fl : List Nat) (c sz : Nat)
    (hwf : WF s bs fl) (hok : Servable s fl (c * sz)) :
    ∃ F, ∀ fuel, F ≤ fuel → ∃ p t bs' fl' b,
      calloc fuel c sz s = some (p, t) ∧ WF t bs' fl' ∧ Allocated t bs' b p (c * sz) ∧
      (∀ i, i < c * sz → t.bytes (p + i) = 0) := by
  refine ⟨2 * fl.length + 2, fun fuel hf => ?_⟩
  have hH : HDR = 32 := rfl
  obtain ⟨p, t, bs', fl', b, hm, hwt, hal, -, -, -⟩ :=
    malloc_serves s bs fl (c * sz) fuel hwf hok hf
  have hmod : (c * sz) % WORD = c * sz := Nat.mod_eq_of_lt (by have := hok.1; omega)
  have hlt := hwt.brk_lt
  have hin := hal.in_heap
  refine ⟨p, zero_fill t p (c * sz), bs', fl', b, ?_,
    ⟨hwt.start_pos, hwt.brk_le, hwt.max_lt, hwt.layout, hwt.hdrs, hwt.dlist, hwt.tail,
      hwt.free_perm⟩,
    ⟨hal.mem_b, hal.ptr, hal.used_mem, hal.size_mem, hal.in_payload, hal.in_heap,
      hal.no_header⟩, ?_⟩
  · unfold calloc
    simp only [hmod, hm]
    rfl
  · intro i hi
    show (if sub64 (p + i) p < c * sz then 0 else t.bytes (p + i)) = 0
    have e1 : sub64 (p + i) p = i := by
      rw [sub64_of_le (by omega) (by omega)]; omega
    rw [e1, if_pos hi]

/-- C16 (witness): `calloc(2, 4)` on `sample_heap`. -/
theorem calloc_zero_fills_witness :
    WF sample_heap ([⟨4096, 64, 0⟩] ++ ⟨4192, 16, 1⟩ :: []) [4096] ∧
    Servable sample_heap [4096] (2 * 4) ∧
    ∃ F, ∀ fuel, F ≤ fuel → ∃ p t bs' fl' b,
      calloc fuel 2 4 sample_heap = some (p, t) ∧ WF t bs' fl' ∧
      Allocated t bs' b p (2 * 4) ∧ (∀ i, i < 2 * 4 → t.bytes (p + i) = 0) :=
  ⟨sample_wf, sample_servable _ (by decide),
    calloc_zero_fills sample_heap _ [4096] 2 4 sample_wf (sample_servable _ (by decide))⟩

/-- C17 (counterexample): on the empty heap with break 4096 and limit 4136, `calloc(1, 64)`
returns `(void*) -1`, the value of its `malloc(64)`, whose second `sbrk` failed: the break is
4128, the only header is the one at 4096, and the 64 bytes that are zeroed from the returned
pointer on are not payload bytes of a block: their first address is not below the break and
no header inside the heap has that payload pointer. -/
theorem calloc_after_failed_malloc :
    ∃ t, calloc 20 1 64 (fresh_heap 4096 4136) = some (WORD - 1, t) ∧
      malloc 20 ((1 * 64) % WORD) (fresh_heap 4096 4136) =
        some (WORD - 1, { t with bytes := (fresh_heap 4096 4136).bytes }) ∧
      t.start_of_heap = 4096 ∧ t.brk = 4128 ∧ t.mem 4096 = ⟨64, 1, 0, 0⟩ ∧
      ¬ (WORD - 1 < t.brk) ∧ (∀ Q, Q + HDR = WORD - 1 → ¬ (Q < t.brk)) ∧
      (∀ i, i < 64 → t.bytes (add64 (WORD - 1) i) = 0) := by
  refine ⟨_, rfl, rfl, rfl, rfl, rfl, by decide, ?_, ?_⟩
  · intro Q hQ
    show ¬ (Q < 4128)
    have hW : WORD = 2 ^ 64 := rfl
    have hH : HDR = 32 := rfl
    omega
  · intro i hi
    interval_cases i <;> rfl

/-- C17 (amended): in a well-formed state, for `num` and `size` whose product reduced modulo
`2^64` (there is no overflow check) is a request `n` that can be served, `calloc(num, size)`
returns (given enough fuel) the pointer `p` that `malloc(n)` returns, the payload pointer
of a used block of recorded size `n` inside the heap; the state it leaves has the headers,
the free-list pointers, the heap start and the break that `malloc(n)` leaves; each of the
`n` bytes `p[0..n)`, which lie in the payload of that block, reads zero, and every other
byte is as `malloc(n)` left it. -/
theorem calloc_is_malloc_of_wrapped_product (s : Heap) (bs : List Block) (fl : List Nat)
    (num size : Nat) (hwf : WF s bs fl) (hok : Servable s fl ((num * size) % WORD)) :
    ∃ F, ∀ fuel, F ≤ fuel → ∃ p t bs' fl' b,
      malloc fuel ((num * size) % WORD) s = some (p, t) ∧ WF t bs' fl' ∧
      Allocated t bs' b p ((num * size) % WORD) ∧
      ∃ t', calloc fuel num size s = some (p, t') ∧ t'.mem = t.mem ∧
        t'.head_free = t.head_free ∧ t'.tail_free = t.tail_free ∧
        t'.start_of_heap = t.start_of_heap ∧ t'.brk = t.brk ∧
        (∀ i, i < (num * size) % WORD → t'.bytes (p + i) = 0) ∧
        (∀ a, a < WORD → (a < p ∨ p + (num * size) % WORD ≤ a) → t'.bytes a = t.bytes a) := by
  refine ⟨2 * fl.length + 2, fun fuel hf => ?_⟩
  have hH : HDR = 32 := rfl
  have hW : WORD = 2 ^ 64 := rfl
  obtain ⟨p, t, bs', fl', b, hm, hwt, hal, -, -, -⟩ :=
    malloc_serves s bs fl ((num * size) % WORD) fuel hwf hok hf
  have hlt := hwt.brk_lt
  have hin := hal.in_heap
  generalize hn : (num * size) % WORD = n at hm hal hin hok
  refine ⟨p, t, bs', fl', b, hm, hwt, hal,
    { t with bytes := memset_zero t.bytes p n }, ?_, rfl, rfl, rfl, rfl, rfl, ?_, ?_⟩
  · unfold calloc
    simp only [hn, hm]
  · intro i hi
    show (if sub64 (p + i) p < n then 0 else t.bytes (p + i)) = 0
    have e1 : sub64 (p + i) p = i := by
      rw [sub64_of_le (by omega) (by omega)]; omega
    rw [e1, if_pos hi]
  · intro a ha hout
    show (if sub64 a p < n then 0 else t.bytes a) = t.bytes a
    have e1 : ¬ sub64 a p < n := by
      unfold sub64
      rw [hW] at ha ⊢
      omega
    rw [if_neg e1]

/-- C17 (witness): `calloc(2^61 + 1, 8)` on `sample_heap`; the product `2^64 + 8` wraps to
the request 8. -/
theorem calloc_is_malloc_of_wrapped_product_witness :
    WF sample_heap ([⟨4096, 64, 0⟩] ++ ⟨4192, 16, 1⟩ :: []) [4096] ∧
    Servable sample_heap [4096] (((2 ^ 61 + 1) * 8) % WORD) ∧
    ∃ F, ∀ fuel, F ≤ fuel → ∃ p t bs' fl' b,
      malloc fuel (((2 ^ 61 + 1) * 8) % WORD) sample_heap = some (p, t) ∧ WF t bs' fl' ∧
      Allocated t bs' b p (((2 ^ 61 + 1) * 8) % WORD) ∧
      ∃ t', calloc fuel (2 ^ 61 + 1) 8 sample_heap = some (p, t') ∧ t'.mem = t.mem ∧
        t'.head_free = t.head_free ∧ t'.tail_free = t.tail_free ∧
        t'.start_of_heap = t.start_of_heap ∧ t'.brk = t.brk ∧
        (∀ i, i < ((2 ^ 61 + 1) * 8) % WORD → t'.bytes (p + i) = 0) ∧
        (∀ a, a < WORD → (a < p ∨ p + ((2 ^ 61 + 1) * 8) % WORD ≤ a) →
          t'.bytes a = t.bytes a) :=
  ⟨sample_wf, sample_servable _ (by decide),
    calloc_is_malloc_of_wrapped_product sample_heap _ [4096] (2 ^ 61 + 1) 8 sample_wf
      (sample_servable _ (by decide))⟩

/-- C18 (code defect): `malloc` does not test the result of `sbrk`.  On an empty heap with
room for the header but not for 64 more bytes, `malloc(64)` returns `(void*) -1`, not
`NULL`, and has moved the break by 32 and written the header at 4096; with no room at all
it returns `(void*) -1` and has written the header at address `2^64 - 1`. -/
theorem malloc_ignores_sbrk_failure :
    (∃ t, malloc 20 64 (fresh_heap 4096 4136) = some (WORD - 1, t) ∧
      (fresh_heap 4096 4136).brk = 4096 ∧ t.brk = 4128 ∧ t.mem 4096 = ⟨64, 1, 0, 0⟩ ∧
      (fresh_heap 4096 4136).mem 4096 = ⟨0, 0, 0, 0⟩) ∧
    (∃ t, malloc 20 64 (fresh_heap 4096 4096) = some (WORD - 1, t) ∧
      t.brk = 4096 ∧ t.mem (WORD - 1) = ⟨64, 1, 0, 0⟩ ∧
      (fresh_heap 4096 4096).mem (WORD - 1) = ⟨0, 0, 0, 0⟩) ∧
    WORD - 1 ≠ 0 := by
  refine ⟨⟨_, rfl, rfl, rfl, rfl, rfl⟩, ⟨_, rfl, rfl, rfl, rfl⟩, by decide⟩

/-- C19 (code defect): `realloc` does not test the result of `malloc`.  After `malloc(16)`
returned 4128 on a heap that cannot grow any further, `realloc(4128, 64)` returns
`(void*) -1`, not `NULL`, and has released the old block: its `is_used` is 0 and it is the
free list. -/
theorem realloc_failure_releases_old_block :
    ∃ r, run 20 [Call.malloc 16] (start_run 4096 4144) = some r ∧
      4128 ∈ r.live ∧ (r.heap.mem 4096).size = 16 ∧ (r.heap.mem 4096).is_used = 1 ∧
      r.heap.brk = 4144 ∧ r.heap.brk_max = 4144 ∧ free_list 20 r.heap = some [] ∧
      ∃ t, realloc 20 4128 64 r.heap = some (WORD - 1, t) ∧ WORD - 1 ≠ 0 ∧
        (t.mem 4096).is_used = 0 ∧ free_list 20 t = some [4096] ∧ t.brk = 4144 := by
  have h : (run 20 [Call.malloc 16] (start_run 4096 4144)).map
      (fun r => (decide (4128 ∈ r.live), (r.heap.mem 4096).size, (r.heap.mem 4096).is_used,
        r.heap.brk, r.heap.brk_max, free_list 20 r.heap,
        (realloc 20 4128 64 r.heap).map (fun x => (x.1, (x.2.mem 4096).is_used,
          free_list 20 x.2, x.2.brk))))
      = some (true, 16, 1, 4144, 4144, some [], some (WORD - 1, 0, some [4096], 4144)) := rfl
  obtain ⟨r, hr, hf⟩ := exists_of_map_eq_some h
  simp only [Prod.mk.injEq, decide_eq_true_eq] at hf
  obtain ⟨h1, h2, h3, h4, h5, h6, h7⟩ := hf
  obtain ⟨x, hx, h8⟩ := exists_of_map_eq_some h7
  simp only [Prod.mk.injEq] at h8
  refine ⟨r, hr, h1, h2, h3, h4, h5, h6, x.2, ?_, by decide, h8.2.1, h8.2.2.1, h8.2.2.2⟩
  rw [hx, ← h8.1]

/-- C20: in a well-formed state, for a request `n` that no free-list entry fits (none has
size `n` or size above `n + sizeof(metadata_t)`) and for which the break can be raised,
`malloc(n)` returns (given enough fuel) the old break plus `sizeof(metadata_t)`, has raised
the break by exactly `sizeof(metadata_t) + n`, has written the header
`(n, used, NULL, NULL)` at the old break, and has changed no other header, not `head_free`,
not `tail_free` and not the free list. -/
theorem malloc_growth_postcondition (s : Heap) (bs : List Block) (fl : List Nat) (n : Nat)
    (hwf : WF s bs fl)
    (hno : ∀ y ∈ fl, (s.mem y).size ≠ n ∧ ¬ (n + HDR < (s.mem y).size))
    (hn : n < 2 ^ 63) (hext : s.brk + HDR + n ≤ s.brk_max) :
    ∃ F, ∀ fuel, F ≤ fuel → ∃ t,
      malloc fuel n s = some (s.brk + HDR, t) ∧ t.brk = s.brk + (HDR + n) ∧
      t.mem s.brk = ⟨n, 1, 0, 0⟩ ∧ (∀ a, a ≠ s.brk → t.mem a = s.mem a) ∧
      t.head_free = s.head_free ∧ t.tail_free = s.tail_free ∧
      free_list fuel s = some fl ∧ free_list fuel t = some fl ∧
      WF t (bs ++ [⟨s.brk, n, 1⟩]) fl := by
  refine ⟨fl.length + 1, fun fuel hf => ?_⟩
  have hH : HDR = 32 := rfl
  have hW : WORD = 2 ^ 64 := rfl
  have hno' : ∀ y ∈ fl, ¬ Fits s.mem n y := by
    intro y hy hfit
    unfold Fits at hfit
    rw [add64_of_lt (by omega)] at hfit
    rcases hfit with h | h
    · exact (hno y hy).1 h
    · exact (hno y hy).2 h
  obtain ⟨t, h1, h2, h3, h4, h5, h6, h7, h8, h9, h10⟩ :=
    malloc_grow_spec s bs fl n fuel hwf hno' hext hn hf
  exact ⟨t, h1, by omega, h9, h10, h7, h8, hwf.free_list_eq hf, h2.free_list_eq hf, h2⟩

/-- C20 (witness): `malloc(40)` on `sample_heap`, whose only free block has 64 bytes. -/
theorem malloc_growth_postcondition_witness :
    WF sample_heap ([⟨4096, 64, 0⟩] ++ ⟨4192, 16, 1⟩ :: []) [4096] ∧ 40 < 2 ^ 63 ∧
    sample_heap.brk + HDR + 40 ≤ sample_heap.brk_max ∧
    ∃ F, ∀ fuel, F ≤ fuel → ∃ t,
      malloc fuel 40 sample_heap = some (sample_heap.brk + HDR, t) ∧
      t.brk = sample_heap.brk + (HDR + 40) ∧ t.mem sample_heap.brk = ⟨40, 1, 0, 0⟩ :=
  ⟨sample_wf, by decide, by decide,
    (malloc_growth_postcondition sample_heap _ [4096] 40 sample_wf
      (by
        intro y hy
        have e : y = 4096 := by simpa using hy
        subst e
        exact ⟨by decide, by decide⟩)
      (by decide) (by decide)).imp
      (fun F h fuel hf => (h fuel hf).imp (fun t g => ⟨g.1, g.2.1, g.2.2.1⟩))⟩

theorem free_list_from_cycle (m : Mem) (a b : Nat) (ha : a ≠ 0) (hb : b ≠ 0)
    (h1 : (m a).next = b) (h2 : (m b).next = a) :
    ∀ fuel p, p = a ∨ p = b → free_list_from m fuel p = none := by
  intro fuel
  induction fuel with
  | zero => intro p _; rfl
  | succ k ih =>
    intro p hp
    rcases hp with hp | hp
    · subst hp
      have := ih b (Or.inr rfl)
      simp [free_list_from, ha, h1, this]
    · subst hp
      have := ih a (Or.inl rfl)
      simp [free_list_from, hb, h2, this]

/-- The state after `leak_calls`: well formed, with the last block (4288, 64 bytes) in use,
its payload pointer 4320 live, the block before it in use, and the first block free. -/
theorem leak_state :
    correct_run 20 leak_calls (start_run 4096 1048576) = true ∧
    ∃ r, run 20 leak_calls (start_run 4096 1048576) = some r ∧ 4320 ∈ r.live ∧
      WF r.heap [⟨4096, 64, 0⟩, ⟨4192, 64, 1⟩, ⟨4288, 64, 1⟩] [4096] ∧
      NoAdjFree [⟨4096, 64, 0⟩, ⟨4192, 64, 1⟩, ⟨4288, 64, 1⟩] ∧
      r.heap.brk = 4384 ∧ (r.heap.mem 4288).next = 0 := by
  refine ⟨by decide, ?_⟩
  have h : (run 20 leak_calls (start_run 4096 1048576)).map
      (fun r => (decide (4320 ∈ r.live), r.heap.start_of_heap, r.heap.brk, r.heap.brk_max,
        r.heap.head_free, r.heap.tail_free, r.heap.mem 4096, r.heap.mem 4192, r.heap.mem 4288))
      = some (true, 4096, 4384, 1048576, 4096, 4096, ⟨64, 0, 0, 0⟩, ⟨64, 1, 0, 0⟩,
          ⟨64, 1, 0, 0⟩) := rfl
  obtain ⟨r, hr, hf⟩ := exists_of_map_eq_some h
  simp only [Prod.mk.injEq, decide_eq_true_eq] at hf
  obtain ⟨h1, h2, h3, h4, h5, h6, h7, h8, h9⟩ := hf
  have hst : heap_start r.heap = 4096 := by unfold heap_start; rw [h2]; rfl
  refine ⟨r, hr, h1, ⟨?_, ?_, ?_, ?_, ?_, ?_, ?_, ?_⟩, by simp [NoAdjFree], h3, by rw [h9]⟩
  · rw [hst]; decide
  · rw [h3, h4]; decide
  · rw [h4]; decide
  · rw [hst, h3]; exact ⟨rfl, rfl, rfl, rfl⟩
  · intro b hb
    simp only [List.mem_cons, List.mem_singleton, List.not_mem_nil, or_false] at hb
    rcases hb with rfl | rfl | rfl
    · rw [h7]; exact ⟨rfl, rfl⟩
    · rw [h8]; exact ⟨rfl, rfl⟩
    · rw [h9]; exact ⟨rfl, rfl⟩
  · rw [h5]
    exact ⟨⟨rfl, by decide, by rw [h7]; rfl⟩, ⟨by rw [h7], trivial⟩⟩
  · rw [h6]; rfl
  · exact List.Perm.refl _

/-- The state after `wrap_calls`: well formed, the free list holds the block of 100 bytes at
4096 and nothing else. -/
theorem wrap_state :
    correct_run 20 wrap_calls (start_run 4096 1048576) = true ∧
    ∃ r, run 20 wrap_calls (start_run 4096 1048576) = some r ∧
      WF r.heap [⟨4096, 100, 0⟩, ⟨4228, 8, 1⟩] [4096] ∧ r.heap.brk = 4268 ∧
      r.heap.start_of_heap = 4096 ∧ r.heap.head_free = 4096 ∧
      r.heap.mem 4096 = ⟨100, 0, 0, 0⟩ := by
  refine ⟨by decide, ?_⟩
  have h : (run 20 wrap_calls (start_run 4096 1048576)).map
      (fun r => (r.heap.start_of_heap, r.heap.brk, r.heap.brk_max,
        r.heap.head_free, r.heap.tail_free, r.heap.mem 4096, r.heap.mem 4228))
      = some (4096, 4268, 1048576, 4096, 4096, ⟨100, 0, 0, 0⟩, ⟨8, 1, 0, 0⟩) := rfl
  obtain ⟨r, hr, hf⟩ := exists_of_map_eq_some h
  simp only [Prod.mk.injEq] at hf
  obtain ⟨h2, h3, h4, h5, h6, h7, h8⟩ := hf
  have hst : heap_start r.heap = 4096 := by unfold heap_start; rw [h2]; rfl
  refine ⟨r, hr, ⟨?_, ?_, ?_, ?_, ?_, ?_, ?_, ?_⟩, h3, h2, h5, h7⟩
  · rw [hst]; decide
  · rw [h3, h4]; decide
  · rw [h4]; decide
  · rw [hst, h3]; exact ⟨rfl, rfl, rfl⟩
  · intro b hb
    simp only [List.mem_cons, List.mem_singleton, List.not_mem_nil, or_false] at hb
    rcases hb with rfl | rfl
    · rw [h7]; exact ⟨rfl, rfl⟩
    · rw [h8]; exact ⟨rfl, rfl⟩
  · rw [h5]
    exact ⟨⟨rfl, by decide, by rw [h7]; rfl⟩, ⟨by rw [h7], trivial⟩⟩
  · rw [h6]; rfl
  · exact List.Perm.refl _

/-- The state after `stale_split_calls`: well formed, no two neighbours free; the used block
at 4096 still holds the link to 4468 in its `next` field. -/
theorem stale_split_state :
    correct_run 20 stale_split_calls (start_run 4096 1048576) = true ∧
    ∃ r, run 20 stale_split_calls (start_run 4096 1048576) = some r ∧ 4128 ∈ r.live ∧
      WF r.heap [⟨4096, 100, 1⟩, ⟨4228, 168, 0⟩, ⟨4428, 8, 1⟩, ⟨4468, 50, 0⟩, ⟨4550, 8, 1⟩]
        [4228, 4468] ∧
      NoAdjFree [⟨4096, 100, 1⟩, ⟨4228, 168, 0⟩, ⟨4428, 8, 1⟩, ⟨4468, 50, 0⟩, ⟨4550, 8, 1⟩] ∧
      (r.heap.mem 4096).next = 4468 := by
  refine ⟨by decide, ?_⟩
  have h : (run 20 stale_split_calls (start_run 4096 1048576)).map
      (fun r => (decide (4128 ∈ r.live), r.heap.start_of_heap, r.heap.brk, r.heap.brk_max,
        r.heap.head_free, r.heap.tail_free, r.heap.mem 4096, r.heap.mem 4228, r.heap.mem 4428,
        r.heap.mem 4468, r.heap.mem 4550))
      = some (true, 4096, 4590, 1048576, 4228, 4468, ⟨100, 1, 4468, 0⟩, ⟨168, 0, 4468, 0⟩,
          ⟨8, 1, 0, 0⟩, ⟨50, 0, 0, 4228⟩, ⟨8, 1, 0, 0⟩) := rfl
  obtain ⟨r, hr, hf⟩ := exists_of_map_eq_some h
  simp only [Prod.mk.injEq, decide_eq_true_eq] at hf
  obtain ⟨h1, h2, h3, h4, h5, h6, h7, h8, h9, h10, h11⟩ := hf
  have hst : heap_start r.heap = 4096 := by unfold heap_start; rw [h2]; rfl
  refine ⟨r, hr, h1, ⟨?_, ?_, ?_, ?_, ?_, ?_, ?_, ?_⟩, by simp [NoAdjFree], by rw [h7]⟩
  · rw [hst]; decide
  · rw [h3, h4]; decide
  · rw [h4]; decide
  · rw [hst, h3]; exact ⟨rfl, rfl, rfl, rfl, rfl, rfl⟩
  · intro b hb
    simp only [List.mem_cons, List.mem_singleton, List.not_mem_nil, or_false] at hb
    rcases hb with rfl | rfl | rfl | rfl | rfl
    · rw [h7]; exact ⟨rfl, rfl⟩
    · rw [h8]; exact ⟨rfl, rfl⟩
    · rw [h9]; exact ⟨rfl, rfl⟩
    · rw [h10]; exact ⟨rfl, rfl⟩
    · rw [h11]; exact ⟨rfl, rfl⟩
  · rw [h5]
    exact ⟨⟨rfl, by decide, by rw [h8]; exact ⟨rfl, by decide, by rw [h10]; rfl⟩⟩,
      ⟨by rw [h8], by rw [h10], trivial⟩⟩
  · rw [h6]; rfl
  · exact List.Perm.refl _

/-- The state after `wrap_calls` when the break limit is reached: well formed, the free list
holds the block of 100 bytes at 4096, and the break cannot be raised. -/
theorem full_state :
    correct_run 20 wrap_calls (start_run 4096 4268) = true ∧
    ∃ r, run 20 wrap_calls (start_run 4096 4268) = some r ∧
      WF r.heap [⟨4096, 100, 0⟩, ⟨4228, 8, 1⟩] [4096] ∧ r.heap.brk = 4268 ∧
      r.heap.brk_max = 4268 ∧ r.heap.mem 4096 = ⟨100, 0, 0, 0⟩ := by
  refine ⟨by decide, ?_⟩
  have h : (run 20 wrap_calls (start_run 4096 4268)).map
      (fun r => (r.heap.start_of_heap, r.heap.brk, r.heap.brk_max,
        r.heap.head_free, r.heap.tail_free, r.heap.mem 4096, r.heap.mem 4228))
      = some (4096, 4268, 4268, 4096, 4096, ⟨100, 0, 0, 0⟩, ⟨8, 1, 0, 0⟩) := rfl
  obtain ⟨r, hr, hf⟩ := exists_of_map_eq_some h
  simp only [Prod.mk.injEq] at hf
  obtain ⟨h2, h3, h4, h5, h6, h7, h8⟩ := hf
  have hst : heap_start r.heap = 4096 := by unfold heap_start; rw [h2]; rfl
  refine ⟨r, hr, ⟨?_, ?_, ?_, ?_, ?_, ?_, ?_, ?_⟩, h3, h4, h7⟩
  · rw [hst]; decide
  · rw [h3, h4]
  · rw [h4]; decide
  · rw [hst, h3]; exact ⟨rfl, rfl, rfl⟩
  · intro b hb
    simp only [List.mem_cons, List.mem_singleton, List.not_mem_nil, or_false] at hb
    rcases hb with rfl | rfl
    · rw [h7]; exact ⟨rfl, rfl⟩
    · rw [h8]; exact ⟨rfl, rfl⟩
  · rw [h5]
    exact ⟨⟨rfl, by decide, by rw [h7]; rfl⟩, ⟨by rw [h7], trivial⟩⟩
  · rw [h6]; rfl
  · exact List.Perm.refl _

/-- C21 (counterexample): the well-formed state after `wrap_calls` with the break at its
limit holds one free block, 100 bytes at 4096.  For `n = 80` that block is in the band
(`80 < 100 <= 80 + 32`): `malloc(80)` leaves the block alone, but the heap cannot grow, no
block of 80 bytes comes into being, and the value returned is `(void*) -1`.  For
`n = 2^64 - 1` the block is smaller than the request, and `malloc` does not go to heap growth
either: it returns 4128, the payload pointer of that block, and marks the block used. -/
theorem growth_does_not_serve :
    correct_run 20 wrap_calls (start_run 4096 4268) = true ∧
    ∃ r, run 20 wrap_calls (start_run 4096 4268) = some r ∧
      WF r.heap [⟨4096, 100, 0⟩, ⟨4228, 8, 1⟩] [4096] ∧
      (∀ y ∈ [4096], 80 < (r.heap.mem y).size ∧ (r.heap.mem y).size ≤ 80 + HDR) ∧
      (∀ y ∈ [4096], (r.heap.mem y).size < WORD - 1) ∧
      (∃ t, malloc 20 80 r.heap = some (WORD - 1, t) ∧ t.brk = r.heap.brk ∧
        t.mem 4096 = r.heap.mem 4096 ∧ t.mem 4228 = r.heap.mem 4228 ∧
        free_list 20 t = some [4096] ∧
        heap_walk t.mem t.brk 20 t.start_of_heap = some [4096, 4228]) ∧
      (∃ t, malloc 20 (WORD - 1) r.heap = some (4096 + HDR, t) ∧ t.brk = r.heap.brk ∧
        (t.mem 4096).is_used = 1 ∧ (t.mem 4096).size = WORD - 1 ∧
        free_list 20 t = some [4127]) := by
  obtain ⟨hc, r, hr, hwf, hb, hmx, hm⟩ := full_state
  have h : (run 20 wrap_calls (start_run 4096 4268)).map
      (fun r => ((malloc 20 80 r.heap).map
          (fun x => (x.1, x.2.brk, x.2.mem 4096, x.2.mem 4228, free_list 20 x.2,
            heap_walk x.2.mem x.2.brk 20 x.2.start_of_heap)),
        r.heap.mem 4228,
        (malloc 20 (WORD - 1) r.heap).map
          (fun x => (x.1, x.2.brk, (x.2.mem 4096).is_used, (x.2.mem 4096).size,
            free_list 20 x.2))))
      = some (some (WORD - 1, 4268, ⟨100, 0, 0, 0⟩, ⟨8, 1, 0, 0⟩, some [4096],
            some [4096, 4228]),
          ⟨8, 1, 0, 0⟩,
          some (4096 + HDR, 4268, 1, WORD - 1, some [4127])) := rfl
  rw [hr] at h
  simp only [Option.map_some', Option.some.injEq, Prod.mk.injEq] at h
  obtain ⟨ha, hm2, hb2⟩ := h
  obtain ⟨x, hx, hf⟩ := exists_of_map_eq_some ha
  simp only [Prod.mk.injEq] at hf
  obtain ⟨h1, h2, h3, h4, h5, h6⟩ := hf
  obtain ⟨z, hz, hg⟩ := exists_of_map_eq_some hb2
  simp only [Prod.mk.injEq] at hg
  obtain ⟨g1, g2, g3, g4, g5⟩ := hg
  refine ⟨hc, r, hr, hwf, ?_, ?_, ⟨x.2, ?_, by rw [h2, hb], by rw [h3, hm], by rw [h4, hm2],
    h5, h6⟩, ⟨z.2, ?_, by rw [g2, hb], g3, g4, g5⟩⟩
  · intro y hy
    have : y = 4096 := by simpa using hy
    subst this
    rw [hm]; decide
  · intro y hy
    have : y = 4096 := by simpa using hy
    subst this
    rw [hm]; decide
  · rw [← h1]; exact hx
  · rw [← g1]; exact hz

/-- C21 (amended): the skip band.  In a well-formed state with free list `fl`:
(1) a free-list entry `x` whose size `S` satisfies `n < S <= n + sizeof(metadata_t)` is
neither returned nor split by `malloc(n)`, which returns given enough fuel: the pointer
returned is not the payload pointer of `x`, `x` keeps its size and its free flag, and the free
list afterwards is the previous one (growth), or the previous one with one other entry `y`
taken out (exact fit of `y`) or replaced by the remainder of `y` (split of `y`), so `x` keeps
its place;
(2) if every entry is in that band or smaller than `n`, and the break can be raised by a
header and `n` bytes, the request is served by heap growth: `malloc(n)` returns the old break
plus a header, the break moves by a header and `n` bytes, the new used block of size `n` is
added behind the others, and the free list is what it was. -/
theorem skip_band (s : Heap) (bs : List Block) (fl : List Nat) (n : Nat) (hwf : WF s bs fl) :
    (∀ x ∈ fl, n < (s.mem x).size → (s.mem x).size ≤ n + HDR →
      ∃ F, ∀ fuel, F ≤ fuel → ∃ p t fl',
        malloc fuel n s = some (p, t) ∧ p ≠ x + HDR ∧
        (t.mem x).size = (s.mem x).size ∧ (t.mem x).is_used = 0 ∧
        free_list fuel t = some fl' ∧ x ∈ fl' ∧
        (fl' = fl ∨ ∃ l1 y l2, fl = l1 ++ y :: l2 ∧ y ≠ x ∧ p = y + HDR ∧
          (fl' = l1 ++ l2 ∨ fl' = l1 ++ (y + HDR + n) :: l2))) ∧
    ((∀ y ∈ fl, (s.mem y).size < n ∨
        (n < (s.mem y).size ∧ (s.mem y).size ≤ n + HDR)) →
      n < 2 ^ 63 → s.brk + HDR + n ≤ s.brk_max →
      ∃ F, ∀ fuel, F ≤ fuel → ∃ t,
        malloc fuel n s = some (s.brk + HDR, t) ∧ t.brk = s.brk + HDR + n ∧
        t.mem s.brk = ⟨n, 1, 0, 0⟩ ∧ (∀ a, a ≠ s.brk → t.mem a = s.mem a) ∧
        free_list fuel t = some fl ∧ WF t (bs ++ [⟨s.brk, n, 1⟩]) fl) := by
  have hH : HDR = 32 := rfl
  have hW : WORD = 2 ^ 64 := rfl
  refine ⟨fun x hx hlo hhi => ?_, fun hall hn hext => ?_⟩
  · obtain ⟨bpre, S, bpost, hbs, hS⟩ := hwf.free_block hx
    have hSW : S + HDR < WORD := block_size_lt (hbs ▸ hwf)
    have hn : n + HDR < WORD := by rw [hS] at hlo; omega
    have hxb : (⟨x, S, 0⟩ : Block) ∈ bs := by rw [hbs]; simp
    have hxbd := hwf.block_bounds _ hxb
    have hxu : (s.mem x).is_used = 0 := (hwf.hdrs _ hxb).2
    have hxno : ¬ Fits s.mem n x := by
      rw [fits_iff hn]; omega
    refine ⟨2 * fl.length + 2, fun fuel hf => ?_⟩
    rcases first_fit_split (Fits s.mem n) fl with hno | ⟨l1, y, l2, hfl, hpre, hy⟩
    · -- growth path
      have hm := malloc_no_fit s fl n fuel hwf.dlist.1 hno (by omega)
      have hfr := malloc_grow_frame n { s with start_of_heap := heap_start s }
      generalize malloc_grow n { s with start_of_heap := heap_start s } = G at hm hfr
      obtain ⟨p, t⟩ := G
      have g1 : t.head_free = s.head_free := hfr.1
      have g3 : ∀ a, a ≠ s.brk → a ≠ SBRK_FAILED → t.mem a = s.mem a := hfr.2.2.1
      have g4 : p = s.brk ∨ p = s.brk + HDR ∨ p = SBRK_FAILED := hfr.2.2.2
      have hlt := hwf.brk_lt
      have hblock : ∀ a ∈ fl, a ≠ s.brk ∧ a ≠ SBRK_FAILED := by
        intro a ha
        obtain ⟨b, hb, hba, _⟩ := (hwf.free_iff a).1 ha
        have := hwf.block_bounds b hb
        unfold SBRK_FAILED
        rw [hba] at this
        constructor <;> omega
      have hseg : Seg t.mem t.head_free fl 0 := by
        rw [g1]
        exact Seg.congr (fun a ha => by rw [g3 a (hblock a ha).1 (hblock a ha).2]) hwf.dlist.1
      refine ⟨p, t, fl, hm, ?_, ?_, ?_, free_list_of_seg _ fl _ fuel hseg (by omega), hx,
        Or.inl rfl⟩
      · simp only at hxbd
        unfold SBRK_FAILED at g4
        rw [hS] at hlo
        rcases g4 with g | g | g <;> rw [g] <;> omega
      · rw [g3 x (hblock x hx).1 (hblock x hx).2]
      · rw [g3 x (hblock x hx).1 (hblock x hx).2]; exact hxu
    · -- another entry is taken
      have hyx : y ≠ x := fun e => hxno (e ▸ hy)
      have hyfl : y ∈ fl := by rw [hfl]; simp
      obtain ⟨cpre, T, cpost, hcs, hT⟩ := hwf.free_block hyfl
      have hlen : fl.length = l1.length + l2.length + 1 := by
        rw [hfl]; simp only [List.length_append, List.length_cons]; omega
      have hy' := (fits_iff hn).1 hy
      have hwf' : WF s (cpre ++ [⟨y, T, 0⟩] ++ cpost) fl := by
        rw [List.append_assoc]; exact hcs ▸ hwf
      have hmid : ∀ b ∈ [(⟨y, T, 0⟩ : Block)], b.addr ≠ x := by
        intro b hb e
        have : b = ⟨y, T, 0⟩ := by simpa using hb
        rw [this] at e; exact hyx e
      have hxin : ∀ r : List Nat, x ∈ l1 ++ r ++ l2 := by
        intro r
        rw [hfl] at hx
        rcases List.mem_append.1 hx with h | h
        · exact List.mem_append_left _ (List.mem_append_left _ h)
        · rcases List.mem_cons.1 h with h | h
          · exact absurd h.symm hyx
          · exact List.mem_append_right _ h
      by_cases hex : T = n
      · subst hex
        obtain ⟨t, ht, hwt, _⟩ := malloc_exact_spec s bs fl T fuel l1 y l2 cpre cpost hwf
          hfl hcs hpre (by omega)
        have hwt' : WF t (cpre ++ [⟨y, T, 1⟩] ++ cpost) (l1 ++ l2) := by
          rw [List.append_assoc]; exact hwt
        have hk := WF.entry_kept hwf' hwt' hx hmid
        refine ⟨y + HDR, t, l1 ++ l2, ht, fun e => hyx (by omega), hk.1, hk.2.trans hxu,
          hwt.free_list_eq (by simp only [List.length_append]; omega), ?_,
          Or.inr ⟨l1, y, l2, hfl, hyx, rfl, Or.inl rfl⟩⟩
        simpa using hxin []
      · have hgt : n + HDR < T := by
          rw [hT] at hy'
          rcases hy' with h | h
          · exact absurd h hex
          · exact h
        obtain ⟨t, ht, hwt, _⟩ := malloc_split_spec s bs fl n fuel l1 y l2 cpre T cpost
          hwf hfl hcs hpre hgt (by omega)
        have hwt' : WF t (cpre ++ [⟨y, n, 1⟩, ⟨y + HDR + n, T - n - HDR, 0⟩] ++ cpost)
            (l1 ++ (y + HDR + n) :: l2) := by
          rw [List.append_assoc]; exact hwt
        have hk := WF.entry_kept hwf' hwt' hx hmid
        refine ⟨y + HDR, t, l1 ++ (y + HDR + n) :: l2, ht, fun e => hyx (by omega), hk.1,
          hk.2.trans hxu,
          hwt.free_list_eq (by simp only [List.length_append, List.length_cons]; omega), ?_,
          Or.inr ⟨l1, y, l2, hfl, hyx, rfl, Or.inr rfl⟩⟩
        simpa using hxin [y + HDR + n]
  · have hlt := hwf.brk_lt
    have hnW : n + HDR < WORD := by omega
    have hno : ∀ y ∈ fl, ¬ Fits s.mem n y := by
      intro y hy
      rw [fits_iff hnW]
      rcases hall y hy with h | h <;> omega
    refine ⟨fl.length + 1, fun fuel hf => ?_⟩
    obtain ⟨t, ht, hwt, hb, _, _, _, _, _, hnew, hold⟩ :=
      malloc_grow_spec s bs fl n fuel hwf hno hext hn hf
    exact ⟨t, ht, hb, hnew, hold, hwt.free_list_eq hf, hwt⟩

/-- C21 (witness): in `sample_heap` the free block of 64 bytes at 4096 is in the band of the
request `n = 40`, it is the whole free list, and the break can be raised. -/
theorem skip_band_witness :
    WF sample_heap ([⟨4096, 64, 0⟩] ++ ⟨4192, 16, 1⟩ :: []) [4096] ∧
    4096 ∈ [4096] ∧ 40 < (sample_heap.mem 4096).size ∧
    (sample_heap.mem 4096).size ≤ 40 + HDR ∧
    (∃ F, ∀ fuel, F ≤ fuel → ∃ p t fl',
      malloc fuel 40 sample_heap = some (p, t) ∧ p ≠ 4096 + HDR ∧
      (t.mem 4096).size = (sample_heap.mem 4096).size ∧ (t.mem 4096).is_used = 0 ∧
      free_list fuel t = some fl' ∧ 4096 ∈ fl' ∧
      (fl' = [4096] ∨ ∃ l1 y l2, [4096] = l1 ++ y :: l2 ∧ y ≠ 4096 ∧ p = y + HDR ∧
        (fl' = l1 ++ l2 ∨ fl' = l1 ++ (y + HDR + 40) :: l2))) ∧
    (∀ y ∈ [4096], (sample_heap.mem y).size < 40 ∨
      (40 < (sample_heap.mem y).size ∧ (sample_heap.mem y).size ≤ 40 + HDR)) ∧
    40 < 2 ^ 63 ∧ sample_heap.brk + HDR + 40 ≤ sample_heap.brk_max ∧
    ∃ F, ∀ fuel, F ≤ fuel → ∃ t,
      malloc fuel 40 sample_heap = some (sample_heap.brk + HDR, t) ∧
      t.brk = sample_heap.brk + HDR + 40 ∧ t.mem sample_heap.brk = ⟨40, 1, 0, 0⟩ ∧
      (∀ a, a ≠ sample_heap.brk → t.mem a = sample_heap.mem a) ∧
      free_list fuel t = some [4096] ∧
      WF t (([⟨4096, 64, 0⟩] ++ ⟨4192, 16, 1⟩ :: []) ++ [⟨sample_heap.brk, 40, 1⟩]) [4096] :=
  have hall : ∀ y ∈ [4096], (sample_heap.mem y).size < 40 ∨
      (40 < (sample_heap.mem y).size ∧ (sample_heap.mem y).size ≤ 40 + HDR) := by
    intro y hy
    have : y = 4096 := by simpa using hy
    subst this
    exact Or.inr ⟨by decide, by decide⟩
  ⟨sample_wf, by simp, by decide, by decide,
    (skip_band sample_heap _ [4096] 40 sample_wf).1 4096 (by simp) (by decide) (by decide),
    hall, by decide, by decide,
    (skip_band sample_heap _ [4096] 40 sample_wf).2 hall (by decide) (by decide)⟩

/-- C22 (code defect): in the well-formed state after `wrap_calls`, `malloc(2^64 - 1)` is the
call `split_block(4096, 2^64 - 1)` on the free block of `S = 100` bytes, for which
`S - n - sizeof(metadata_t)` is negative.  The remainder size computed by `split_block` wraps
around to 69, and the remainder header is put at 4127, one byte before the end of the header
of the block that is split. -/
theorem split_remainder_wraps :
    correct_run 20 wrap_calls (start_run 4096 1048576) = true ∧
    ∃ r, run 20 wrap_calls (start_run 4096 1048576) = some r ∧
      WF r.heap [⟨4096, 100, 0⟩, ⟨4228, 8, 1⟩] [4096] ∧ (r.heap.mem 4096).size = 100 ∧
      malloc 20 (WORD - 1) r.heap = split_block 19 4096 (WORD - 1) r.heap ∧
      ¬ ((WORD - 1) + HDR ≤ 100) ∧
      sub64 (sub64 100 (WORD - 1)) HDR = 69 ∧ add64 (add64 4096 (WORD - 1)) HDR = 4127 ∧
      4127 < 4096 + HDR ∧
      ∃ t, split_block 19 4096 (WORD - 1) r.heap = some (4096 + HDR, t) ∧
        (t.mem 4096).size = WORD - 1 ∧ (t.mem 4096).is_used = 1 ∧
        (t.mem 4127).size = 69 ∧ (t.mem 4127).is_used = 0 ∧ t.head_free = 4127 ∧
        heap_walk t.mem t.brk 20 t.start_of_heap = none := by
  obtain ⟨hc, r, hr, hwf, hb, hs, hh, hm⟩ := wrap_state
  refine ⟨hc, r, hr, hwf, by rw [hm], ?_, by decide, by decide, by decide, by decide, ?_⟩
  · unfold malloc
    simp only [hs]
    rw [if_neg (by decide)]
    simp only [hh]
    show malloc_loop (WORD - 1) (19 + 1) 4096 r.heap = _
    rw [malloc_loop, if_neg (by decide), hm]
    rw [if_neg (by decide), if_pos (by decide)]
  have h : (run 20 wrap_calls (start_run 4096 1048576)).map
      (fun r => (split_block 19 4096 (WORD - 1) r.heap).map
        (fun x => (x.1, (x.2.mem 4096).size, (x.2.mem 4096).is_used, (x.2.mem 4127).size,
          (x.2.mem 4127).is_used, x.2.head_free,
          heap_walk x.2.mem x.2.brk 20 x.2.start_of_heap)))
      = some (some (4096 + HDR, WORD - 1, 1, 69, 0, 4127, none)) := rfl
  rw [hr] at h
  simp only [Option.map_some', Option.some.injEq] at h
  obtain ⟨x, hx, hf⟩ := exists_of_map_eq_some h
  simp only [Prod.mk.injEq] at hf
  obtain ⟨h1, h2, h3, h4, h5, h6, h7⟩ := hf
  refine ⟨x.2, ?_, h2, h3, h4, h5, h6, h7⟩
  rw [← h1]; exact hx

/-- C23: first fit in free-list order.  In a well-formed state in which some free-list entry
has size `n` or size above `n + sizeof(metadata_t)`, let `x` be the first such entry, `pre`
the entries before it and `post` those after it.  Given enough fuel, `malloc(n)` returns the
payload pointer of `x`, whether `x` is an exact fit or has to be split and whatever `post`
holds; the break does not move; `x` is used with size `n`; the free list afterwards is `pre`
followed by `post` (exact fit) or by the remainder `x + sizeof(metadata_t) + n` and `post`
(split); and every entry of `pre` has the size and the flag it had. -/
theorem malloc_first_fit (s : Heap) (bs : List Block) (fl : List Nat) (n : Nat)
    (hwf : WF s bs fl)
    (hfit : ∃ y ∈ fl, (s.mem y).size = n ∨ n + HDR < (s.mem y).size) :
    ∃ pre x post, fl = pre ++ x :: post ∧
      (∀ y ∈ pre, (s.mem y).size ≠ n ∧ ¬ n + HDR < (s.mem y).size) ∧
      ((s.mem x).size = n ∨ n + HDR < (s.mem x).size) ∧
      ∃ F, ∀ fuel, F ≤ fuel → ∃ t,
        malloc fuel n s = some (x + HDR, t) ∧ t.brk = s.brk ∧
        (t.mem x).is_used = 1 ∧ (t.mem x).size = n ∧
        free_list fuel t =
          some (pre ++ (if (s.mem x).size = n then post else (x + HDR + n) :: post)) ∧
        (∀ y ∈ pre, (t.mem y).size = (s.mem y).size ∧
          (t.mem y).is_used = (s.mem y).is_used) := by
  obtain ⟨y0, hy0, hy0f⟩ := hfit
  have hn : n + HDR < WORD := hwf.fit_no_wrap hy0 hy0f
  rcases first_fit_split (Fits s.mem n) fl with hno | ⟨pre, x, post, hfl, hpre, hx⟩
  · exact absurd ((fits_iff hn).2 hy0f) (hno y0 hy0)
  have hx' := (fits_iff hn).1 hx
  refine ⟨pre, x, post, hfl, fun y hy => ?_, hx', 2 * fl.length + 2, fun fuel hf => ?_⟩
  · have := hpre y hy
    rw [fits_iff hn] at this
    exact ⟨fun h => this (Or.inl h), fun h => this (Or.inr h)⟩
  have hxfl : x ∈ fl := by rw [hfl]; simp
  obtain ⟨bpre, S, bpost, hbs, hS⟩ := hwf.free_block hxfl
  have hlen : fl.length = pre.length + post.length + 1 := by
    rw [hfl]; simp only [List.length_append, List.length_cons]; omega
  have hnd : (pre ++ x :: post).Nodup := hfl ▸ hwf.nodup
  have hxpre : ∀ y ∈ pre, y ≠ x := by
    intro y hy e
    rw [e] at hy
    exact (List.nodup_append.1 hnd).2.2 hy (List.mem_cons_self _ _)
  have hwf' : WF s (bpre ++ [⟨x, S, 0⟩] ++ bpost) fl := by
    rw [List.append_assoc]; exact hbs ▸ hwf
  by_cases hex : S = n
  · subst hex
    obtain ⟨t, ht, hwt, hb, _⟩ := malloc_exact_spec s bs fl S fuel pre x post bpre bpost hwf
      hfl hbs hpre (by omega)
    have hxt := hwt.hdrs ⟨x, S, 1⟩ (by simp)
    have hwt' : WF t (bpre ++ [⟨x, S, 1⟩] ++ bpost) (pre ++ post) := by
      rw [List.append_assoc]; exact hwt
    refine ⟨t, ht, hb, hxt.2, hxt.1, ?_, fun y hy => ?_⟩
    · rw [if_pos hS]
      exact hwt.free_list_eq (by simp only [List.length_append]; omega)
    · exact WF.entry_kept hwf' hwt' (by rw [hfl]; exact List.mem_append_left _ hy)
        (fun b hb e => hxpre y hy (by
          have : b = ⟨x, S, 0⟩ := by simpa using hb
          rw [this] at e; exact e.symm))
  · have hgt : n + HDR < S := by
      rw [hS] at hx'
      rcases hx' with h | h
      · exact absurd h hex
      · exact h
    obtain ⟨t, ht, hwt, hb, _⟩ := malloc_split_spec s bs fl n fuel pre x post bpre S bpost
      hwf hfl hbs hpre hgt (by omega)
    have hxt := hwt.hdrs ⟨x, n, 1⟩ (by simp)
    have hwt' : WF t (bpre ++ [⟨x, n, 1⟩, ⟨x + HDR + n, S - n - HDR, 0⟩] ++ bpost)
        (pre ++ (x + HDR + n) :: post) := by
      rw [List.append_assoc]; exact hwt
    refine ⟨t, ht, hb, hxt.2, hxt.1, ?_, fun y hy => ?_⟩
    · rw [if_neg (by rw [hS]; exact hex)]
      exact hwt.free_list_eq (by simp only [List.length_append, List.length_cons]; omega)
    · exact WF.entry_kept hwf' hwt' (by rw [hfl]; exact List.mem_append_left _ hy)
        (fun b hb e => hxpre y hy (by
          have : b = ⟨x, S, 0⟩ := by simpa using hb
          rw [this] at e; exact e.symm))

/-- C23 (witness): in `two_free_heap` the request of 64 bytes meets the block of 200 bytes
first, although the second entry of the free list is an exact match. -/
theorem malloc_first_fit_witness :
    WF two_free_heap ([⟨4096, 200, 0⟩, ⟨4328, 8, 1⟩] ++ ⟨4368, 64, 0⟩ :: [⟨4464, 8, 1⟩])
      [4096, 4368] ∧
    (∃ y ∈ [4096, 4368], (two_free_heap.mem y).size = 64 ∨
      64 + HDR < (two_free_heap.mem y).size) ∧
    ∃ pre x post, [4096, 4368] = pre ++ x :: post ∧
      (∀ y ∈ pre, (two_free_heap.mem y).size ≠ 64 ∧ ¬ 64 + HDR < (two_free_heap.mem y).size) ∧
      ((two_free_heap.mem x).size = 64 ∨ 64 + HDR < (two_free_heap.mem x).size) ∧
      ∃ F, ∀ fuel, F ≤ fuel → ∃ t,
        malloc fuel 64 two_free_heap = some (x + HDR, t) ∧ t.brk = two_free_heap.brk ∧
        (t.mem x).is_used = 1 ∧ (t.mem x).size = 64 ∧
        free_list fuel t =
          some (pre ++ (if (two_free_heap.mem x).size = 64 then post
            else (x + HDR + 64) :: post)) ∧
        (∀ y ∈ pre, (t.mem y).size = (two_free_heap.mem y).size ∧
          (t.mem y).is_used = (two_free_heap.mem y).is_used) :=
  ⟨two_free_wf, ⟨4368, by simp, Or.inl rfl⟩,
    malloc_first_fit two_free_heap _ [4096, 4368] 64 two_free_wf ⟨4368, by simp, Or.inl rfl⟩⟩

/-- C24: exact fit.  In a well-formed state whose free list is `pre`, `x`, `post`, where no
entry of `pre` has size `n` or size above `n + sizeof(metadata_t)` and `x` has size `n`,
`malloc(n)` returns (given enough fuel) the payload pointer of `x`; `x` is used and still has
size `n`; the free list read from `head_free` is `pre` followed by `post`, so `x` is gone and
the other entries keep their order; `head_free` and `tail_free` are the first and the last
entry of that list (`NULL` when it is empty); the break is where it was. -/
theorem malloc_exact_fit (s : Heap) (bs : List Block) (fl : List Nat) (n : Nat)
    (pre : List Nat) (x : Nat) (post : List Nat)
    (hwf : WF s bs fl) (hfl : fl = pre ++ x :: post)
    (hpre : ∀ y ∈ pre, (s.mem y).size ≠ n ∧ ¬ n + HDR < (s.mem y).size)
    (hx : (s.mem x).size = n) :
    ∃ F, ∀ fuel, F ≤ fuel → ∃ t,
      malloc fuel n s = some (x + HDR, t) ∧ (t.mem x).is_used = 1 ∧ (t.mem x).size = n ∧
      free_list fuel t = some (pre ++ post) ∧ x ∉ pre ++ post ∧
      t.head_free = (pre ++ post).headD 0 ∧ t.tail_free = (pre ++ post).getLastD 0 ∧
      t.brk = s.brk := by
  refine ⟨2 * fl.length + 2, fun fuel hf => ?_⟩
  have hxfl : x ∈ fl := by rw [hfl]; simp
  have hn : n + HDR < WORD := hwf.fit_no_wrap hxfl (Or.inl hx)
  obtain ⟨bpre, S, bpost, hbs, hS⟩ := hwf.free_block hxfl
  have hSn : S = n := hS.symm.trans hx
  subst hSn
  have hlen : fl.length = pre.length + post.length + 1 := by
    rw [hfl]; simp only [List.length_append, List.length_cons]; omega
  have hnd : (pre ++ x :: post).Nodup := hfl ▸ hwf.nodup
  have hpre' : ∀ y ∈ pre, ¬ Fits s.mem S y := by
    intro y hy h
    rw [fits_iff hn] at h
    rcases h with h | h
    · exact (hpre y hy).1 h
    · exact (hpre y hy).2 h
  obtain ⟨t, ht, hwt, hb, _⟩ := malloc_exact_spec s bs fl S fuel pre x post bpre bpost hwf
    hfl hbs hpre' (by omega)
  have hxt := hwt.hdrs ⟨x, S, 1⟩ (by simp)
  refine ⟨t, ht, hxt.2, hxt.1, hwt.free_list_eq (by simp only [List.length_append]; omega), ?_,
    Seg.head_eq hwt.dlist.1, hwt.tail, hb⟩
  intro h
  have h1 := List.nodup_append.1 hnd
  rcases List.mem_append.1 h with h | h
  · exact h1.2.2 h (List.mem_cons_self _ _)
  · exact (List.nodup_cons.1 h1.2.1).1 h

/-- C24 (witness): the request of 64 bytes in `sample_heap`, whose only free block has 64
bytes. -/
theorem malloc_exact_fit_witness :
    WF sample_heap ([⟨4096, 64, 0⟩] ++ ⟨4192, 16, 1⟩ :: []) [4096] ∧
    [4096] = [] ++ 4096 :: ([] : List Nat) ∧ (sample_heap.mem 4096).size = 64 ∧
    ∃ F, ∀ fuel, F ≤ fuel → ∃ t,
      malloc fuel 64 sample_heap = some (4096 + HDR, t) ∧ (t.mem 4096).is_used = 1 ∧
      (t.mem 4096).size = 64 ∧ free_list fuel t = some ([] ++ []) ∧ 4096 ∉ [] ++ [] ∧
      t.head_free = ([] ++ ([] : List Nat)).headD 0 ∧
      t.tail_free = ([] ++ ([] : List Nat)).getLastD 0 ∧ t.brk = sample_heap.brk :=
  ⟨sample_wf, rfl, rfl,
    malloc_exact_fit sample_heap _ [4096] 64 [] 4096 [] sample_wf rfl
      (fun y hy => absurd hy (List.not_mem_nil _)) rfl⟩

/-- C25: split postcondition.  In a well-formed state let `B` be a free-list entry of size
`S` and `n + sizeof(metadata_t) < S`; write `R = B + sizeof(metadata_t) + n`.  Given enough
fuel, `split_block(B, n)` returns `B + sizeof(metadata_t)`; `B` is used with size `n`; `R` is
free with size `S - n - sizeof(metadata_t)`; the free list is the previous one with `R` in
the place of `B`, and `head_free` (`tail_free`) is `R` if it was `B` and unchanged otherwise;
the front block ends where the header of `R` starts and `R` ends where `B` ended; the
resulting state is well formed with these two blocks in the place of `B`, and the break is
where it was. -/
theorem split_block_postcondition (s : Heap) (bs : List Block) (fl : List Nat) (B S n : Nat)
    (hwf : WF s bs fl) (hB : B ∈ fl) (hS : (s.mem B).size = S) (hn : n + HDR < S) :
    ∃ pre post bpre bpost, fl = pre ++ B :: post ∧ bs = bpre ++ ⟨B, S, 0⟩ :: bpost ∧
      ∃ F, ∀ fuel, F ≤ fuel → ∃ t,
        split_block fuel B n s = some (B + HDR, t) ∧
        (t.mem B).is_used = 1 ∧ (t.mem B).size = n ∧
        (t.mem (B + HDR + n)).is_used = 0 ∧ (t.mem (B + HDR + n)).size = S - n - HDR ∧
        free_list fuel t = some (pre ++ (B + HDR + n) :: post) ∧
        t.head_free = (if s.head_free = B then B + HDR + n else s.head_free) ∧
        t.tail_free = (if s.tail_free = B then B + HDR + n else s.tail_free) ∧
        B + HDR + (t.mem B).size = B + HDR + n ∧
        (B + HDR + n) + HDR + (t.mem (B + HDR + n)).size = B + HDR + (s.mem B).size ∧
        WF t (bpre ++ ⟨B, n, 1⟩ :: ⟨B + HDR + n, S - n - HDR, 0⟩ :: bpost)
          (pre ++ (B + HDR + n) :: post) ∧
        t.brk = s.brk := by
  obtain ⟨pre, post, hfl⟩ := List.append_of_mem hB
  obtain ⟨bpre, S', bpost, hbs, hS'⟩ := hwf.free_block hB
  have e : S' = S := hS'.symm.trans hS
  subst e
  refine ⟨pre, post, bpre, bpost, hfl, hbs, fl.length + 2, fun fuel hf => ?_⟩
  have hlen : fl.length = pre.length + post.length + 1 := by
    rw [hfl]; simp only [List.length_append, List.length_cons]; omega
  have hnd : (pre ++ B :: post).Nodup := hfl ▸ hwf.nodup
  have hnd' := List.nodup_append.1 hnd
  obtain ⟨t, ht, hwt, hb, _⟩ := split_block_spec s bs fl n fuel pre B post bpre S' bpost hwf
    hfl hbs hn (by omega)
  have hBt := hwt.hdrs ⟨B, n, 1⟩ (by simp)
  have hRt := hwt.hdrs ⟨B + HDR + n, S' - n - HDR, 0⟩ (by simp)
  have hH : HDR = 32 := rfl
  have hsh : s.head_free = (pre ++ B :: post).headD 0 := Seg.head_eq (hfl ▸ hwf.dlist.1)
  have hth : t.head_free = (pre ++ (B + HDR + n) :: post).headD 0 := Seg.head_eq hwt.dlist.1
  have hstl : s.tail_free = post.getLastD B := by
    rw [hwf.tail, hfl, getLastD_append_cons]
  have httl : t.tail_free = post.getLastD (B + HDR + n) := by
    rw [hwt.tail, getLastD_append_cons]
  refine ⟨t, ht, hBt.2, hBt.1, hRt.2, hRt.1,
    hwt.free_list_eq (by simp only [List.length_append, List.length_cons]; omega),
    ?_, ?_, ?_, ?_, hwt, hb⟩
  · cases pre with
    | nil =>
      rw [hth, hsh]
      simp
    | cons a l =>
      have hne : a ≠ B := by
        intro e
        exact hnd'.2.2 (e ▸ List.mem_cons_self a l) (List.mem_cons_self _ _)
      rw [hth, hsh]
      simp [hne]
  · by_cases hp : post = []
    · subst hp
      rw [httl, hstl]
      simp
    · have hm : post.getLastD B ∈ post := getLastD_mem_of_ne_nil post B hp
      have hne : post.getLastD B ≠ B := by
        intro e
        rw [e] at hm
        exact (List.nodup_cons.1 hnd'.2.1).1 hm
      rw [httl, hstl, if_neg hne]
      exact getLastD_of_ne_nil post _ _ hp
  · show B + HDR + (t.mem B).size = B + HDR + n
    rw [hBt.1]
  · show B + HDR + n + HDR + (t.mem (B + HDR + n)).size = B + HDR + (s.mem B).size
    rw [hRt.1, hS]
    show B + HDR + n + HDR + (S' - n - HDR) = B + HDR + S'
    omega

/-- C25 (witness): the free block of 64 bytes at 4096 of `sample_heap`, split for a request
of 16 bytes. -/
theorem split_block_postcondition_witness :
    WF sample_heap ([⟨4096, 64, 0⟩] ++ ⟨4192, 16, 1⟩ :: []) [4096] ∧ 4096 ∈ [4096] ∧
    (sample_heap.mem 4096).size = 64 ∧ 16 + HDR < 64 ∧
    ∃ pre post bpre bpost, [4096] = pre ++ 4096 :: post ∧
      [⟨4096, 64, 0⟩] ++ (⟨4192, 16, 1⟩ : Block) :: [] = bpre ++ ⟨4096, 64, 0⟩ :: bpost ∧
      ∃ F, ∀ fuel, F ≤ fuel → ∃ t,
        split_block fuel 4096 16 sample_heap = some (4096 + HDR, t) ∧
        (t.mem 4096).is_used = 1 ∧ (t.mem 4096).size = 16 ∧
        (t.mem (4096 + HDR + 16)).is_used = 0 ∧
        (t.mem (4096 + HDR + 16)).size = 64 - 16 - HDR ∧
        free_list fuel t = some (pre ++ (4096 + HDR + 16) :: post) ∧
        t.head_free = (if sample_heap.head_free = 4096 then 4096 + HDR + 16
          else sample_heap.head_free) ∧
        t.tail_free = (if sample_heap.tail_free = 4096 then 4096 + HDR + 16
          else sample_heap.tail_free) ∧
        4096 + HDR + (t.mem 4096).size = 4096 + HDR + 16 ∧
        (4096 + HDR + 16) + HDR + (t.mem (4096 + HDR + 16)).size =
          4096 + HDR + (sample_heap.mem 4096).size ∧
        WF t (bpre ++ ⟨4096, 16, 1⟩ :: ⟨4096 + HDR + 16, 64 - 16 - HDR, 0⟩ :: bpost)
          (pre ++ (4096 + HDR + 16) :: post) ∧
        t.brk = sample_heap.brk :=
  ⟨sample_wf, by simp, rfl, by decide,
    split_block_postcondition sample_heap _ [4096] 4096 64 16 sample_wf (by simp) rfl
      (by decide)⟩

/-- C26 (code defect): after `leak_calls` the state is well formed, no two neighbours are
free, and the last block (header 4288, 64 bytes, payload 4320 live, `next` field `NULL`) has
no free neighbour.  `free(4320)` marks it free but changes its size to 96 and does not append
it: the free list is still `[4096]` and `tail_free` is 4096. -/
theorem release_of_last_block_not_appended :
    correct_run 20 leak_calls (start_run 4096 1048576) = true ∧
    ∃ r, run 20 leak_calls (start_run 4096 1048576) = some r ∧ 4320 ∈ r.live ∧
      WF r.heap [⟨4096, 64, 0⟩, ⟨4192, 64, 1⟩, ⟨4288, 64, 1⟩] [4096] ∧
      NoAdjFree [⟨4096, 64, 0⟩, ⟨4192, 64, 1⟩, ⟨4288, 64, 1⟩] ∧
      (r.heap.mem 4288).next = 0 ∧
      ∃ t, free 20 4320 r.heap = some t ∧ (t.mem 4288).is_used = 0 ∧
        (t.mem 4288).size = 96 ∧ free_list 20 t = some [4096] ∧ t.tail_free = 4096 ∧
        t.brk = 4384 := by
  obtain ⟨hc, r, hr, hl, hwf, hadj, hb, hn⟩ := leak_state
  refine ⟨hc, r, hr, hl, hwf, hadj, hn, ?_⟩
  have h : (run 20 leak_calls (start_run 4096 1048576)).map
      (fun r => (free 20 4320 r.heap).map
        (fun t => ((t.mem 4288).is_used, (t.mem 4288).size, free_list 20 t, t.tail_free,
          t.brk)))
      = some (some (0, 96, some [4096], 4096, 4384)) := rfl
  rw [hr] at h
  simp only [Option.map_some', Option.some.injEq] at h
  obtain ⟨t, ht, hf⟩ := exists_of_map_eq_some h
  simp only [Prod.mk.injEq] at hf
  obtain ⟨h1, h2, h3, h4, h5⟩ := hf
  exact ⟨t, ht, h1, h2, h3, h4, h5⟩

/-- C27 (code defect): after `stale_split_calls`, every call of which is a correct use, the
state is well formed and no two neighbours are free.  The live block at 4096 (100 bytes) is
the first block of the heap and its successor, the block at 4228 (168 bytes), is free, so
exactly one neighbour is free.  `free(4128)` merges the two into a block of 300 bytes at
4096, but the free list that results is circular: `head_free` is 4468, whose `next` is 4096,
whose `next` is 4468, so reading the list from `head_free` never reaches `NULL`. -/
theorem merge_with_successor_closes_cycle :
    correct_run 20 stale_split_calls (start_run 4096 1048576) = true ∧
    ∃ r, run 20 stale_split_calls (start_run 4096 1048576) = some r ∧ 4128 ∈ r.live ∧
      WF r.heap [⟨4096, 100, 1⟩, ⟨4228, 168, 0⟩, ⟨4428, 8, 1⟩, ⟨4468, 50, 0⟩, ⟨4550, 8, 1⟩]
        [4228, 4468] ∧
      NoAdjFree [⟨4096, 100, 1⟩, ⟨4228, 168, 0⟩, ⟨4428, 8, 1⟩, ⟨4468, 50, 0⟩, ⟨4550, 8, 1⟩] ∧
      (r.heap.mem 4096).next = 4468 ∧
      ∃ t, free 20 4128 r.heap = some t ∧ (t.mem 4096).is_used = 0 ∧
        (t.mem 4096).size = 100 + 168 + HDR ∧ t.head_free = 4468 ∧
        (t.mem 4468).next = 4096 ∧ (t.mem 4096).next = 4468 ∧
        ∀ fuel, free_list fuel t = none := by
  obtain ⟨hc, r, hr, hl, hwf, hadj, hn⟩ := stale_split_state
  refine ⟨hc, r, hr, hl, hwf, hadj, hn, ?_⟩
  have h : (run 20 stale_split_calls (start_run 4096 1048576)).map
      (fun r => (free 20 4128 r.heap).map
        (fun t => ((t.mem 4096).is_used, (t.mem 4096).size, t.head_free, (t.mem 4468).next,
          (t.mem 4096).next)))
      = some (some (0, 100 + 168 + HDR, 4468, 4096, 4468)) := rfl
  rw [hr] at h
  simp only [Option.map_some', Option.some.injEq] at h
  obtain ⟨t, ht, hf⟩ := exists_of_map_eq_some h
  simp only [Prod.mk.injEq] at hf
  obtain ⟨h1, h2, h3, h4, h5⟩ := hf
  refine ⟨t, ht, h1, h2, h3, h4, h5, fun fuel => ?_⟩
  unfold free_list
  rw [h3]
  exact free_list_from_cycle t.mem 4468 4096 (by decide) (by decide) h4 h5 fuel 4468
    (Or.inl rfl)

/-- The state `adj_heap` is well formed. -/
theorem adj_heap_wf :
    WF adj_heap ([⟨4096, 8, 0⟩] ++ ⟨4136, 8, 0⟩ :: ⟨4176, 8, 1⟩ :: ⟨4216, 8, 0⟩ ::
      [⟨4256, 8, 1⟩]) [4096, 4136, 4216] where
  start_pos := by decide
  brk_le := by decide
  max_lt := by decide
  layout := ⟨rfl, rfl, rfl, rfl, rfl, rfl⟩
  hdrs := by
    intro b hb
    simp only [List.cons_append, List.nil_append, List.mem_cons, List.mem_singleton,
      List.not_mem_nil, or_false] at hb
    rcases hb with rfl | rfl | rfl | rfl | rfl
    · exact ⟨rfl, rfl⟩
    · exact ⟨rfl, rfl⟩
    · exact ⟨rfl, rfl⟩
    · exact ⟨rfl, rfl⟩
    · exact ⟨rfl, rfl⟩
  dlist := ⟨⟨rfl, by decide, rfl, by decide, rfl, by decide, rfl⟩, ⟨rfl, rfl, rfl, trivial⟩⟩
  tail := rfl
  free_perm := List.Perm.refl _

/-- C28 (counterexample): `adj_heap` is well formed; its used block at 4176 (8 bytes, payload
4208) has the free predecessor 4136 and the free successor 4216, and the block before the
predecessor, at 4096, is free as well.  `free(4208)` returns and gives the header 4136 the
size `8 + 8 + 8 + 2 * sizeof(metadata_t)`, but the free-list entry 4096 does not stay as it
was: the scan first merges it with 4136, so its size goes from 8 to 48 and its block now
ends at 4176.  In address order the heap then consists of the blocks at 4096, 4176, 4216 and
4256, of which the first three are flagged free: there is no block at the predecessor's
header 4136, which lies inside the block at 4096 and is still in the free list
`[4096, 4136]`, and the released block and its successor have not become part of a single
free block. -/
theorem adjacent_free_pair_breaks_three_way_merge :
    WF adj_heap ([⟨4096, 8, 0⟩] ++ ⟨4136, 8, 0⟩ :: ⟨4176, 8, 1⟩ :: ⟨4216, 8, 0⟩ ::
      [⟨4256, 8, 1⟩]) [4096, 4136, 4216] ∧
    ¬ NoAdjFree ([⟨4096, 8, 0⟩] ++ (⟨4136, 8, 0⟩ : Block) :: ⟨4176, 8, 1⟩ :: ⟨4216, 8, 0⟩ ::
      [⟨4256, 8, 1⟩]) ∧
    (adj_heap.mem 4096).size = 8 ∧
    ∃ t, free 20 (4176 + HDR) adj_heap = some t ∧
      (t.mem 4136).size = 8 + 8 + 8 + 2 * HDR ∧ (t.mem 4096).size = 48 ∧
      free_list 20 t = some [4096, 4136] ∧
      heap_walk t.mem t.brk 20 t.start_of_heap = some [4096, 4176, 4216, 4256] ∧
      (t.mem 4096).is_used = 0 ∧ (t.mem 4176).is_used = 0 ∧ (t.mem 4216).is_used = 0 ∧
      (t.mem 4256).is_used = 1 :=
  ⟨adj_heap_wf, by simp [NoAdjFree], rfl, _, rfl, rfl, rfl, rfl, rfl, rfl, rfl, rfl, rfl⟩

/-- C28 (amended): three-way merge.  In a well-formed state without two adjacent free blocks, let the
used block `B` (size `S`) lie between the free blocks `P` (size `SP`) and `N` (size `T`).
Given enough fuel, `free(B + sizeof(metadata_t))` returns; `P` is free with size
`SP + S + T + 2 * sizeof(metadata_t)`; the free list is the previous one without `N`, so every
other entry keeps its place; it holds `P`, holds no entry twice, and holds neither `B` nor
`N`; every entry other than `P` has the size and flag it had; the resulting state is well
formed with the one block `P` in the place of the three, and the break is where it was. -/
theorem three_way_merge (s : Heap) (bpre bpost : List Block) (fl : List Nat)
    (B S u P SP N T : Nat)
    (hwf : WF s (bpre ++ ⟨P, SP, 0⟩ :: ⟨B, S, u⟩ :: ⟨N, T, 0⟩ :: bpost) fl) (hu : u ≠ 0)
    (hadj : NoAdjFree (bpre ++ ⟨P, SP, 0⟩ :: ⟨B, S, u⟩ :: ⟨N, T, 0⟩ :: bpost)) :
    ∃ fpre fpost, fl = fpre ++ N :: fpost ∧
      ∃ F, ∀ fuel, F ≤ fuel → ∃ t,
        free fuel (B + HDR) s = some t ∧
        (t.mem P).is_used = 0 ∧ (t.mem P).size = SP + S + T + 2 * HDR ∧
        free_list fuel t = some (fpre ++ fpost) ∧
        P ∈ fpre ++ fpost ∧ (fpre ++ fpost).Nodup ∧ B ∉ fpre ++ fpost ∧ N ∉ fpre ++ fpost ∧
        (∀ y ∈ fpre ++ fpost, y ≠ P → (t.mem y).size = (s.mem y).size ∧
          (t.mem y).is_used = (s.mem y).is_used) ∧
        WF t (bpre ++ ⟨P, SP + S + T + 2 * HDR, 0⟩ :: bpost) (fpre ++ fpost) ∧
        t.brk = s.brk := by
  have hNfl : N ∈ fl := (hwf.free_iff N).2 ⟨⟨N, T, 0⟩, by simp, rfl, rfl⟩
  have hPfl : P ∈ fl := (hwf.free_iff P).2 ⟨⟨P, SP, 0⟩, by simp, rfl, rfl⟩
  have hBfl : B ∉ fl := hwf.used_not_free (b := ⟨B, S, u⟩) (by simp) hu
  obtain ⟨fpre, fpost, hfl⟩ := List.append_of_mem hNfl
  refine ⟨fpre, fpost, hfl,
    (bpre ++ ⟨P, SP, 0⟩ :: ⟨B, S, u⟩ :: ⟨N, T, 0⟩ :: bpost).length + 2 * fl.length + 4,
    fun fuel hf => ?_⟩
  have hH : HDR = 32 := rfl
  have hc := List.chain'_append.1 hadj
  have hq : Quiet bpre (⟨P, SP, 0⟩ :: ⟨B, S, 0⟩ :: ⟨N, T, 0⟩ :: bpost) :=
    quiet_of_noadj _ bpre hc.1 (fun b hb hbu =>
      absurd ⟨hbu, rfl⟩ (hc.2.2 b (by simpa using hb) ⟨P, SP, 0⟩ (by simp)))
  obtain ⟨t, ht, hwt, hout⟩ := free_merge_both_spec s _ bpre bpost fl fpre fpost B S u P SP N T
    fuel hwf rfl hu hfl hq hf
  have e : SP + (S + HDR) + (T + HDR) = SP + S + T + 2 * HDR := by omega
  rw [e] at hwt
  have hPt := hwt.hdrs ⟨P, SP + S + T + 2 * HDR, 0⟩ (by simp)
  have hnd : (fpre ++ N :: fpost).Nodup := hfl ▸ hwf.nodup
  have hnd' := List.nodup_append.1 hnd
  have hsub : ∀ y ∈ fpre ++ fpost, y ∈ fl ∧ y ≠ N := by
    intro y hy
    rcases List.mem_append.1 hy with h | h
    · exact ⟨by rw [hfl]; exact List.mem_append_left _ h,
        fun e => hnd'.2.2 (e ▸ h) (List.mem_cons_self _ _)⟩
    · exact ⟨by rw [hfl]; simp [h], fun e => (List.nodup_cons.1 hnd'.2.1).1 (e ▸ h)⟩
  have hlen : fl.length = fpre.length + fpost.length + 1 := by
    rw [hfl]; simp only [List.length_append, List.length_cons]; omega
  have hPN : P ≠ N := by
    have := (Layout.sorted hwf.layout).2 ⟨N, T, 0⟩ (by simp)
    simp only at this
    omega
  refine ⟨t, ht, hPt.2, hPt.1,
    hwt.free_list_eq (by simp only [List.length_append]; omega), ?_, hwt.nodup,
    fun h => hBfl (hsub B h).1, fun h => (hsub N h).2 rfl, fun y hy hyP => ?_, hwt, hout.brk_eq⟩
  · rw [hfl] at hPfl
    rcases List.mem_append.1 hPfl with h | h
    · exact List.mem_append_left _ h
    · rcases List.mem_cons.1 h with h | h
      · exact absurd h hPN
      · exact List.mem_append_right _ h
  · have hwf' : WF s (bpre ++ [⟨P, SP, 0⟩, ⟨B, S, u⟩, ⟨N, T, 0⟩] ++ bpost) fl := by
      rw [List.append_assoc]; exact hwf
    have hwt' : WF t (bpre ++ [⟨P, SP + S + T + 2 * HDR, 0⟩] ++ bpost) (fpre ++ fpost) := by
      rw [List.append_assoc]; exact hwt
    refine WF.entry_kept hwf' hwt' (hsub y hy).1 (fun b hb e => ?_)
    simp only [List.mem_cons, List.mem_singleton, List.not_mem_nil, or_false] at hb
    rcases hb with rfl | rfl | rfl
    · exact hyP e.symm
    · have e' : B = y := e
      exact hBfl (e'.symm ▸ (hsub y hy).1)
    · exact (hsub y hy).2 e.symm

/-- C28 (witness): the used block at 4328 of `two_free_heap`, which lies between the free
blocks at 4096 and 4368. -/
theorem three_way_merge_witness :
    WF two_free_heap ([] ++ ⟨4096, 200, 0⟩ :: ⟨4328, 8, 1⟩ :: ⟨4368, 64, 0⟩ :: [⟨4464, 8, 1⟩])
      [4096, 4368] ∧ (1 : Nat) ≠ 0 ∧
    NoAdjFree ([] ++ (⟨4096, 200, 0⟩ : Block) :: ⟨4328, 8, 1⟩ :: ⟨4368, 64, 0⟩ ::
      [⟨4464, 8, 1⟩]) ∧
    ∃ fpre fpost, [4096, 4368] = fpre ++ 4368 :: fpost ∧
      ∃ F, ∀ fuel, F ≤ fuel → ∃ t,
        free fuel (4328 + HDR) two_free_heap = some t ∧
        (t.mem 4096).is_used = 0 ∧ (t.mem 4096).size = 200 + 8 + 64 + 2 * HDR ∧
        free_list fuel t = some (fpre ++ fpost) ∧
        4096 ∈ fpre ++ fpost ∧ (fpre ++ fpost).Nodup ∧ 4328 ∉ fpre ++ fpost ∧
        4368 ∉ fpre ++ fpost ∧
        (∀ y ∈ fpre ++ fpost, y ≠ 4096 → (t.mem y).size = (two_free_heap.mem y).size ∧
          (t.mem y).is_used = (two_free_heap.mem y).is_used) ∧
        WF t ([] ++ ⟨4096, 200 + 8 + 64 + 2 * HDR, 0⟩ :: [⟨4464, 8, 1⟩]) (fpre ++ fpost) ∧
        t.brk = two_free_heap.brk :=
  ⟨two_free_wf, by decide, by simp [NoAdjFree],
    three_way_merge two_free_heap [] [⟨4464, 8, 1⟩] [4096, 4368] 4328 8 1 4096 200 4368 64
      two_free_wf (by decide) (by simp [NoAdjFree])⟩

/-- C29 (code defect): in the well-formed state after `leak_calls` (free list `[4096]`, not
empty) the block at 4288 is the last block and the block before it, at 4192, is in use.  Once
4288 is marked free, `coalesce_blocks(4288)` returns 1 although no predecessor absorbed the
block (4192 is still used and has its size 64), so `free(4320)` does not insert 4288: the
block is free, starts a free region, and is not in the free list. -/
theorem coalesce_nonzero_without_absorption :
    ∃ r, run 20 leak_calls (start_run 4096 1048576) = some r ∧
      WF r.heap [⟨4096, 64, 0⟩, ⟨4192, 64, 1⟩, ⟨4288, 64, 1⟩] [4096] ∧
      NoAdjFree [⟨4096, 64, 0⟩, ⟨4192, 64, 1⟩, ⟨4288, 64, 1⟩] ∧
      ∃ t, coalesce_blocks 20 4288 (mark_free r.heap 4288) = some (1, t) ∧
        (t.mem 4192).is_used = 1 ∧ (t.mem 4192).size = 64 ∧ (t.mem 4288).is_used = 0 ∧
        ∃ u, free 20 (4288 + HDR) r.heap = some u ∧ (u.mem 4288).is_used = 0 ∧
          free_list 20 u = some [4096] := by
  obtain ⟨hc, r, hr, hl, hwf, hadj, hb, hn⟩ := leak_state
  refine ⟨r, hr, hwf, hadj, ?_⟩
  have h : (run 20 leak_calls (start_run 4096 1048576)).map
      (fun r => ((coalesce_blocks 20 4288 (mark_free r.heap 4288)).map
          (fun x => (x.1, (x.2.mem 4192).is_used, (x.2.mem 4192).size, (x.2.mem 4288).is_used)),
        (free 20 (4288 + HDR) r.heap).map (fun u => ((u.mem 4288).is_used, free_list 20 u))))
      = some (some (1, 1, 64, 0), some (0, some [4096])) := rfl
  rw [hr] at h
  simp only [Option.map_some', Option.some.injEq, Prod.mk.injEq] at h
  obtain ⟨ha, hb'⟩ := h
  obtain ⟨x, hx, hf⟩ := exists_of_map_eq_some ha
  simp only [Prod.mk.injEq] at hf
  obtain ⟨h1, h2, h3, h4⟩ := hf
  obtain ⟨u, hu, hg⟩ := exists_of_map_eq_some hb'
  simp only [Prod.mk.injEq] at hg
  refine ⟨x.2, ?_, h2, h3, h4, u, hu, hg.1, hg.2⟩
  rw [← h1]; exact hx

/-- C30 (code defect): after `adjacent_calls`, every call of which is a correct use, the
block at 4096 is free with size 160, so its successor in address order is the header at
`4096 + 32 + 160 = 4288`, which lies below the break and is free as well; the free list holds
4096 only. -/
theorem adjacent_free_blocks_after_release :
    correct_run 20 adjacent_calls (start_run 4096 1048576) = true ∧
    ∃ r, run 20 adjacent_calls (start_run 4096 1048576) = some r ∧
      r.heap.start_of_heap = 4096 ∧ r.heap.brk = 4384 ∧
      (r.heap.mem 4096).is_used = 0 ∧ (r.heap.mem 4096).size = 160 ∧
      4096 + HDR + (r.heap.mem 4096).size = 4288 ∧ 4288 < r.heap.brk ∧
      (r.heap.mem 4288).is_used = 0 ∧ free_list 20 r.heap = some [4096] := by
  refine ⟨by decide, ?_⟩
  have h : (run 20 adjacent_calls (start_run 4096 1048576)).map
      (fun r => (r.heap.start_of_heap, r.heap.brk, (r.heap.mem 4096).is_used,
        (r.heap.mem 4096).size, (r.heap.mem 4288).is_used, free_list 20 r.heap))
      = some (4096, 4384, 0, 160, 0, some [4096]) := rfl
  obtain ⟨r, hr, hf⟩ := exists_of_map_eq_some h
  simp only [Prod.mk.injEq] at hf
  obtain ⟨h1, h2, h3, h4, h5, h6⟩ := hf
  exact ⟨r, hr, h1, h2, h3, h4, by rw [h4]; rfl, by rw [h2]; decide, h5, h6⟩

/-- The state after `one_block_calls`: well formed, one used block of 1000 bytes, the break
at 5128. -/
theorem one_block_state :
    correct_run 20 one_block_calls (start_run 4096 1048576) = true ∧
    ∃ r, run 20 one_block_calls (start_run 4096 1048576) = some r ∧ 4128 ∈ r.live ∧
      WF r.heap [⟨4096, 1000, 1⟩] [] ∧ r.heap.brk = 5128 ∧ r.heap.start_of_heap = 4096 := by
  refine ⟨by decide, ?_⟩
  have h : (run 20 one_block_calls (start_run 4096 1048576)).map
      (fun r => (decide (4128 ∈ r.live), r.heap.start_of_heap, r.heap.brk, r.heap.brk_max,
        r.heap.head_free, r.heap.tail_free, r.heap.mem 4096))
      = some (true, 4096, 5128, 1048576, 0, 0, ⟨1000, 1, 0, 0⟩) := rfl
  obtain ⟨r, hr, hf⟩ := exists_of_map_eq_some h
  simp only [Prod.mk.injEq, decide_eq_true_eq] at hf
  obtain ⟨h1, h2, h3, h4, h5, h6, h7⟩ := hf
  have hst : heap_start r.heap = 4096 := by unfold heap_start; rw [h2]; rfl
  refine ⟨r, hr, h1, ⟨?_, ?_, ?_, ?_, ?_, ?_, ?_, ?_⟩, h3, h2⟩
  · rw [hst]; decide
  · rw [h3, h4]; decide
  · rw [h4]; decide
  · rw [hst, h3]; exact ⟨rfl, rfl⟩
  · intro b hb
    simp only [List.mem_singleton] at hb
    subst hb
    rw [h7]; exact ⟨rfl, rfl⟩
  · rw [h5]
    exact ⟨rfl, trivial⟩
  · rw [h6]; rfl
  · exact List.Perm.refl _

/-- C31 (code defect): in the well-formed state after `leak_calls` the break is 4384 and the
last block (header 4288, payload 4320 live) is released.  The scan that `free(4320)` starts,
`coalesce_blocks(4288)` on the state with 4288 marked free, reads the header at 4384, which is
the break and not below it.  The outcome depends on that header: with the memory as it is
(`is_used` 0 at 4384) the free list after `free(4320)` is `[4096]`, and in the state that
differs only in `is_used` of the header at 4384 it is `[4096, 4288]`, although the two states
agree on every header below the break. -/
theorem scan_reads_header_at_break :
    correct_run 20 leak_calls (start_run 4096 1048576) = true ∧
    ∃ r, run 20 leak_calls (start_run 4096 1048576) = some r ∧ 4320 ∈ r.live ∧
      WF r.heap [⟨4096, 64, 0⟩, ⟨4192, 64, 1⟩, ⟨4288, 64, 1⟩] [4096] ∧ r.heap.brk = 4384 ∧
      (∃ t log, coalesce_blocks_log 20 4288 (mark_free r.heap 4288) = some ((1, t), log) ∧
        coalesce_blocks 20 4288 (mark_free r.heap 4288) = some (1, t) ∧
        4384 ∈ log ∧ ¬ (4384 < r.heap.brk)) ∧
      (∀ a, a < r.heap.brk → (mark_used r.heap 4384).mem a = r.heap.mem a) ∧
      (free 20 (4288 + HDR) r.heap).map (free_list 20) = some (some [4096]) ∧
      (free 20 (4288 + HDR) (mark_used r.heap 4384)).map (free_list 20) =
        some (some [4096, 4288]) := by
  obtain ⟨hc, r, hr, hl, hwf, hadj, hb, hn⟩ := leak_state
  have h : (run 20 leak_calls (start_run 4096 1048576)).map
      (fun r => ((coalesce_blocks_log 20 4288 (mark_free r.heap 4288)).map
          (fun x => (x.1.1, decide (4384 ∈ x.2))),
        (free 20 (4288 + HDR) r.heap).map (free_list 20),
        (free 20 (4288 + HDR) (mark_used r.heap 4384)).map (free_list 20)))
      = some (some (1, true), some (some [4096]), some (some [4096, 4288])) := rfl
  rw [hr] at h
  simp only [Option.map_some', Option.some.injEq, Prod.mk.injEq] at h
  obtain ⟨ha, hf1, hf2⟩ := h
  obtain ⟨x, hx, hf⟩ := exists_of_map_eq_some ha
  simp only [Prod.mk.injEq, decide_eq_true_eq] at hf
  have hx' : coalesce_blocks_log 20 4288 (mark_free r.heap 4288) = some ((1, x.1.2), x.2) := by
    rw [← hf.1]; exact hx
  refine ⟨hc, r, hr, hl, hwf, hb, ⟨x.1.2, x.2, hx', ?_, hf.2, by rw [hb]; decide⟩, ?_, hf1, hf2⟩
  · rw [← coalesce_blocks_log_fst, hx']; rfl
  · intro a ha
    have hne : a ≠ 4384 := by rw [hb] at ha; omega
    show set_is_used r.heap.mem 4384 1 a = r.heap.mem a
    simp [set_is_used, hne]

/-- C32 (code defect): the well-formed state after `stale_split_calls` and the state that
differs from it only in the `next` field of the used block at 4096 (`NULL` instead of 4468)
are both well formed with the same blocks and the same free list `[4228, 4468]`.
`free(4128)` returns in both, but the free lists differ: from the first state the list is
circular and reading it from `head_free` never ends, from the second it is `[4468, 4096]`. -/
theorem stale_link_decides_free_list :
    correct_run 20 stale_split_calls (start_run 4096 1048576) = true ∧
    ∃ r, run 20 stale_split_calls (start_run 4096 1048576) = some r ∧ 4128 ∈ r.live ∧
      WF r.heap [⟨4096, 100, 1⟩, ⟨4228, 168, 0⟩, ⟨4428, 8, 1⟩, ⟨4468, 50, 0⟩, ⟨4550, 8, 1⟩]
        [4228, 4468] ∧
      WF (clear_next r.heap 4096)
        [⟨4096, 100, 1⟩, ⟨4228, 168, 0⟩, ⟨4428, 8, 1⟩, ⟨4468, 50, 0⟩, ⟨4550, 8, 1⟩]
        [4228, 4468] ∧
      (r.heap.mem 4096).is_used = 1 ∧ (r.heap.mem 4096).next = 4468 ∧
      ((clear_next r.heap 4096).mem 4096).next = 0 ∧
      ((clear_next r.heap 4096).mem 4096).size = (r.heap.mem 4096).size ∧
      ((clear_next r.heap 4096).mem 4096).is_used = (r.heap.mem 4096).is_used ∧
      ((clear_next r.heap 4096).mem 4096).prev = (r.heap.mem 4096).prev ∧
      (∀ a, a ≠ 4096 → (clear_next r.heap 4096).mem a = r.heap.mem a) ∧
      (clear_next r.heap 4096).head_free = r.heap.head_free ∧
      (clear_next r.heap 4096).tail_free = r.heap.tail_free ∧
      (clear_next r.heap 4096).start_of_heap = r.heap.start_of_heap ∧
      (clear_next r.heap 4096).brk = r.heap.brk ∧
      (clear_next r.heap 4096).bytes = r.heap.bytes ∧
      (∃ t, free 20 4128 r.heap = some t ∧ ∀ fuel, free_list fuel t = none) ∧
      (∃ t, free 20 4128 (clear_next r.heap 4096) = some t ∧
        free_list 20 t = some [4468, 4096]) := by
  obtain ⟨hc, r, hr, hl, hwf, hadj, hn⟩ := stale_split_state
  have hu : (r.heap.mem 4096).is_used = 1 := (hwf.hdrs ⟨4096, 100, 1⟩ (by simp)).2
  have hwf2 : WF (clear_next r.heap 4096) _ _ :=
    hwf.clear_next_used (b := ⟨4096, 100, 1⟩) (by simp) (by decide)
  have h : (run 20 stale_split_calls (start_run 4096 1048576)).map
      (fun r => ((free 20 4128 r.heap).map
          (fun t => (t.head_free, (t.mem 4468).next, (t.mem 4096).next)),
        (free 20 4128 (clear_next r.heap 4096)).map (free_list 20)))
      = some (some (4468, 4096, 4468), some (some [4468, 4096])) := rfl
  rw [hr] at h
  simp only [Option.map_some', Option.some.injEq, Prod.mk.injEq] at h
  obtain ⟨ha, hb⟩ := h
  obtain ⟨t, ht, hf⟩ := exists_of_map_eq_some ha
  simp only [Prod.mk.injEq] at hf
  obtain ⟨h3, h4, h5⟩ := hf
  obtain ⟨t2, ht2, hf2⟩ := exists_of_map_eq_some hb
  refine ⟨hc, r, hr, hl, hwf, hwf2, hu, hn, ?_, ?_, ?_, ?_, ?_, rfl, rfl, rfl, rfl, rfl,
    ⟨t, ht, fun fuel => ?_⟩, ⟨t2, ht2, hf2⟩⟩
  · show (set_next r.heap.mem 4096 0 4096).next = 0
    simp [set_next]
  · show (set_next r.heap.mem 4096 0 4096).size = _
    rw [set_next_size]
  · show (set_next r.heap.mem 4096 0 4096).is_used = _
    rw [set_next_is_used]
  · show (set_next r.heap.mem 4096 0 4096).prev = _
    rw [set_next_prev]
  · intro a ha
    show set_next r.heap.mem 4096 0 a = r.heap.mem a
    simp [set_next, ha]
  · unfold free_list
    rw [h3]
    exact free_list_from_cycle t.mem 4468 4096 (by decide) (by decide) h4 h5 fuel 4468
      (Or.inl rfl)

/-- C33 (code defect): in the well-formed state after `one_block_calls` the break is 5128.
`malloc(2^64 - 64)` passes its size to `sbrk`, which reads it as the increment -64: the break
is raised by a header to 5160 and then lowered to 5096, below where it was before the call.
The same happens through `calloc(1, 2^64 - 64)` and through `realloc(4128, 2^64 - 64)`. -/
theorem huge_request_lowers_break :
    correct_run 20 one_block_calls (start_run 4096 1048576) = true ∧
    ∃ r, run 20 one_block_calls (start_run 4096 1048576) = some r ∧ 4128 ∈ r.live ∧
      WF r.heap [⟨4096, 1000, 1⟩] [] ∧ r.heap.brk = 5128 ∧
      (∃ t, malloc 20 (WORD - 64) r.heap = some (5160, t) ∧ t.brk = 5096 ∧
        t.brk < r.heap.brk ∧ t.start_of_heap = r.heap.start_of_heap) ∧
      (∃ t, calloc 20 1 (WORD - 64) r.heap = some (5160, t) ∧ t.brk = 5096 ∧
        t.brk < r.heap.brk) ∧
      (∃ t, realloc 20 4128 (WORD - 64) r.heap = some (5160, t) ∧ t.brk = 5096 ∧
        t.brk < r.heap.brk) := by
  obtain ⟨hc, r, hr, hl, hwf, hb, hs⟩ := one_block_state
  have h : (run 20 one_block_calls (start_run 4096 1048576)).map
      (fun r => ((malloc 20 (WORD - 64) r.heap).map (fun x => (x.1, x.2.brk, x.2.start_of_heap)),
        (calloc 20 1 (WORD - 64) r.heap).map (fun x => (x.1, x.2.brk)),
        (realloc 20 4128 (WORD - 64) r.heap).map (fun x => (x.1, x.2.brk))))
      = some (some (5160, 5096, 4096), some (5160, 5096), some (5160, 5096)) := rfl
  rw [hr] at h
  simp only [Option.map_some', Option.some.injEq, Prod.mk.injEq] at h
  obtain ⟨ha, hb2, hc2⟩ := h
  obtain ⟨x, hx, hf⟩ := exists_of_map_eq_some ha
  simp only [Prod.mk.injEq] at hf
  obtain ⟨y, hy, hg⟩ := exists_of_map_eq_some hb2
  simp only [Prod.mk.injEq] at hg
  obtain ⟨z, hz, hk⟩ := exists_of_map_eq_some hc2
  simp only [Prod.mk.injEq] at hk
  refine ⟨hc, r, hr, hl, hwf, hb, ⟨x.2, ?_, hf.2.1, by rw [hf.2.1, hb]; decide,
    by rw [hf.2.2, hs]⟩, ⟨y.2, ?_, hg.2, by rw [hg.2, hb]; decide⟩,
    ⟨z.2, ?_, hk.2, by rw [hk.2, hb]; decide⟩⟩
  · rw [← hf.1]; exact hx
  · rw [← hg.1]; exact hy
  · rw [← hk.1]; exact hz

end Alloc
